import Mathlib

/-!
# Owner-layer pipeline of external-dns-management

A shallow embedding of `pkg/dns/owners/owners.go` and `pkg/dns/owners/filtered.go`,
with the registry of `pkg/dns/extension/owners.go`.

* `utils.StringSet` (a Go `map[string]struct{}`) is a `Finset String`.
* A Go `map[string]V` is a `Finmap`: `m[k]` is `lookup` with the zero value as
  default, `m[k] = v` is `insert`, `delete(m, k)` is `erase`.
* A `for k := range set` loop is a `Multiset.foldr` of the loop body over the
  elements of the set.  Go leaves the iteration order open; every loop body
  below is left-commutative, which is what makes the fold well defined.
* Reference counts are `int64` in the source.  A count is changed by one per
  client and id, so it stays far below `2^63`; counts are modelled as `Int`.
* The embedding describes one call at a time.  Locks do not change what a call
  computes; the order in which an operation takes and releases them is recorded
  separately, as a list of steps.
-/

set_option linter.unnecessarySeqFocus false

namespace OwnerLayers

/-- A set of owner ids (`utils.StringSet`). -/
abbrev StringSet := Finset String

/-- A `for o := range set` loop with body `f`, started in state `init`. -/
def rangeLoop {σ : Type} (f : String → σ → σ) [LeftCommutative f] (set : StringSet) (init : σ) : σ :=
  Multiset.foldr f init set.val

/-- The reference table `owners map[string]int64`. -/
abbrev RefTable := Finmap (fun _ : String => Int)

/-- The client table `clients map[string]utils.StringSet`. -/
abbrev ClientTable := Finmap (fun _ : String => StringSet)

/-- The tables of the base layer `Owners` (its `up` link lives in the stack). -/
structure Owners where
  owners : RefTable
  clients : ClientTable
  deriving DecidableEq

/-- Reading `this.owners[o]`: the zero value when the key is absent. -/
def countAt (t : RefTable) (o : String) : Int := (t.lookup o).getD 0

/-- Reading `this.clients[client]`: the nil set when the key is absent. -/
def setAt (t : ClientTable) (client : String) : StringSet := (t.lookup client).getD ∅

/-- The tables built by `CreateOwnerBaseLayer`. -/
def Owners.new : Owners := ⟨∅, ∅⟩

/-- `Owners.GetIds`: the keys of the reference table. -/
def Owners.GetIds (this : Owners) : StringSet := this.owners.keys

/-- `Owners.IsResponsibleFor`: is `id` a key of the reference table. -/
def Owners.IsResponsibleFor (this : Owners) (id : String) : Bool := decide (id ∈ this.owners)

/-- `Owners.GetIdsFor`: a copy of the set stored for `client`. -/
def Owners.GetIdsFor (this : Owners) (client : String) : StringSet :=
  (∅ : StringSet) ∪ setAt this.clients client

/-- Body of the first loop of `UpdateClient` (over the new set `owners`). -/
def UpdateClient.addBody (old : StringSet) (o : String) (st : RefTable × StringSet) :
    RefTable × StringSet :=
  if o ∈ old then st
  else
    let cnt := countAt st.1 o + 1
    (st.1.insert o cnt, if cnt = 1 then insert o st.2 else st.2)

/-- Body of the second loop of `UpdateClient` (over the old set). -/
def UpdateClient.delBody (owners : StringSet) (o : String) (st : RefTable × StringSet) :
    RefTable × StringSet :=
  if o ∈ owners then st
  else
    let cnt := countAt st.1 o - 1
    if cnt = 0 then (st.1.erase o, insert o st.2) else (st.1.insert o cnt, st.2)

/-- Body of the loop of `DeleteClient` (over the old set). -/
def DeleteClient.body (o : String) (st : RefTable × StringSet) : RefTable × StringSet :=
  let cnt := countAt st.1 o - 1
  let tab := st.1.insert o cnt
  if cnt = 0 then (tab.erase o, insert o st.2) else (tab, st.2)

/-! ### The loop bodies do not depend on the iteration order

The facts about table lookups that the order-independence of the loop bodies
rests on stand here, in front of the loops they make definable. -/

theorem lookup_insert_ite {V : Type} (t : Finmap (fun _ : String => V)) (a b : String) (v : V) :
    (t.insert a v).lookup b = if b = a then some v else t.lookup b := by
  by_cases h : b = a
  · subst h; simp
  · simp [h, Finmap.lookup_insert_of_ne]

theorem lookup_erase_ite {V : Type} (t : Finmap (fun _ : String => V)) (a b : String) :
    (t.erase a).lookup b = if b = a then none else t.lookup b := by
  by_cases h : b = a
  · subst h; simp
  · simp [h, Finmap.lookup_erase_ne]

theorem countAt_insert (t : RefTable) (a b : String) (v : Int) :
    countAt (t.insert a v) b = if b = a then v else countAt t b := by
  unfold countAt
  rw [lookup_insert_ite]
  split_ifs <;> rfl

theorem countAt_erase (t : RefTable) (a b : String) :
    countAt (t.erase a) b = if b = a then 0 else countAt t b := by
  unfold countAt
  rw [lookup_erase_ite]
  split_ifs <;> rfl

theorem loopState_ext {p q : RefTable × StringSet}
    (h1 : ∀ x, p.1.lookup x = q.1.lookup x) (h2 : ∀ x, x ∈ p.2 ↔ x ∈ q.2) : p = q :=
  Prod.ext (Finmap.ext_lookup h1) (Finset.ext h2)

instance UpdateClient.addBody_comm (old : StringSet) :
    LeftCommutative (UpdateClient.addBody old) where
  left_comm a b st := by
    by_cases hab : a = b
    · subst hab; rfl
    · have hba : b ≠ a := fun h => hab h.symm
      unfold UpdateClient.addBody
      apply loopState_ext
      · intro x
        by_cases ha : a ∈ old <;> by_cases hb : b ∈ old <;>
          simp only [ha, hb, if_true, if_false, countAt_insert, hab, hba, lookup_insert_ite]
        split_ifs <;> simp_all
      · intro x
        by_cases ha : a ∈ old <;> by_cases hb : b ∈ old <;>
          simp only [ha, hb, if_true, if_false, countAt_insert, hab, hba]
        split_ifs <;> simp only [Finset.mem_insert] <;> tauto

instance UpdateClient.delBody_comm (owners : StringSet) :
    LeftCommutative (UpdateClient.delBody owners) where
  left_comm a b st := by
    by_cases hab : a = b
    · subst hab; rfl
    · have hba : b ≠ a := fun h => hab h.symm
      unfold UpdateClient.delBody
      apply loopState_ext
      · intro x
        by_cases ha : a ∈ owners <;> by_cases hb : b ∈ owners <;>
          by_cases ca : countAt st.1 a - 1 = 0 <;> by_cases cb : countAt st.1 b - 1 = 0 <;>
          simp only [ha, hb, ca, cb, if_true, if_false, countAt_insert, countAt_erase, hab, hba,
            lookup_insert_ite, lookup_erase_ite] <;>
          by_cases hxa : x = a <;> by_cases hxb : x = b <;> simp_all
      · intro x
        by_cases ha : a ∈ owners <;> by_cases hb : b ∈ owners <;>
          by_cases ca : countAt st.1 a - 1 = 0 <;> by_cases cb : countAt st.1 b - 1 = 0 <;>
          simp only [ha, hb, ca, cb, if_true, if_false, countAt_insert, countAt_erase, hab, hba,
            Finset.mem_insert] <;>
          tauto

instance DeleteClient.body_comm : LeftCommutative DeleteClient.body where
  left_comm a b st := by
    by_cases hab : a = b
    · subst hab; rfl
    · have hba : b ≠ a := fun h => hab h.symm
      unfold DeleteClient.body
      apply loopState_ext
      · intro x
        by_cases ca : countAt st.1 a - 1 = 0 <;> by_cases cb : countAt st.1 b - 1 = 0 <;>
          simp only [ca, cb, if_true, if_false, countAt_insert, countAt_erase, hab, hba,
            lookup_insert_ite, lookup_erase_ite] <;>
          by_cases hxa : x = a <;> by_cases hxb : x = b <;> simp_all
      · intro x
        by_cases ca : countAt st.1 a - 1 = 0 <;> by_cases cb : countAt st.1 b - 1 = 0 <;>
          simp only [ca, cb, if_true, if_false, countAt_insert, countAt_erase, hab, hba,
            Finset.mem_insert] <;>
          tauto

/-- What a mutation of the base layer computes: the new tables and the delta it
hands to `notify`. -/
structure Change where
  state : Owners
  added : StringSet
  deleted : StringSet
  deriving DecidableEq

/-- `Owners.UpdateClient` up to the final `this.notify(added, deleted)`: the new
tables and the arguments of that call. -/
def Owners.UpdateClient (this : Owners) (client : String) (owners : StringSet) : Change :=
  let old := setAt this.clients client
  let st1 := rangeLoop (UpdateClient.addBody old) owners (this.owners, ∅)
  let st2 := rangeLoop (UpdateClient.delBody owners) old (st1.1, ∅)
  { state := ⟨st2.1, this.clients.insert client owners⟩, added := st1.2, deleted := st2.2 }

/-- `Owners.DeleteClient` up to the final `this.notify(added, deleted)`: the new
tables and the arguments of that call. -/
def Owners.DeleteClient (this : Owners) (client : String) : Change :=
  let old := setAt this.clients client
  let st := rangeLoop DeleteClient.body old (this.owners, ∅)
  { state := ⟨st.1, this.clients.erase client⟩, added := ∅, deleted := st.2 }

/-! ## Call sequences on the base registry -/

/-- A client call on the base registry. -/
inductive Op
  | update (client : String) (owners : StringSet)
  | delete (client : String)
  deriving DecidableEq

/-- One client call: `UpdateClient` or `DeleteClient`. -/
def Owners.apply (this : Owners) : Op → Change
  | .update client owners => this.UpdateClient client owners
  | .delete client => this.DeleteClient client

/-- The registry reached from a state by a sequence of calls, in order. -/
def Owners.runFrom (this : Owners) (ops : List Op) : Owners :=
  ops.foldl (fun s op => (s.apply op).state) this

/-- The registry reached from a freshly created one by a sequence of calls. -/
def Owners.run (ops : List Op) : Owners := Owners.new.runFrom ops

/-- Number of distinct clients whose stored set contains `id`. -/
def Owners.refCount (this : Owners) (id : String) : Nat :=
  (this.clients.keys.filter (fun c => id ∈ setAt this.clients c)).card

/-- Number of distinct clients other than `client` whose stored set contains `id`. -/
def Owners.otherCount (this : Owners) (client id : String) : Nat :=
  ((this.clients.keys.erase client).filter (fun c => id ∈ setAt this.clients c)).card

/-- The reference table agrees with the client table: an id has an entry exactly
when some client's stored set contains it, and the entry is the number of such
clients. -/
def Owners.Consistent (s : Owners) : Prop :=
  ∀ id, s.owners.lookup id = if s.refCount id = 0 then none else some (s.refCount id : Int)

/-- The effect of one call on what each client asserts. -/
def assertedStep (f : String → StringSet) : Op → String → StringSet
  | .update client owners => Function.update f client owners
  | .delete client => Function.update f client ∅

/-- What each client asserts after a sequence of calls: the set of its latest
`UpdateClient` when no `DeleteClient` of it came later, the empty set otherwise. -/
def asserted (ops : List Op) : String → StringSet :=
  ops.foldl assertedStep (fun _ => ∅)

/-- The client a call is about. -/
def Op.client : Op → String
  | .update client _ => client
  | .delete client => client

/-- The set a call leaves the client with: the new set of an `UpdateClient`, the
empty set for a `DeleteClient`. -/
def Op.owners : Op → StringSet
  | .update _ owners => owners
  | .delete _ => ∅

/-- The clients named in a sequence of calls. -/
def clientsOf (ops : List Op) : Finset String := (ops.map Op.client).toFinset

/-- The most recent call about `client` in a sequence of calls, if there is one. -/
def lastCall (ops : List Op) (client : String) : Option Op :=
  ops.reverse.find? (fun op => decide (op.client = client))

/-- The last asserted set of `client`, in the words of the specification: the set
passed to the most recent `UpdateClient(client, .)` when no `DeleteClient(client)`
came after it, the empty set otherwise (also for a client never seen). -/
def lastAsserted (ops : List Op) (client : String) : StringSet :=
  match lastCall ops client with
  | some (.update _ owners) => owners
  | some (.delete _) => ∅
  | none => ∅

/-! ## The filter layer (`filtered.go`) -/

/-- Body of the loop of `FilteredLayer.Start`, on the pair (cache, deleted). -/
def Start.body (accepted : String → Bool) (id : String) (st : StringSet × StringSet) :
    StringSet × StringSet :=
  if accepted id then (insert id st.1, st.2) else (st.1, insert id st.2)

/-- Body of the first loop of `FilteredLayer.OwnerSetChanged`, on the pair (cache, add). -/
def OwnerSetChanged.addBody (accepted : String → Bool) (id : String)
    (st : StringSet × StringSet) : StringSet × StringSet :=
  if accepted id then (insert id st.1, insert id st.2) else st

/-- Body of the second loop of `FilteredLayer.OwnerSetChanged`, on the pair (cache, del). -/
def OwnerSetChanged.delBody (id : String) (st : StringSet × StringSet) :
    StringSet × StringSet :=
  if id ∈ st.1 then (st.1.erase id, insert id st.2) else st

/-- Body of the loop of `FilteredLayer.FilterChanged`, on the triple (cache, added,
deleted); `cur` is the cache before the call. -/
def FilterChanged.body (accepted : String → Bool) (cur : StringSet) (id : String)
    (st : StringSet × StringSet × StringSet) : StringSet × StringSet × StringSet :=
  if accepted id then
    (insert id st.1, if id ∈ cur then st.2.1 else insert id st.2.1, st.2.2)
  else
    (st.1, st.2.1, if id ∈ cur then insert id st.2.2 else st.2.2)

instance FilterChanged.body_comm (accepted : String → Bool) (cur : StringSet) :
    LeftCommutative (FilterChanged.body accepted cur) where
  left_comm a b st := by
    unfold FilterChanged.body
    cases accepted a <;> cases accepted b <;> by_cases ha : a ∈ cur <;> by_cases hb : b ∈ cur <;>
      simp [ha, hb, Finset.Insert.comm]

instance Start.body_comm (accepted : String → Bool) : LeftCommutative (Start.body accepted) where
  left_comm a b st := by
    unfold Start.body
    cases accepted a <;> cases accepted b <;> simp [Finset.Insert.comm]

instance OwnerSetChanged.addBody_comm (accepted : String → Bool) :
    LeftCommutative (OwnerSetChanged.addBody accepted) where
  left_comm a b st := by
    unfold OwnerSetChanged.addBody
    cases accepted a <;> cases accepted b <;> simp [Finset.Insert.comm]

instance OwnerSetChanged.delBody_comm : LeftCommutative OwnerSetChanged.delBody where
  left_comm a b st := by
    by_cases hab : a = b
    · subst hab; rfl
    · have hba : b ≠ a := fun h => hab h.symm
      unfold OwnerSetChanged.delBody
      by_cases ha : a ∈ st.1 <;> by_cases hb : b ∈ st.1 <;>
        simp [ha, hb, hab, hba, Finset.mem_erase, Finset.Insert.comm, Finset.erase_right_comm]

/-- What `FilteredLayer.FilterChanged` computes from the previous cache `cur` and
the set `ids` read from `this.down.GetIds()`: the new cache, `added` and
`deleted`. -/
def FilteredLayer.filterChangedSets (accepted : String → Bool) (cur ids : StringSet) :
    StringSet × StringSet × StringSet :=
  rangeLoop (FilterChanged.body accepted cur) ids (∅, ∅, ∅)

/-- The state `FilteredLayer.Start` computes from the snapshot `down`: the new
cache and the set `deleted`. -/
def FilteredLayer.startSets (accepted : String → Bool) (down : StringSet) :
    StringSet × StringSet :=
  rangeLoop (Start.body accepted) down (∅, ∅)

/-- What `FilteredLayer.OwnerSetChanged` computes from its cache and the incoming
delta: the new cache, `add` and `del`. -/
def FilteredLayer.changeSets (accepted : String → Bool) (cache added deleted : StringSet) :
    StringSet × StringSet × StringSet :=
  let st1 := rangeLoop (OwnerSetChanged.addBody accepted) added (cache, ∅)
  let st2 := rangeLoop OwnerSetChanged.delBody deleted (st1.1, ∅)
  (st2.1, st1.2, st2.2)

/-! ## The layer stack (`owners.go`)

Pointers are indices into the lists `accesses` and `links` of the stack; a new
object is appended.  A layer is created by its creator for exactly one link
and `link.layer` is never reassigned, so the layer object is stored in its
link and a pointer to a layer is the index of that link.  The back pointers
`stack` of accesses and links all point to the one stack and are left out.
`none` is a nil dereference or exhausted fuel; fuel bounds the depth of nested
calls along the chain. -/

/-- A value of the interface `OwnerHandler`: a `*FilteredLayer` (what
`FilteredLayer.Start` returns), an `*OwnerLink` (what the pass-through layer of
the tests returns), or an observer outside the pipeline such as a
`*TestHandler`. -/
inductive OwnerHandler
  | filtered (link : Nat)
  | link (link : Nat)
  | external (h : Nat)
  deriving DecidableEq

/-- The layer implementations: the base registry `Owners`, `FilteredLayer`, and
the `DummyLayer` of the tests, each with its pointer fields. -/
inductive OwnerLayer
  | owners (this : Owners) (up : Nat)
  | filtered (accepted : String → Bool) (cache : StringSet) (up : Nat) (down : Option Nat)
  | dummy (up : Nat) (down : Option Nat)

/-- The struct `OwnerLayerAccess`. -/
structure OwnerLayerAccess where
  handlers : List OwnerHandler
  link : Nat
  deriving DecidableEq

/-- The struct `OwnerLink`. -/
structure OwnerLink where
  up : Nat
  layer : OwnerLayer
  down : Option Nat

/-- A call `OwnerSetChanged(added, deleted)` received by an external observer. -/
structure Event where
  handler : Nat
  added : StringSet
  deleted : StringSet
  deriving DecidableEq

/-- The struct `OwnerStack` (its embedded `*OwnerLayerAccess` is `access`)
together with the objects reachable from it and the calls external observers
have received so far. -/
structure OwnerStack where
  access : Nat
  accesses : List OwnerLayerAccess
  links : List OwnerLink
  events : List Event

/-- The type `OwnerLayerCreator`. -/
abbrev OwnerLayerCreator := Nat → Option Nat → OwnerLayer

/-- `CreateOwnerBaseLayer`. -/
def CreateOwnerBaseLayer : OwnerLayerCreator := fun up _ => .owners Owners.new up

/-- `NewFilteredLayer`. -/
def NewFilteredLayer (accept : String → Bool) (up : Nat) (down : Option Nat) : OwnerLayer :=
  .filtered accept ∅ up down

/-- `FilteredLayerCreator`. -/
def FilteredLayerCreator (accept : String → Bool) : OwnerLayerCreator :=
  fun up down => NewFilteredLayer accept up down

/-- `DummyLayerCreator` of the tests. -/
def DummyLayerCreator : OwnerLayerCreator := fun up down => .dummy up down

/-- `NewOwnerStack`. -/
def NewOwnerStack (c : OwnerLayerCreator) : OwnerStack :=
  { access := 0
    accesses := [{ handlers := [], link := 0 }]
    links := [{ up := 0, layer := c 0 none, down := none }]
    events := [] }

/-- `NewOwners`: the stack and the pointer to its base registry. -/
def NewOwners : OwnerStack × Nat := (NewOwnerStack CreateOwnerBaseLayer, 0)

/-- `OwnerLayerAccess.GetIds`: `this.link.layer.GetIds()`. -/
def OwnerLayerAccess.GetIds (st : OwnerStack) : Nat → Nat → Option StringSet
  | 0, _ => none
  | fuel + 1, this =>
    match st.accesses[this]? with
    | none => none
    | some a =>
      match st.links[a.link]? with
      | none => none
      | some l =>
        match l.layer with
        | .owners o _ => some o.GetIds
        | .filtered _ cache _ _ => some cache
        | .dummy _ none => none
        | .dummy _ (some down) => OwnerLayerAccess.GetIds st fuel down

/-- `OwnerLayerAccess.IsResponsibleFor`: `this.link.layer.IsResponsibleFor(id)`. -/
def OwnerLayerAccess.IsResponsibleFor (st : OwnerStack) (id : String) : Nat → Nat → Option Bool
  | 0, _ => none
  | fuel + 1, this =>
    match st.accesses[this]? with
    | none => none
    | some a =>
      match st.links[a.link]? with
      | none => none
      | some l =>
        match l.layer with
        | .owners o _ => some (o.IsResponsibleFor id)
        | .filtered _ cache _ _ => some (decide (id ∈ cache))
        | .dummy _ none => none
        | .dummy _ (some down) => OwnerLayerAccess.IsResponsibleFor st id fuel down

/-- `OwnerLayerAccess.registerHandler`. -/
def OwnerLayerAccess.registerHandler (this : OwnerLayerAccess) (h : OwnerHandler) :
    OwnerLayerAccess :=
  if h ∈ this.handlers then this else { this with handlers := this.handlers ++ [h] }

/-- `OwnerLayerAccess.RegisterHandler` on the access `this` of the stack. -/
def OwnerLayerAccess.RegisterHandler (st : OwnerStack) (this : Nat) (h : OwnerHandler) :
    Option OwnerStack :=
  match st.accesses[this]? with
  | none => none
  | some a => some { st with accesses := st.accesses.set this (a.registerHandler h) }

/-- `OwnerLink.OwnerSetChanged`: `this.up.notify(added, deleted)`, where `notify`
is `OwnerLayerAccess.notify` with the fuel that is left. -/
def OwnerLink.OwnerSetChanged
    (notify : OwnerStack → Nat → StringSet → StringSet → Option OwnerStack)
    (st : OwnerStack) (this : Nat) (added deleted : StringSet) : Option OwnerStack :=
  match st.links[this]? with
  | none => none
  | some l => notify st l.up added deleted

/-- `FilteredLayer.OwnerSetChanged` on the filter stored in link `this`. -/
def FilteredLayer.OwnerSetChanged
    (notify : OwnerStack → Nat → StringSet → StringSet → Option OwnerStack)
    (st : OwnerStack) (this : Nat) (added deleted : StringSet) : Option OwnerStack :=
  match st.links[this]? with
  | some ⟨lup, .filtered accepted cache up down, ldown⟩ =>
    let r := FilteredLayer.changeSets accepted cache added deleted
    let st1 := { st with links := st.links.set this ⟨lup, .filtered accepted r.1 up down, ldown⟩ }
    if 0 < r.2.2.card ∨ 0 < r.2.1.card then
      OwnerLink.OwnerSetChanged notify st1 up r.2.1 r.2.2
    else some st1
  | _ => none

/-- The call `h.OwnerSetChanged(added, deleted)` on a handler. -/
def OwnerHandler.OwnerSetChanged
    (notify : OwnerStack → Nat → StringSet → StringSet → Option OwnerStack)
    (added deleted : StringSet) (st : OwnerStack) : OwnerHandler → Option OwnerStack
  | .external h => some { st with events := st.events ++ [⟨h, added, deleted⟩] }
  | .link l => OwnerLink.OwnerSetChanged notify st l added deleted
  | .filtered l => FilteredLayer.OwnerSetChanged notify st l added deleted

/-- `OwnerLayerAccess.notify`: every handler of the access is called, in order. -/
def OwnerLayerAccess.notify :
    Nat → OwnerStack → Nat → StringSet → StringSet → Option OwnerStack
  | 0, _, _, _, _ => none
  | fuel + 1, st, this, added, deleted =>
    match st.accesses[this]? with
    | none => none
    | some a =>
      a.handlers.foldlM
        (fun st h => h.OwnerSetChanged (OwnerLayerAccess.notify fuel) added deleted st) st

/-- `Owners.notify` on the base registry stored in link `this`:
`this.up.OwnerSetChanged(added, deleted)`. -/
def Owners.notify (fuel : Nat) (st : OwnerStack) (this : Nat) (added deleted : StringSet) :
    Option OwnerStack :=
  match st.links[this]? with
  | some ⟨_, .owners _ up, _⟩ =>
    OwnerLink.OwnerSetChanged (OwnerLayerAccess.notify fuel) st up added deleted
  | _ => none

/-- The whole of `Owners.UpdateClient` on the base registry stored in link `this`:
the tables are updated, then `notify` is called. -/
def OwnerStack.UpdateClient (fuel : Nat) (st : OwnerStack) (this : Nat) (client : String)
    (owners : StringSet) : Option OwnerStack :=
  match st.links[this]? with
  | some ⟨lup, .owners o up, ldown⟩ =>
    let ch := o.UpdateClient client owners
    Owners.notify fuel { st with links := st.links.set this ⟨lup, .owners ch.state up, ldown⟩ }
      this ch.added ch.deleted
  | _ => none

/-- The whole of `Owners.DeleteClient` on the base registry stored in link `this`. -/
def OwnerStack.DeleteClient (fuel : Nat) (st : OwnerStack) (this : Nat) (client : String) :
    Option OwnerStack :=
  match st.links[this]? with
  | some ⟨lup, .owners o up, ldown⟩ =>
    let ch := o.DeleteClient client
    Owners.notify fuel { st with links := st.links.set this ⟨lup, .owners ch.state up, ldown⟩ }
      this ch.added ch.deleted
  | _ => none

/-- One client call on the base registry stored in link `this`. -/
def OwnerStack.apply (fuel : Nat) (this : Nat) (st : OwnerStack) : Op → Option OwnerStack
  | .update client owners => OwnerStack.UpdateClient fuel st this client owners
  | .delete client => OwnerStack.DeleteClient fuel st this client

/-- A sequence of client calls on the base registry stored in link `this`. -/
def OwnerStack.run (fuel : Nat) (this : Nat) (st : OwnerStack) (ops : List Op) :
    Option OwnerStack :=
  ops.foldlM (OwnerStack.apply fuel this) st

/-- The search loop of `InserLayer`: walk down from `cur` until `acc` is found
(`true`) or the chain ends (`false`). -/
def InserLayer.search (st : OwnerStack) (acc : Nat) : Nat → Option Nat → Option Bool
  | _, none => some false
  | 0, some _ => none
  | fuel + 1, some cur =>
    if cur = acc then some true
    else
      match st.accesses[cur]? with
      | none => none
      | some a =>
        match st.links[a.link]? with
        | none => none
        | some l => InserLayer.search st acc fuel l.down

/-- `FilteredLayer.Start` on the filter stored in link `this`: the new stack and
the handler returned, the filter itself. -/
def FilteredLayer.Start (fuel : Nat) (st : OwnerStack) (this : Nat) (down : StringSet) :
    Option (OwnerStack × Option OwnerHandler) :=
  match st.links[this]? with
  | some ⟨lup, .filtered accepted _ up ldown, ldown0⟩ =>
    let r := FilteredLayer.startSets accepted down
    let st1 :=
      { st with links := st.links.set this ⟨lup, .filtered accepted r.1 up ldown, ldown0⟩ }
    if 0 < r.2.card then
      match OwnerLink.OwnerSetChanged (OwnerLayerAccess.notify fuel) st1 up ∅ r.2 with
      | none => none
      | some st2 => some (st2, some (.filtered this))
    else some (st1, some (.filtered this))
  | _ => none

/-- `layer.Start(set)` on the layer stored in link `this`: the new stack and the
handler returned (`none` for nil).  `Owners.Start` returns nil, `DummyLayer.Start`
returns its upward link. -/
def OwnerLayer.Start (fuel : Nat) (st : OwnerStack) (this : Nat) (set : StringSet) :
    Option (OwnerStack × Option OwnerHandler) :=
  match st.links[this]? with
  | none => none
  | some ⟨_, .owners _ _, _⟩ => some (st, none)
  | some ⟨_, .dummy up _, _⟩ => some (st, some (.link up))
  | some ⟨_, .filtered _ _ _ _, _⟩ => FilteredLayer.Start fuel st this set

/-- `FilteredLayer.FilterChanged` on the filter stored in link `this`: the cache
is rebuilt from `this.down.GetIds()`. -/
def FilteredLayer.FilterChanged (fuel : Nat) (st : OwnerStack) (this : Nat) :
    Option OwnerStack :=
  match st.links[this]? with
  | some ⟨lup, .filtered accepted cur up (some down), ldown⟩ =>
    match OwnerLayerAccess.GetIds st fuel down with
    | none => none
    | some ids =>
      let r := FilteredLayer.filterChangedSets accepted cur ids
      let st1 :=
        { st with
          links := st.links.set this ⟨lup, .filtered accepted r.1 up (some down), ldown⟩ }
      if 0 < r.2.2.card ∨ 0 < r.2.1.card then
        OwnerLink.OwnerSetChanged (OwnerLayerAccess.notify fuel) st1 up r.2.1 r.2.2
      else some st1
  | _ => none

/-- The set `InserLayer` hands to `Start`: empty, or `pos.down.GetIds()` when
`pos.down` is not nil, where `pos` is the link of the access given. -/
def InserLayer.seed (fuel : Nat) (st : OwnerStack) (pos : OwnerLink) : Option StringSet :=
  match pos.down with
  | none => some ∅
  | some down => OwnerLayerAccess.GetIds st fuel down

/-- `OwnerStack.InserLayer`: the new stack and the access returned (`none` for nil). -/
def OwnerStack.InserLayer (fuel : Nat) (st : OwnerStack) (acc : Nat) (c : OwnerLayerCreator) :
    Option (OwnerStack × Option Nat) :=
  match InserLayer.search st acc fuel (some st.access) with
  | none => none
  | some false => some (st, none)
  | some true =>
    match st.accesses[acc]? with
    | none => none
    | some a =>
      let posId := a.link
      match st.links[posId]? with
      | none => none
      | some pos =>
        match InserLayer.seed fuel st pos with
        | none => none
        | some set =>
          let accessId := st.accesses.length
          let linkId := st.links.length
          let access : OwnerLayerAccess := { handlers := [], link := posId }
          let link : OwnerLink :=
            { up := pos.up, layer := c linkId (some accessId), down := some accessId }
          match (st.accesses ++ [access])[pos.up]? with
          | none => none
          | some upAcc =>
            let st1 : OwnerStack :=
              { st with
                accesses := (st.accesses ++ [access]).set pos.up { upAcc with link := linkId }
                links := (st.links ++ [link]).set posId { pos with up := accessId } }
            match OwnerLayer.Start fuel st1 linkId set with
            | none => none
            | some (st2, none) => some (st2, some acc)
            | some (st2, some h) =>
              match OwnerLayerAccess.RegisterHandler st2 accessId h with
              | none => none
              | some st3 => some (st3, some acc)

/-- The set `InserLayer(acc, .)` hands to the new layer's `Start`. -/
def InserLayer.seedAt (fuel : Nat) (st : OwnerStack) (acc : Nat) : Option StringSet :=
  match st.accesses[acc]? with
  | none => none
  | some a =>
    match st.links[a.link]? with
    | none => none
    | some pos => InserLayer.seed fuel st pos

/-- `OwnerLayerAccess.Layer`: `this.link.layer`, as the pointer to the layer
object (the index of the link that holds it). -/
def OwnerLayerAccess.Layer (st : OwnerStack) (this : Nat) : Option Nat :=
  match st.accesses[this]? with
  | none => none
  | some a =>
    match st.links[a.link]? with
    | none => none
    | some _ => some a.link

/-- `OwnerLayerAccess.NextLayer`: `this.link.down` (`some none` for nil). -/
def OwnerLayerAccess.NextLayer (st : OwnerStack) (this : Nat) : Option (Option Nat) :=
  match st.accesses[this]? with
  | none => none
  | some a =>
    match st.links[a.link]? with
    | none => none
    | some l => some l.down

/-- The loop of `OwnerStack.BaseLayer`: walk down from `cur` while `cur.link.down`
is not nil, then return `cur.link.layer`. -/
def BaseLayer.walk (st : OwnerStack) : Nat → Nat → Option Nat
  | 0, _ => none
  | fuel + 1, cur =>
    match st.accesses[cur]? with
    | none => none
    | some a =>
      match st.links[a.link]? with
      | none => none
      | some l =>
        match l.down with
        | none => some a.link
        | some down => BaseLayer.walk st fuel down

/-- `OwnerStack.BaseLayer`: the pointer to the layer of the bottom access. -/
def OwnerStack.BaseLayer (fuel : Nat) (st : OwnerStack) : Option Nat :=
  BaseLayer.walk st fuel st.access

/-- `OwnerLayerAccess.UnRegisterHandler` on the access `this` of the stack: the
first entry equal to `h` is removed. -/
def OwnerLayerAccess.UnRegisterHandler (st : OwnerStack) (this : Nat) (h : OwnerHandler) :
    Option OwnerStack :=
  match st.accesses[this]? with
  | none => none
  | some a =>
    some { st with accesses := st.accesses.set this { a with handlers := a.handlers.erase h } }

/-- `stack.GetIds()`: the method of the embedded top access. -/
def OwnerStack.GetIds (fuel : Nat) (st : OwnerStack) : Option StringSet :=
  OwnerLayerAccess.GetIds st fuel st.access

/-- `stack.IsResponsibleFor(id)`: the method of the embedded top access. -/
def OwnerStack.IsResponsibleFor (fuel : Nat) (st : OwnerStack) (id : String) : Option Bool :=
  OwnerLayerAccess.IsResponsibleFor st id fuel st.access

/-- `Owners.GetIds` called through the pointer `this` to the base registry. -/
def Owners.GetIdsAt (st : OwnerStack) (this : Nat) : Option StringSet :=
  match st.links[this]? with
  | some ⟨_, .owners o _, _⟩ => some o.GetIds
  | _ => none

/-! ### The shape of a stack

The chain of accesses below the top, and what makes a stack well formed. -/

/-- A layer without its mutable state: the tables of a base registry and the
cache of a filter are blanked, the kind of layer, its predicate and its pointer
fields are kept. -/
def OwnerLayer.shape : OwnerLayer → OwnerLayer
  | .owners _ up => .owners Owners.new up
  | .filtered accepted _ up down => .filtered accepted ∅ up down
  | .dummy up down => .dummy up down

/-- A link whose layer is reduced to its shape. -/
def OwnerLink.shape (l : OwnerLink) : OwnerLink := { l with layer := l.layer.shape }

/-- Two stacks with the same accesses (handlers included) and the same links up to
the mutable state of the layers: they differ at most in tables, caches and the
log of observer calls. -/
def SameWiring (st st' : OwnerStack) : Prop :=
  st'.access = st.access ∧ st'.accesses = st.accesses ∧
    st'.links.map OwnerLink.shape = st.links.map OwnerLink.shape

/-- The layer stores the link and the downstream access it was created for. -/
def OwnerLayer.WiredTo (layer : OwnerLayer) (link : Nat) (down : Option Nat) : Prop :=
  match layer with
  | .owners _ up => up = link
  | .filtered _ _ up d => up = link ∧ d = down
  | .dummy up d => up = link ∧ d = down

/-- A creator that wires the layer it builds to the link and the access it is
given, as `CreateOwnerBaseLayer`, `FilteredLayerCreator` and `DummyLayerCreator`
do. -/
def OwnerLayerCreator.Sound (c : OwnerLayerCreator) : Prop :=
  ∀ up down, (c up down).WiredTo up down

/-- The accesses met when following `NextLayer()` from `cur`, `cur` first. -/
def OwnerStack.walk (st : OwnerStack) : Nat → Option Nat → List Nat
  | _, none => []
  | 0, some _ => []
  | fuel + 1, some cur =>
    cur :: match OwnerLayerAccess.NextLayer st cur with
      | none => []
      | some next => OwnerStack.walk st fuel next

/-- The chain of a stack: the accesses reachable from the top access by down
links, top first. -/
def OwnerStack.chain (st : OwnerStack) : List Nat :=
  st.walk st.accesses.length (some st.access)

/-- The list is a path of down links that ends at an access with no down link. -/
def IsChain (st : OwnerStack) : List Nat → Prop
  | [] => False
  | [a] => OwnerLayerAccess.NextLayer st a = some none
  | a :: b :: rest => OwnerLayerAccess.NextLayer st a = some (some b) ∧ IsChain st (b :: rest)

/-- The topology of a well-formed stack with chain `ch`: the chain starts at the
top access, has no repetition, holds every access of the stack, follows the down
links, every access is the `up` of its own link, and the bottom access reads
link 0, which holds a base registry. -/
structure Chained (st : OwnerStack) (ch : List Nat) : Prop where
  top : ch.head? = some st.access
  nodup : ch.Nodup
  mem_iff : ∀ a, a ∈ ch ↔ a < st.accesses.length
  links_len : st.links.length = st.accesses.length
  isChain : IsChain st ch
  up_eq : ∀ a ∈ ch, ∃ A L, st.accesses[a]? = some A ∧ st.links[A.link]? = some L ∧ L.up = a
  bottom : ∃ b A o, ch.getLast? = some b ∧ st.accesses[b]? = some A ∧ A.link = 0 ∧
    (st.links[0]?).map (fun l => l.layer) = some (.owners o 0)

/-- A handler registered at the access `a` is an outside observer, or the layer
(or the link) directly above `a`: the link `l` it stands for has `a` as its down
access and is the link of its own up access. -/
def HandlerOK (st : OwnerStack) (a : Nat) : OwnerHandler → Prop
  | .external _ => True
  | .link l => ∃ L A, st.links[l]? = some L ∧ L.down = some a ∧
      st.accesses[L.up]? = some A ∧ A.link = l
  | .filtered l => ∃ L A, st.links[l]? = some L ∧ L.down = some a ∧
      st.accesses[L.up]? = some A ∧ A.link = l ∧
      ∃ accepted cache up down, L.layer = .filtered accepted cache up down

/-- The layers and handlers of a well-formed stack: every layer is wired to its
own link and that link's down access, and every handler is an outside observer
or stands for the layer directly above. -/
structure Wired (st : OwnerStack) : Prop where
  layers : ∀ (a : Nat) (A : OwnerLayerAccess) (L : OwnerLink),
    st.accesses[a]? = some A → st.links[A.link]? = some L → L.layer.WiredTo A.link L.down
  handlers : ∀ (a : Nat) (A : OwnerLayerAccess),
    st.accesses[a]? = some A → ∀ h ∈ A.handlers, HandlerOK st a h

/-- The stacks reachable from `NewOwners()` by `InserLayer` with creators that
satisfy `P`, client calls on the base registry, registration of outside
observers, deregistration, and `FilterChanged`, each call having returned. -/
inductive ReachableWith (P : OwnerLayerCreator → Prop) : OwnerStack → Prop
  | new : ReachableWith P NewOwners.1
  | insert {st st' : OwnerStack} {fuel acc : Nat} {c : OwnerLayerCreator} {r : Option Nat} :
      ReachableWith P st → P c → OwnerStack.InserLayer fuel st acc c = some (st', r) →
      ReachableWith P st'
  | call {st st' : OwnerStack} {fuel : Nat} {op : Op} :
      ReachableWith P st → OwnerStack.apply fuel NewOwners.2 st op = some st' →
      ReachableWith P st'
  | register {st st' : OwnerStack} {acc h : Nat} :
      ReachableWith P st → OwnerLayerAccess.RegisterHandler st acc (.external h) = some st' →
      ReachableWith P st'
  | unregister {st st' : OwnerStack} {acc : Nat} {h : OwnerHandler} :
      ReachableWith P st → OwnerLayerAccess.UnRegisterHandler st acc h = some st' →
      ReachableWith P st'
  | filterChanged {st st' : OwnerStack} {fuel l : Nat} :
      ReachableWith P st → FilteredLayer.FilterChanged fuel st l = some st' →
      ReachableWith P st'

/-- The stacks reachable with creators that wire their layer as given. -/
def Reachable (st : OwnerStack) : Prop := ReachableWith OwnerLayerCreator.Sound st

/-- A notification function that changes tables, caches and the log only. -/
def Framed (notify : OwnerStack → Nat → StringSet → StringSet → Option OwnerStack) : Prop :=
  ∀ st a ad dl st', notify st a ad dl = some st' → SameWiring st st'

/-- What `Start` returns for the layer in link `l`: nil for a base registry, the
upward link for a pass-through layer, the layer itself for a filter. -/
def startHandler (l : Nat) : OwnerLayer → Option OwnerHandler
  | .owners _ _ => none
  | .dummy up _ => some (.link up)
  | .filtered _ _ _ _ => some (.filtered l)

/-- The stack right after the rewiring of `InserLayer` at an access with record
`A` and link `pos`, before the new layer is started: a new access is appended
that reads the old link, a new link is appended that holds the new layer, the
access `pos.up` reads the new link, and the old link has the new access above. -/
def spliced (st : OwnerStack) (A : OwnerLayerAccess) (pos : OwnerLink) (c : OwnerLayerCreator) :
    OwnerStack :=
  { st with
    accesses := (st.accesses ++ [OwnerLayerAccess.mk [] A.link]).set pos.up { A with link := st.links.length }
    links :=
      (st.links ++
        [OwnerLink.mk pos.up (c st.links.length (some st.accesses.length))
          (some st.accesses.length)]).set
        A.link { pos with up := st.accesses.length } }

/-- The stack of the test `inserts a layer`: one `DummyLayer` above the base
registry, as `InserLayer` at the top access of the stack of `NewOwners` leaves
it. -/
def dummyStack : OwnerStack :=
  { access := 0
    accesses := [{ handlers := [], link := 1 }, { handlers := [.link 1], link := 0 }]
    links :=
      [{ up := 1, layer := .owners Owners.new 0, down := none },
       { up := 0, layer := .dummy 1 (some 1), down := some 1 }]
    events := [] }

/-- The stack of one base layer with tables `o`, external observers `hs`
registered at its top access, and the calls `ev` delivered so far: what
`NewOwners`, `RegisterHandler` and client calls build. -/
def baseStack (o : Owners) (hs : List Nat) (ev : List Event) : OwnerStack :=
  { access := 0
    accesses := [⟨hs.map OwnerHandler.external, 0⟩]
    links := [⟨0, .owners o 0, none⟩]
    events := ev }

/-- The stack of a base layer with tables `o` below one filter with cache
`cache`, as `InserLayer` wires it at the top access of a one-layer stack:
access 0 reads link 1 (the filter), the new access 1 reads link 0 (the base) and
has the filter as its only handler. -/
def filterStack (accepted : String → Bool) (o : Owners) (cache : StringSet) (hs : List Nat)
    (ev : List Event) : OwnerStack :=
  { access := 0
    accesses := [⟨hs.map OwnerHandler.external, 1⟩, ⟨[.filtered 1], 0⟩]
    links := [⟨1, .owners o 0, none⟩, ⟨0, .filtered accepted cache 1 (some 1), some 1⟩]
    events := ev }

/-- The calls a filter with cache `cache` passes on to the observers `hs` above it
when the delta `(added, deleted)` arrives from below. -/
def filterEvents (accepted : String → Bool) (cache added deleted : StringSet) (hs : List Nat) :
    List Event :=
  if 0 < (FilteredLayer.changeSets accepted cache added deleted).2.2.card ∨
      0 < (FilteredLayer.changeSets accepted cache added deleted).2.1.card then
    hs.map (fun h => ⟨h, (FilteredLayer.changeSets accepted cache added deleted).2.1,
      (FilteredLayer.changeSets accepted cache added deleted).2.2⟩)
  else []

/-- The predicate `set.Contains` of a fixed set, as the tests pass it to
`FilteredLayerCreator`. -/
def Contains (set : StringSet) : String → Bool := fun id => decide (id ∈ set)

/-! ### The registry of package `extension` (`extension/owners.go`)

The same two tables as the base layer, with the handler list kept in the
registry itself; observers are identified by a number. -/

/-- The struct `Owners` of package `extension`. -/
structure Extension.Owners where
  owners : RefTable
  clients : ClientTable
  handlers : List Nat
  deriving DecidableEq

/-- `NewOwners` of package `extension`. -/
def Extension.NewOwners : Extension.Owners := ⟨∅, ∅, []⟩

/-- `Owners.RegisterHandler` of package `extension`. -/
def Extension.Owners.RegisterHandler (this : Extension.Owners) (h : Nat) : Extension.Owners :=
  if h ∈ this.handlers then this else { this with handlers := this.handlers ++ [h] }

/-- `Owners.UnRegisterHandler` of package `extension`: the first entry equal to
`h` is removed. -/
def Extension.Owners.UnRegisterHandler (this : Extension.Owners) (h : Nat) :
    Extension.Owners :=
  { this with handlers := this.handlers.erase h }

/-- `Owners.notify` of package `extension`: the calls the handlers receive, in
order. -/
def Extension.Owners.notify (this : Extension.Owners) (added deleted : StringSet) :
    List Event :=
  this.handlers.map (fun h => ⟨h, added, deleted⟩)

/-- `Owners.UpdateClient` of package `extension`: the new registry and the calls
the handlers receive. -/
def Extension.Owners.UpdateClient (this : Extension.Owners) (client : String)
    (owners : StringSet) : Extension.Owners × List Event :=
  let old := setAt this.clients client
  let st1 := rangeLoop (UpdateClient.addBody old) owners (this.owners, ∅)
  let st2 := rangeLoop (UpdateClient.delBody owners) old (st1.1, ∅)
  ({ this with owners := st2.1, clients := this.clients.insert client owners },
    this.notify st1.2 st2.2)

/-- `Owners.DeleteClient` of package `extension`: the new registry and the calls
the handlers receive. -/
def Extension.Owners.DeleteClient (this : Extension.Owners) (client : String) :
    Extension.Owners × List Event :=
  let old := setAt this.clients client
  let st := rangeLoop DeleteClient.body old (this.owners, ∅)
  ({ this with owners := st.1, clients := this.clients.erase client }, this.notify ∅ st.2)

/-- The tables of a registry of package `extension`, as a base layer. -/
def Extension.Owners.tables (this : Extension.Owners) : OwnerLayers.Owners :=
  ⟨this.owners, this.clients⟩

/-- The handlers of a sequence of registrations in the order of their first
registration, each once: the list the specification describes. -/
def firstRegistrations {α : Type} [DecidableEq α] : List α → List α
  | [] => []
  | h :: hs => h :: (firstRegistrations hs).filter (fun x => decide (x ≠ h))

/-- The deltas a sequence of calls hands to `notify`, in order, from the state
`this` on. -/
def Owners.deltas (this : OwnerLayers.Owners) : List Op → List (StringSet × StringSet)
  | [] => []
  | op :: ops =>
    ((this.apply op).added, (this.apply op).deleted) :: Owners.deltas (this.apply op).state ops

/-- An observer that starts from the set `ids` and applies every delta in order:
the added ids are put in, the deleted ids are taken out. -/
def replay (ids : StringSet) (deltas : List (StringSet × StringSet)) : StringSet :=
  deltas.foldl (fun g d => (g ∪ d.1) \ d.2) ids

/-- The stack of `k` pass-through layers above a base layer with tables `o`, as
`k` calls of `InserLayer` at the top access with `DummyLayerCreator` wire it, with
the external observers `hs` registered at the top access: the top access 0 reads
link `k`; for `1 ≤ i ≤ k` the access `i` reads link `i - 1` and has link `i` as
its only handler, and link `i` holds a pass-through layer above the access `i`. -/
def dummyTower (k : Nat) (o : Owners) (hs : List Nat) (ev : List Event) : OwnerStack :=
  { access := 0
    accesses := ⟨hs.map OwnerHandler.external, k⟩ ::
      (List.range k).map (fun j => ⟨[.link (j + 1)], j⟩)
    links := ⟨if k = 0 then 0 else 1, .owners o 0, none⟩ ::
      (List.range k).map (fun j =>
        ⟨if j + 1 = k then 0 else j + 2, .dummy (j + 1) (some (j + 1)), some (j + 1)⟩)
    events := ev }

/-- The test setup `stack.InserLayer(stack.Access(), DummyLayerCreator)`, `k`
times. -/
def insertDummies (fuel : Nat) : Nat → OwnerStack → Option OwnerStack
  | 0, st => some st
  | k + 1, st =>
    match OwnerStack.InserLayer fuel st st.access DummyLayerCreator with
    | some (st1, some _) => insertDummies fuel k st1
    | _ => none

/-- The topology of a stack with chain `ch`, whatever its layers are: the chain
starts at the top access, has no repetition, holds every access of the stack,
follows the down links, every access is the `up` of its own link, and the last
access reads link 0, the link `NewOwnerStack` creates. -/
structure Linked (st : OwnerStack) (ch : List Nat) : Prop where
  top : ch.head? = some st.access
  nodup : ch.Nodup
  mem_iff : ∀ a, a ∈ ch ↔ a < st.accesses.length
  links_len : st.links.length = st.accesses.length
  isChain : IsChain st ch
  up_eq : ∀ a ∈ ch, ∃ A L, st.accesses[a]? = some A ∧ st.links[A.link]? = some L ∧ L.up = a
  last : ∃ b A, ch.getLast? = some b ∧ st.accesses[b]? = some A ∧ A.link = 0

/-- The stacks reachable from `NewOwnerStack(c0)` by `InserLayer` calls that
returned, at any access and with any creator. -/
inductive Inserted (c0 : OwnerLayerCreator) : OwnerStack → Prop
  | new : Inserted c0 (NewOwnerStack c0)
  | insert {st st' : OwnerStack} {fuel acc : Nat} {c : OwnerLayerCreator} {r : Option Nat} :
      Inserted c0 st → OwnerStack.InserLayer fuel st acc c = some (st', r) → Inserted c0 st'

/-- A creator `FilteredLayerCreator(accept)`. -/
def IsFilterCreator (c : OwnerLayerCreator) : Prop :=
  ∃ accept, c = FilteredLayerCreator accept

/-- The cache of a filter holds ids its predicate accepts; no condition on the
other layers. -/
def OwnerLayer.CacheAccepted : OwnerLayer → Prop
  | .filtered accepted cache _ _ => ∀ id ∈ cache, accepted id = true
  | _ => True

/-- Every filter of the stack has only accepted ids in its cache. -/
def CacheOK (st : OwnerStack) : Prop :=
  ∀ (l : Nat) (L : OwnerLink), st.links[l]? = some L → L.layer.CacheAccepted

/-- The outside observer `h` is registered at the top access only. -/
def AtTopOnly (st : OwnerStack) (h : Nat) : Prop :=
  ∀ (a : Nat) (A : OwnerLayerAccess),
    st.accesses[a]? = some A → OwnerHandler.external h ∈ A.handlers → a = st.access

/-- No access has a link as a handler: the stack has no pass-through layer. -/
def NoLinkHandlers (st : OwnerStack) : Prop :=
  ∀ (a : Nat) (A : OwnerLayerAccess) (l : Nat),
    st.accesses[a]? = some A → OwnerHandler.link l ∉ A.handlers

/-- Every filter read by an access of the chain `ch` from the access `x` down to
the access right above `a` accepts `id`. -/
def AcceptedBetween (st : OwnerStack) (ch : List Nat) (x a : Nat) (id : String) : Prop :=
  ∀ y ∈ ch, ch.indexOf x ≤ ch.indexOf y → ch.indexOf y < ch.indexOf a →
    ∀ (Y : OwnerLayerAccess) (L : OwnerLink) (accepted : String → Bool) (cache : StringSet)
      (up : Nat) (down : Option Nat),
      st.accesses[y]? = some Y → st.links[Y.link]? = some L →
      L.layer = .filtered accepted cache up down → accepted id = true

/-- Every filter of the stack accepts `id`: the predicate of each filter read by
an access of the chain is true on `id`. -/
def AllFiltersAccept (st : OwnerStack) (id : String) : Prop :=
  ∀ x ∈ st.chain,
    ∀ (X : OwnerLayerAccess) (L : OwnerLink) (accepted : String → Bool) (cache : StringSet)
      (up : Nat) (down : Option Nat),
      st.accesses[x]? = some X → st.links[X.link]? = some L →
      L.layer = .filtered accepted cache up down → accepted id = true

/-- A notification function that keeps the caches within the accepted ids. -/
def KeepsCaches (notify : OwnerStack → Nat → StringSet → StringSet → Option OwnerStack) :
    Prop :=
  ∀ st a ad dl st', CacheOK st → notify st a ad dl = some st' → CacheOK st'

/-! ### The locks (`owners.go`, `filtered.go`)

What an operation does with the stack-wide lock and with the local lock of its
layer, in program order, a deferred unlock being run at the end. -/

/-- The two locks an operation of a layer can take: `stack.lock` and the layer's
own `lock`. -/
inductive Lock
  | stack
  | layer
  deriving DecidableEq

/-- A step of an operation that matters for the lock protocol: taking a lock,
releasing it, or the upward notification `this.notify` / `this.up.OwnerSetChanged`. -/
inductive LockStep
  | lock (l : Lock)
  | unlock (l : Lock)
  | notify
  deriving DecidableEq

/-- `OwnerLink.Lock(sub)`: the stack-wide lock, then `sub` when it is not nil. -/
def OwnerLink.Lock (sub : Bool) : List LockStep :=
  .lock .stack :: (if sub then [.lock .layer] else [])

/-- `OwnerLink.Unlock(sub)`: `sub` when it is not nil, then the stack-wide lock. -/
def OwnerLink.Unlock (sub : Bool) : List LockStep :=
  (if sub then [.unlock .layer] else []) ++ [.unlock .stack]

/-- The lock steps of `Owners.UpdateClient`: `this.up.Lock(&this.lock)`, the
deferred `this.up.Unlock(&this.lock)`, and `this.notify` in between. -/
def UpdateClient.steps : List LockStep :=
  OwnerLink.Lock true ++ [.notify] ++ OwnerLink.Unlock true

/-- The lock steps of `Owners.DeleteClient`: `this.lock.Lock()`, the deferred
`this.lock.Unlock()`, and `this.notify` in between. -/
def DeleteClient.steps : List LockStep :=
  [.lock .layer, .notify, .unlock .layer]

/-- The lock steps of `FilteredLayer.FilterChanged`: `this.up.Lock(&this.lock)`,
the deferred `this.up.Unlock(&this.lock)`, and in between
`this.up.OwnerSetChanged` when one of the deltas is not empty. -/
def FilterChanged.steps (notifies : Bool) : List LockStep :=
  OwnerLink.Lock true ++ (if notifies then [.notify] else []) ++ OwnerLink.Unlock true

/-- The lock-ordering protocol of the specification, checked along the steps of
an operation from the locks held so far: the stack-wide lock is taken when no
lock is held, the local lock only under the stack-wide lock, a notification is
sent only under the stack-wide lock, the stack-wide lock is released after the
local one, and nothing is held at the end. -/
def lockOrder : Bool → Bool → List LockStep → Bool
  | s, l, [] => !s && !l
  | s, l, .lock .stack :: rest => !s && !l && lockOrder true l rest
  | s, l, .lock .layer :: rest => s && !l && lockOrder s true rest
  | s, l, .unlock .layer :: rest => l && lockOrder s false rest
  | s, l, .unlock .stack :: rest => s && !l && lockOrder false l rest
  | s, l, .notify :: rest => s && lockOrder s l rest

/-- An operation follows the lock-ordering protocol. -/
def FollowsLockOrder (steps : List LockStep) : Prop := lockOrder false false steps = true

/-! ### Calls on one filter, and the two registries side by side -/

/-- One call on a filter, with what it reads: `Start(down)`,
`OwnerSetChanged(added, deleted)`, and `FilterChanged()` at a moment when
`this.down.GetIds()` returns `ids`. -/
inductive FilterCall
  | start (down : StringSet)
  | ownerSetChanged (added deleted : StringSet)
  | filterChanged (ids : StringSet)

/-- The cache a call leaves in a filter with predicate `accepted` and cache
`cache`. -/
def FilteredLayer.cacheStep (accepted : String → Bool) (cache : StringSet) :
    FilterCall → StringSet
  | .start down => (FilteredLayer.startSets accepted down).1
  | .ownerSetChanged added deleted => (FilteredLayer.changeSets accepted cache added deleted).1
  | .filterChanged ids => (FilteredLayer.filterChangedSets accepted cache ids).1

/-- The cache of a filter built by `NewFilteredLayer(accepted, _, _)` after a
sequence of calls, in order. -/
def FilteredLayer.cacheAfter (accepted : String → Bool) (calls : List FilterCall) : StringSet :=
  calls.foldl (FilteredLayer.cacheStep accepted) ∅

/-- `FilteredLayer.GetIds` on a filter with cache `cache`: a copy of the cache. -/
def FilteredLayer.GetIds (cache : StringSet) : StringSet := cache

/-- `FilteredLayer.IsResponsibleFor` on a filter with cache `cache`. -/
def FilteredLayer.IsResponsibleFor (cache : StringSet) (id : String) : Bool :=
  decide (id ∈ cache)

/-- A creator whose layer, if it is a filter, starts with a cache of accepted
ids: `CreateOwnerBaseLayer`, `DummyLayerCreator` and every
`FilteredLayerCreator(accept)`, whose cache is empty. -/
def OwnerLayerCreator.CacheAccepted (c : OwnerLayerCreator) : Prop :=
  ∀ up down, (c up down).CacheAccepted

/-- `Owners.GetIds` of package `extension`: the keys of the reference table. -/
def Extension.Owners.GetIds (this : Extension.Owners) : StringSet := this.owners.keys

/-- `Owners.GetIdsFor` of package `extension`: a copy of the set stored for
`client`. -/
def Extension.Owners.GetIdsFor (this : Extension.Owners) (client : String) : StringSet :=
  (∅ : StringSet) ∪ setAt this.clients client

/-- `Owners.GetIdsFor` on the base registry stored in link `this` of a stack. -/
def Owners.GetIdsForAt (st : OwnerStack) (this : Nat) (client : String) : Option StringSet :=
  match st.links[this]? with
  | some ⟨_, .owners o _, _⟩ => some (o.GetIdsFor client)
  | _ => none

/-- One call of the interface the two registries share; observers are
identified by a number. -/
inductive Call
  | registerHandler (h : Nat)
  | unRegisterHandler (h : Nat)
  | updateClient (client : String) (owners : StringSet)
  | deleteClient (client : String)

/-- One call on a registry of package `extension`: the new registry and the
calls the handlers receive. -/
def Extension.Owners.call (this : Extension.Owners) : Call → Extension.Owners × List Event
  | .registerHandler h => (this.RegisterHandler h, [])
  | .unRegisterHandler h => (this.UnRegisterHandler h, [])
  | .updateClient client owners => this.UpdateClient client owners
  | .deleteClient client => this.DeleteClient client

/-- A sequence of calls on a registry of package `extension`, in order, with the
log of the calls its handlers have received so far. -/
def Extension.Owners.calls (this : Extension.Owners) (ev : List Event) :
    List Call → Extension.Owners × List Event
  | [] => (this, ev)
  | c :: cs => Extension.Owners.calls (this.call c).1 (ev ++ (this.call c).2) cs

/-- One call on a stack: handlers are registered at the top access, which the
stack embeds, and client calls go to the base registry `NewOwners()` returned. -/
def OwnerStack.call (fuel : Nat) (st : OwnerStack) : Call → Option OwnerStack
  | .registerHandler h => OwnerLayerAccess.RegisterHandler st st.access (.external h)
  | .unRegisterHandler h => OwnerLayerAccess.UnRegisterHandler st st.access (.external h)
  | .updateClient client owners => OwnerStack.UpdateClient fuel st NewOwners.2 client owners
  | .deleteClient client => OwnerStack.DeleteClient fuel st NewOwners.2 client

/-- A sequence of calls on a stack, in order. -/
def OwnerStack.calls (fuel : Nat) (st : OwnerStack) (cs : List Call) : Option OwnerStack :=
  cs.foldlM (OwnerStack.call fuel) st

/-! ## The loops, pointwise -/

theorem rangeLoop_empty {σ : Type} (f : String → σ → σ) [LeftCommutative f] (init : σ) :
    rangeLoop f ∅ init = init := rfl

theorem rangeLoop_insert {σ : Type} (f : String → σ → σ) [LeftCommutative f] (init : σ)
    {a : String} {s : StringSet} (h : a ∉ s) :
    rangeLoop f (insert a s) init = f a (rangeLoop f s init) := by
  unfold rangeLoop
  rw [Finset.insert_val_of_not_mem h, Multiset.foldr_cons]

theorem countAt_eq_of_lookup {t u : RefTable} {x : String} (h : t.lookup x = u.lookup x) :
    countAt t x = countAt u x := by
  unfold countAt; rw [h]

theorem addLoop_spec (old S : StringSet) (t : RefTable) (A : StringSet) :
    (∀ x, (rangeLoop (UpdateClient.addBody old) S (t, A)).1.lookup x =
        if x ∈ S ∧ x ∉ old then some (countAt t x + 1) else t.lookup x) ∧
    (∀ x, x ∈ (rangeLoop (UpdateClient.addBody old) S (t, A)).2 ↔
        x ∈ A ∨ (x ∈ S ∧ x ∉ old ∧ countAt t x = 0)) := by
  induction S using Finset.induction_on with
  | empty => simp [rangeLoop_empty]
  | @insert a s ha ih =>
    obtain ⟨ih1, ih2⟩ := ih
    rw [rangeLoop_insert _ _ ha]
    have hca : countAt (rangeLoop (UpdateClient.addBody old) s (t, A)).1 a = countAt t a := by
      apply countAt_eq_of_lookup; rw [ih1]; simp [ha]
    generalize rangeLoop (UpdateClient.addBody old) s (t, A) = prev at ih1 ih2 hca ⊢
    unfold UpdateClient.addBody
    by_cases hold : a ∈ old
    · simp only [hold, if_true]
      constructor
      · intro x; rw [ih1]
        by_cases hx : x = a
        · subst hx; simp [hold]
        · simp [hx]
      · intro x; rw [ih2]
        by_cases hx : x = a
        · subst hx; simp [hold]
        · simp [hx]
    · simp only [hold, if_false, hca]
      constructor
      · intro x
        rw [lookup_insert_ite, ih1]
        by_cases hx : x = a
        · subst hx; simp [hold]
        · simp [hx]
      · intro x
        by_cases hx : x = a
        · subst hx
          by_cases hc : countAt t x = 0
          · simp [hc, hold]
          · have : ¬ (countAt t x + 1 = 1) := by omega
            simp [hc, hold, this, ih2, ha]
        · by_cases hc : countAt t a + 1 = 1 <;> simp [hc, hx, ih2]

theorem delLoop_spec (owners old : StringSet) (t : RefTable) (D : StringSet) :
    (∀ x, (rangeLoop (UpdateClient.delBody owners) old (t, D)).1.lookup x =
        if x ∈ old ∧ x ∉ owners then
          (if countAt t x - 1 = 0 then none else some (countAt t x - 1))
        else t.lookup x) ∧
    (∀ x, x ∈ (rangeLoop (UpdateClient.delBody owners) old (t, D)).2 ↔
        x ∈ D ∨ (x ∈ old ∧ x ∉ owners ∧ countAt t x - 1 = 0)) := by
  induction old using Finset.induction_on with
  | empty => simp [rangeLoop_empty]
  | @insert a s ha ih =>
    obtain ⟨ih1, ih2⟩ := ih
    rw [rangeLoop_insert _ _ ha]
    have hca : countAt (rangeLoop (UpdateClient.delBody owners) s (t, D)).1 a = countAt t a := by
      apply countAt_eq_of_lookup; rw [ih1]; simp [ha]
    generalize rangeLoop (UpdateClient.delBody owners) s (t, D) = prev at ih1 ih2 hca ⊢
    unfold UpdateClient.delBody
    by_cases hown : a ∈ owners
    · simp only [hown, if_true]
      constructor
      · intro x; rw [ih1]
        by_cases hx : x = a
        · subst hx; simp [hown]
        · simp [hx]
      · intro x; rw [ih2]
        by_cases hx : x = a
        · subst hx; simp [hown]
        · simp [hx]
    · simp only [hown, if_false, hca]
      by_cases hc : countAt t a - 1 = 0
      · simp only [hc, if_true]
        constructor
        · intro x
          rw [lookup_erase_ite, ih1]
          by_cases hx : x = a
          · subst hx; simp [hown, hc]
          · simp [hx]
        · intro x
          by_cases hx : x = a
          · subst hx; simp [hown, hc]
          · simp [hx, ih2]
      · simp only [hc, if_false]
        constructor
        · intro x
          rw [lookup_insert_ite, ih1]
          by_cases hx : x = a
          · subst hx; simp [hown, hc]
          · simp [hx]
        · intro x
          by_cases hx : x = a
          · subst hx; simp [hown, hc, ih2, ha]
          · simp [hx, ih2]

theorem deleteLoop_spec (old : StringSet) (t : RefTable) (D : StringSet) :
    (∀ x, (rangeLoop DeleteClient.body old (t, D)).1.lookup x =
        if x ∈ old then
          (if countAt t x - 1 = 0 then none else some (countAt t x - 1))
        else t.lookup x) ∧
    (∀ x, x ∈ (rangeLoop DeleteClient.body old (t, D)).2 ↔
        x ∈ D ∨ (x ∈ old ∧ countAt t x - 1 = 0)) := by
  induction old using Finset.induction_on with
  | empty => simp [rangeLoop_empty]
  | @insert a s ha ih =>
    obtain ⟨ih1, ih2⟩ := ih
    rw [rangeLoop_insert _ _ ha]
    have hca : countAt (rangeLoop DeleteClient.body s (t, D)).1 a = countAt t a := by
      apply countAt_eq_of_lookup; rw [ih1]; simp [ha]
    generalize rangeLoop DeleteClient.body s (t, D) = prev at ih1 ih2 hca ⊢
    unfold DeleteClient.body
    simp only [hca]
    by_cases hc : countAt t a - 1 = 0
    · simp only [hc, if_true]
      constructor
      · intro x
        rw [lookup_erase_ite, lookup_insert_ite, ih1]
        by_cases hx : x = a
        · subst hx; simp [hc]
        · simp [hx]
      · intro x
        by_cases hx : x = a
        · subst hx; simp [hc]
        · simp [hx, ih2]
    · simp only [hc, if_false]
      constructor
      · intro x
        rw [lookup_insert_ite, ih1]
        by_cases hx : x = a
        · subst hx; simp [hc]
        · simp [hx]
      · intro x
        by_cases hx : x = a
        · subst hx; simp [hc, ih2, ha]
        · simp [hx, ih2]

/-! ## `UpdateClient` and `DeleteClient`, pointwise -/

theorem UpdateClient_lookup (s : Owners) (c : String) (S : StringSet) (x : String) :
    (s.UpdateClient c S).state.owners.lookup x =
      if x ∈ S ∧ x ∉ setAt s.clients c then some (countAt s.owners x + 1)
      else if x ∈ setAt s.clients c ∧ x ∉ S then
        (if countAt s.owners x - 1 = 0 then none else some (countAt s.owners x - 1))
      else s.owners.lookup x := by
  unfold Owners.UpdateClient
  simp only []
  rw [(delLoop_spec _ _ _ _).1 x]
  have h1 := (addLoop_spec (setAt s.clients c) S s.owners ∅).1 x
  by_cases hS : x ∈ S
  · by_cases ho : x ∈ setAt s.clients c
    · simp only [hS, ho, not_true, and_false, if_false, not_true_eq_false] at h1 ⊢
      exact h1
    · simp only [hS, ho, not_false_eq_true, and_self, and_true, if_true, false_and,
        not_true_eq_false, and_false, if_false] at h1 ⊢
      exact h1
  · simp only [hS, false_and, if_false] at h1
    rw [countAt_eq_of_lookup h1, h1]
    simp [hS]

theorem UpdateClient_added (s : Owners) (c : String) (S : StringSet) (x : String) :
    x ∈ (s.UpdateClient c S).added ↔ x ∈ S ∧ x ∉ setAt s.clients c ∧ countAt s.owners x = 0 := by
  unfold Owners.UpdateClient
  simp only []
  rw [(addLoop_spec _ _ _ _).2 x]
  simp

theorem UpdateClient_deleted (s : Owners) (c : String) (S : StringSet) (x : String) :
    x ∈ (s.UpdateClient c S).deleted ↔
      x ∈ setAt s.clients c ∧ x ∉ S ∧ countAt s.owners x - 1 = 0 := by
  unfold Owners.UpdateClient
  simp only []
  rw [(delLoop_spec _ _ _ _).2 x]
  have h1 := (addLoop_spec (setAt s.clients c) S s.owners ∅).1 x
  by_cases hS : x ∈ S
  · simp [hS]
  · simp only [hS, false_and, if_false] at h1
    rw [countAt_eq_of_lookup h1]
    simp [hS]

theorem UpdateClient_clients (s : Owners) (c : String) (S : StringSet) :
    (s.UpdateClient c S).state.clients = s.clients.insert c S := rfl

theorem DeleteClient_lookup (s : Owners) (c : String) (x : String) :
    (s.DeleteClient c).state.owners.lookup x =
      if x ∈ setAt s.clients c then
        (if countAt s.owners x - 1 = 0 then none else some (countAt s.owners x - 1))
      else s.owners.lookup x := by
  unfold Owners.DeleteClient
  simp only []
  rw [(deleteLoop_spec _ _ _).1 x]

theorem DeleteClient_added (s : Owners) (c : String) : (s.DeleteClient c).added = ∅ := rfl

theorem DeleteClient_deleted (s : Owners) (c : String) (x : String) :
    x ∈ (s.DeleteClient c).deleted ↔ x ∈ setAt s.clients c ∧ countAt s.owners x - 1 = 0 := by
  unfold Owners.DeleteClient
  simp only []
  rw [(deleteLoop_spec _ _ _).2 x]
  simp

theorem DeleteClient_clients (s : Owners) (c : String) :
    (s.DeleteClient c).state.clients = s.clients.erase c := rfl

theorem setAt_insert (t : ClientTable) (a b : String) (S : StringSet) :
    setAt (t.insert a S) b = if b = a then S else setAt t b := by
  unfold setAt
  rw [lookup_insert_ite]
  split_ifs <;> rfl

theorem setAt_erase (t : ClientTable) (a b : String) :
    setAt (t.erase a) b = if b = a then ∅ else setAt t b := by
  unfold setAt
  rw [lookup_erase_ite]
  split_ifs <;> rfl

theorem setAt_of_not_mem {t : ClientTable} {c : String} (h : c ∉ t) : setAt t c = ∅ := by
  unfold setAt
  rw [Finmap.lookup_eq_none.mpr h]
  rfl

/-! ## The reference-count invariant -/

theorem keys_insert' (t : ClientTable) (c : String) (S : StringSet) :
    (t.insert c S).keys = insert c t.keys := by
  ext x
  simp [Finmap.mem_keys, Finmap.mem_insert]

theorem refCount_eq_otherCount (s : Owners) (c id : String) :
    s.refCount id = s.otherCount c id + (if id ∈ setAt s.clients c then 1 else 0) := by
  unfold Owners.refCount Owners.otherCount
  by_cases hc : c ∈ s.clients.keys
  · conv_lhs => rw [← Finset.insert_erase hc]
    rw [Finset.filter_insert]
    by_cases hid : id ∈ setAt s.clients c
    · simp only [hid, if_true]
      rw [Finset.card_insert_of_not_mem]
      simp
    · simp [hid]
  · have h0 : setAt s.clients c = ∅ := setAt_of_not_mem (fun h => hc (Finmap.mem_keys.mpr h))
    rw [Finset.erase_eq_of_not_mem hc, h0]
    simp

theorem otherCount_update (s : Owners) (c : String) (S : StringSet) (id : String) :
    (s.UpdateClient c S).state.otherCount c id = s.otherCount c id := by
  unfold Owners.otherCount
  rw [UpdateClient_clients, keys_insert', Finset.erase_insert_eq_erase]
  congr 1
  apply Finset.filter_congr
  intro x hx
  rw [setAt_insert, if_neg (Finset.ne_of_mem_erase hx)]

theorem refCount_update (s : Owners) (c : String) (S : StringSet) (id : String) :
    (s.UpdateClient c S).state.refCount id = s.otherCount c id + (if id ∈ S then 1 else 0) := by
  rw [refCount_eq_otherCount _ c, otherCount_update, UpdateClient_clients, setAt_insert]
  simp

theorem refCount_delete (s : Owners) (c : String) (id : String) :
    (s.DeleteClient c).state.refCount id = s.otherCount c id := by
  unfold Owners.refCount Owners.otherCount
  rw [DeleteClient_clients, Finmap.keys_erase]
  congr 1
  apply Finset.filter_congr
  intro x hx
  rw [setAt_erase, if_neg (Finset.ne_of_mem_erase hx)]

theorem countAt_of_consistent {s : Owners} (h : s.Consistent) (id : String) :
    countAt s.owners id = (s.refCount id : Int) := by
  unfold OwnerLayers.countAt
  rw [h id]
  by_cases h0 : s.refCount id = 0 <;> simp [h0]

theorem consistent_new : Owners.new.Consistent := by
  intro id
  simp [Owners.new, Owners.refCount]

theorem consistent_update {s : Owners} (h : s.Consistent) (c : String) (S : StringSet) :
    (s.UpdateClient c S).state.Consistent := by
  intro id
  rw [UpdateClient_lookup, refCount_update, countAt_of_consistent h id, h id,
    refCount_eq_otherCount s c id]
  by_cases hS : id ∈ S <;> by_cases ho : id ∈ setAt s.clients c <;>
    simp only [hS, ho, if_true, if_false, true_and, and_true, and_false, false_and,
      not_true_eq_false, not_false_eq_true, add_zero, Nat.cast_add, Nat.cast_one,
      add_sub_cancel_right, Nat.cast_eq_zero] <;>
    simp

theorem consistent_delete {s : Owners} (h : s.Consistent) (c : String) :
    (s.DeleteClient c).state.Consistent := by
  intro id
  rw [DeleteClient_lookup, refCount_delete, countAt_of_consistent h id, h id, refCount_eq_otherCount s c id]
  by_cases ho : id ∈ setAt s.clients c <;>
    simp only [ho, if_true, if_false, add_zero, Nat.cast_add, Nat.cast_one,
      add_sub_cancel_right, Nat.cast_eq_zero]

theorem consistent_apply {s : Owners} (h : s.Consistent) (op : Op) :
    (s.apply op).state.Consistent := by
  cases op with
  | update c S => exact consistent_update h c S
  | delete c => exact consistent_delete h c

theorem consistent_runFrom {s : Owners} (h : s.Consistent) (ops : List Op) :
    (s.runFrom ops).Consistent := by
  induction ops generalizing s with
  | nil => exact h
  | cons op ops ih => exact ih (consistent_apply h op)

theorem consistent_run (ops : List Op) : (Owners.run ops).Consistent :=
  consistent_runFrom consistent_new ops

theorem mem_owners_iff {s : Owners} (h : s.Consistent) (id : String) :
    id ∈ s.owners ↔ s.refCount id ≠ 0 := by
  rw [← Finmap.lookup_isSome, h id]
  by_cases h0 : s.refCount id = 0 <;> simp [h0]

theorem setAt_eq_empty_of_not_mem_keys {s : Owners} {c : String} (h : c ∉ s.clients.keys) :
    setAt s.clients c = ∅ :=
  setAt_of_not_mem (fun h1 => h (Finmap.mem_keys.mpr h1))

theorem refCount_ne_zero_iff (s : Owners) (id : String) :
    s.refCount id ≠ 0 ↔ ∃ client, id ∈ setAt s.clients client := by
  unfold Owners.refCount
  rw [Finset.card_ne_zero, Finset.filter_nonempty_iff]
  constructor
  · rintro ⟨c, _, hc⟩
    exact ⟨c, hc⟩
  · rintro ⟨c, hc⟩
    refine ⟨c, ?_, hc⟩
    by_contra hk
    rw [setAt_eq_empty_of_not_mem_keys hk] at hc
    simp at hc

theorem otherCount_eq_zero_iff (s : Owners) (c id : String) :
    s.otherCount c id = 0 ↔ ∀ client, client ≠ c → id ∉ setAt s.clients client := by
  unfold Owners.otherCount
  rw [Finset.card_eq_zero, Finset.filter_eq_empty_iff]
  constructor
  · intro h c1 hne hmem
    by_cases hk : c1 ∈ s.clients.keys
    · exact h (Finset.mem_erase.mpr ⟨hne, hk⟩) hmem
    · rw [setAt_eq_empty_of_not_mem_keys hk] at hmem
      simp at hmem
  · intro h c1 hc1
    exact h c1 (Finset.ne_of_mem_erase hc1)

theorem GetIdsFor_eq (s : Owners) (c : String) : s.GetIdsFor c = setAt s.clients c := by
  unfold Owners.GetIdsFor
  simp

/-! ## A call, uniformly: `op.client` goes from its stored set to `op.owners` -/

theorem refCount_apply (s : Owners) (op : Op) (id : String) :
    (s.apply op).state.refCount id =
      s.otherCount op.client id + (if id ∈ op.owners then 1 else 0) := by
  cases op with
  | update c S => exact refCount_update s c S id
  | delete c => simpa [Owners.apply, Op.client, Op.owners] using refCount_delete s c id

theorem apply_added (s : Owners) (op : Op) (id : String) :
    id ∈ (s.apply op).added ↔
      id ∈ op.owners ∧ id ∉ setAt s.clients op.client ∧ countAt s.owners id = 0 := by
  cases op with
  | update c S => exact UpdateClient_added s c S id
  | delete c => simp [Owners.apply, Op.owners, DeleteClient_added]

theorem apply_deleted (s : Owners) (op : Op) (id : String) :
    id ∈ (s.apply op).deleted ↔
      id ∈ setAt s.clients op.client ∧ id ∉ op.owners ∧ countAt s.owners id - 1 = 0 := by
  cases op with
  | update c S => exact UpdateClient_deleted s c S id
  | delete c => simp [Owners.apply, Op.owners, Op.client, DeleteClient_deleted]

/-- In a consistent registry the two deltas of a call are decided by the other
clients: an id is added when it enters the set of the client and nobody else
holds it, deleted when it leaves the set and nobody else holds it. -/
theorem apply_delta_of_consistent {s : Owners} (h : s.Consistent) (op : Op) (id : String) :
    (id ∈ (s.apply op).added ↔
      id ∈ op.owners ∧ id ∉ setAt s.clients op.client ∧ s.otherCount op.client id = 0) ∧
    (id ∈ (s.apply op).deleted ↔
      id ∈ setAt s.clients op.client ∧ id ∉ op.owners ∧ s.otherCount op.client id = 0) := by
  rw [apply_added, apply_deleted, countAt_of_consistent h id,
    refCount_eq_otherCount s op.client id]
  by_cases ho : id ∈ setAt s.clients op.client
  · simp only [ho, if_true, not_true_eq_false, false_and, and_false, true_and, Nat.cast_add,
      Nat.cast_one, add_sub_cancel_right, Nat.cast_eq_zero, and_self]
  · simp only [ho, if_false, not_false_eq_true, false_and, true_and, add_zero,
      Nat.cast_eq_zero, and_self]

/-! ## What the clients assert, read from the call sequence -/

theorem setAt_apply (s : Owners) (op : Op) (c : String) :
    setAt (s.apply op).state.clients c = assertedStep (setAt s.clients) op c := by
  cases op with
  | update c1 S =>
    simp only [Owners.apply, UpdateClient_clients, setAt_insert, assertedStep, Function.update_apply]
  | delete c1 =>
    simp only [Owners.apply, DeleteClient_clients, setAt_erase, assertedStep, Function.update_apply]

theorem setAt_runFrom (s : Owners) (ops : List Op) (f : String → StringSet)
    (h : ∀ c, setAt s.clients c = f c) (c : String) :
    setAt (s.runFrom ops).clients c = ops.foldl assertedStep f c := by
  induction ops generalizing s f with
  | nil => exact h c
  | cons op ops ih =>
    simp only [Owners.runFrom, List.foldl_cons]
    apply ih
    intro c1
    rw [setAt_apply]
    have hf : setAt s.clients = f := funext h
    rw [hf]

theorem setAt_run (ops : List Op) (c : String) :
    setAt (Owners.run ops).clients c = asserted ops c := by
  unfold Owners.run asserted
  apply setAt_runFrom
  intro c1
  simp [Owners.new, setAt]

theorem foldl_assertedStep_of_not_mem (ops : List Op) (f : String → StringSet) (c : String)
    (h : c ∉ clientsOf ops) : ops.foldl assertedStep f c = f c := by
  induction ops generalizing f with
  | nil => rfl
  | cons op ops ih =>
    simp only [clientsOf, List.map_cons, List.toFinset_cons, Finset.mem_insert, not_or] at h
    rw [List.foldl_cons, ih _ (by simpa [clientsOf] using h.2)]
    cases op with
    | update c1 S => simp only [assertedStep, Op.client] at h ⊢; rw [Function.update_noteq h.1]
    | delete c1 => simp only [assertedStep, Op.client] at h ⊢; rw [Function.update_noteq h.1]

theorem asserted_of_not_mem (ops : List Op) (c : String) (h : c ∉ clientsOf ops) :
    asserted ops c = ∅ :=
  foldl_assertedStep_of_not_mem ops _ c h

theorem mem_GetIds_iff {s : Owners} (h : s.Consistent) (id : String) :
    id ∈ s.GetIds ↔ ∃ client, id ∈ setAt s.clients client := by
  unfold Owners.GetIds
  rw [Finmap.mem_keys, mem_owners_iff h, refCount_ne_zero_iff]

theorem mem_GetIds_apply {s : Owners} (h : s.Consistent) (op : Op) (x : String) :
    x ∈ (s.apply op).state.GetIds ↔
      (x ∈ s.GetIds ∨ x ∈ (s.apply op).added) ∧ x ∉ (s.apply op).deleted := by
  have h1 := consistent_apply h op
  obtain ⟨ha, hd⟩ := apply_delta_of_consistent h op x
  unfold Owners.GetIds
  rw [Finmap.mem_keys, Finmap.mem_keys, ha, hd, mem_owners_iff h, mem_owners_iff h1,
    refCount_apply, refCount_eq_otherCount _ op.client x]
  generalize s.otherCount op.client x = k
  by_cases hn : x ∈ op.owners <;>
    by_cases ho : x ∈ setAt s.clients op.client <;>
    by_cases hk : k = 0 <;>
    simp [hn, ho, hk]

theorem DeleteClient_owners_eq (s : Owners) (c : String) :
    (s.DeleteClient c).state.owners = (s.UpdateClient c ∅).state.owners := by
  apply Finmap.ext_lookup
  intro x
  rw [DeleteClient_lookup, UpdateClient_lookup]
  simp

theorem DeleteClient_deleted_eq (s : Owners) (c : String) :
    (s.DeleteClient c).deleted = (s.UpdateClient c ∅).deleted := by
  ext x
  rw [DeleteClient_deleted, UpdateClient_deleted]
  simp

theorem UpdateClient_empty_added (s : Owners) (c : String) : (s.UpdateClient c ∅).added = ∅ := by
  ext x
  rw [UpdateClient_added]
  simp

theorem mem_iff_of_owners_eq {s t : Owners} (h : s.owners = t.owners) (id : String) :
    s.IsResponsibleFor id = t.IsResponsibleFor id := by
  unfold Owners.IsResponsibleFor
  rw [h]

theorem setAt_UpdateClient_self (s : Owners) (c : String) (S : StringSet) :
    setAt (s.UpdateClient c S).state.clients c = S := by
  rw [UpdateClient_clients, setAt_insert, if_pos rfl]

theorem UpdateClient_same (s : Owners) (c : String) (S : StringSet)
    (h : s.clients.lookup c = some S) :
    s.UpdateClient c S = ⟨s, ∅, ∅⟩ := by
  have hset : setAt s.clients c = S := by unfold setAt; rw [h]; rfl
  have hadd : (s.UpdateClient c S).added = ∅ := by
    ext x
    rw [UpdateClient_added, hset]
    simp only [Finset.not_mem_empty, iff_false]
    tauto
  have hdel : (s.UpdateClient c S).deleted = ∅ := by
    ext x
    rw [UpdateClient_deleted, hset]
    simp only [Finset.not_mem_empty, iff_false]
    tauto
  have hown : (s.UpdateClient c S).state.owners = s.owners := by
    apply Finmap.ext_lookup
    intro x
    rw [UpdateClient_lookup, hset]
    simp
  have hcl : (s.UpdateClient c S).state.clients = s.clients := by
    rw [UpdateClient_clients]
    apply Finmap.ext_lookup
    intro x
    rw [lookup_insert_ite]
    split_ifs with hx
    · rw [hx, h]
    · rfl
  have hst : (s.UpdateClient c S).state = s := by
    cases hs : (s.UpdateClient c S).state with
    | mk o cl =>
      rw [hs] at hown hcl
      simp only at hown hcl
      subst hown hcl
      rfl
  cases hch : s.UpdateClient c S with
  | mk st a d =>
    rw [hch] at hadd hdel hst
    simp only at hadd hdel hst
    subst hadd hdel hst
    rfl

/-! ## The claims about the base registry -/

/-- C1. Reference-count invariant: after any sequence of `UpdateClient` and
`DeleteClient` calls on a fresh registry, the reference table has an entry for
an id exactly when some client's current set contains the id, the stored count
is the number of distinct clients whose current set contains it, and every
stored count is positive. -/
theorem refcount_invariant (ops : List Op) (id : String) :
    (id ∈ (Owners.run ops).owners ↔ ∃ client, id ∈ (Owners.run ops).GetIdsFor client) ∧
    (Owners.run ops).owners.lookup id =
      (if (Owners.run ops).refCount id = 0 then none
       else some ((Owners.run ops).refCount id : Int)) ∧
    countAt (Owners.run ops).owners id = ((Owners.run ops).refCount id : Int) ∧
    (∀ n, (Owners.run ops).owners.lookup id = some n → 0 < n) := by
  have h := consistent_run ops
  refine ⟨?_, h id, countAt_of_consistent h id, ?_⟩
  · rw [mem_owners_iff h, refCount_ne_zero_iff]
    simp only [GetIdsFor_eq]
  · intro n hn
    rw [h id] at hn
    by_cases h0 : (Owners.run ops).refCount id = 0
    · simp [h0] at hn
    · simp only [h0, if_false, Option.some.injEq] at hn
      omega

/-- C2. Set algebra closure at the base: after any sequence of calls on a fresh
registry, `GetIds()` is the union, over the clients, of the set each client
currently asserts (that of its latest `UpdateClient` when no `DeleteClient` of
it followed, the empty set otherwise). -/
theorem getIds_eq_union_of_asserted (ops : List Op) :
    (Owners.run ops).GetIds = (clientsOf ops).biUnion (asserted ops) ∧
    (∀ id, id ∈ (Owners.run ops).GetIds ↔ ∃ client, id ∈ asserted ops client) ∧
    (∀ client, client ∉ clientsOf ops → asserted ops client = ∅) := by
  have hmem : ∀ id, id ∈ (Owners.run ops).GetIds ↔ ∃ client, id ∈ asserted ops client := by
    intro id
    rw [mem_GetIds_iff (consistent_run ops)]
    simp only [setAt_run]
  refine ⟨?_, hmem, asserted_of_not_mem ops⟩
  ext id
  rw [hmem, Finset.mem_biUnion]
  constructor
  · rintro ⟨c, hc⟩
    refine ⟨c, ?_, hc⟩
    by_contra hk
    rw [asserted_of_not_mem ops c hk] at hc
    simp at hc
  · rintro ⟨c, _, hc⟩
    exact ⟨c, hc⟩

/-- C2 on the scenario of the tests: `client1 = {id1, id2}` and
`client2 = {id2, id3}` give `{id1, id2, id3}`; deleting `client1` gives
`{id2, id3}`; deleting both gives the empty set. -/
theorem getIds_two_clients_example :
    (Owners.run [.update "client1" {"id1", "id2"}, .update "client2" {"id2", "id3"}]).GetIds =
      {"id1", "id2", "id3"} ∧
    (Owners.run [.update "client1" {"id1", "id2"}, .update "client2" {"id2", "id3"},
      .delete "client1"]).GetIds = {"id2", "id3"} ∧
    (Owners.run [.update "client1" {"id1", "id2"}, .update "client2" {"id2", "id3"},
      .delete "client1", .delete "client2"]).GetIds = ∅ := by
  decide

/-- C3. Zero-crossing rule: in a state reached from a fresh registry, for every
`UpdateClient` or `DeleteClient` call, an id is in the added delta exactly when
its count is 0 (no entry) before the call and positive after it, and in the
deleted delta exactly when its count is positive before and 0 (no entry) after;
an id whose count is positive before and after is in neither delta. -/
theorem zero_crossing (ops : List Op) (op : Op) (id : String) :
    (id ∈ ((Owners.run ops).apply op).added ↔
      countAt (Owners.run ops).owners id = 0 ∧
        0 < countAt ((Owners.run ops).apply op).state.owners id) ∧
    (id ∈ ((Owners.run ops).apply op).deleted ↔
      0 < countAt (Owners.run ops).owners id ∧
        countAt ((Owners.run ops).apply op).state.owners id = 0) ∧
    (id ∈ ((Owners.run ops).apply op).added ↔
      id ∉ (Owners.run ops).owners ∧ id ∈ ((Owners.run ops).apply op).state.owners) ∧
    (id ∈ ((Owners.run ops).apply op).deleted ↔
      id ∈ (Owners.run ops).owners ∧ id ∉ ((Owners.run ops).apply op).state.owners) ∧
    ((0 < countAt (Owners.run ops).owners id ∧
        0 < countAt ((Owners.run ops).apply op).state.owners id) →
      id ∉ ((Owners.run ops).apply op).added ∧ id ∉ ((Owners.run ops).apply op).deleted) := by
  have h := consistent_run ops
  have h1 := consistent_apply h op
  obtain ⟨ha, hd⟩ := apply_delta_of_consistent h op id
  rw [ha, hd, mem_owners_iff h, mem_owners_iff h1, countAt_of_consistent h,
    countAt_of_consistent h1, refCount_apply, refCount_eq_otherCount _ op.client id]
  generalize (Owners.run ops).otherCount op.client id = k
  by_cases hn : id ∈ op.owners <;>
    by_cases ho : id ∈ setAt (Owners.run ops).clients op.client <;>
    by_cases hk : k = 0 <;>
    simp [hn, ho, hk] <;>
    omega

/-- C3 on the scenario of the tests: with only `client1 = {id1, id2}`,
`UpdateClient(client1, {id3, id2})` yields added `{id3}` and deleted `{id1}`. -/
theorem zero_crossing_example :
    ((Owners.run [.update "client1" {"id1", "id2"}]).UpdateClient "client1"
      {"id3", "id2"}).added = {"id3"} ∧
    ((Owners.run [.update "client1" {"id1", "id2"}]).UpdateClient "client1"
      {"id3", "id2"}).deleted = {"id1"} := by
  decide

/-- C9. Delta of a client deletion: in a state reached from a fresh registry,
`DeleteClient(c)` reports an empty added delta, and its deleted delta is exactly
the ids of the current set of `c` that no other client currently asserts. -/
theorem deleteClient_delta (ops : List Op) (c : String) (id : String) :
    ((Owners.run ops).DeleteClient c).added = ∅ ∧
    (id ∈ ((Owners.run ops).DeleteClient c).deleted ↔
      id ∈ (Owners.run ops).GetIdsFor c ∧
        ∀ client, client ≠ c → id ∉ (Owners.run ops).GetIdsFor client) := by
  refine ⟨rfl, ?_⟩
  have hd := (apply_delta_of_consistent (consistent_run ops) (.delete c) id).2
  simp only [Owners.apply, Op.client, Op.owners, Finset.not_mem_empty, not_false_eq_true,
    true_and] at hd
  rw [hd, otherCount_eq_zero_iff]
  simp only [GetIdsFor_eq]

/-- C9 on the scenario of the tests: `client1 = {id1, id2}`,
`client2 = {id3, id2}`, then `DeleteClient(client1)` gives an empty added delta
and the deleted delta `{id1}`. -/
theorem deleteClient_delta_example :
    ((Owners.run [.update "client1" {"id1", "id2"},
      .update "client2" {"id3", "id2"}]).DeleteClient "client1").added = ∅ ∧
    ((Owners.run [.update "client1" {"id1", "id2"},
      .update "client2" {"id3", "id2"}]).DeleteClient "client1").deleted = {"id1"} := by
  decide

/-- C10. Added and deleted are disjoint: in every state of the registry, reachable
or not, the two deltas computed by one `UpdateClient(c, S)` or one
`DeleteClient(c)` have no id in common. -/
theorem added_deleted_disjoint (s : Owners) (c : String) (S : StringSet) :
    Disjoint (s.UpdateClient c S).added (s.UpdateClient c S).deleted ∧
    Disjoint (s.DeleteClient c).added (s.DeleteClient c).deleted := by
  constructor
  · rw [Finset.disjoint_left]
    intro x hx hx1
    rw [UpdateClient_added] at hx
    rw [UpdateClient_deleted] at hx1
    exact hx1.2.1 hx.1
  · rw [DeleteClient_added]
    exact Finset.disjoint_empty_left _

/-- C6. `DeleteClient` is `UpdateClient` with the empty set plus removal of the
entry: in every state of the registry, `DeleteClient(c)` yields the same
reference table and the same (added, deleted) delta as `UpdateClient(c, {})`;
the client tables differ only in that `c` is absent instead of mapped to the
empty set; `GetIds`, `IsResponsibleFor` and `GetIdsFor` agree afterwards. -/
theorem deleteClient_eq_updateClient_empty (s : Owners) (c : String) :
    (s.DeleteClient c).state.owners = (s.UpdateClient c ∅).state.owners ∧
    (s.DeleteClient c).added = (s.UpdateClient c ∅).added ∧
    (s.DeleteClient c).deleted = (s.UpdateClient c ∅).deleted ∧
    (s.DeleteClient c).state.clients = (s.UpdateClient c ∅).state.clients.erase c ∧
    (s.UpdateClient c ∅).state.clients.lookup c = some ∅ ∧
    (s.DeleteClient c).state.clients.lookup c = none ∧
    (∀ client, client ≠ c → (s.DeleteClient c).state.clients.lookup client =
      (s.UpdateClient c ∅).state.clients.lookup client) ∧
    (s.DeleteClient c).state.GetIds = (s.UpdateClient c ∅).state.GetIds ∧
    (∀ id, (s.DeleteClient c).state.IsResponsibleFor id =
      (s.UpdateClient c ∅).state.IsResponsibleFor id) ∧
    (∀ client, (s.DeleteClient c).state.GetIdsFor client =
      (s.UpdateClient c ∅).state.GetIdsFor client) := by
  refine ⟨DeleteClient_owners_eq s c, ?_, DeleteClient_deleted_eq s c, ?_, ?_, ?_, ?_, ?_,
    fun id => mem_iff_of_owners_eq (DeleteClient_owners_eq s c) id, ?_⟩
  · rw [DeleteClient_added, UpdateClient_empty_added]
  · rw [DeleteClient_clients, UpdateClient_clients]
    apply Finmap.ext_lookup
    intro x
    simp only [lookup_erase_ite, lookup_insert_ite]
    split_ifs <;> rfl
  · rw [UpdateClient_clients, Finmap.lookup_insert]
  · rw [DeleteClient_clients, Finmap.lookup_erase]
  · intro client hne
    rw [DeleteClient_clients, UpdateClient_clients, lookup_erase_ite, lookup_insert_ite,
      if_neg hne, if_neg hne]
  · unfold Owners.GetIds
    rw [DeleteClient_owners_eq]
  · intro client
    rw [GetIdsFor_eq, GetIdsFor_eq, DeleteClient_clients, UpdateClient_clients, setAt_erase,
      setAt_insert]

/-- C7. Idempotence of re-assertion: in every state of the registry, a second
`UpdateClient(c, S)` right after `UpdateClient(c, S)` computes an empty added
delta and an empty deleted delta and leaves the reference table and the client
table as they are. -/
theorem updateClient_twice (s : Owners) (c : String) (S : StringSet) :
    ((s.UpdateClient c S).state.UpdateClient c S).added = ∅ ∧
    ((s.UpdateClient c S).state.UpdateClient c S).deleted = ∅ ∧
    ((s.UpdateClient c S).state.UpdateClient c S).state.owners =
      (s.UpdateClient c S).state.owners ∧
    ((s.UpdateClient c S).state.UpdateClient c S).state.clients =
      (s.UpdateClient c S).state.clients := by
  have h : (s.UpdateClient c S).state.clients.lookup c = some S := by
    rw [UpdateClient_clients, Finmap.lookup_insert]
  rw [UpdateClient_same _ c S h]
  exact ⟨rfl, rfl, rfl, rfl⟩

/-! ## The filter layer, pointwise -/

theorem startLoop_spec (accepted : String → Bool) (down C D : StringSet) :
    (∀ x, x ∈ (rangeLoop (Start.body accepted) down (C, D)).1 ↔
      x ∈ C ∨ (x ∈ down ∧ accepted x = true)) ∧
    (∀ x, x ∈ (rangeLoop (Start.body accepted) down (C, D)).2 ↔
      x ∈ D ∨ (x ∈ down ∧ accepted x = false)) := by
  induction down using Finset.induction_on with
  | empty => simp [rangeLoop_empty]
  | @insert a s ha ih =>
    obtain ⟨ih1, ih2⟩ := ih
    rw [rangeLoop_insert _ _ ha]
    generalize rangeLoop (Start.body accepted) s (C, D) = prev at ih1 ih2 ⊢
    unfold Start.body
    cases hacc : accepted a
    · simp only [Bool.false_eq_true, if_false, Finset.mem_insert, ih1, ih2]
      constructor
      · intro x
        by_cases hx : x = a
        · subst hx; simp [hacc]
        · simp [hx]
      · intro x
        by_cases hx : x = a
        · subst hx; simp [hacc]
        · simp [hx]
    · simp only [if_true, Finset.mem_insert, ih1, ih2]
      constructor
      · intro x
        by_cases hx : x = a
        · subst hx; simp [hacc]
        · simp [hx]
      · intro x
        by_cases hx : x = a
        · subst hx; simp [hacc]
        · simp [hx]

theorem changeAddLoop_spec (accepted : String → Bool) (added C A : StringSet) :
    (∀ x, x ∈ (rangeLoop (OwnerSetChanged.addBody accepted) added (C, A)).1 ↔
      x ∈ C ∨ (x ∈ added ∧ accepted x = true)) ∧
    (∀ x, x ∈ (rangeLoop (OwnerSetChanged.addBody accepted) added (C, A)).2 ↔
      x ∈ A ∨ (x ∈ added ∧ accepted x = true)) := by
  induction added using Finset.induction_on with
  | empty => simp [rangeLoop_empty]
  | @insert a s ha ih =>
    obtain ⟨ih1, ih2⟩ := ih
    rw [rangeLoop_insert _ _ ha]
    generalize rangeLoop (OwnerSetChanged.addBody accepted) s (C, A) = prev at ih1 ih2 ⊢
    unfold OwnerSetChanged.addBody
    cases hacc : accepted a
    · simp only [Bool.false_eq_true, if_false, Finset.mem_insert, ih1, ih2]
      constructor
      · intro x
        by_cases hx : x = a
        · subst hx; simp [hacc]
        · simp [hx]
      · intro x
        by_cases hx : x = a
        · subst hx; simp [hacc]
        · simp [hx]
    · simp only [if_true, Finset.mem_insert, ih1, ih2]
      constructor
      · intro x
        by_cases hx : x = a
        · subst hx; simp [hacc]
        · simp [hx]
      · intro x
        by_cases hx : x = a
        · subst hx; simp [hacc]
        · simp [hx]

theorem changeDelLoop_spec (deleted C D : StringSet) :
    (∀ x, x ∈ (rangeLoop OwnerSetChanged.delBody deleted (C, D)).1 ↔ x ∈ C ∧ x ∉ deleted) ∧
    (∀ x, x ∈ (rangeLoop OwnerSetChanged.delBody deleted (C, D)).2 ↔
      x ∈ D ∨ (x ∈ deleted ∧ x ∈ C)) := by
  induction deleted using Finset.induction_on with
  | empty => simp [rangeLoop_empty]
  | @insert a s ha ih =>
    obtain ⟨ih1, ih2⟩ := ih
    rw [rangeLoop_insert _ _ ha]
    generalize rangeLoop OwnerSetChanged.delBody s (C, D) = prev at ih1 ih2 ⊢
    unfold OwnerSetChanged.delBody
    by_cases hmem : a ∈ prev.1
    · have haC : a ∈ C := ((ih1 a).mp hmem).1
      simp only [hmem, if_true, Finset.mem_insert, Finset.mem_erase, ih1, ih2]
      constructor
      · intro x
        by_cases hx : x = a
        · subst hx; simp
        · simp [hx]
      · intro x
        by_cases hx : x = a
        · subst hx; simp [haC]
        · simp [hx]
    · have haC : a ∉ C := fun h => hmem ((ih1 a).mpr ⟨h, ha⟩)
      simp only [hmem, if_false, Finset.mem_insert, ih1, ih2]
      constructor
      · intro x
        by_cases hx : x = a
        · subst hx; simp [haC]
        · simp [hx]
      · intro x
        by_cases hx : x = a
        · subst hx; simp [haC, ha]
        · simp [hx]

theorem startSets_spec (accepted : String → Bool) (down : StringSet) (x : String) :
    (x ∈ (FilteredLayer.startSets accepted down).1 ↔ x ∈ down ∧ accepted x = true) ∧
    (x ∈ (FilteredLayer.startSets accepted down).2 ↔ x ∈ down ∧ accepted x = false) := by
  unfold FilteredLayer.startSets
  rw [(startLoop_spec accepted down ∅ ∅).1 x, (startLoop_spec accepted down ∅ ∅).2 x]
  simp

theorem changeSets_spec (accepted : String → Bool) (cache added deleted : StringSet)
    (x : String) :
    (x ∈ (FilteredLayer.changeSets accepted cache added deleted).1 ↔
      (x ∈ cache ∨ (x ∈ added ∧ accepted x = true)) ∧ x ∉ deleted) ∧
    (x ∈ (FilteredLayer.changeSets accepted cache added deleted).2.1 ↔
      x ∈ added ∧ accepted x = true) ∧
    (x ∈ (FilteredLayer.changeSets accepted cache added deleted).2.2 ↔
      x ∈ deleted ∧ (x ∈ cache ∨ (x ∈ added ∧ accepted x = true))) := by
  unfold FilteredLayer.changeSets
  simp only []
  rw [(changeDelLoop_spec _ _ _).1 x, (changeDelLoop_spec _ _ _).2 x,
    (changeAddLoop_spec _ _ _ _).1 x, (changeAddLoop_spec _ _ _ _).2 x]
  simp

/-! ## Calls on the one-layer stack and on the stack of a base and a filter -/

theorem OwnerSetChanged_external
    (notify : OwnerStack → Nat → StringSet → StringSet → Option OwnerStack)
    (a d : StringSet) (st : OwnerStack) (h : Nat) :
    OwnerHandler.OwnerSetChanged notify a d st (.external h) =
      some { st with events := st.events ++ [⟨h, a, d⟩] } := rfl

theorem OwnerSetChanged_filtered
    (notify : OwnerStack → Nat → StringSet → StringSet → Option OwnerStack)
    (a d : StringSet) (st : OwnerStack) (l : Nat) :
    OwnerHandler.OwnerSetChanged notify a d st (.filtered l) =
      FilteredLayer.OwnerSetChanged notify st l a d := rfl

theorem OwnerSetChanged_link
    (notify : OwnerStack → Nat → StringSet → StringSet → Option OwnerStack)
    (a d : StringSet) (st : OwnerStack) (l : Nat) :
    OwnerHandler.OwnerSetChanged notify a d st (.link l) =
      OwnerLink.OwnerSetChanged notify st l a d := rfl

theorem foldlM_external
    (notify : OwnerStack → Nat → StringSet → StringSet → Option OwnerStack)
    (a d : StringSet) (hs : List Nat) (st : OwnerStack) :
    (hs.map OwnerHandler.external).foldlM
        (fun st h => OwnerHandler.OwnerSetChanged notify a d st h) st =
      some { st with events := st.events ++ hs.map (fun h => ⟨h, a, d⟩) } := by
  induction hs generalizing st with
  | nil => simp
  | cons h hs ih =>
    rw [List.map_cons, List.foldlM_cons, OwnerSetChanged_external]
    simp only [Option.bind_eq_bind, Option.some_bind, ih, List.append_assoc,
      List.singleton_append, List.map_cons]

theorem notify_baseStack (n : Nat) (o : Owners) (hs : List Nat) (ev : List Event)
    (a d : StringSet) :
    OwnerLayerAccess.notify (n + 1) (baseStack o hs ev) 0 a d =
      some (baseStack o hs (ev ++ hs.map (fun h => ⟨h, a, d⟩))) := by
  simp only [OwnerLayerAccess.notify, baseStack, List.getElem?_cons_zero, foldlM_external]

theorem Owners_notify_baseStack (n : Nat) (o : Owners) (hs : List Nat) (ev : List Event)
    (a d : StringSet) :
    Owners.notify (n + 1) (baseStack o hs ev) 0 a d =
      some (baseStack o hs (ev ++ hs.map (fun h => ⟨h, a, d⟩))) := by
  have h := notify_baseStack n o hs ev a d
  simp only [baseStack] at h
  simp only [Owners.notify, OwnerLink.OwnerSetChanged, baseStack, List.getElem?_cons_zero, h]

theorem apply_baseStack (n : Nat) (o : Owners) (hs : List Nat) (ev : List Event) (op : Op) :
    OwnerStack.apply (n + 1) 0 (baseStack o hs ev) op =
      some (baseStack (o.apply op).state hs
        (ev ++ hs.map (fun h => ⟨h, (o.apply op).added, (o.apply op).deleted⟩))) := by
  cases op with
  | update c S =>
    have h := Owners_notify_baseStack n (o.UpdateClient c S).state hs ev
      (o.UpdateClient c S).added (o.UpdateClient c S).deleted
    simp only [baseStack] at h
    simp only [OwnerStack.apply, OwnerStack.UpdateClient, baseStack, List.getElem?_cons_zero,
      List.set_cons_zero, h, Owners.apply]
  | delete c =>
    have h := Owners_notify_baseStack n (o.DeleteClient c).state hs ev
      (o.DeleteClient c).added (o.DeleteClient c).deleted
    simp only [baseStack] at h
    simp only [OwnerStack.apply, OwnerStack.DeleteClient, baseStack, List.getElem?_cons_zero,
      List.set_cons_zero, h, Owners.apply]

theorem Owners_notify_filterStack (n : Nat) (accepted : String → Bool) (o : Owners)
    (cache : StringSet) (hs : List Nat) (ev : List Event) (a d : StringSet) :
    Owners.notify (n + 2) (filterStack accepted o cache hs ev) 0 a d =
      some (filterStack accepted o (FilteredLayer.changeSets accepted cache a d).1 hs
        (ev ++ filterEvents accepted cache a d hs)) := by
  unfold filterEvents
  by_cases hne : 0 < (FilteredLayer.changeSets accepted cache a d).2.2.card ∨
      0 < (FilteredLayer.changeSets accepted cache a d).2.1.card
  · simp only [Owners.notify, OwnerLink.OwnerSetChanged, filterStack, OwnerLayerAccess.notify,
      List.getElem?_cons_zero, List.getElem?_cons_succ, List.foldlM_cons, List.foldlM_nil,
      OwnerSetChanged_filtered, FilteredLayer.OwnerSetChanged, hne, if_true,
      List.set_cons_succ, List.set_cons_zero, foldlM_external, Option.bind_eq_bind,
      Option.some_bind, Option.bind_some, Option.pure_def]
  · simp only [Owners.notify, OwnerLink.OwnerSetChanged, filterStack, OwnerLayerAccess.notify,
      List.getElem?_cons_zero, List.getElem?_cons_succ, List.foldlM_cons, List.foldlM_nil,
      OwnerSetChanged_filtered, FilteredLayer.OwnerSetChanged, hne, if_false,
      List.set_cons_succ, List.set_cons_zero, Option.bind_eq_bind,
      Option.some_bind, Option.bind_some, Option.pure_def, List.append_nil]

theorem apply_filterStack (n : Nat) (accepted : String → Bool) (o : Owners)
    (cache : StringSet) (hs : List Nat) (ev : List Event) (op : Op) :
    OwnerStack.apply (n + 2) 0 (filterStack accepted o cache hs ev) op =
      some (filterStack accepted (o.apply op).state
        (FilteredLayer.changeSets accepted cache (o.apply op).added (o.apply op).deleted).1 hs
        (ev ++ filterEvents accepted cache (o.apply op).added (o.apply op).deleted hs)) := by
  cases op with
  | update c S =>
    have h := Owners_notify_filterStack n accepted (o.UpdateClient c S).state cache hs ev
      (o.UpdateClient c S).added (o.UpdateClient c S).deleted
    simp only [filterStack] at h
    simp only [OwnerStack.apply, OwnerStack.UpdateClient, filterStack, List.getElem?_cons_zero,
      List.set_cons_zero, h, Owners.apply]
  | delete c =>
    have h := Owners_notify_filterStack n accepted (o.DeleteClient c).state cache hs ev
      (o.DeleteClient c).added (o.DeleteClient c).deleted
    simp only [filterStack] at h
    simp only [OwnerStack.apply, OwnerStack.DeleteClient, filterStack, List.getElem?_cons_zero,
      List.set_cons_zero, h, Owners.apply]

theorem NewOwners_eq : NewOwners.1 = baseStack Owners.new [] [] := rfl

theorem startSets_empty (accepted : String → Bool) :
    FilteredLayer.startSets accepted ∅ = (∅, ∅) := rfl

theorem InserLayer_baseStack (n : Nat) (accepted : String → Bool) (o : Owners)
    (hs : List Nat) (ev : List Event) :
    OwnerStack.InserLayer (n + 1) (baseStack o hs ev) 0 (FilteredLayerCreator accepted) =
      some (filterStack accepted o ∅ hs ev, some 0) := by
  simp [OwnerStack.InserLayer, InserLayer.search, InserLayer.seed, baseStack, filterStack,
    OwnerLayer.Start,
    FilteredLayer.Start, FilteredLayerCreator, NewFilteredLayer, startSets_empty,
    OwnerLayerAccess.RegisterHandler, OwnerLayerAccess.registerHandler]

theorem GetIds_filterStack (n : Nat) (accepted : String → Bool) (o : Owners)
    (cache : StringSet) (hs : List Nat) (ev : List Event) :
    OwnerStack.GetIds (n + 1) (filterStack accepted o cache hs ev) = some cache := by
  simp [OwnerStack.GetIds, OwnerLayerAccess.GetIds, filterStack]

theorem IsResponsibleFor_filterStack (n : Nat) (accepted : String → Bool) (o : Owners)
    (cache : StringSet) (hs : List Nat) (ev : List Event) (id : String) :
    OwnerStack.IsResponsibleFor (n + 1) (filterStack accepted o cache hs ev) id =
      some (decide (id ∈ cache)) := by
  simp [OwnerStack.IsResponsibleFor, OwnerLayerAccess.IsResponsibleFor, filterStack]

theorem GetIdsAt_filterStack (accepted : String → Bool) (o : Owners)
    (cache : StringSet) (hs : List Nat) (ev : List Event) :
    Owners.GetIdsAt (filterStack accepted o cache hs ev) 0 = some o.GetIds := by
  simp [Owners.GetIdsAt, filterStack]

/-- Running client calls on the stack of a base and a filter keeps its shape;
when the base tables are consistent and the cache is the accepted part of the
active ids, this stays so. -/
theorem run_filterStack (n : Nat) (accepted : String → Bool) (ops : List Op) (o : Owners)
    (cache : StringSet) (hs : List Nat) (ev : List Event) (ho : o.Consistent)
    (hc : cache = o.GetIds.filter (fun id => accepted id = true)) :
    ∃ ev1, OwnerStack.run (n + 2) 0 (filterStack accepted o cache hs ev) ops =
      some (filterStack accepted (o.runFrom ops)
        ((o.runFrom ops).GetIds.filter (fun id => accepted id = true)) hs ev1) := by
  induction ops generalizing o cache ev with
  | nil =>
    subst hc
    exact ⟨ev, rfl⟩
  | cons op ops ih =>
    have hstep := apply_filterStack n accepted o cache hs ev op
    have hc1 : (FilteredLayer.changeSets accepted cache (o.apply op).added
        (o.apply op).deleted).1 =
        (o.apply op).state.GetIds.filter (fun id => accepted id = true) := by
      ext x
      rw [(changeSets_spec accepted cache _ _ x).1, Finset.mem_filter, mem_GetIds_apply ho,
        hc, Finset.mem_filter]
      by_cases hx : accepted x = true <;> simp [hx]
    obtain ⟨ev1, h1⟩ := ih (o.apply op).state _ _ (consistent_apply ho op) hc1
    refine ⟨ev1, ?_⟩
    simp only [OwnerStack.run, List.foldlM_cons, hstep, Option.bind_eq_bind, Option.some_bind]
    exact h1

/-! ## The claims about the stack -/

/-- C4, evaluated on the code. With `client1 = {id1, id2, id3}` asserted on the
base registry and a filter accepting `{id2, id3}` then inserted at the top
access, the base layer holds `{id1, id2, id3}` but `GetIds()` at the top access
is empty right after the insertion, not `{id2, id3}`: `InserLayer` takes the
seed from `pos.down`, which is nil for the base layer, so `Start` is called with
the empty set. `FilterChanged()` on the new layer, which reads `this.down`,
does arrive at `{id2, id3}`. -/
theorem inserLayer_seed_on_populated_base :
    ((OwnerStack.UpdateClient 1 NewOwners.1 NewOwners.2 "client1" {"id1", "id2", "id3"}).bind
      (fun st => (OwnerStack.InserLayer 1 st st.access
        (FilteredLayerCreator (Contains {"id2", "id3"}))).bind
        (fun r => OwnerStack.GetIds 1 r.1))) = some ∅ ∧
    ((OwnerStack.UpdateClient 1 NewOwners.1 NewOwners.2 "client1" {"id1", "id2", "id3"}).bind
      (fun st => (OwnerStack.InserLayer 1 st st.access
        (FilteredLayerCreator (Contains {"id2", "id3"}))).bind
        (fun r => Owners.GetIdsAt r.1 NewOwners.2))) = some {"id1", "id2", "id3"} ∧
    ({"id1", "id2", "id3"} : StringSet).filter (fun id => Contains {"id2", "id3"} id = true) =
      {"id2", "id3"} ∧
    (((OwnerStack.UpdateClient 1 NewOwners.1 NewOwners.2 "client1" {"id1", "id2", "id3"}).bind
      (fun st => (OwnerStack.InserLayer 1 st st.access
        (FilteredLayerCreator (Contains {"id2", "id3"}))).bind
        (fun r => (FilteredLayer.FilterChanged 1 r.1 1).bind
          (fun st => OwnerStack.GetIds 1 st)))).getD ∅) = {"id2", "id3"} := by
  decide

/-- C5. Filtered view after insertion on a fresh stack: when a filter with the
fixed predicate `accepted` is inserted at the top access of a fresh stack, then
after any sequence of `UpdateClient` and `DeleteClient` calls on the base
registry (all calls return), `GetIds()` at the top access is the set of ids of
the base registry's `GetIds()` that `accepted` accepts, and `IsResponsibleFor(id)`
at the top is true exactly for the ids of that set. -/
theorem filtered_view_on_fresh_stack (accepted : String → Bool) (ops : List Op) (n : Nat)
    (id : String) :
    ∃ st1 st2 base,
      OwnerStack.InserLayer (n + 2) NewOwners.1 NewOwners.1.access
        (FilteredLayerCreator accepted) = some (st1, some NewOwners.1.access) ∧
      OwnerStack.run (n + 2) NewOwners.2 st1 ops = some st2 ∧
      Owners.GetIdsAt st2 NewOwners.2 = some base ∧
      base = (Owners.run ops).GetIds ∧
      OwnerStack.GetIds (n + 2) st2 = some (base.filter (fun id => accepted id = true)) ∧
      OwnerStack.IsResponsibleFor (n + 2) st2 id =
        some (decide (id ∈ base.filter (fun id => accepted id = true))) := by
  obtain ⟨ev1, hrun⟩ := run_filterStack n accepted ops Owners.new ∅ [] [] consistent_new
    (by simp [Owners.new, Owners.GetIds])
  refine ⟨_, _, _, ?_, hrun, GetIdsAt_filterStack _ _ _ _ _, rfl, GetIds_filterStack _ _ _ _ _ _,
    IsResponsibleFor_filterStack _ _ _ _ _ _ _⟩
  exact InserLayer_baseStack (n + 1) accepted Owners.new [] []

/-- C5 on the scenario of the tests: filter `{id2, id3}`, `client1 = {id1, id2}`,
`client2 = {id3, id2}` gives `{id2, id3}` at the top. -/
theorem filtered_view_example :
    (((OwnerStack.InserLayer 2 NewOwners.1 NewOwners.1.access
        (FilteredLayerCreator (Contains {"id2", "id3"}))).bind
      (fun r => (OwnerStack.run 2 NewOwners.2 r.1
        [.update "client1" {"id1", "id2"}, .update "client2" {"id3", "id2"}]).bind
        (OwnerStack.GetIds 2))).getD ∅) = {"id2", "id3"} := by
  decide

/-- C8 as stated fails: with one observer registered at the top access of a
one-layer stack, the second of two identical `UpdateClient` calls does call the
observer, with two empty sets. -/
theorem second_updateClient_notifies :
    ((OwnerLayerAccess.RegisterHandler NewOwners.1 NewOwners.1.access (.external 7)).bind
      (fun st => (OwnerStack.UpdateClient 1 st NewOwners.2 "client1" {"id1"}).bind
        (fun st => OwnerStack.UpdateClient 1 st NewOwners.2 "client1" {"id1"}))).map
        (fun st => st.events) =
      some [⟨7, {"id1"}, ∅⟩, ⟨7, ∅, ∅⟩] := by
  decide

/-- On a one-layer stack with any base tables and any observers registered at
the top access, a second `UpdateClient(c, S)` right after `UpdateClient(c, S)`
calls `OwnerSetChanged` exactly once on every registered observer, in
registration order, with an empty added and an empty deleted set, and changes
nothing else: the base registry notifies without looking at the delta. -/
theorem second_updateClient_baseStack (o : Owners) (hs : List Nat) (ev : List Event)
    (c : String) (S : StringSet) (n : Nat) :
    ∃ ev1,
      OwnerStack.UpdateClient (n + 1) (baseStack o hs ev) 0 c S =
        some (baseStack (o.UpdateClient c S).state hs ev1) ∧
      OwnerStack.UpdateClient (n + 1) (baseStack (o.UpdateClient c S).state hs ev1) 0 c S =
        some (baseStack (o.UpdateClient c S).state hs
          (ev1 ++ hs.map (fun h => ⟨h, ∅, ∅⟩))) := by
  refine ⟨_, apply_baseStack n o hs ev (.update c S), ?_⟩
  have h := apply_baseStack n (o.UpdateClient c S).state hs
    (ev ++ hs.map (fun h => ⟨h, (o.UpdateClient c S).added, (o.UpdateClient c S).deleted⟩))
    (.update c S)
  have hl : (o.UpdateClient c S).state.clients.lookup c = some S := by
    rw [UpdateClient_clients, Finmap.lookup_insert]
  simp only [OwnerStack.apply, Owners.apply, UpdateClient_same _ c S hl] at h
  exact h

/-! ## Queries of the base registry -/

theorem asserted_append (ops : List Op) (op : Op) :
    asserted (ops ++ [op]) = assertedStep (asserted ops) op := by
  unfold asserted
  rw [List.foldl_append]
  rfl

theorem lastCall_append (ops : List Op) (op : Op) (c : String) :
    lastCall (ops ++ [op]) c = if op.client = c then some op else lastCall ops c := by
  unfold lastCall
  rw [List.reverse_append, List.reverse_singleton, List.singleton_append, List.find?_cons]
  by_cases h : op.client = c <;> simp [h]

theorem asserted_eq_lastAsserted (ops : List Op) (c : String) :
    asserted ops c = lastAsserted ops c := by
  induction ops using List.reverseRecOn with
  | nil => rfl
  | append_singleton ops op ih =>
    rw [asserted_append]
    unfold lastAsserted
    rw [lastCall_append]
    cases op with
    | update c1 S =>
      by_cases h : c1 = c
      · subst h; simp [assertedStep, Op.client]
      · have h' : c ≠ c1 := fun e => h e.symm
        simp only [assertedStep, Op.client, h, if_false, Function.update_noteq h']
        exact ih
    | delete c1 =>
      by_cases h : c1 = c
      · subst h; simp [assertedStep, Op.client]
      · have h' : c ≠ c1 := fun e => h e.symm
        simp only [assertedStep, Op.client, h, if_false, Function.update_noteq h']
        exact ih

/-- C11. `IsResponsibleFor` at the base: in every state reached from a fresh
registry, `IsResponsibleFor(id)` is true exactly when `id` has a positive
reference count, exactly when `id` is a member of `GetIds()`, and exactly when
some client currently asserts `id` (in its stored set, which is its last
asserted set). -/
theorem isResponsibleFor_iff (ops : List Op) (id : String) :
    ((Owners.run ops).IsResponsibleFor id = true ↔ 0 < countAt (Owners.run ops).owners id) ∧
    ((Owners.run ops).IsResponsibleFor id = true ↔ id ∈ (Owners.run ops).GetIds) ∧
    ((Owners.run ops).IsResponsibleFor id = true ↔
      ∃ client, id ∈ (Owners.run ops).GetIdsFor client) ∧
    ((Owners.run ops).IsResponsibleFor id = true ↔ ∃ client, id ∈ lastAsserted ops client) := by
  have h := consistent_run ops
  have hresp : (Owners.run ops).IsResponsibleFor id = true ↔ id ∈ (Owners.run ops).owners := by
    unfold Owners.IsResponsibleFor
    simp
  have hex : id ∈ (Owners.run ops).owners ↔
      ∃ client, id ∈ setAt (Owners.run ops).clients client := by
    rw [mem_owners_iff h, refCount_ne_zero_iff]
  refine ⟨?_, ?_, ?_, ?_⟩
  · rw [hresp, mem_owners_iff h, countAt_of_consistent h]
    simp only [Nat.cast_pos]
    omega
  · rw [hresp]
    unfold Owners.GetIds
    rw [Finmap.mem_keys]
  · rw [hresp, hex]
    simp only [GetIdsFor_eq]
  · rw [hresp, hex]
    simp only [setAt_run, asserted_eq_lastAsserted]

/-- C12. `GetIdsFor` returns the last asserted set: after any sequence of calls on
a fresh registry, `GetIdsFor(c)` is the set passed to the most recent
`UpdateClient(c, .)` when no `DeleteClient(c)` came after it and the empty set
otherwise; a call on one client leaves `GetIdsFor` of every other client as it
was. -/
theorem getIdsFor_eq_lastAsserted (ops : List Op) (c : String) (op : Op) (c' : String) :
    (Owners.run ops).GetIdsFor c = lastAsserted ops c ∧
    (c' ≠ op.client →
      ((Owners.run ops).apply op).state.GetIdsFor c' = (Owners.run ops).GetIdsFor c') := by
  constructor
  · rw [GetIdsFor_eq, setAt_run, asserted_eq_lastAsserted]
  · intro hne
    rw [GetIdsFor_eq, GetIdsFor_eq, setAt_apply]
    cases op with
    | update c1 S => simp only [assertedStep, Op.client] at hne ⊢; rw [Function.update_noteq hne]
    | delete c1 => simp only [assertedStep, Op.client] at hne ⊢; rw [Function.update_noteq hne]

/-- C12 on a concrete sequence: the set of `client1` is replaced by its second
`UpdateClient`, that of `client2` is emptied by its `DeleteClient`, and
`client3` was never seen. -/
theorem getIdsFor_example :
    (Owners.run [.update "client1" {"id1", "id2"}, .update "client2" {"id3"},
      .update "client1" {"id2"}, .delete "client2"]).GetIdsFor "client1" = {"id2"} ∧
    (Owners.run [.update "client1" {"id1", "id2"}, .update "client2" {"id3"},
      .update "client1" {"id2"}, .delete "client2"]).GetIdsFor "client2" = ∅ ∧
    (Owners.run [.update "client1" {"id1", "id2"}, .update "client2" {"id3"},
      .update "client1" {"id2"}, .delete "client2"]).GetIdsFor "client3" = ∅ ∧
    lastAsserted [.update "client1" {"id1", "id2"}, .update "client2" {"id3"},
      .update "client1" {"id2"}, .delete "client2"] "client1" = {"id2"} := by
  decide

/-! ## The filter layer, as sets -/

theorem startSets_eq (accepted : String → Bool) (D : StringSet) :
    FilteredLayer.startSets accepted D =
      (D.filter (fun id => accepted id = true), D.filter (fun id => accepted id = false)) := by
  apply Prod.ext
  · ext x
    rw [(startSets_spec accepted D x).1, Finset.mem_filter]
  · ext x
    rw [(startSets_spec accepted D x).2, Finset.mem_filter]

theorem changeSets_eq (accepted : String → Bool) (C added deleted : StringSet)
    (hdisj : Disjoint added deleted) :
    FilteredLayer.changeSets accepted C added deleted =
      ((C ∪ added.filter (fun id => accepted id = true)) \ deleted.filter (fun id => id ∈ C),
        added.filter (fun id => accepted id = true), deleted.filter (fun id => id ∈ C)) := by
  have hd : ∀ x, x ∈ deleted → x ∉ added := fun x hx hx' =>
    Finset.disjoint_left.mp hdisj hx' hx
  refine Prod.ext ?_ (Prod.ext ?_ ?_)
  · ext x
    rw [(changeSets_spec accepted C added deleted x).1]
    simp only [Finset.mem_sdiff, Finset.mem_union, Finset.mem_filter, not_and]
    constructor
    · rintro ⟨h1, h2⟩
      exact ⟨h1, fun h => absurd h h2⟩
    · rintro ⟨h1, h2⟩
      refine ⟨h1, fun hx => ?_⟩
      rcases h1 with h1 | h1
      · exact h2 hx h1
      · exact hd x hx h1.1
  · ext x
    rw [(changeSets_spec accepted C added deleted x).2.1, Finset.mem_filter]
  · ext x
    rw [(changeSets_spec accepted C added deleted x).2.2, Finset.mem_filter]
    constructor
    · rintro ⟨h1, h2⟩
      rcases h2 with h2 | h2
      · exact ⟨h1, h2⟩
      · exact absurd h2.1 (hd x h1)
    · rintro ⟨h1, h2⟩
      exact ⟨h1, Or.inl h2⟩

theorem filterChangedLoop_spec (accepted : String → Bool) (cur ids C A D : StringSet) :
    (∀ x, x ∈ (rangeLoop (FilterChanged.body accepted cur) ids (C, A, D)).1 ↔
      x ∈ C ∨ (x ∈ ids ∧ accepted x = true)) ∧
    (∀ x, x ∈ (rangeLoop (FilterChanged.body accepted cur) ids (C, A, D)).2.1 ↔
      x ∈ A ∨ (x ∈ ids ∧ accepted x = true ∧ x ∉ cur)) ∧
    (∀ x, x ∈ (rangeLoop (FilterChanged.body accepted cur) ids (C, A, D)).2.2 ↔
      x ∈ D ∨ (x ∈ ids ∧ accepted x = false ∧ x ∈ cur)) := by
  induction ids using Finset.induction_on with
  | empty => simp [rangeLoop_empty]
  | @insert a s ha ih =>
    obtain ⟨ih1, ih2, ih3⟩ := ih
    rw [rangeLoop_insert _ _ ha]
    generalize rangeLoop (FilterChanged.body accepted cur) s (C, A, D) = prev at ih1 ih2 ih3 ⊢
    unfold FilterChanged.body
    cases hacc : accepted a <;> by_cases hcur : a ∈ cur <;>
      simp only [Bool.false_eq_true, if_false, if_true, hcur, Finset.mem_insert, ih1, ih2, ih3] <;>
      refine ⟨fun x => ?_, fun x => ?_, fun x => ?_⟩ <;>
      by_cases hx : x = a <;>
      first
        | (subst hx; simp [hacc, hcur])
        | simp [hx]

theorem filterChangedSets_eq (accepted : String → Bool) (C D : StringSet) :
    FilteredLayer.filterChangedSets accepted C D =
      (D.filter (fun id => accepted id = true),
        D.filter (fun id => accepted id = true) \ C,
        (C \ D.filter (fun id => accepted id = true)) ∩ D) := by
  unfold FilteredLayer.filterChangedSets
  obtain ⟨h1, h2, h3⟩ := filterChangedLoop_spec accepted C D ∅ ∅ ∅
  refine Prod.ext ?_ (Prod.ext ?_ ?_)
  · ext x
    rw [h1 x]
    simp
  · ext x
    rw [h2 x]
    simp only [Finset.not_mem_empty, false_or, Finset.mem_sdiff, Finset.mem_filter]
    tauto
  · ext x
    rw [h3 x]
    simp only [Finset.not_mem_empty, false_or, Finset.mem_inter, Finset.mem_sdiff,
      Finset.mem_filter, not_and, Bool.not_eq_true]
    tauto

theorem card_pos_or_iff (a d : StringSet) :
    (0 < d.card ∨ 0 < a.card) ↔ ¬ (d = ∅ ∧ a = ∅) := by
  rw [Finset.card_pos, Finset.card_pos, Finset.nonempty_iff_ne_empty,
    Finset.nonempty_iff_ne_empty]
  tauto

/-! ## The claims about the filter layer and the seed of an insertion -/

/-- C16, evaluated on the code. With `client1 = {id1, id2, id3}` asserted on a
one-layer stack, `InserLayer` at the top access hands the empty set to `Start`,
while `GetIds()` at the new layer's downstream access (`NextLayer()` of the top
after the call) is `{id1, id2, id3}`. With a filter accepting `{id2, id3}`
inserted on a fresh stack, the same client asserted, and a second filter
accepting everything inserted at the top, `Start` is handed `{id1, id2, id3}`,
the ids of the base, while `{id2, id3}` is visible at the new layer's downstream
access; the top then shows `id1`, which the first filter rejects. -/
theorem inserLayer_seed_is_one_layer_too_low :
    ((OwnerStack.UpdateClient 1 NewOwners.1 NewOwners.2 "client1" {"id1", "id2", "id3"}).bind
      (fun st => InserLayer.seedAt 1 st st.access)) = some ∅ ∧
    (((OwnerStack.UpdateClient 1 NewOwners.1 NewOwners.2 "client1" {"id1", "id2", "id3"}).bind
      (fun st => (OwnerStack.InserLayer 1 st st.access DummyLayerCreator).bind
        (fun r => (OwnerLayerAccess.NextLayer r.1 r.1.access).bind
          (fun next => next.bind (OwnerLayerAccess.GetIds r.1 1))))).getD ∅) =
        {"id1", "id2", "id3"} ∧
    (((OwnerStack.InserLayer 2 NewOwners.1 NewOwners.1.access
        (FilteredLayerCreator (Contains {"id2", "id3"}))).bind
      (fun r => (OwnerStack.UpdateClient 2 r.1 NewOwners.2 "client1" {"id1", "id2", "id3"}).bind
        (fun st => InserLayer.seedAt 2 st st.access))).getD ∅) = {"id1", "id2", "id3"} ∧
    (((OwnerStack.InserLayer 2 NewOwners.1 NewOwners.1.access
        (FilteredLayerCreator (Contains {"id2", "id3"}))).bind
      (fun r => (OwnerStack.UpdateClient 2 r.1 NewOwners.2 "client1" {"id1", "id2", "id3"}).bind
        (fun st => (OwnerStack.InserLayer 2 st st.access
          (FilteredLayerCreator (fun _ => true))).bind
          (fun r => (OwnerLayerAccess.NextLayer r.1 r.1.access).bind
            (fun next => next.bind (OwnerLayerAccess.GetIds r.1 2)))))).getD ∅) =
        {"id2", "id3"} ∧
    (((OwnerStack.InserLayer 2 NewOwners.1 NewOwners.1.access
        (FilteredLayerCreator (Contains {"id2", "id3"}))).bind
      (fun r => (OwnerStack.UpdateClient 2 r.1 NewOwners.2 "client1" {"id1", "id2", "id3"}).bind
        (fun st => (OwnerStack.InserLayer 2 st st.access
          (FilteredLayerCreator (fun _ => true))).bind
          (fun r => OwnerStack.GetIds 2 r.1)))).getD ∅) = {"id1", "id2", "id3"} := by
  decide

/-- C17. No events during insertion of a filter above the base: on a one-layer
stack with any base tables and any observers registered at the top access,
`InserLayer(stack.Access(), FilteredLayerCreator(accepted))` returns the top
access, calls no observer (the log of calls is as before) and leaves the
observers registered at the top access. -/
theorem no_events_on_filter_insertion (o : Owners) (hs : List Nat) (ev : List Event)
    (accepted : String → Bool) (n : Nat) :
    ∃ st1,
      OwnerStack.InserLayer (n + 1) (baseStack o hs ev) (baseStack o hs ev).access
        (FilteredLayerCreator accepted) = some (st1, some (baseStack o hs ev).access) ∧
      st1.events = ev ∧
      st1.accesses[st1.access]?.map (fun a => a.handlers) =
        some (hs.map OwnerHandler.external) :=
  ⟨_, InserLayer_baseStack n accepted o hs ev, rfl, rfl⟩

/-- C18. `FilteredLayer.Start`: for a filter with predicate `accepted` and any
earlier cache, `Start(D)` sets the cache to the accepted ids of `D`, reports no
added id, calls the upward link exactly once, with an empty added set and the
rejected ids of `D` as deleted set, when there is a rejected id in `D`, does not
call it otherwise, and returns the filter itself as handler. -/
theorem filteredLayer_start (fuel : Nat) (st : OwnerStack) (this : Nat) (D : StringSet)
    (lup : Nat) (accepted : String → Bool) (cache : StringSet) (up : Nat)
    (down ldown : Option Nat)
    (hlink : st.links[this]? = some ⟨lup, .filtered accepted cache up down, ldown⟩) :
    FilteredLayer.Start fuel st this D =
      if D.filter (fun id => accepted id = false) = ∅ then
        some ({ st with
                links := st.links.set this
                  ⟨lup, .filtered accepted (D.filter (fun id => accepted id = true)) up down,
                    ldown⟩ },
              some (.filtered this))
      else
        (OwnerLink.OwnerSetChanged (OwnerLayerAccess.notify fuel)
          { st with
            links := st.links.set this
              ⟨lup, .filtered accepted (D.filter (fun id => accepted id = true)) up down,
                ldown⟩ }
          up ∅ (D.filter (fun id => accepted id = false))).map
          (fun st2 => (st2, some (.filtered this))) := by
  unfold FilteredLayer.Start
  rw [hlink]
  simp only [startSets_eq, Finset.card_pos, Finset.nonempty_iff_ne_empty]
  by_cases h : D.filter (fun id => accepted id = false) = ∅
  · simp only [h, ne_eq, not_true_eq_false, if_false, if_true]
  · simp only [h, ne_eq, not_false_eq_true, if_true, if_false]
    cases OwnerLink.OwnerSetChanged (OwnerLayerAccess.notify fuel) _ up ∅ _ <;> rfl

/-- C18 on a concrete stack: a filter accepting `{id2, id3}` with cache `{id3}`
above the base, one observer at the top; `Start({id1, id2})` sets the cache to
`{id2}`, and the observer receives exactly one call, with no added id and
`{id1}` deleted. -/
theorem filteredLayer_start_example :
    (FilteredLayer.Start 1 (filterStack (Contains {"id2", "id3"}) Owners.new {"id3"} [7] []) 1
      {"id1", "id2"}).map (fun r => (OwnerStack.GetIds 1 r.1, r.1.events, r.2)) =
      some (some {"id2"}, [⟨7, ∅, {"id1"}⟩], some (.filtered 1)) := by
  rw [filteredLayer_start 1 (filterStack (Contains {"id2", "id3"}) Owners.new {"id3"} [7] []) 1
    {"id1", "id2"} 0 (Contains {"id2", "id3"}) {"id3"} 1 (some 1) (some 1) rfl]
  decide

/-- C19. `FilteredLayer.OwnerSetChanged` step: for a filter with cache `C` and
predicate `accepted`, and an incoming delta with disjoint `added` and `deleted`,
the outgoing added delta is the accepted ids of `added`, the outgoing deleted
delta is the ids of `deleted` that were in `C`, the new cache is `C` with the
outgoing added ids put in and the outgoing deleted ids taken out, a rejected id
is not in the outgoing added delta and is in the new cache only when it was in
`C`, and the upward link is called exactly once when an outgoing delta is
non-empty and not at all otherwise. -/
theorem filteredLayer_ownerSetChanged
    (notify : OwnerStack → Nat → StringSet → StringSet → Option OwnerStack)
    (st : OwnerStack) (this : Nat) (added deleted : StringSet)
    (lup : Nat) (accepted : String → Bool) (C : StringSet) (up : Nat) (down ldown : Option Nat)
    (hlink : st.links[this]? = some ⟨lup, .filtered accepted C up down, ldown⟩)
    (hdisj : Disjoint added deleted) :
    FilteredLayer.changeSets accepted C added deleted =
      ((C ∪ added.filter (fun id => accepted id = true)) \ deleted.filter (fun id => id ∈ C),
        added.filter (fun id => accepted id = true), deleted.filter (fun id => id ∈ C)) ∧
    (∀ id, accepted id = false →
      id ∉ added.filter (fun id => accepted id = true) ∧
      (id ∈ (C ∪ added.filter (fun id => accepted id = true)) \
          deleted.filter (fun id => id ∈ C) → id ∈ C)) ∧
    FilteredLayer.OwnerSetChanged notify st this added deleted =
      if deleted.filter (fun id => id ∈ C) = ∅ ∧
          added.filter (fun id => accepted id = true) = ∅ then
        some { st with
               links := st.links.set this
                 ⟨lup, .filtered accepted
                   ((C ∪ added.filter (fun id => accepted id = true)) \
                     deleted.filter (fun id => id ∈ C)) up down, ldown⟩ }
      else
        OwnerLink.OwnerSetChanged notify
          { st with
            links := st.links.set this
              ⟨lup, .filtered accepted
                ((C ∪ added.filter (fun id => accepted id = true)) \
                  deleted.filter (fun id => id ∈ C)) up down, ldown⟩ }
          up (added.filter (fun id => accepted id = true))
          (deleted.filter (fun id => id ∈ C)) := by
  refine ⟨changeSets_eq accepted C added deleted hdisj, ?_, ?_⟩
  · intro id hid
    simp only [Finset.mem_filter, Finset.mem_sdiff, Finset.mem_union, hid, Bool.false_eq_true,
      and_false, or_false, not_false_eq_true, true_and]
    exact fun h => h.1
  · unfold FilteredLayer.OwnerSetChanged
    rw [hlink]
    simp only [changeSets_eq accepted C added deleted hdisj, card_pos_or_iff]
    by_cases h : deleted.filter (fun id => id ∈ C) = ∅ ∧
        added.filter (fun id => accepted id = true) = ∅
    · simp only [h, and_self, not_true_eq_false, if_false, if_true]
    · simp only [h, not_false_eq_true, if_true, if_false]

/-- C19 on a concrete stack: a filter accepting `{id2, id3}` with cache `{id2}`,
one observer at the top; the delta added `{id1, id3}`, deleted `{id2, id4}`
leaves the cache `{id3}` and gives the observer one call, added `{id3}` and
deleted `{id2}`; an empty outgoing delta gives no call. -/
theorem filteredLayer_ownerSetChanged_example :
    (FilteredLayer.OwnerSetChanged (OwnerLayerAccess.notify 1)
      (filterStack (Contains {"id2", "id3"}) Owners.new {"id2"} [7] []) 1
      {"id1", "id3"} {"id2", "id4"}).map (fun st => (OwnerStack.GetIds 1 st, st.events)) =
      some (some {"id3"}, [⟨7, {"id3"}, {"id2"}⟩]) ∧
    (FilteredLayer.OwnerSetChanged (OwnerLayerAccess.notify 1)
      (filterStack (Contains {"id2", "id3"}) Owners.new {"id2"} [7] []) 1
      {"id1"} {"id4"}).map (fun st => (OwnerStack.GetIds 1 st, st.events)) =
      some (some {"id2"}, []) := by
  have h1 := (filteredLayer_ownerSetChanged (OwnerLayerAccess.notify 1)
    (filterStack (Contains {"id2", "id3"}) Owners.new {"id2"} [7] []) 1
    {"id1", "id3"} {"id2", "id4"} 0 (Contains {"id2", "id3"}) {"id2"} 1 (some 1) (some 1) rfl
    (by decide)).2.2
  have h2 := (filteredLayer_ownerSetChanged (OwnerLayerAccess.notify 1)
    (filterStack (Contains {"id2", "id3"}) Owners.new {"id2"} [7] []) 1
    {"id1"} {"id4"} 0 (Contains {"id2", "id3"}) {"id2"} 1 (some 1) (some 1) rfl
    (by decide)).2.2
  rw [h1, h2]
  decide

/-- C20 as stated fails: for a filter accepting everything whose cache is
`{id1}` while nothing is visible below it, `FilterChanged()` empties the cache
but computes an empty deleted set, not `C minus C' = {id1}`, and calls no
observer. -/
theorem filterChanged_misses_ids_gone_below :
    (FilteredLayer.filterChangedSets (fun _ => true) {"id1"} ∅).1 = ∅ ∧
    (FilteredLayer.filterChangedSets (fun _ => true) {"id1"} ∅).2.2 = ∅ ∧
    ({"id1"} : StringSet) \ (FilteredLayer.filterChangedSets (fun _ => true) {"id1"} ∅).1 =
      {"id1"} ∧
    (FilteredLayer.FilterChanged 1 (filterStack (fun _ => true) Owners.new {"id1"} [7] []) 1).map
      (fun st => (OwnerStack.GetIds 1 st, st.events)) = some (some ∅, []) := by
  decide

/-- C20, amended. `FilterChanged` recomputation: for a filter with previous
cache `C` and predicate `accepted`, with `D` the set `down.GetIds()` returns,
`FilterChanged()` sets the cache to `C'`, the accepted ids of `D`, computes
added as `C' minus C` and deleted as the ids of `C minus C'` that are in `D`
(all of `C minus C'` when `C` is within `D`), and calls the upward link exactly
once with (added, deleted) when one of the two is non-empty and not at all
otherwise. -/
theorem filteredLayer_filterChanged (fuel : Nat) (st : OwnerStack) (this : Nat)
    (lup : Nat) (accepted : String → Bool) (C : StringSet) (up down : Nat)
    (ldown : Option Nat) (D : StringSet)
    (hlink : st.links[this]? = some ⟨lup, .filtered accepted C up (some down), ldown⟩)
    (hD : OwnerLayerAccess.GetIds st fuel down = some D) :
    FilteredLayer.filterChangedSets accepted C D =
      (D.filter (fun id => accepted id = true),
        D.filter (fun id => accepted id = true) \ C,
        (C \ D.filter (fun id => accepted id = true)) ∩ D) ∧
    (C ⊆ D → (C \ D.filter (fun id => accepted id = true)) ∩ D =
      C \ D.filter (fun id => accepted id = true)) ∧
    FilteredLayer.FilterChanged fuel st this =
      if (C \ D.filter (fun id => accepted id = true)) ∩ D = ∅ ∧
          D.filter (fun id => accepted id = true) \ C = ∅ then
        some { st with
               links := st.links.set this
                 ⟨lup, .filtered accepted (D.filter (fun id => accepted id = true)) up
                   (some down), ldown⟩ }
      else
        OwnerLink.OwnerSetChanged (OwnerLayerAccess.notify fuel)
          { st with
            links := st.links.set this
              ⟨lup, .filtered accepted (D.filter (fun id => accepted id = true)) up
                (some down), ldown⟩ }
          up (D.filter (fun id => accepted id = true) \ C)
          ((C \ D.filter (fun id => accepted id = true)) ∩ D) := by
  refine ⟨filterChangedSets_eq accepted C D, ?_, ?_⟩
  · intro hsub
    ext x
    simp only [Finset.mem_inter, Finset.mem_sdiff, and_iff_left_iff_imp]
    exact fun h => hsub h.1
  · unfold FilteredLayer.FilterChanged
    rw [hlink]
    simp only [hD, filterChangedSets_eq, card_pos_or_iff]
    by_cases h : (C \ D.filter (fun id => accepted id = true)) ∩ D = ∅ ∧
        D.filter (fun id => accepted id = true) \ C = ∅
    · simp only [h, and_self, not_true_eq_false, if_false, if_true]
    · simp only [h, not_false_eq_true, if_true, if_false]

/-- C20 on a concrete stack: the base holds `{id1, id2, id3}`, the filter accepts
`{id2, id3}` and its cache is `{id1, id2}`; `FilterChanged()` sets the cache to
`{id2, id3}` and the observer at the top receives one call, added `{id3}` and
deleted `{id1}`. -/
theorem filteredLayer_filterChanged_example :
    ((FilteredLayer.FilterChanged 1
      (filterStack (Contains {"id2", "id3"})
        (Owners.run [.update "client1" {"id1", "id2", "id3"}]) {"id1", "id2"} [7] []) 1).map
      (fun st => ((OwnerStack.GetIds 1 st).getD ∅, st.events))).getD (∅, []) =
      ({"id2", "id3"}, [⟨7, {"id3"}, {"id1"}⟩]) := by
  have h := (filteredLayer_filterChanged 1
    (filterStack (Contains {"id2", "id3"})
      (Owners.run [.update "client1" {"id1", "id2", "id3"}]) {"id1", "id2"} [7] []) 1
    0 (Contains {"id2", "id3"}) {"id1", "id2"} 1 1 (some 1)
    (Owners.run [.update "client1" {"id1", "id2", "id3"}]).GetIds rfl rfl).2.2
  rw [h]
  decide

/-! ## Calls keep the wiring of the stack -/

/-! ## Calls change tables, caches and the log only -/

theorem sameWiring_refl (st : OwnerStack) : SameWiring st st := ⟨rfl, rfl, rfl⟩

theorem sameWiring_trans {st1 st2 st3 : OwnerStack} (h1 : SameWiring st1 st2)
    (h2 : SameWiring st2 st3) : SameWiring st1 st3 :=
  ⟨h2.1.trans h1.1, h2.2.1.trans h1.2.1, h2.2.2.trans h1.2.2⟩

theorem sameWiring_events (st : OwnerStack) (ev : List Event) :
    SameWiring st { st with events := ev } := ⟨rfl, rfl, rfl⟩

theorem map_set_of_eq {α β : Type} (f : α → β) (l : List α) (i : Nat) (a b : α)
    (h : l[i]? = some a) (hf : f b = f a) : (l.set i b).map f = l.map f := by
  apply List.ext_getElem?
  intro j
  rw [List.getElem?_map, List.getElem?_map, List.getElem?_set]
  by_cases hij : i = j
  · subst hij
    have hlt : i < l.length := by
      rcases List.getElem?_eq_some.mp h with ⟨hlt, _⟩
      exact hlt
    simp [hlt, h, hf]
  · simp [hij]

theorem sameWiring_set_layer (st : OwnerStack) (l lup : Nat) (layer layer' : OwnerLayer)
    (ldown : Option Nat) (h : st.links[l]? = some ⟨lup, layer, ldown⟩)
    (hs : layer'.shape = layer.shape) :
    SameWiring st { st with links := st.links.set l ⟨lup, layer', ldown⟩ } := by
  refine ⟨rfl, rfl, ?_⟩
  apply map_set_of_eq _ _ _ _ _ h
  simp [OwnerLink.shape, hs]

theorem OwnerLink_OwnerSetChanged_frame
    {notify : OwnerStack → Nat → StringSet → StringSet → Option OwnerStack} (hn : Framed notify)
    {st st' : OwnerStack} {l : Nat} {ad dl : StringSet}
    (h : OwnerLink.OwnerSetChanged notify st l ad dl = some st') : SameWiring st st' := by
  unfold OwnerLink.OwnerSetChanged at h
  cases hl : st.links[l]? with
  | none => simp [hl] at h
  | some L =>
    simp only [hl] at h
    exact hn _ _ _ _ _ h

theorem FilteredLayer_OwnerSetChanged_frame
    {notify : OwnerStack → Nat → StringSet → StringSet → Option OwnerStack} (hn : Framed notify)
    {st st' : OwnerStack} {l : Nat} {ad dl : StringSet}
    (h : FilteredLayer.OwnerSetChanged notify st l ad dl = some st') : SameWiring st st' := by
  unfold FilteredLayer.OwnerSetChanged at h
  cases hl : st.links[l]? with
  | none => simp [hl] at h
  | some L =>
    obtain ⟨lup, layer, ldown⟩ := L
    cases layer with
    | owners o up => simp [hl] at h
    | dummy up down => simp [hl] at h
    | filtered accepted cache up down =>
      simp only [hl] at h
      have h1 := sameWiring_set_layer st l lup (.filtered accepted cache up down)
        (.filtered accepted (FilteredLayer.changeSets accepted cache ad dl).1 up down) ldown hl rfl
      split_ifs at h
      · exact sameWiring_trans h1 (OwnerLink_OwnerSetChanged_frame hn h)
      · cases h
        exact h1

theorem OwnerHandler_OwnerSetChanged_frame
    {notify : OwnerStack → Nat → StringSet → StringSet → Option OwnerStack} (hn : Framed notify)
    {st st' : OwnerStack} {hd : OwnerHandler} {ad dl : StringSet}
    (h : OwnerHandler.OwnerSetChanged notify ad dl st hd = some st') : SameWiring st st' := by
  cases hd with
  | external e =>
    simp only [OwnerHandler.OwnerSetChanged, Option.some.injEq] at h
    subst h
    exact sameWiring_events _ _
  | link l => exact OwnerLink_OwnerSetChanged_frame hn h
  | filtered l => exact FilteredLayer_OwnerSetChanged_frame hn h

theorem foldlM_frame
    {notify : OwnerStack → Nat → StringSet → StringSet → Option OwnerStack} (hn : Framed notify)
    (ad dl : StringSet) (hs : List OwnerHandler) (st st' : OwnerStack)
    (h : hs.foldlM (fun st hd => OwnerHandler.OwnerSetChanged notify ad dl st hd) st = some st') :
    SameWiring st st' := by
  induction hs generalizing st with
  | nil =>
    simp only [List.foldlM_nil, Option.pure_def, Option.some.injEq] at h
    subst h
    exact sameWiring_refl _
  | cons hd hs ih =>
    rw [List.foldlM_cons] at h
    cases h1 : OwnerHandler.OwnerSetChanged notify ad dl st hd with
    | none => simp [h1] at h
    | some st1 =>
      simp only [h1, Option.bind_eq_bind, Option.some_bind] at h
      exact sameWiring_trans (OwnerHandler_OwnerSetChanged_frame hn h1) (ih st1 h)

theorem notify_framed (fuel : Nat) : Framed (OwnerLayerAccess.notify fuel) := by
  induction fuel with
  | zero =>
    intro st a ad dl st' h
    simp [OwnerLayerAccess.notify] at h
  | succ fuel ih =>
    intro st a ad dl st' h
    unfold OwnerLayerAccess.notify at h
    cases ha : st.accesses[a]? with
    | none => simp [ha] at h
    | some A =>
      simp only [ha] at h
      exact foldlM_frame ih ad dl A.handlers st st' h

theorem Owners_notify_frame {fuel : Nat} {st st' : OwnerStack} {this : Nat} {ad dl : StringSet}
    (h : Owners.notify fuel st this ad dl = some st') : SameWiring st st' := by
  unfold Owners.notify at h
  split at h
  · exact OwnerLink_OwnerSetChanged_frame (notify_framed fuel) h
  · cases h

theorem apply_frame {fuel this : Nat} {st st' : OwnerStack} {op : Op}
    (h : OwnerStack.apply fuel this st op = some st') : SameWiring st st' := by
  cases op with
  | update c S =>
    simp only [OwnerStack.apply, OwnerStack.UpdateClient] at h
    split at h
    · rename_i lup o up ldown hl
      exact sameWiring_trans
        (sameWiring_set_layer st this lup (.owners o up) (.owners (o.UpdateClient c S).state up)
          ldown hl rfl) (Owners_notify_frame h)
    · cases h
  | delete c =>
    simp only [OwnerStack.apply, OwnerStack.DeleteClient] at h
    split at h
    · rename_i lup o up ldown hl
      exact sameWiring_trans
        (sameWiring_set_layer st this lup (.owners o up) (.owners (o.DeleteClient c).state up)
          ldown hl rfl) (Owners_notify_frame h)
    · cases h

theorem FilterChanged_frame {fuel l : Nat} {st st' : OwnerStack}
    (h : FilteredLayer.FilterChanged fuel st l = some st') : SameWiring st st' := by
  unfold FilteredLayer.FilterChanged at h
  split at h
  · rename_i lup accepted cur up down ldown hl
    split at h
    · cases h
    · rename_i ids hids
      have h1 := sameWiring_set_layer st l lup (.filtered accepted cur up (some down))
        (.filtered accepted (FilteredLayer.filterChangedSets accepted cur ids).1 up (some down))
        ldown hl rfl
      simp only at h
      split_ifs at h
      · exact sameWiring_trans h1 (OwnerLink_OwnerSetChanged_frame (notify_framed fuel) h)
      · cases h
        exact h1
  · cases h

theorem FilteredLayer_Start_frame {fuel l : Nat} {st st' : OwnerStack} {D : StringSet}
    {r : Option OwnerHandler} (h : FilteredLayer.Start fuel st l D = some (st', r)) :
    SameWiring st st' ∧ r = some (.filtered l) := by
  unfold FilteredLayer.Start at h
  split at h
  · rename_i lup accepted cur up down ldown hl
    have h1 := sameWiring_set_layer st l lup (.filtered accepted cur up down)
      (.filtered accepted (FilteredLayer.startSets accepted D).1 up down) ldown hl rfl
    simp only at h
    split_ifs at h
    · split at h
      · cases h
      · rename_i st2 h2
        simp only [Option.some.injEq, Prod.mk.injEq] at h
        obtain ⟨rfl, rfl⟩ := h
        exact ⟨sameWiring_trans h1 (OwnerLink_OwnerSetChanged_frame (notify_framed fuel) h2), rfl⟩
    · simp only [Option.some.injEq, Prod.mk.injEq] at h
      obtain ⟨rfl, rfl⟩ := h
      exact ⟨h1, rfl⟩
  · cases h

theorem OwnerLayer_Start_frame {fuel l : Nat} {st st' : OwnerStack} {D : StringSet}
    {r : Option OwnerHandler} (h : OwnerLayer.Start fuel st l D = some (st', r)) :
    SameWiring st st' ∧ ∃ L, st.links[l]? = some L ∧ r = startHandler l L.layer := by
  unfold OwnerLayer.Start at h
  split at h
  · cases h
  · rename_i lup o up ldown hl
    simp only [Option.some.injEq, Prod.mk.injEq] at h
    obtain ⟨rfl, rfl⟩ := h
    exact ⟨sameWiring_refl _, _, hl, rfl⟩
  · rename_i lup up down ldown hl
    simp only [Option.some.injEq, Prod.mk.injEq] at h
    obtain ⟨rfl, rfl⟩ := h
    exact ⟨sameWiring_refl _, _, hl, rfl⟩
  · rename_i lup accepted cache up down ldown hl
    obtain ⟨h1, h2⟩ := FilteredLayer_Start_frame h
    exact ⟨h1, _, hl, h2⟩

/-! ## What the same wiring keeps -/

theorem sameWiring_symm {st st' : OwnerStack} (h : SameWiring st st') : SameWiring st' st :=
  ⟨h.1.symm, h.2.1.symm, h.2.2.symm⟩

theorem sameWiring_links {st st' : OwnerStack} (h : SameWiring st st') (l : Nat) :
    (st'.links[l]?).map OwnerLink.shape = (st.links[l]?).map OwnerLink.shape := by
  rw [← List.getElem?_map, ← List.getElem?_map, h.2.2]

theorem sameWiring_links_length {st st' : OwnerStack} (h : SameWiring st st') :
    st'.links.length = st.links.length := by
  have := congrArg List.length h.2.2
  simpa using this

theorem sameWiring_link {st st' : OwnerStack} (h : SameWiring st st') {l : Nat} {L : OwnerLink}
    (hl : st.links[l]? = some L) :
    ∃ L', st'.links[l]? = some L' ∧ L'.up = L.up ∧ L'.down = L.down ∧
      L'.layer.shape = L.layer.shape := by
  have h1 := sameWiring_links h l
  rw [hl] at h1
  cases hl' : st'.links[l]? with
  | none => simp [hl'] at h1
  | some L' =>
    rw [hl'] at h1
    simp only [Option.map_some', Option.some.injEq, OwnerLink.shape, OwnerLink.mk.injEq] at h1
    exact ⟨L', rfl, h1.1, h1.2.2, h1.2.1⟩

theorem NextLayer_sameWiring {st st' : OwnerStack} (h : SameWiring st st') (a : Nat) :
    OwnerLayerAccess.NextLayer st' a = OwnerLayerAccess.NextLayer st a := by
  unfold OwnerLayerAccess.NextLayer
  rw [h.2.1]
  cases st.accesses[a]? with
  | none => rfl
  | some A =>
    simp only
    cases hl : st.links[A.link]? with
    | none =>
      have h1 := sameWiring_links h A.link
      rw [hl] at h1
      cases hl' : st'.links[A.link]? with
      | none => rfl
      | some L' => simp [hl'] at h1
    | some L =>
      obtain ⟨L', hl', _, hd, _⟩ := sameWiring_link h hl
      simp [hl', hd]

theorem Layer_sameWiring {st st' : OwnerStack} (h : SameWiring st st') (a : Nat) :
    OwnerLayerAccess.Layer st' a = OwnerLayerAccess.Layer st a := by
  unfold OwnerLayerAccess.Layer
  rw [h.2.1]
  cases st.accesses[a]? with
  | none => rfl
  | some A =>
    simp only
    cases hl : st.links[A.link]? with
    | none =>
      have h1 := sameWiring_links h A.link
      rw [hl] at h1
      cases hl' : st'.links[A.link]? with
      | none => rfl
      | some L' => simp [hl'] at h1
    | some L =>
      obtain ⟨L', hl', _, _, _⟩ := sameWiring_link h hl
      simp [hl']

theorem wiredTo_of_shape {layer layer' : OwnerLayer} (h : layer'.shape = layer.shape)
    {l : Nat} {d : Option Nat} (hw : layer.WiredTo l d) : layer'.WiredTo l d := by
  cases layer <;> cases layer' <;> simp [OwnerLayer.shape] at h <;>
    simp_all [OwnerLayer.WiredTo]

theorem filtered_of_shape {layer layer' : OwnerLayer} (h : layer'.shape = layer.shape)
    (hf : ∃ accepted cache up down, layer = .filtered accepted cache up down) :
    ∃ accepted cache up down, layer' = .filtered accepted cache up down := by
  obtain ⟨accepted, cache, up, down, rfl⟩ := hf
  cases layer' <;> simp [OwnerLayer.shape] at h
  exact ⟨_, _, _, _, rfl⟩

theorem owners_of_shape {layer layer' : OwnerLayer} (h : layer'.shape = layer.shape) {up : Nat}
    (hf : ∃ o, layer = .owners o up) : ∃ o, layer' = .owners o up := by
  obtain ⟨o, rfl⟩ := hf
  cases layer' <;> simp [OwnerLayer.shape] at h
  subst h
  exact ⟨_, rfl⟩

theorem isChain_congr {st st' : OwnerStack}
    (h : ∀ a, OwnerLayerAccess.NextLayer st' a = OwnerLayerAccess.NextLayer st a)
    (l : List Nat) : IsChain st' l ↔ IsChain st l := by
  induction l with
  | nil => simp [IsChain]
  | cons a rest ih =>
    cases rest with
    | nil => simp [IsChain, h]
    | cons b rest => simp only [IsChain, h, ih]

theorem handlerOK_sameWiring {st st' : OwnerStack} (h : SameWiring st st') {a : Nat}
    {hd : OwnerHandler} (hk : HandlerOK st a hd) : HandlerOK st' a hd := by
  cases hd with
  | external e => trivial
  | link l =>
    obtain ⟨L, A, hl, hdn, hA, hlink⟩ := hk
    obtain ⟨L', hl', hup, hdown, _⟩ := sameWiring_link h hl
    exact ⟨L', A, hl', by rw [hdown, hdn], by rw [h.2.1, hup, hA], hlink⟩
  | filtered l =>
    obtain ⟨L, A, hl, hdn, hA, hlink, hf⟩ := hk
    obtain ⟨L', hl', hup, hdown, hshape⟩ := sameWiring_link h hl
    exact ⟨L', A, hl', by rw [hdown, hdn], by rw [h.2.1, hup, hA], hlink,
      filtered_of_shape hshape hf⟩

theorem wired_sameWiring {st st' : OwnerStack} (h : SameWiring st st') (hw : Wired st) :
    Wired st' := by
  constructor
  · intro a A L' hA hL'
    rw [h.2.1] at hA
    obtain ⟨L, hL, hup, hdown, hshape⟩ := sameWiring_link (sameWiring_symm h) hL'
    have := hw.layers a A L hA hL
    rw [← hdown]
    exact wiredTo_of_shape hshape.symm this
  · intro a A hA hd hmem
    rw [h.2.1] at hA
    exact handlerOK_sameWiring h (hw.handlers a A hA hd hmem)

theorem chained_sameWiring {st st' : OwnerStack} (h : SameWiring st st') {ch : List Nat}
    (hc : Chained st ch) : Chained st' ch := by
  refine ⟨?_, hc.nodup, ?_, ?_, ?_, ?_, ?_⟩
  · rw [h.1]; exact hc.top
  · rw [h.2.1]; exact hc.mem_iff
  · rw [sameWiring_links_length h, h.2.1]; exact hc.links_len
  · exact (isChain_congr (NextLayer_sameWiring h) ch).mpr hc.isChain
  · intro a ha
    obtain ⟨A, L, hA, hL, hup⟩ := hc.up_eq a ha
    obtain ⟨L', hL', hup', _, _⟩ := sameWiring_link h hL
    exact ⟨A, L', by rw [h.2.1]; exact hA, hL', by rw [hup', hup]⟩
  · obtain ⟨b, A, o, hb, hA, hlink, hbase⟩ := hc.bottom
    cases hl0 : st.links[0]? with
    | none => simp [hl0] at hbase
    | some L0 =>
      simp only [hl0, Option.map_some', Option.some.injEq] at hbase
      obtain ⟨L0', hl0', _, _, hshape⟩ := sameWiring_link h hl0
      obtain ⟨o', ho'⟩ := owners_of_shape hshape ⟨o, hbase⟩
      exact ⟨b, A, o', hb, by rw [h.2.1]; exact hA, hlink, by simp [hl0', ho']⟩

/-! ## Walking the chain -/

/-! ## Walking the chain -/

theorem NextLayer_eq_some {st : OwnerStack} {a : Nat} {n : Option Nat} :
    OwnerLayerAccess.NextLayer st a = some n ↔
      ∃ A L, st.accesses[a]? = some A ∧ st.links[A.link]? = some L ∧ L.down = n := by
  unfold OwnerLayerAccess.NextLayer
  cases hA : st.accesses[a]? with
  | none => simp
  | some A =>
    cases hL : st.links[A.link]? with
    | none => simp [hL]
    | some L => simp [hL]

theorem Layer_eq_some {st : OwnerStack} {a l : Nat} :
    OwnerLayerAccess.Layer st a = some l ↔
      ∃ A L, st.accesses[a]? = some A ∧ st.links[A.link]? = some L ∧ A.link = l := by
  unfold OwnerLayerAccess.Layer
  cases hA : st.accesses[a]? with
  | none => simp
  | some A =>
    cases hL : st.links[A.link]? with
    | none => simp [hL]
    | some L => simp [hL]

theorem isChain_tail {st : OwnerStack} {a b : Nat} {rest : List Nat}
    (h : IsChain st (a :: b :: rest)) : IsChain st (b :: rest) := h.2

theorem isChain_head {st : OwnerStack} {a : Nat} {rest : List Nat} (h : IsChain st (a :: rest)) :
    OwnerLayerAccess.NextLayer st a = some rest.head? := by
  cases rest with
  | nil => exact h
  | cons b rest => exact h.1

theorem isChain_suffix {st : OwnerStack} (pre : List Nat) {a : Nat} {post : List Nat}
    (h : IsChain st (pre ++ a :: post)) : IsChain st (a :: post) := by
  induction pre with
  | nil => exact h
  | cons p pre ih =>
    cases pre with
    | nil => exact h.2
    | cons q pre => exact ih h.2

theorem isChain_next {st : OwnerStack} (pre : List Nat) {a : Nat} {post : List Nat}
    (h : IsChain st (pre ++ a :: post)) :
    OwnerLayerAccess.NextLayer st a = some post.head? :=
  isChain_head (isChain_suffix pre h)

theorem isChain_next_mem {st : OwnerStack} {l : List Nat} (h : IsChain st l) {a b : Nat}
    (ha : a ∈ l) (hn : OwnerLayerAccess.NextLayer st a = some (some b)) : b ∈ l := by
  obtain ⟨pre, post, rfl⟩ := List.append_of_mem ha
  have h1 := isChain_next pre h
  rw [hn] at h1
  simp only [Option.some.injEq] at h1
  cases post with
  | nil => simp at h1
  | cons c post =>
    simp only [List.head?_cons, Option.some.injEq] at h1
    subst h1
    simp

theorem walk_eq {st : OwnerStack} {a : Nat} {rest : List Nat} (h : IsChain st (a :: rest))
    (fuel : Nat) (hf : rest.length < fuel) : st.walk fuel (some a) = a :: rest := by
  induction rest generalizing a fuel with
  | nil =>
    cases fuel with
    | zero => simp at hf
    | succ fuel =>
      have h1 : OwnerLayerAccess.NextLayer st a = some none := h
      simp [OwnerStack.walk, h1]
  | cons b rest ih =>
    cases fuel with
    | zero => simp at hf
    | succ fuel =>
      simp only [OwnerStack.walk, h.1]
      rw [ih h.2 fuel (by simpa using hf)]

theorem chain_eq {st : OwnerStack} {ch : List Nat} (hc : Chained st ch) : st.chain = ch := by
  unfold OwnerStack.chain
  cases ch with
  | nil => exact absurd hc.isChain (by simp [IsChain])
  | cons a rest =>
    have htop := hc.top
    simp only [List.head?_cons, Option.some.injEq] at htop
    rw [← htop]
    apply walk_eq hc.isChain
    have hlen : (a :: rest).length ≤ st.accesses.length := by
      have h1 := hc.nodup
      have h2 : ∀ x ∈ a :: rest, x ∈ List.range st.accesses.length := by
        intro x hx
        exact List.mem_range.mpr ((hc.mem_iff x).mp hx)
      have := (List.subperm_of_subset h1 h2).length_le
      simpa using this
    simp only [List.length_cons] at hlen
    omega

theorem chained_length {st : OwnerStack} {ch : List Nat} (hc : Chained st ch) :
    ch.length = st.accesses.length := by
  have h1 : ch.Perm (List.range st.accesses.length) := by
    apply (List.perm_ext_iff_of_nodup hc.nodup (List.nodup_range _)).mpr
    intro a
    rw [hc.mem_iff, List.mem_range]
  simpa using h1.length_eq

theorem search_found (st : OwnerStack) (acc fuel : Nat) :
    InserLayer.search st acc (fuel + 1) (some acc) = some true := by
  simp [InserLayer.search]

theorem search_step {st : OwnerStack} {acc a fuel : Nat} {n : Option Nat} (hne : a ≠ acc)
    (hn : OwnerLayerAccess.NextLayer st a = some n) :
    InserLayer.search st acc (fuel + 1) (some a) = InserLayer.search st acc fuel n := by
  obtain ⟨A, L, hA, hL, hd⟩ := NextLayer_eq_some.mp hn
  simp [InserLayer.search, hne, hA, hL, hd]

theorem search_none (st : OwnerStack) (acc fuel : Nat) :
    InserLayer.search st acc fuel none = some false := by
  cases fuel <;> rfl

theorem search_total {st : OwnerStack} (acc : Nat) {a : Nat} {rest : List Nat}
    (h : IsChain st (a :: rest)) (fuel : Nat) (hf : rest.length < fuel) :
    InserLayer.search st acc fuel (some a) = some (decide (acc ∈ a :: rest)) := by
  induction rest generalizing a fuel with
  | nil =>
    cases fuel with
    | zero => simp at hf
    | succ fuel =>
      by_cases hne : a = acc
      · subst hne; simp [search_found]
      · have h1 : OwnerLayerAccess.NextLayer st a = some none := h
        rw [search_step hne h1, search_none]
        have : ¬ acc = a := fun e => hne e.symm
        simp [this]
  | cons b rest ih =>
    cases fuel with
    | zero => simp at hf
    | succ fuel =>
      by_cases hne : a = acc
      · subst hne; simp [search_found]
      · rw [search_step hne h.1, ih h.2 fuel (by simpa using hf)]
        have : ¬ acc = a := fun e => hne e.symm
        simp [this]

theorem search_spec {st : OwnerStack} (acc : Nat) {a : Nat} {rest : List Nat}
    (h : IsChain st (a :: rest)) (fuel : Nat) {b : Bool}
    (hs : InserLayer.search st acc fuel (some a) = some b) : b = decide (acc ∈ a :: rest) := by
  induction rest generalizing a fuel with
  | nil =>
    cases fuel with
    | zero => simp [InserLayer.search] at hs
    | succ fuel =>
      by_cases hne : a = acc
      · subst hne
        rw [search_found] at hs
        simp at hs ⊢
        exact hs
      · have h1 : OwnerLayerAccess.NextLayer st a = some none := h
        rw [search_step hne h1, search_none] at hs
        have : ¬ acc = a := fun e => hne e.symm
        simp at hs
        simp [this, ← hs]
  | cons b' rest ih =>
    cases fuel with
    | zero => simp [InserLayer.search] at hs
    | succ fuel =>
      by_cases hne : a = acc
      · subst hne
        rw [search_found] at hs
        simp at hs ⊢
        exact hs
      · rw [search_step hne h.1] at hs
        have := ih h.2 fuel hs
        have hne' : ¬ acc = a := fun e => hne e.symm
        simp [hne'] at this ⊢
        exact this

theorem baseWalk_step {st : OwnerStack} {a b fuel : Nat}
    (hn : OwnerLayerAccess.NextLayer st a = some (some b)) :
    BaseLayer.walk st (fuel + 1) a = BaseLayer.walk st fuel b := by
  obtain ⟨A, L, hA, hL, hd⟩ := NextLayer_eq_some.mp hn
  simp [BaseLayer.walk, hA, hL, hd]

theorem baseWalk_last {st : OwnerStack} {a fuel : Nat}
    (hn : OwnerLayerAccess.NextLayer st a = some none) :
    BaseLayer.walk st (fuel + 1) a = OwnerLayerAccess.Layer st a := by
  obtain ⟨A, L, hA, hL, hd⟩ := NextLayer_eq_some.mp hn
  simp [BaseLayer.walk, OwnerLayerAccess.Layer, hA, hL, hd]

theorem baseWalk_eq {st : OwnerStack} {a : Nat} {rest : List Nat} (h : IsChain st (a :: rest))
    (fuel : Nat) (hf : rest.length < fuel) :
    ∃ b, (a :: rest).getLast? = some b ∧
      BaseLayer.walk st fuel a = OwnerLayerAccess.Layer st b ∧
      OwnerLayerAccess.NextLayer st b = some none := by
  induction rest generalizing a fuel with
  | nil =>
    cases fuel with
    | zero => simp at hf
    | succ fuel => exact ⟨a, rfl, baseWalk_last h, h⟩
  | cons b rest ih =>
    cases fuel with
    | zero => simp at hf
    | succ fuel =>
      obtain ⟨c, hc, hw, hn⟩ := ih h.2 fuel (by simpa using hf)
      refine ⟨c, ?_, ?_, hn⟩
      · rw [List.getLast?_cons_cons]; exact hc
      · rw [baseWalk_step h.1]; exact hw

/-! ## The rewiring of `InserLayer` -/

section Spliced

variable {st : OwnerStack} {acc : Nat} {A : OwnerLayerAccess} {pos : OwnerLink}
  (c : OwnerLayerCreator)
  (hA : st.accesses[acc]? = some A) (hpos : st.links[A.link]? = some pos) (hup : pos.up = acc)

include hA hup in
theorem spliced_access (a : Nat) :
    (spliced st A pos c).accesses[a]? =
      if a = acc then some { A with link := st.links.length }
      else if a = st.accesses.length then some ⟨[], A.link⟩
      else st.accesses[a]? := by
  have hlt : acc < st.accesses.length := (List.getElem?_eq_some.mp hA).1
  simp only [spliced, hup]
  rw [List.getElem?_set]
  by_cases h1 : a = acc
  · subst h1
    simp only [if_true, List.length_append, List.length_singleton]
    rw [if_pos (by omega)]
  · have h1' : ¬ acc = a := fun e => h1 e.symm
    rw [if_neg h1', if_neg h1]
    by_cases h2 : a = st.accesses.length
    · subst h2
      simp
    · rw [if_neg h2]
      by_cases h3 : a < st.accesses.length
      · rw [List.getElem?_append_left h3]
      · rw [List.getElem?_eq_none (l := st.accesses) (by omega),
          List.getElem?_eq_none (by simp only [List.length_append, List.length_singleton]; omega)]

include hpos in
theorem spliced_link (l : Nat) :
    (spliced st A pos c).links[l]? =
      if l = A.link then some { pos with up := st.accesses.length }
      else if l = st.links.length then
        some ⟨pos.up, c st.links.length (some st.accesses.length), some st.accesses.length⟩
      else st.links[l]? := by
  have hlt : A.link < st.links.length := (List.getElem?_eq_some.mp hpos).1
  simp only [spliced]
  rw [List.getElem?_set]
  by_cases h1 : l = A.link
  · subst h1
    simp only [if_true, List.length_append, List.length_singleton]
    rw [if_pos (by omega)]
  · have h1' : ¬ A.link = l := fun e => h1 e.symm
    rw [if_neg h1', if_neg h1]
    by_cases h2 : l = st.links.length
    · subst h2
      simp
    · rw [if_neg h2]
      by_cases h3 : l < st.links.length
      · rw [List.getElem?_append_left h3]
      · rw [List.getElem?_eq_none (l := st.links) (by omega),
          List.getElem?_eq_none (by simp only [List.length_append, List.length_singleton]; omega)]

include hA hpos hup in
theorem spliced_NextLayer_acc :
    OwnerLayerAccess.NextLayer (spliced st A pos c) acc = some (some st.accesses.length) := by
  have hlt : A.link < st.links.length := (List.getElem?_eq_some.mp hpos).1
  rw [NextLayer_eq_some]
  refine ⟨{ A with link := st.links.length },
    OwnerLink.mk pos.up (c st.links.length (some st.accesses.length)) (some st.accesses.length),
    ?_, ?_, rfl⟩
  · rw [spliced_access c hA hup]; simp
  · rw [spliced_link c hpos]
    have : st.links.length ≠ A.link := by omega
    simp [this]

include hA hpos hup in
theorem spliced_NextLayer_new :
    OwnerLayerAccess.NextLayer (spliced st A pos c) st.accesses.length = some pos.down := by
  have hlt : acc < st.accesses.length := (List.getElem?_eq_some.mp hA).1
  rw [NextLayer_eq_some]
  refine ⟨OwnerLayerAccess.mk [] A.link, { pos with up := st.accesses.length }, ?_, ?_, rfl⟩
  · rw [spliced_access c hA hup]
    have : st.accesses.length ≠ acc := by omega
    simp [this]
  · rw [spliced_link c hpos]; simp

include hA hpos hup in
theorem spliced_Layer_acc :
    OwnerLayerAccess.Layer (spliced st A pos c) acc = some st.links.length := by
  have hlt : A.link < st.links.length := (List.getElem?_eq_some.mp hpos).1
  rw [Layer_eq_some]
  refine ⟨{ A with link := st.links.length },
    OwnerLink.mk pos.up (c st.links.length (some st.accesses.length)) (some st.accesses.length),
    ?_, ?_, rfl⟩
  · rw [spliced_access c hA hup]; simp
  · rw [spliced_link c hpos]
    have : st.links.length ≠ A.link := by omega
    simp [this]

include hA hpos hup in
theorem spliced_Layer_new :
    OwnerLayerAccess.Layer (spliced st A pos c) st.accesses.length = some A.link := by
  have hlt : acc < st.accesses.length := (List.getElem?_eq_some.mp hA).1
  rw [Layer_eq_some]
  refine ⟨OwnerLayerAccess.mk [] A.link, { pos with up := st.accesses.length }, ?_, ?_, rfl⟩
  · rw [spliced_access c hA hup]
    have : st.accesses.length ≠ acc := by omega
    simp [this]
  · rw [spliced_link c hpos]; simp

include hA hpos hup in
/-- An access other than `acc` whose link is its own keeps its record and link. -/
theorem spliced_other {b : Nat} {B : OwnerLayerAccess} {L : OwnerLink} (hb : b ≠ acc)
    (hB : st.accesses[b]? = some B) (hL : st.links[B.link]? = some L) (hLup : L.up = b) :
    (spliced st A pos c).accesses[b]? = some B ∧ (spliced st A pos c).links[B.link]? = some L := by
  have hblt : b < st.accesses.length := (List.getElem?_eq_some.mp hB).1
  have hllt : B.link < st.links.length := (List.getElem?_eq_some.mp hL).1
  have hne : B.link ≠ A.link := by
    intro e
    rw [e, hpos] at hL
    simp only [Option.some.injEq] at hL
    rw [← hL, hup] at hLup
    exact hb hLup.symm
  constructor
  · rw [spliced_access c hA hup]
    have : b ≠ st.accesses.length := by omega
    simp [hb, this, hB]
  · rw [spliced_link c hpos]
    have : B.link ≠ st.links.length := by omega
    simp [hne, this, hL]

end Spliced

theorem isChain_congr_on {st st' : OwnerStack} (l : List Nat)
    (h : ∀ a ∈ l, OwnerLayerAccess.NextLayer st' a = OwnerLayerAccess.NextLayer st a) :
    IsChain st' l ↔ IsChain st l := by
  induction l with
  | nil => simp [IsChain]
  | cons a rest ih =>
    cases rest with
    | nil => simp [IsChain, h a (by simp)]
    | cons b rest =>
      simp only [IsChain, h a (by simp)]
      rw [ih (fun x hx => h x (List.mem_cons_of_mem _ hx))]

theorem isChain_splice {st st' : OwnerStack} {acc n : Nat} (pre post : List Nat)
    (h : IsChain st (pre ++ acc :: post))
    (h1 : OwnerLayerAccess.NextLayer st' acc = some (some n))
    (h2 : OwnerLayerAccess.NextLayer st' n = OwnerLayerAccess.NextLayer st acc)
    (h3 : ∀ b ∈ pre ++ post,
      OwnerLayerAccess.NextLayer st' b = OwnerLayerAccess.NextLayer st b) :
    IsChain st' (pre ++ acc :: n :: post) := by
  induction pre with
  | nil =>
    simp only [List.nil_append] at h h3 ⊢
    refine ⟨h1, ?_⟩
    cases post with
    | nil =>
      show OwnerLayerAccess.NextLayer st' n = some none
      rw [h2]; exact h
    | cons b post =>
      refine ⟨?_, ?_⟩
      · rw [h2]; exact h.1
      · exact (isChain_congr_on (b :: post) h3).mpr h.2
  | cons p pre ih =>
    have hp : OwnerLayerAccess.NextLayer st' p = OwnerLayerAccess.NextLayer st p :=
      h3 p (by simp)
    have h3' : ∀ b ∈ pre ++ post,
        OwnerLayerAccess.NextLayer st' b = OwnerLayerAccess.NextLayer st b :=
      fun b hb => h3 b (by simp only [List.cons_append, List.mem_cons]; exact Or.inr hb)
    cases pre with
    | nil =>
      simp only [List.cons_append, List.nil_append] at h ⊢
      exact ⟨by rw [hp]; exact h.1, ih h.2 h3'⟩
    | cons q pre =>
      simp only [List.cons_append] at h ⊢
      exact ⟨by rw [hp]; exact h.1, ih h.2 h3'⟩

theorem getLast?_append_cons {α : Type} (pre : List α) (a : α) (post : List α) :
    (pre ++ a :: post).getLast? = (a :: post).getLast? := by
  induction pre with
  | nil => rfl
  | cons p pre ih =>
    cases pre with
    | nil => simp [List.getLast?_cons_cons]
    | cons q pre =>
      rw [List.cons_append, List.cons_append, List.getLast?_cons_cons, ← List.cons_append]
      exact ih

theorem head?_append_cons {α : Type} (pre : List α) (a : α) (post post' : List α) :
    (pre ++ a :: post).head? = (pre ++ a :: post').head? := by
  cases pre <;> rfl

theorem chained_spliced {st : OwnerStack} {ch : List Nat} (hc : Chained st ch)
    (c : OwnerLayerCreator) {acc : Nat} {A : OwnerLayerAccess} {pos : OwnerLink}
    (hA : st.accesses[acc]? = some A) (hpos : st.links[A.link]? = some pos) (hup : pos.up = acc)
    {pre post : List Nat} (hch : ch = pre ++ acc :: post) :
    Chained (spliced st A pos c) (pre ++ acc :: st.accesses.length :: post) := by
  subst hch
  have hN : st.accesses.length ∉ pre ++ acc :: post := by
    intro h
    exact absurd ((hc.mem_iff _).mp h) (lt_irrefl _)
  have hnd := hc.nodup
  have hother : ∀ b ∈ pre ++ post, ∃ B L, st.accesses[b]? = some B ∧
      st.links[B.link]? = some L ∧ L.up = b ∧
      (spliced st A pos c).accesses[b]? = some B ∧
      (spliced st A pos c).links[B.link]? = some L := by
    intro b hb
    have hb' : b ∈ pre ++ acc :: post := by
      simp only [List.mem_append, List.mem_cons] at hb ⊢
      tauto
    have hne : b ≠ acc := by
      rintro rfl
      rw [List.nodup_middle, List.nodup_cons] at hnd
      exact hnd.1 hb
    obtain ⟨B, L, hB, hL, hLup⟩ := hc.up_eq b hb'
    obtain ⟨h1, h2⟩ := spliced_other c hA hpos hup hne hB hL hLup
    exact ⟨B, L, hB, hL, hLup, h1, h2⟩
  have hlen : (spliced st A pos c).accesses.length = st.accesses.length + 1 := by
    simp [spliced]
  have haccN : (spliced st A pos c).accesses[st.accesses.length]? =
      some (OwnerLayerAccess.mk [] A.link) := by
    have hlt : acc < st.accesses.length := (List.getElem?_eq_some.mp hA).1
    rw [spliced_access c hA hup]
    have : st.accesses.length ≠ acc := by omega
    simp [this]
  have hlinkA : (spliced st A pos c).links[A.link]? =
      some { pos with up := st.accesses.length } := by
    rw [spliced_link c hpos]; simp
  refine ⟨?_, ?_, ?_, ?_, ?_, ?_, ?_⟩
  · rw [head?_append_cons pre acc _ post]
    exact hc.top
  · rw [show pre ++ acc :: st.accesses.length :: post =
        (pre ++ [acc]) ++ st.accesses.length :: post by simp,
      List.nodup_middle, List.nodup_cons]
    refine ⟨?_, by simpa using hnd⟩
    simpa using hN
  · intro a
    rw [hlen]
    have := hc.mem_iff a
    simp only [List.mem_append, List.mem_cons] at this ⊢
    constructor
    · rintro (h | h | h | h)
      · have := this.mp (Or.inl h); omega
      · have := this.mp (Or.inr (Or.inl h)); omega
      · omega
      · have := this.mp (Or.inr (Or.inr h)); omega
    · intro h
      by_cases h1 : a = st.accesses.length
      · exact Or.inr (Or.inr (Or.inl h1))
      · have := this.mpr (by omega)
        tauto
  · simp [spliced, hc.links_len]
  · refine isChain_splice pre post hc.isChain (spliced_NextLayer_acc c hA hpos hup) ?_ ?_
    · rw [spliced_NextLayer_new c hA hpos hup]
      exact (NextLayer_eq_some.mpr ⟨A, pos, hA, hpos, rfl⟩).symm
    · intro b hb
      obtain ⟨B, L, hB, hL, _, h1, h2⟩ := hother b hb
      rw [NextLayer_eq_some.mpr ⟨B, L, hB, hL, rfl⟩, NextLayer_eq_some.mpr ⟨B, L, h1, h2, rfl⟩]
  · intro a ha
    simp only [List.mem_append, List.mem_cons] at ha
    by_cases h1 : a = acc
    · subst h1
      have hlt : A.link < st.links.length := (List.getElem?_eq_some.mp hpos).1
      refine ⟨{ A with link := st.links.length },
        OwnerLink.mk pos.up (c st.links.length (some st.accesses.length))
          (some st.accesses.length), ?_, ?_, hup⟩
      · rw [spliced_access c hA hup]; simp
      · rw [spliced_link c hpos]
        have : st.links.length ≠ A.link := by omega
        simp [this]
    · by_cases h2 : a = st.accesses.length
      · subst h2
        exact ⟨_, _, haccN, hlinkA, rfl⟩
      · have hb : a ∈ pre ++ post := by
          simp only [List.mem_append]
          tauto
        obtain ⟨B, L, _, _, hLup, h1, h2⟩ := hother a hb
        exact ⟨B, L, h1, h2, hLup⟩
  · obtain ⟨b, B, o, hlast, hB, hBl, hl0⟩ := hc.bottom
    rw [getLast?_append_cons] at hlast
    cases post with
    | nil =>
      simp only [List.getLast?_singleton, Option.some.injEq] at hlast
      subst hlast
      rw [hA] at hB
      simp only [Option.some.injEq] at hB
      subst hB
      refine ⟨st.accesses.length, _, o, ?_, haccN, hBl, ?_⟩
      · rw [getLast?_append_cons]; rfl
      · rw [← hBl, hlinkA]
        rw [← hBl, hpos] at hl0
        exact hl0
    | cons p post =>
      rw [List.getLast?_cons_cons] at hlast
      have hb : b ∈ pre ++ p :: post := by
        simp only [List.mem_append]
        exact Or.inr (List.mem_of_getLast?_eq_some hlast)
      obtain ⟨B', L, hB', hL, _, h1, h2⟩ := hother b hb
      rw [hB] at hB'
      simp only [Option.some.injEq] at hB'
      subst hB'
      refine ⟨b, B, o, ?_, h1, hBl, ?_⟩
      · rw [getLast?_append_cons, List.getLast?_cons_cons, List.getLast?_cons_cons]
        exact hlast
      · rw [← hBl, h2]
        rw [← hBl, hL] at hl0
        exact hl0

theorem wired_spliced {st : OwnerStack} (hw : Wired st)
    {c : OwnerLayerCreator} (hs : c.Sound) {acc : Nat} {A : OwnerLayerAccess} {pos : OwnerLink}
    (hA : st.accesses[acc]? = some A) (hpos : st.links[A.link]? = some pos) (hup : pos.up = acc) :
    Wired (spliced st A pos c) := by
  have hlt : acc < st.accesses.length := (List.getElem?_eq_some.mp hA).1
  have hllt : A.link < st.links.length := (List.getElem?_eq_some.mp hpos).1
  have hold : ∀ (a : Nat) (h : OwnerHandler), a < st.accesses.length → HandlerOK st a h →
      HandlerOK (spliced st A pos c) a h := by
    intro a h _ hok
    have key : ∀ (l : Nat) (L : OwnerLink) (B : OwnerLayerAccess), st.links[l]? = some L → st.accesses[L.up]? = some B → B.link = l →
        ∃ (L' : OwnerLink) (B' : OwnerLayerAccess),
          (spliced st A pos c).links[l]? = some L' ∧ L'.down = L.down ∧
          L'.layer = L.layer ∧
          (spliced st A pos c).accesses[L'.up]? = some B' ∧ B'.link = l := by
      intro l L B hL hB hBl
      have hl : l < st.links.length := (List.getElem?_eq_some.mp hL).1
      have hu : L.up < st.accesses.length := (List.getElem?_eq_some.mp hB).1
      by_cases h1 : l = A.link
      · subst h1
        rw [hpos] at hL
        simp only [Option.some.injEq] at hL
        subst hL
        refine ⟨{ pos with up := st.accesses.length }, OwnerLayerAccess.mk [] A.link,
          ?_, rfl, rfl, ?_, rfl⟩
        · rw [spliced_link c hpos]; simp
        · rw [spliced_access c hA hup]
          have : st.accesses.length ≠ acc := by omega
          simp [this]
      · refine ⟨L, B, ?_, rfl, rfl, ?_, hBl⟩
        · rw [spliced_link c hpos]
          have : l ≠ st.links.length := by omega
          simp [h1, this, hL]
        · have h2 : L.up ≠ acc := by
            intro e
            rw [e, hA] at hB
            simp only [Option.some.injEq] at hB
            subst hB
            exact h1 hBl.symm
          rw [spliced_access c hA hup]
          have : L.up ≠ st.accesses.length := by omega
          simp [h2, this, hB]
    cases h with
    | external e => trivial
    | link l =>
      obtain ⟨L, B, hL, hd, hB, hBl⟩ := hok
      obtain ⟨L', B', h1, h2, _, h4, h5⟩ := key l L B hL hB hBl
      exact ⟨L', B', h1, h2.trans hd, h4, h5⟩
    | filtered l =>
      obtain ⟨L, B, hL, hd, hB, hBl, hk⟩ := hok
      obtain ⟨L', B', h1, h2, h3, h4, h5⟩ := key l L B hL hB hBl
      exact ⟨L', B', h1, h2.trans hd, h4, h5, by rw [h3]; exact hk⟩
  constructor
  · intro a A' L' hA' hL'
    rw [spliced_access c hA hup] at hA'
    rw [spliced_link c hpos] at hL'
    by_cases h1 : A'.link = A.link
    · rw [if_pos h1] at hL'
      simp only [Option.some.injEq] at hL'
      subst hL'
      rw [h1]
      exact hw.layers acc A pos hA hpos
    · rw [if_neg h1] at hL'
      by_cases h2 : A'.link = st.links.length
      · rw [if_pos h2] at hL'
        simp only [Option.some.injEq] at hL'
        subst hL'
        rw [h2]
        exact hs _ _
      · rw [if_neg h2] at hL'
        by_cases h3 : a = acc
        · rw [if_pos h3] at hA'
          simp only [Option.some.injEq] at hA'
          subst hA'
          exact absurd rfl h2
        · rw [if_neg h3] at hA'
          by_cases h4 : a = st.accesses.length
          · rw [if_pos h4] at hA'
            simp only [Option.some.injEq] at hA'
            subst hA'
            exact absurd rfl h1
          · rw [if_neg h4] at hA'
            exact hw.layers a A' L' hA' hL'
  · intro a A' hA' h hh
    rw [spliced_access c hA hup] at hA'
    by_cases h3 : a = acc
    · rw [if_pos h3] at hA'
      simp only [Option.some.injEq] at hA'
      subst hA'
      subst h3
      exact hold _ h hlt (hw.handlers _ A hA h hh)
    · rw [if_neg h3] at hA'
      by_cases h4 : a = st.accesses.length
      · rw [if_pos h4] at hA'
        simp only [Option.some.injEq] at hA'
        subst hA'
        simp at hh
      · rw [if_neg h4] at hA'
        exact hold _ h (List.getElem?_eq_some.mp hA').1 (hw.handlers _ A' hA' h hh)

/-! ## Changing the handlers of one access -/

section SetAccess

variable {st : OwnerStack} {a : Nat} {A : OwnerLayerAccess} (A' : OwnerLayerAccess)
  (hA : st.accesses[a]? = some A) (hl : A'.link = A.link)

include hA in
theorem setAccess_get (b : Nat) :
    ({ st with accesses := st.accesses.set a A' } : OwnerStack).accesses[b]? =
      if b = a then some A' else st.accesses[b]? := by
  have hlt : a < st.accesses.length := (List.getElem?_eq_some.mp hA).1
  simp only
  rw [List.getElem?_set]
  by_cases h : b = a
  · subst h; simp [hlt]
  · have h' : ¬ a = b := fun e => h e.symm
    simp [h, h']

include hA hl in
theorem setAccess_of_old {b : Nat} {B : OwnerLayerAccess} (hB : st.accesses[b]? = some B) :
    ∃ B', ({ st with accesses := st.accesses.set a A' } : OwnerStack).accesses[b]? = some B' ∧
      B'.link = B.link := by
  rw [setAccess_get A' hA]
  by_cases h : b = a
  · subst h
    rw [hA] at hB
    simp only [Option.some.injEq] at hB
    subst hB
    exact ⟨A', by simp, hl⟩
  · exact ⟨B, by simp [h, hB], rfl⟩

include hA hl in
theorem setAccess_of_new {b : Nat} {B' : OwnerLayerAccess}
    (hB : ({ st with accesses := st.accesses.set a A' } : OwnerStack).accesses[b]? = some B') :
    ∃ B, st.accesses[b]? = some B ∧ B'.link = B.link ∧
      (b = a → B' = A') ∧ (b ≠ a → B' = B) := by
  rw [setAccess_get A' hA] at hB
  by_cases h : b = a
  · subst h
    simp only [if_true, Option.some.injEq] at hB
    subst hB
    exact ⟨A, hA, hl, fun _ => rfl, fun h => absurd rfl h⟩
  · rw [if_neg h] at hB
    exact ⟨B', hB, rfl, fun e => absurd e h, fun _ => rfl⟩

include hA hl in
theorem NextLayer_setAccess (b : Nat) :
    OwnerLayerAccess.NextLayer ({ st with accesses := st.accesses.set a A' } : OwnerStack) b =
      OwnerLayerAccess.NextLayer st b := by
  unfold OwnerLayerAccess.NextLayer
  rw [setAccess_get A' hA]
  by_cases h : b = a
  · subst h
    simp only [if_true, hA, hl]
  · rw [if_neg h]

include hA hl in
theorem Layer_setAccess (b : Nat) :
    OwnerLayerAccess.Layer ({ st with accesses := st.accesses.set a A' } : OwnerStack) b =
      OwnerLayerAccess.Layer st b := by
  unfold OwnerLayerAccess.Layer
  rw [setAccess_get A' hA]
  by_cases h : b = a
  · subst h
    simp only [if_true, hA, hl]
  · rw [if_neg h]

include hA hl in
theorem chained_setAccess {ch : List Nat} (hc : Chained st ch) :
    Chained ({ st with accesses := st.accesses.set a A' } : OwnerStack) ch := by
  refine ⟨hc.top, hc.nodup, ?_, ?_, ?_, ?_, ?_⟩
  · intro b
    simp only [List.length_set]
    exact hc.mem_iff b
  · simp only [List.length_set]
    exact hc.links_len
  · exact (isChain_congr (NextLayer_setAccess A' hA hl) ch).mpr hc.isChain
  · intro b hb
    obtain ⟨B, L, hB, hL, hup⟩ := hc.up_eq b hb
    obtain ⟨B', hB', hlink⟩ := setAccess_of_old A' hA hl hB
    exact ⟨B', L, hB', by rw [hlink]; exact hL, hup⟩
  · obtain ⟨b, B, o, hb, hB, hlink, hbase⟩ := hc.bottom
    obtain ⟨B', hB', hlink'⟩ := setAccess_of_old A' hA hl hB
    exact ⟨b, B', o, hb, hB', by rw [hlink', hlink], hbase⟩

include hA hl in
theorem handlerOK_setAccess {b : Nat} {h : OwnerHandler} (hk : HandlerOK st b h) :
    HandlerOK ({ st with accesses := st.accesses.set a A' } : OwnerStack) b h := by
  cases h with
  | external e => trivial
  | link l =>
    obtain ⟨L, B, hL, hd, hB, hBl⟩ := hk
    obtain ⟨B', hB', hlink⟩ := setAccess_of_old A' hA hl hB
    exact ⟨L, B', hL, hd, hB', by rw [hlink, hBl]⟩
  | filtered l =>
    obtain ⟨L, B, hL, hd, hB, hBl, hf⟩ := hk
    obtain ⟨B', hB', hlink⟩ := setAccess_of_old A' hA hl hB
    exact ⟨L, B', hL, hd, hB', by rw [hlink, hBl], hf⟩

include hA hl in
theorem wired_setAccess (hw : Wired st) (hh : ∀ h ∈ A'.handlers, HandlerOK st a h) :
    Wired ({ st with accesses := st.accesses.set a A' } : OwnerStack) := by
  constructor
  · intro b B' L hB' hL
    obtain ⟨B, hB, hlink, _, _⟩ := setAccess_of_new A' hA hl hB'
    rw [hlink] at hL ⊢
    exact hw.layers b B L hB hL
  · intro b B' hB' h hmem
    obtain ⟨B, hB, _, h1, h2⟩ := setAccess_of_new A' hA hl hB'
    apply handlerOK_setAccess A' hA hl
    by_cases hb : b = a
    · have := h1 hb
      subst this
      subst hb
      exact hh h hmem
    · have := h2 hb
      subst this
      exact hw.handlers b B' hB h hmem

end SetAccess

theorem setAccess_self {st : OwnerStack} {a : Nat} {A : OwnerLayerAccess}
    (hA : st.accesses[a]? = some A) :
    ({ st with accesses := st.accesses.set a A } : OwnerStack) = st := by
  have : st.accesses.set a A = st.accesses := by
    apply List.ext_getElem?
    intro b
    rw [List.getElem?_set]
    by_cases h : a = b
    · subst h
      have hlt : a < st.accesses.length := (List.getElem?_eq_some.mp hA).1
      simp [hlt, hA]
    · simp [h]
  rw [this]

theorem registerHandler_link (A : OwnerLayerAccess) (h : OwnerHandler) :
    (A.registerHandler h).link = A.link := by
  unfold OwnerLayerAccess.registerHandler
  split <;> rfl

theorem mem_registerHandler {A : OwnerLayerAccess} {h x : OwnerHandler}
    (hx : x ∈ (A.registerHandler h).handlers) : x ∈ A.handlers ∨ x = h := by
  unfold OwnerLayerAccess.registerHandler at hx
  split at hx
  · exact Or.inl hx
  · simpa using hx

theorem RegisterHandler_eq_some {st st' : OwnerStack} {a : Nat} {h : OwnerHandler}
    (hr : OwnerLayerAccess.RegisterHandler st a h = some st') :
    ∃ A, st.accesses[a]? = some A ∧
      st' = { st with accesses := st.accesses.set a (A.registerHandler h) } := by
  unfold OwnerLayerAccess.RegisterHandler at hr
  cases hA : st.accesses[a]? with
  | none => simp [hA] at hr
  | some A =>
    simp only [hA, Option.some.injEq] at hr
    exact ⟨A, rfl, hr.symm⟩

theorem UnRegisterHandler_eq_some {st st' : OwnerStack} {a : Nat} {h : OwnerHandler}
    (hr : OwnerLayerAccess.UnRegisterHandler st a h = some st') :
    ∃ A, st.accesses[a]? = some A ∧
      st' = { st with
        accesses := st.accesses.set a { A with handlers := A.handlers.erase h } } := by
  unfold OwnerLayerAccess.UnRegisterHandler at hr
  cases hA : st.accesses[a]? with
  | none => simp [hA] at hr
  | some A =>
    simp only [hA, Option.some.injEq] at hr
    exact ⟨A, rfl, hr.symm⟩

theorem chained_RegisterHandler {st st' : OwnerStack} {a : Nat} {h : OwnerHandler}
    (hr : OwnerLayerAccess.RegisterHandler st a h = some st') {ch : List Nat}
    (hc : Chained st ch) : Chained st' ch := by
  obtain ⟨A, hA, rfl⟩ := RegisterHandler_eq_some hr
  exact chained_setAccess _ hA (registerHandler_link A h) hc

theorem chained_UnRegisterHandler {st st' : OwnerStack} {a : Nat} {h : OwnerHandler}
    (hr : OwnerLayerAccess.UnRegisterHandler st a h = some st') {ch : List Nat}
    (hc : Chained st ch) : Chained st' ch := by
  obtain ⟨A, hA, rfl⟩ := UnRegisterHandler_eq_some hr
  exact chained_setAccess ({ A with handlers := A.handlers.erase h }) hA rfl hc

theorem wired_RegisterHandler {st st' : OwnerStack} {a : Nat} {h : OwnerHandler}
    (hr : OwnerLayerAccess.RegisterHandler st a h = some st') (hw : Wired st)
    (hk : HandlerOK st a h) : Wired st' := by
  obtain ⟨A, hA, rfl⟩ := RegisterHandler_eq_some hr
  refine wired_setAccess _ hA (registerHandler_link A h) hw ?_
  intro x hx
  rcases mem_registerHandler hx with h1 | h1
  · exact hw.handlers a A hA x h1
  · rw [h1]; exact hk

theorem wired_UnRegisterHandler {st st' : OwnerStack} {a : Nat} {h : OwnerHandler}
    (hr : OwnerLayerAccess.UnRegisterHandler st a h = some st') (hw : Wired st) :
    Wired st' := by
  obtain ⟨A, hA, rfl⟩ := UnRegisterHandler_eq_some hr
  refine wired_setAccess ({ A with handlers := A.handlers.erase h }) hA rfl hw ?_
  intro x hx
  exact hw.handlers a A hA x (List.mem_of_mem_erase hx)

/-! ## The stack of `NewOwners` -/

theorem chained_NewOwners : Chained NewOwners.1 [0] := by
  refine ⟨rfl, by simp, ?_, rfl, rfl, ?_, ?_⟩
  · intro a
    simp [NewOwners, NewOwnerStack]
  · intro a ha
    simp only [List.mem_singleton] at ha
    subst ha
    exact ⟨_, _, rfl, rfl, rfl⟩
  · exact ⟨0, _, Owners.new, rfl, rfl, rfl, rfl⟩

theorem wired_NewOwners : Wired NewOwners.1 := by
  constructor
  · intro a A L hA hL
    have ha : a = 0 := by
      have := (List.getElem?_eq_some.mp hA).1
      simp [NewOwners, NewOwnerStack] at this
      exact this
    subst ha
    simp only [NewOwners, NewOwnerStack, List.getElem?_cons_zero, Option.some.injEq] at hA
    subst hA
    simp only [NewOwners, NewOwnerStack, List.getElem?_cons_zero, Option.some.injEq] at hL
    subst hL
    rfl
  · intro a A hA h hh
    have ha : a = 0 := by
      have := (List.getElem?_eq_some.mp hA).1
      simp [NewOwners, NewOwnerStack] at this
      exact this
    subst ha
    simp only [NewOwners, NewOwnerStack, List.getElem?_cons_zero, Option.some.injEq] at hA
    subst hA
    simp at hh

/-! ## Positions in the chain -/

theorem chain_split_next {st : OwnerStack} {ch : List Nat} (hc : Chained st ch) {x a : Nat}
    (hx : x ∈ ch) (hn : OwnerLayerAccess.NextLayer st x = some (some a)) :
    ∃ pre post, ch = pre ++ x :: a :: post := by
  obtain ⟨pre, p2, rfl⟩ := List.append_of_mem hx
  have h1 := isChain_next pre hc.isChain
  rw [hn] at h1
  simp only [Option.some.injEq] at h1
  cases p2 with
  | nil => simp at h1
  | cons b post =>
    simp only [List.head?_cons, Option.some.injEq] at h1
    subst h1
    exact ⟨pre, post, rfl⟩

theorem indexOf_next {st : OwnerStack} {ch : List Nat} (hc : Chained st ch) {x a : Nat}
    (hx : x ∈ ch) (hn : OwnerLayerAccess.NextLayer st x = some (some a)) :
    ch.indexOf a = ch.indexOf x + 1 := by
  obtain ⟨pre, post, rfl⟩ := chain_split_next hc hx hn
  have hnd := hc.nodup
  rw [List.nodup_append] at hnd
  obtain ⟨_, h2, h3⟩ := hnd
  have hxp : x ∉ pre := fun h => h3 h (by simp)
  have hap : a ∉ pre := fun h => h3 h (by simp)
  have hax : x ≠ a := by
    intro e
    subst e
    simp at h2
  rw [List.indexOf_append_of_not_mem hxp, List.indexOf_append_of_not_mem hap,
    List.indexOf_cons_self, List.indexOf_cons_ne _ hax, List.indexOf_cons_self]

theorem chain_last {st : OwnerStack} {ch : List Nat} (hc : Chained st ch) {a : Nat}
    (ha : a ∈ ch) (hn : OwnerLayerAccess.NextLayer st a = some none) :
    ch.getLast? = some a := by
  obtain ⟨pre, p2, rfl⟩ := List.append_of_mem ha
  have h1 := isChain_next pre hc.isChain
  rw [hn] at h1
  simp only [Option.some.injEq] at h1
  cases p2 with
  | nil => rw [getLast?_append_cons]; rfl
  | cons b post => simp at h1

/-- The bottom access of a chained stack reads a base registry. -/
theorem chain_bottom_layer {st : OwnerStack} {ch : List Nat} (hc : Chained st ch) {a : Nat}
    {A : OwnerLayerAccess} {L : OwnerLink} (ha : a ∈ ch) (hA : st.accesses[a]? = some A)
    (hL : st.links[A.link]? = some L) (hd : L.down = none) :
    A.link = 0 ∧ ∃ o, L.layer = .owners o 0 := by
  have hn : OwnerLayerAccess.NextLayer st a = some none :=
    NextLayer_eq_some.mpr ⟨A, L, hA, hL, hd⟩
  have hlast := chain_last hc ha hn
  obtain ⟨b, B, o, hb, hB, hBl, hbase⟩ := hc.bottom
  rw [hlast] at hb
  simp only [Option.some.injEq] at hb
  subst hb
  rw [hA] at hB
  simp only [Option.some.injEq] at hB
  subst hB
  rw [hBl] at hL
  rw [hL] at hbase
  simp only [Option.map_some', Option.some.injEq] at hbase
  exact ⟨hBl, o, hbase⟩

/-! ## The calls on a well-formed stack return -/

theorem GetIds_total {st : OwnerStack} {ch : List Nat} (hc : Chained st ch) (hw : Wired st) :
    ∀ (fuel a : Nat), a ∈ ch → ch.length - ch.indexOf a ≤ fuel →
      ∃ s, OwnerLayerAccess.GetIds st fuel a = some s := by
  intro fuel
  induction fuel with
  | zero =>
    intro a ha hf
    have := List.indexOf_lt_length.mpr ha
    omega
  | succ fuel ih =>
    intro a ha hf
    obtain ⟨A, L, hA, hL, _⟩ := hc.up_eq a ha
    have hwl := hw.layers a A L hA hL
    unfold OwnerLayerAccess.GetIds
    simp only [hA, hL]
    cases hlay : L.layer with
    | owners o up => exact ⟨_, rfl⟩
    | filtered accepted cache up down => exact ⟨_, rfl⟩
    | dummy up d =>
      rw [hlay] at hwl
      simp only [OwnerLayer.WiredTo] at hwl
      cases hd : L.down with
      | none =>
        obtain ⟨_, o, ho⟩ := chain_bottom_layer hc ha hA hL hd
        rw [hlay] at ho
        simp at ho
      | some b =>
        have hdb : d = some b := by rw [hwl.2, hd]
        subst hdb
        simp only
        have hn : OwnerLayerAccess.NextLayer st a = some (some b) :=
          NextLayer_eq_some.mpr ⟨A, L, hA, hL, hd⟩
        have hb := isChain_next_mem hc.isChain ha hn
        have hi := indexOf_next hc ha hn
        exact ih b hb (by omega)

theorem handler_up {st : OwnerStack} {ch : List Nat} (hc : Chained st ch) {a l : Nat}
    {L : OwnerLink} {B : OwnerLayerAccess} (hL : st.links[l]? = some L)
    (hd : L.down = some a) (hB : st.accesses[L.up]? = some B) (hBl : B.link = l) :
    L.up ∈ ch ∧ ch.indexOf a = ch.indexOf L.up + 1 := by
  have hu : L.up ∈ ch := (hc.mem_iff _).mpr (List.getElem?_eq_some.mp hB).1
  have hn : OwnerLayerAccess.NextLayer st L.up = some (some a) :=
    NextLayer_eq_some.mpr ⟨B, L, hB, by rw [hBl]; exact hL, hd⟩
  exact ⟨hu, indexOf_next hc hu hn⟩

theorem notify_total :
    ∀ (fuel : Nat) (st : OwnerStack) (ch : List Nat) (a : Nat) (ad dl : StringSet),
      Chained st ch → Wired st → a ∈ ch → ch.indexOf a < fuel →
      ∃ st', OwnerLayerAccess.notify fuel st a ad dl = some st' := by
  intro fuel
  induction fuel with
  | zero => intro st ch a ad dl _ _ _ hf; omega
  | succ fuel ih =>
    intro st ch a ad dl hc hw ha hf
    obtain ⟨A, _, hA, _, _⟩ := hc.up_eq a ha
    unfold OwnerLayerAccess.notify
    simp only [hA]
    have hok := hw.handlers a A hA
    generalize A.handlers = hs at hok
    have key : ∀ (hs : List OwnerHandler) (st1 : OwnerStack), SameWiring st st1 →
        (∀ h ∈ hs, HandlerOK st a h) →
        ∃ st', hs.foldlM
          (fun st h => h.OwnerSetChanged (OwnerLayerAccess.notify fuel) ad dl st) st1 =
            some st' := by
      intro hs
      induction hs with
      | nil => intro st1 _ _; exact ⟨st1, rfl⟩
      | cons h hs ihs =>
        intro st1 hsw hall
        have hc1 := chained_sameWiring hsw hc
        have hw1 := wired_sameWiring hsw hw
        have hk1 : HandlerOK st1 a h := handlerOK_sameWiring hsw (hall h (by simp))
        have hstep : ∃ st2, h.OwnerSetChanged (OwnerLayerAccess.notify fuel) ad dl st1 =
            some st2 := by
          cases h with
          | external e => exact ⟨_, rfl⟩
          | link l =>
            obtain ⟨L, B, hL, hd, hB, hBl⟩ := hk1
            obtain ⟨hu, hi⟩ := handler_up hc1 hL hd hB hBl
            rw [OwnerSetChanged_link]
            unfold OwnerLink.OwnerSetChanged
            simp only [hL]
            exact ih st1 ch L.up ad dl hc1 hw1 hu (by omega)
          | filtered l =>
            obtain ⟨L, B, hL, hd, hB, hBl, accepted, cache, up, down, hlay⟩ := hk1
            obtain ⟨hu, hi⟩ := handler_up hc1 hL hd hB hBl
            have hwl := hw1.layers L.up B L hB (by rw [hBl]; exact hL)
            rw [hlay] at hwl
            simp only [OwnerLayer.WiredTo] at hwl
            obtain ⟨hup, _⟩ := hwl
            rw [hBl] at hup
            subst hup
            obtain ⟨lup, layer, ldown⟩ := L
            simp only at hlay hd hB hu hi
            subst hlay
            rw [OwnerSetChanged_filtered]
            unfold FilteredLayer.OwnerSetChanged
            simp only [hL]
            split
            · have hsw2 := sameWiring_set_layer st1 up lup
                (.filtered accepted cache up down)
                (.filtered accepted
                  (FilteredLayer.changeSets accepted cache ad dl).1 up down) ldown hL rfl
              have hc2 := chained_sameWiring hsw2 hc1
              have hw2 := wired_sameWiring hsw2 hw1
              unfold OwnerLink.OwnerSetChanged
              have hlt : up < st1.links.length := (List.getElem?_eq_some.mp hL).1
              simp only [List.getElem?_set, hlt, if_true]
              exact ih _ ch lup _ _ hc2 hw2 hu (by omega)
            · exact ⟨_, rfl⟩
        obtain ⟨st2, h2⟩ := hstep
        have hsw2 : SameWiring st1 st2 :=
          OwnerHandler_OwnerSetChanged_frame (notify_framed fuel) h2
        obtain ⟨st', h3⟩ := ihs st2 (sameWiring_trans hsw hsw2)
          (fun x hx => hall x (List.mem_cons_of_mem _ hx))
        refine ⟨st', ?_⟩
        rw [List.foldlM_cons, h2]
        exact h3
    exact key hs st (sameWiring_refl st) hok

section Spliced2

variable {st : OwnerStack} {acc : Nat} {A : OwnerLayerAccess} {pos : OwnerLink}
  (c : OwnerLayerCreator)
  (hA : st.accesses[acc]? = some A) (hpos : st.links[A.link]? = some pos) (hup : pos.up = acc)

include hA hup in
theorem spliced_access_acc :
    (spliced st A pos c).accesses[acc]? = some { A with link := st.links.length } := by
  rw [spliced_access c hA hup]; simp

include hA hup in
theorem spliced_access_new :
    (spliced st A pos c).accesses[st.accesses.length]? = some (OwnerLayerAccess.mk [] A.link) := by
  have hlt : acc < st.accesses.length := (List.getElem?_eq_some.mp hA).1
  rw [spliced_access c hA hup]
  have : st.accesses.length ≠ acc := by omega
  simp [this]

include hpos in
theorem spliced_link_new :
    (spliced st A pos c).links[st.links.length]? =
      some (OwnerLink.mk pos.up (c st.links.length (some st.accesses.length))
        (some st.accesses.length)) := by
  have hlt : A.link < st.links.length := (List.getElem?_eq_some.mp hpos).1
  rw [spliced_link c hpos]
  have : st.links.length ≠ A.link := by omega
  simp [this]

include hpos in
theorem spliced_link_old :
    (spliced st A pos c).links[A.link]? = some { pos with up := st.accesses.length } := by
  rw [spliced_link c hpos]; simp

include hpos in
/-- Every link of the old stack is still there with the same layer and the same
down access. -/
theorem spliced_link_keeps {l : Nat} {L : OwnerLink} (hL : st.links[l]? = some L) :
    ∃ L', (spliced st A pos c).links[l]? = some L' ∧ L'.layer = L.layer ∧ L'.down = L.down := by
  have hlt : l < st.links.length := (List.getElem?_eq_some.mp hL).1
  rw [spliced_link c hpos]
  by_cases h1 : l = A.link
  · subst h1
    rw [hpos] at hL
    simp only [Option.some.injEq] at hL
    subst hL
    exact ⟨{ pos with up := st.accesses.length }, by simp, rfl, rfl⟩
  · have : l ≠ st.links.length := by omega
    exact ⟨L, by simp [h1, this, hL], rfl, rfl⟩

include hA hpos hup in
theorem handlerOK_spliced_start {h : OwnerHandler} (hs : c.Sound)
    (hh : startHandler st.links.length (c st.links.length (some st.accesses.length)) = some h) :
    HandlerOK (spliced st A pos c) st.accesses.length h := by
  have hw := hs st.links.length (some st.accesses.length)
  cases hlay : c st.links.length (some st.accesses.length) with
  | owners o up => rw [hlay] at hh; simp [startHandler] at hh
  | dummy up d =>
    rw [hlay] at hh hw
    simp only [startHandler, Option.some.injEq] at hh
    simp only [OwnerLayer.WiredTo] at hw
    subst hh
    rw [hw.1]
    refine ⟨_, { A with link := st.links.length }, spliced_link_new c hpos, rfl, ?_, rfl⟩
    simp only [hup]
    exact spliced_access_acc c hA hup
  | filtered accepted cache up d =>
    rw [hlay] at hh
    simp only [startHandler, Option.some.injEq] at hh
    subst hh
    refine ⟨_, { A with link := st.links.length }, spliced_link_new c hpos, rfl, ?_, rfl, ?_⟩
    · simp only [hup]
      exact spliced_access_acc c hA hup
    · exact ⟨_, _, _, _, hlay⟩

end Spliced2

/-! ## `Start` and `InserLayer` on a well-formed stack -/

theorem OwnerLayer_Start_total {st : OwnerStack} {ch : List Nat} (hc : Chained st ch)
    (hw : Wired st) {l : Nat} {L : OwnerLink} {B : OwnerLayerAccess}
    (hL : st.links[l]? = some L) (hB : st.accesses[L.up]? = some B) (hBl : B.link = l)
    (fuel : Nat) (hf : st.accesses.length ≤ fuel) (D : StringSet) :
    ∃ st2 r, OwnerLayer.Start fuel st l D = some (st2, r) := by
  have hu : L.up ∈ ch := (hc.mem_iff _).mpr (List.getElem?_eq_some.mp hB).1
  have hwl := hw.layers L.up B L hB (by rw [hBl]; exact hL)
  obtain ⟨lup, layer, ldown⟩ := L
  simp only at hB hu hwl
  unfold OwnerLayer.Start
  cases layer with
  | owners o up => simp only [hL]; exact ⟨_, _, rfl⟩
  | dummy up d => simp only [hL]; exact ⟨_, _, rfl⟩
  | filtered accepted cache up d =>
    simp only [hL]
    simp only [OwnerLayer.WiredTo] at hwl
    obtain ⟨hup, _⟩ := hwl
    rw [hBl] at hup
    subst hup
    unfold FilteredLayer.Start
    simp only [hL]
    split
    · have hsw := sameWiring_set_layer st up lup (.filtered accepted cache up d)
        (.filtered accepted (FilteredLayer.startSets accepted D).1 up d) ldown hL rfl
      have hc2 := chained_sameWiring hsw hc
      have hw2 := wired_sameWiring hsw hw
      have hi : ch.indexOf lup < fuel := by
        have := List.indexOf_lt_length.mpr hu
        have := chained_length hc
        omega
      obtain ⟨st2, h2⟩ := notify_total fuel _ ch lup ∅
        (FilteredLayer.startSets accepted D).2 hc2 hw2 hu hi
      have hlt : up < st.links.length := (List.getElem?_eq_some.mp hL).1
      unfold OwnerLink.OwnerSetChanged
      simp only [List.getElem?_set, hlt, if_true]
      rw [h2]
      exact ⟨_, _, rfl⟩
    · exact ⟨_, _, rfl⟩

theorem InserLayer_unfold {st : OwnerStack} {fuel acc : Nat} (c : OwnerLayerCreator)
    {A : OwnerLayerAccess} {pos : OwnerLink} {set : StringSet}
    (hs : InserLayer.search st acc fuel (some st.access) = some true)
    (hA : st.accesses[acc]? = some A) (hpos : st.links[A.link]? = some pos) (hup : pos.up = acc)
    (hseed : InserLayer.seed fuel st pos = some set) :
    OwnerStack.InserLayer fuel st acc c =
      match OwnerLayer.Start fuel (spliced st A pos c) st.links.length set with
      | none => none
      | some (st2, none) => some (st2, some acc)
      | some (st2, some h) =>
        match OwnerLayerAccess.RegisterHandler st2 st.accesses.length h with
        | none => none
        | some st3 => some (st3, some acc) := by
  have hlt : acc < st.accesses.length := (List.getElem?_eq_some.mp hA).1
  have h1 : (st.accesses ++ [OwnerLayerAccess.mk [] A.link])[pos.up]? = some A := by
    rw [hup, List.getElem?_append_left hlt, hA]
  unfold OwnerStack.InserLayer
  simp only [hs, hA, hpos, hseed, h1]
  rfl

theorem chain_cons {st : OwnerStack} {ch : List Nat} (hc : Chained st ch) :
    ∃ rest, ch = st.access :: rest := by
  have h := hc.top
  cases ch with
  | nil => simp at h
  | cons a rest =>
    simp only [List.head?_cons, Option.some.injEq] at h
    subst h
    exact ⟨rest, rfl⟩

theorem InserLayer_not_found {st : OwnerStack} {ch : List Nat} (hc : Chained st ch)
    {acc : Nat} (hmem : acc ∉ ch) (fuel : Nat) (c : OwnerLayerCreator) :
    (∀ st' r, OwnerStack.InserLayer fuel st acc c = some (st', r) → st' = st ∧ r = none) ∧
    (st.accesses.length < fuel → OwnerStack.InserLayer fuel st acc c = some (st, none)) := by
  obtain ⟨rest, rfl⟩ := chain_cons hc
  constructor
  · intro st' r h
    unfold OwnerStack.InserLayer at h
    cases hs : InserLayer.search st acc fuel (some st.access) with
    | none => simp [hs] at h
    | some b =>
      have hb := search_spec acc hc.isChain fuel hs
      rw [decide_eq_false hmem] at hb
      subst hb
      simp only [hs, Option.some.injEq, Prod.mk.injEq] at h
      exact ⟨h.1.symm, h.2.symm⟩
  · intro hf
    have hlen := chained_length hc
    simp only [List.length_cons] at hlen
    have hs := search_total acc hc.isChain fuel (by omega)
    rw [decide_eq_false hmem] at hs
    unfold OwnerStack.InserLayer
    simp only [hs]

theorem InserLayer_result {st : OwnerStack} {ch : List Nat} (hc : Chained st ch)
    {fuel acc : Nat} {c : OwnerLayerCreator} {st' : OwnerStack} {r : Option Nat}
    (h : OwnerStack.InserLayer fuel st acc c = some (st', r)) (hmem : acc ∈ ch) :
    r = some acc ∧ ∃ A pos st2, st.accesses[acc]? = some A ∧ st.links[A.link]? = some pos ∧
      pos.up = acc ∧ SameWiring (spliced st A pos c) st2 ∧
      st' = { st2 with
        accesses := st2.accesses.set st.accesses.length
          (OwnerLayerAccess.mk
            (startHandler st.links.length
              (c st.links.length (some st.accesses.length))).toList A.link) } := by
  obtain ⟨rest, rfl⟩ := chain_cons hc
  obtain ⟨A, pos, hA, hpos, hup⟩ := hc.up_eq acc hmem
  cases hs : InserLayer.search st acc fuel (some st.access) with
  | none =>
    unfold OwnerStack.InserLayer at h
    simp [hs] at h
  | some b =>
    have hb := search_spec acc hc.isChain fuel hs
    rw [decide_eq_true hmem] at hb
    subst hb
    cases hseed : InserLayer.seed fuel st pos with
    | none =>
      unfold OwnerStack.InserLayer at h
      simp [hs, hA, hpos, hseed] at h
    | some set =>
      rw [InserLayer_unfold c hs hA hpos hup hseed] at h
      cases hstart : OwnerLayer.Start fuel (spliced st A pos c) st.links.length set with
      | none => simp [hstart] at h
      | some p =>
        obtain ⟨st2, ho⟩ := p
        obtain ⟨hsw, L, hL, hr⟩ := OwnerLayer_Start_frame hstart
        rw [spliced_link_new c hpos] at hL
        simp only [Option.some.injEq] at hL
        subst hL
        simp only at hr
        have hN : st2.accesses[st.accesses.length]? = some (OwnerLayerAccess.mk [] A.link) := by
          rw [hsw.2.1]
          exact spliced_access_new c hA hup
        rw [hstart] at h
        cases ho with
        | none =>
          simp only [Option.some.injEq, Prod.mk.injEq] at h
          obtain ⟨rfl, rfl⟩ := h
          refine ⟨rfl, A, pos, st2, hA, hpos, hup, hsw, ?_⟩
          rw [← hr]
          exact (setAccess_self hN).symm
        | some hd =>
          simp only at h
          unfold OwnerLayerAccess.RegisterHandler at h
          simp only [hN, Option.some.injEq, Prod.mk.injEq] at h
          obtain ⟨rfl, rfl⟩ := h
          refine ⟨rfl, A, pos, st2, hA, hpos, hup, hsw, ?_⟩
          rw [← hr]
          simp [OwnerLayerAccess.registerHandler]

theorem seed_total {st : OwnerStack} {ch : List Nat} (hc : Chained st ch) (hw : Wired st)
    {acc : Nat} {A : OwnerLayerAccess} {pos : OwnerLink} (hmem : acc ∈ ch)
    (hA : st.accesses[acc]? = some A) (hpos : st.links[A.link]? = some pos)
    (fuel : Nat) (hf : st.accesses.length ≤ fuel) :
    ∃ set, InserLayer.seed fuel st pos = some set := by
  unfold InserLayer.seed
  cases hd : pos.down with
  | none => exact ⟨_, rfl⟩
  | some d =>
    have hn : OwnerLayerAccess.NextLayer st acc = some (some d) :=
      NextLayer_eq_some.mpr ⟨A, pos, hA, hpos, hd⟩
    have hd' := isChain_next_mem hc.isChain hmem hn
    have := chained_length hc
    exact GetIds_total hc hw fuel d hd' (by omega)

theorem InserLayer_total {st : OwnerStack} {ch : List Nat} (hc : Chained st ch) (hw : Wired st)
    {c : OwnerLayerCreator} (hsound : c.Sound) {acc : Nat} (hmem : acc ∈ ch) (fuel : Nat)
    (hf : st.accesses.length < fuel) :
    ∃ st', OwnerStack.InserLayer fuel st acc c = some (st', some acc) := by
  obtain ⟨rest, hrest⟩ := chain_cons hc
  obtain ⟨A, pos, hA, hpos, hup⟩ := hc.up_eq acc hmem
  have hlen := chained_length hc
  have hs : InserLayer.search st acc fuel (some st.access) = some true := by
    subst hrest
    simp only [List.length_cons] at hlen
    have := search_total acc hc.isChain fuel (by omega)
    rw [decide_eq_true hmem] at this
    exact this
  obtain ⟨set, hseed⟩ := seed_total hc hw hmem hA hpos fuel (by omega)
  obtain ⟨pre, post, hsplit⟩ := List.append_of_mem hmem
  have hc1 := chained_spliced hc c hA hpos hup hsplit
  have hw1 := wired_spliced hw hsound hA hpos hup
  have hB : (spliced st A pos c).accesses[(OwnerLink.mk pos.up
      (c st.links.length (some st.accesses.length)) (some st.accesses.length)).up]? =
      some { A with link := st.links.length } := by
    simp only [hup]
    exact spliced_access_acc c hA hup
  have hlen1 : (spliced st A pos c).accesses.length = st.accesses.length + 1 := by
    simp [spliced]
  obtain ⟨st2, ho, hstart⟩ := OwnerLayer_Start_total hc1 hw1 (spliced_link_new c hpos) hB rfl
    fuel (by omega) set
  rw [InserLayer_unfold c hs hA hpos hup hseed, hstart]
  cases ho with
  | none => exact ⟨_, rfl⟩
  | some hd =>
    obtain ⟨hsw, _⟩ := OwnerLayer_Start_frame hstart
    have hN : st2.accesses[st.accesses.length]? = some (OwnerLayerAccess.mk [] A.link) := by
      rw [hsw.2.1]
      exact spliced_access_new c hA hup
    simp only
    unfold OwnerLayerAccess.RegisterHandler
    simp only [hN]
    exact ⟨_, rfl⟩

/-! ## The invariants of the reachable stacks -/

theorem chained_InserLayer {st : OwnerStack} {ch : List Nat} (hc : Chained st ch)
    {fuel acc : Nat} {c : OwnerLayerCreator} {st' : OwnerStack} {r : Option Nat}
    (h : OwnerStack.InserLayer fuel st acc c = some (st', r)) : ∃ ch', Chained st' ch' := by
  by_cases hmem : acc ∈ ch
  · obtain ⟨_, A, pos, st2, hA, hpos, hup, hsw, rfl⟩ := InserLayer_result hc h hmem
    obtain ⟨pre, post, hsplit⟩ := List.append_of_mem hmem
    have hc1 := chained_sameWiring hsw (chained_spliced hc c hA hpos hup hsplit)
    have hN : st2.accesses[st.accesses.length]? = some (OwnerLayerAccess.mk [] A.link) := by
      rw [hsw.2.1]
      exact spliced_access_new c hA hup
    have key := fun (hs : List OwnerHandler) =>
      chained_setAccess (OwnerLayerAccess.mk hs A.link) hN rfl hc1
    exact ⟨_, key _⟩
  · obtain ⟨rfl, _⟩ := (InserLayer_not_found hc hmem fuel c).1 st' r h
    exact ⟨ch, hc⟩

theorem wired_InserLayer {st : OwnerStack} {ch : List Nat} (hc : Chained st ch) (hw : Wired st)
    {fuel acc : Nat} {c : OwnerLayerCreator} (hsound : c.Sound) {st' : OwnerStack}
    {r : Option Nat} (h : OwnerStack.InserLayer fuel st acc c = some (st', r)) : Wired st' := by
  by_cases hmem : acc ∈ ch
  · obtain ⟨_, A, pos, st2, hA, hpos, hup, hsw, rfl⟩ := InserLayer_result hc h hmem
    have hw1 := wired_sameWiring hsw (wired_spliced hw hsound hA hpos hup)
    have hN : st2.accesses[st.accesses.length]? = some (OwnerLayerAccess.mk [] A.link) := by
      rw [hsw.2.1]
      exact spliced_access_new c hA hup
    have key := fun (hs : List OwnerHandler) =>
      wired_setAccess (OwnerLayerAccess.mk hs A.link) hN rfl hw1
    refine key _ ?_
    intro x hx
    simp only [Option.mem_toList, Option.mem_def] at hx
    exact handlerOK_sameWiring hsw (handlerOK_spliced_start c hA hpos hup hsound hx)
  · obtain ⟨rfl, _⟩ := (InserLayer_not_found hc hmem fuel c).1 st' r h
    exact hw

theorem reachableWith_chained {P : OwnerLayerCreator → Prop} {st : OwnerStack}
    (h : ReachableWith P st) : ∃ ch, Chained st ch := by
  induction h with
  | new => exact ⟨_, chained_NewOwners⟩
  | insert _ _ hi ih =>
    obtain ⟨ch, hc⟩ := ih
    exact chained_InserLayer hc hi
  | call _ hi ih =>
    obtain ⟨ch, hc⟩ := ih
    exact ⟨ch, chained_sameWiring (apply_frame hi) hc⟩
  | register _ hi ih =>
    obtain ⟨ch, hc⟩ := ih
    exact ⟨ch, chained_RegisterHandler hi hc⟩
  | unregister _ hi ih =>
    obtain ⟨ch, hc⟩ := ih
    exact ⟨ch, chained_UnRegisterHandler hi hc⟩
  | filterChanged _ hi ih =>
    obtain ⟨ch, hc⟩ := ih
    exact ⟨ch, chained_sameWiring (FilterChanged_frame hi) hc⟩

theorem reachable_wired {st : OwnerStack} (h : Reachable st) : Wired st := by
  unfold Reachable at h
  induction h with
  | new => exact wired_NewOwners
  | insert hr hs hi ih =>
    obtain ⟨ch, hc⟩ := reachableWith_chained hr
    exact wired_InserLayer hc ih hs hi
  | call _ hi ih => exact wired_sameWiring (apply_frame hi) ih
  | register _ hi ih => exact wired_RegisterHandler hi ih trivial
  | unregister _ hi ih => exact wired_UnRegisterHandler hi ih
  | filterChanged _ hi ih => exact wired_sameWiring (FilterChanged_frame hi) ih

theorem reachable_chained {P : OwnerLayerCreator → Prop} {st : OwnerStack}
    (h : ReachableWith P st) : Chained st st.chain := by
  obtain ⟨ch, hc⟩ := reachableWith_chained h
  rw [chain_eq hc]
  exact hc

/-- What `InserLayer` leaves behind at an access of the chain, read through
`Layer()` and `NextLayer()`: the readings of the rewired stack. -/
theorem InserLayer_view {st : OwnerStack} {ch : List Nat} (hc : Chained st ch)
    {fuel acc : Nat} {c : OwnerLayerCreator} {st' : OwnerStack} {r : Option Nat}
    (h : OwnerStack.InserLayer fuel st acc c = some (st', r)) (hmem : acc ∈ ch) :
    ∃ A pos, st.accesses[acc]? = some A ∧ st.links[A.link]? = some pos ∧ pos.up = acc ∧
      (∀ b, OwnerLayerAccess.Layer st' b = OwnerLayerAccess.Layer (spliced st A pos c) b) ∧
      (∀ b, OwnerLayerAccess.NextLayer st' b =
        OwnerLayerAccess.NextLayer (spliced st A pos c) b) ∧
      (∀ l : Nat, (st'.links[l]?).map OwnerLink.shape =
        ((spliced st A pos c).links[l]?).map OwnerLink.shape) ∧
      ∀ pre post, ch = pre ++ acc :: post →
        Chained st' (pre ++ acc :: st.accesses.length :: post) := by
  obtain ⟨_, A, pos, st2, hA, hpos, hup, hsw, rfl⟩ := InserLayer_result hc h hmem
  have hN : st2.accesses[st.accesses.length]? = some (OwnerLayerAccess.mk [] A.link) := by
    rw [hsw.2.1]
    exact spliced_access_new c hA hup
  refine ⟨A, pos, hA, hpos, hup, ?_, ?_, ?_, ?_⟩
  · intro b
    have key := fun (hs : List OwnerHandler) =>
      Layer_setAccess (OwnerLayerAccess.mk hs A.link) hN rfl b
    rw [key, Layer_sameWiring hsw]
  · intro b
    have key := fun (hs : List OwnerHandler) =>
      NextLayer_setAccess (OwnerLayerAccess.mk hs A.link) hN rfl b
    rw [key, NextLayer_sameWiring hsw]
  · intro l
    exact sameWiring_links hsw l
  · intro pre post hsplit
    have key := fun (hs : List OwnerHandler) =>
      chained_setAccess (OwnerLayerAccess.mk hs A.link) hN rfl
        (chained_sameWiring hsw (chained_spliced hc c hA hpos hup hsplit))
    exact key _

/-! ## The claims about `InserLayer` and `BaseLayer` -/

theorem sound_DummyLayerCreator : DummyLayerCreator.Sound := fun _ _ => ⟨rfl, rfl⟩

theorem sound_FilteredLayerCreator (accept : String → Bool) :
    (FilteredLayerCreator accept).Sound := fun _ _ => ⟨rfl, rfl⟩

theorem sound_CreateOwnerBaseLayer : CreateOwnerBaseLayer.Sound := fun _ _ => rfl

theorem layerShape_of_shape {x y : Option OwnerLink}
    (h : x.map OwnerLink.shape = y.map OwnerLink.shape) :
    x.map (fun L => L.layer.shape) = y.map (fun L => L.layer.shape) := by
  cases x <;> cases y <;> simp [OwnerLink.shape] at h ⊢
  exact h.2.1

theorem InserLayer_NewOwners_dummy :
    OwnerStack.InserLayer 2 NewOwners.1 0 DummyLayerCreator = some (dummyStack, some 0) := rfl

theorem reachable_dummyStack (P : OwnerLayerCreator → Prop) (h : P DummyLayerCreator) :
    ReachableWith P dummyStack :=
  ReachableWith.insert ReachableWith.new h InserLayer_NewOwners_dummy

/-- C13 (splice topology of `InserLayer`): on a stack reachable from `NewOwners()`,
for an access `acc` of the chain and a creator that wires its layer as given,
`InserLayer(acc, c)` returns `acc` once the fuel exceeds the number of accesses,
and afterwards: `acc.Layer()` is the link `st.links.length`, which held nothing
before, and the layer there is the one `c` built (up to the state that `Start`
filled in); `acc.NextLayer()` is the access `st.accesses.length`, which did not
exist and was not in the chain; that access has the layer and the successor that
`acc` had before; every other access of the chain keeps its layer and its
successor; every old layer keeps its kind, predicate and pointers; and the chain
is the old chain with the new access right after `acc`. -/
theorem inserLayer_splice {st : OwnerStack} (hr : Reachable st) {c : OwnerLayerCreator}
    (hs : c.Sound) (acc fuel : Nat) (hat : acc ∈ st.chain) (hf : st.accesses.length < fuel) :
    ∃ st', OwnerStack.InserLayer fuel st acc c = some (st', some acc) ∧
      st.accesses.length ∉ st.chain ∧ st.accesses[st.accesses.length]? = none ∧
      st.links[st.links.length]? = none ∧
      OwnerLayerAccess.Layer st' acc = some st.links.length ∧
      (st'.links[st.links.length]?).map (fun L => L.layer.shape) =
        some (c st.links.length (some st.accesses.length)).shape ∧
      OwnerLayerAccess.NextLayer st' acc = some (some st.accesses.length) ∧
      (∃ l0, OwnerLayerAccess.Layer st acc = some l0 ∧
        OwnerLayerAccess.Layer st' st.accesses.length = some l0) ∧
      (∃ n0, OwnerLayerAccess.NextLayer st acc = some n0 ∧
        OwnerLayerAccess.NextLayer st' st.accesses.length = some n0) ∧
      (∀ b ∈ st.chain, b ≠ acc →
        OwnerLayerAccess.Layer st' b = OwnerLayerAccess.Layer st b ∧
        OwnerLayerAccess.NextLayer st' b = OwnerLayerAccess.NextLayer st b) ∧
      (∀ (k : Nat) (L : OwnerLink), st.links[k]? = some L →
        (st'.links[k]?).map (fun L => L.layer.shape) = some L.layer.shape) ∧
      ∃ pre post, st.chain = pre ++ acc :: post ∧
        st'.chain = pre ++ acc :: st.accesses.length :: post := by
  have hc := reachable_chained hr
  have hw := reachable_wired hr
  obtain ⟨st', h⟩ := InserLayer_total hc hw hs hat fuel hf
  obtain ⟨A, pos, hA, hpos, hup, hL, hN, hS, hC⟩ := InserLayer_view hc h hat
  obtain ⟨pre, post, hsplit⟩ := List.append_of_mem hat
  have hnd := hc.nodup
  refine ⟨st', h, ?_, ?_, ?_, ?_, ?_, ?_, ?_, ?_, ?_, ?_, pre, post, hsplit, ?_⟩
  · intro hmem
    exact absurd ((hc.mem_iff _).mp hmem) (lt_irrefl _)
  · exact List.getElem?_eq_none (le_refl _)
  · exact List.getElem?_eq_none (le_refl _)
  · rw [hL]; exact spliced_Layer_acc c hA hpos hup
  · have := layerShape_of_shape (hS st.links.length)
    rw [this, spliced_link_new c hpos]
    rfl
  · rw [hN]; exact spliced_NextLayer_acc c hA hpos hup
  · exact ⟨A.link, Layer_eq_some.mpr ⟨A, pos, hA, hpos, rfl⟩, by
      rw [hL]; exact spliced_Layer_new c hA hpos hup⟩
  · exact ⟨pos.down, NextLayer_eq_some.mpr ⟨A, pos, hA, hpos, rfl⟩, by
      rw [hN]; exact spliced_NextLayer_new c hA hpos hup⟩
  · intro b hb hne
    obtain ⟨B, L, hB, hLk, hLup⟩ := hc.up_eq b hb
    obtain ⟨h1, h2⟩ := spliced_other c hA hpos hup hne hB hLk hLup
    rw [hL, hN]
    exact ⟨by rw [Layer_eq_some.mpr ⟨B, L, h1, h2, rfl⟩, Layer_eq_some.mpr ⟨B, L, hB, hLk, rfl⟩],
      by rw [NextLayer_eq_some.mpr ⟨B, L, h1, h2, rfl⟩,
        NextLayer_eq_some.mpr ⟨B, L, hB, hLk, rfl⟩]⟩
  · intro k L hk
    obtain ⟨L', hk', hlay, _⟩ := spliced_link_keeps c hpos hk
    have := layerShape_of_shape (hS k)
    rw [this, hk']
    simp [hlay]
  · exact chain_eq (hC pre post hsplit)

theorem inserLayer_splice_two_dummies :
    ∃ st2, OwnerStack.InserLayer 3 dummyStack 0 DummyLayerCreator = some (st2, some 0) ∧
      st2.chain = [0, 2, 1] ∧
      OwnerLayerAccess.Layer st2 0 = some 2 ∧
      (st2.links[2]?).map (fun L => L.layer.shape) = some (.dummy 2 (some 2)) ∧
      OwnerLayerAccess.Layer st2 2 = some 1 ∧
      (st2.links[1]?).map (fun L => L.layer.shape) = some (.dummy 1 (some 1)) ∧
      OwnerLayerAccess.Layer st2 1 = some 0 ∧
      (st2.links[0]?).map (fun L => L.layer.shape) = some (.owners Owners.new 0) := by
  obtain ⟨st2, h, _, _, _, hL0, hS2, _, ⟨l0, hl0, hLN⟩, _, hother, hkeep, pre, post, hpre, hch⟩ :=
    inserLayer_splice (reachable_dummyStack _ sound_DummyLayerCreator) sound_DummyLayerCreator
      0 3 (by decide) (by decide)
  have e0 : OwnerLayerAccess.Layer dummyStack 0 = some 1 := rfl
  rw [e0] at hl0
  simp only [Option.some.injEq] at hl0
  subst hl0
  have hc : dummyStack.chain = [0, 1] := rfl
  rw [hc] at hpre
  have hpp : pre = [] ∧ post = [1] := by
    cases pre with
    | nil => simpa using hpre.symm
    | cons p pre =>
      simp only [List.cons_append, List.cons.injEq] at hpre
      obtain ⟨_, h2⟩ := hpre
      cases pre with
      | nil => simp at h2
      | cons q pre => simp at h2
  obtain ⟨rfl, rfl⟩ := hpp
  refine ⟨st2, h, hch, hL0, hS2, hLN, hkeep 1 _ rfl, ?_, hkeep 0 _ rfl⟩
  exact (hother 1 (by decide) (by decide)).1

/-- C14 (insertion at an unknown access is a no-op): on a stack reachable from
`NewOwners()`, with a creator that wires its layer as given and fuel above the
number of accesses, `InserLayer(acc, c)` returns; the access returned is nil
exactly when `acc` is not in the chain; in that case the stack is returned as it
was (links, layers, handler lists and the log of observer calls), and so it is
for every creator, which therefore plays no part; when `acc` is in the chain the
access returned is `acc`. -/
theorem inserLayer_unknown_access {st : OwnerStack} (hr : Reachable st) {c : OwnerLayerCreator}
    (hs : c.Sound) (acc fuel : Nat) (hf : st.accesses.length < fuel) :
    ∃ st' r, OwnerStack.InserLayer fuel st acc c = some (st', r) ∧
      (r = none ↔ acc ∉ st.chain) ∧
      (acc ∉ st.chain → st' = st ∧
        ∀ c', OwnerStack.InserLayer fuel st acc c' = some (st, none)) ∧
      (acc ∈ st.chain → r = some acc) := by
  have hc := reachable_chained hr
  have hw := reachable_wired hr
  by_cases hat : acc ∈ st.chain
  · obtain ⟨st', h⟩ := InserLayer_total hc hw hs hat fuel hf
    exact ⟨st', some acc, h, by simp [hat], fun h => absurd hat h, fun _ => rfl⟩
  · have h := fun c' => (InserLayer_not_found hc hat fuel c').2 hf
    exact ⟨st, none, h c, by simp [hat], fun _ => ⟨rfl, h⟩, fun h => absurd h hat⟩

theorem inserLayer_unknown_access_example :
    Reachable NewOwners.1 ∧ 5 ∉ NewOwners.1.chain ∧
      OwnerStack.InserLayer 2 NewOwners.1 5 DummyLayerCreator = some (NewOwners.1, none) := by
  have hn : 5 ∉ NewOwners.1.chain := by decide
  obtain ⟨st', r, _, _, h3, _⟩ :=
    inserLayer_unknown_access ReachableWith.new sound_DummyLayerCreator 5 2 (by decide)
  exact ⟨ReachableWith.new, hn, (h3 hn).2 DummyLayerCreator⟩

/-- C15 (the base layer is stable under insertion): on every stack reached from
`NewOwners()` by `InserLayer` calls at any access with any creator (and by client
calls, registrations and `FilterChanged`), `BaseLayer()` returns, once the fuel
covers the accesses, the pointer to the base registry that `NewOwners()`
returned; the link it points to holds a base registry; and it is the layer of the
last access of the chain, whose `NextLayer()` is nil. -/
theorem baseLayer_stable {st : OwnerStack} (hr : ReachableWith (fun _ => True) st) (fuel : Nat)
    (hf : st.accesses.length ≤ fuel) :
    OwnerStack.BaseLayer fuel st = some NewOwners.2 ∧
      (∃ o, (st.links[NewOwners.2]?).map (fun L => L.layer) = some (.owners o NewOwners.2)) ∧
      ∃ b, st.chain.getLast? = some b ∧ OwnerLayerAccess.NextLayer st b = some none ∧
        OwnerLayerAccess.Layer st b = some NewOwners.2 := by
  have hc := reachable_chained hr
  obtain ⟨rest, hrest⟩ := chain_cons hc
  have hlen := chained_length hc
  have hich := hc.isChain
  rw [hrest] at hlen hich
  simp only [List.length_cons] at hlen
  obtain ⟨b, hb, hwalk, hnext⟩ := baseWalk_eq hich fuel (by omega)
  obtain ⟨b', B, o, hb', hB, hBl, hbase⟩ := hc.bottom
  rw [hrest, hb] at hb'
  simp only [Option.some.injEq] at hb'
  subst hb'
  have hlayer : OwnerLayerAccess.Layer st b = some 0 := by
    cases hl0 : st.links[0]? with
    | none => simp [hl0] at hbase
    | some L0 => exact Layer_eq_some.mpr ⟨B, L0, hB, by rw [hBl]; exact hl0, hBl⟩
  refine ⟨?_, ⟨o, hbase⟩, b, by rw [hrest]; exact hb, hnext, hlayer⟩
  unfold OwnerStack.BaseLayer
  rw [hwalk, hlayer]
  rfl

theorem baseLayer_stable_example :
    ReachableWith (fun _ => True) dummyStack ∧
      OwnerStack.BaseLayer 2 dummyStack = some NewOwners.2 :=
  ⟨reachable_dummyStack _ trivial,
    (baseLayer_stable (reachable_dummyStack _ trivial) 2 (by decide)).1⟩

/-! ## Handler lists -/

theorem registerHandler_of_not_mem {A : OwnerLayerAccess} {h : OwnerHandler}
    (hm : h ∉ A.handlers) : (A.registerHandler h).handlers = A.handlers ++ [h] := by
  unfold OwnerLayerAccess.registerHandler
  rw [if_neg hm]

theorem registerHandler_of_mem {A : OwnerLayerAccess} {h : OwnerHandler}
    (hm : h ∈ A.handlers) : A.registerHandler h = A := by
  unfold OwnerLayerAccess.registerHandler
  rw [if_pos hm]

theorem registerHandler_nodup {A : OwnerLayerAccess} (h : OwnerHandler)
    (hnd : A.handlers.Nodup) : (A.registerHandler h).handlers.Nodup := by
  by_cases hm : h ∈ A.handlers
  · rw [registerHandler_of_mem hm]; exact hnd
  · rw [registerHandler_of_not_mem hm]
    exact List.Nodup.append hnd (List.nodup_singleton h) (by simpa using hm)

theorem mem_firstRegistrations {α : Type} [DecidableEq α] (hs : List α) (x : α) :
    x ∈ firstRegistrations hs ↔ x ∈ hs := by
  induction hs with
  | nil => simp [firstRegistrations]
  | cons h hs ih =>
    simp only [firstRegistrations, List.mem_cons, List.mem_filter, ih, decide_eq_true_eq]
    by_cases hx : x = h <;> simp [hx]

theorem nodup_firstRegistrations {α : Type} [DecidableEq α] (hs : List α) :
    (firstRegistrations hs).Nodup := by
  induction hs with
  | nil => simp [firstRegistrations]
  | cons h hs ih =>
    simp only [firstRegistrations, List.nodup_cons, List.mem_filter, decide_eq_true_eq]
    exact ⟨fun hh => hh.2 rfl, ih.filter _⟩

/-- Registering `hs` in order on a list `l` without repetition appends the
handlers of `hs` that are not in `l`, in the order of their first registration. -/
theorem foldl_register {α : Type} [DecidableEq α] (hs : List α) (l : List α) :
    hs.foldl (fun acc h => if h ∈ acc then acc else acc ++ [h]) l =
      l ++ (firstRegistrations hs).filter (fun x => decide (x ∉ l)) := by
  induction hs generalizing l with
  | nil => simp [firstRegistrations]
  | cons h hs ih =>
    rw [List.foldl_cons, ih]
    by_cases hm : h ∈ l
    · rw [if_pos hm]
      congr 1
      simp only [firstRegistrations, List.filter_cons, hm, not_true_eq_false, decide_False,
        Bool.false_eq_true, if_false, List.filter_filter]
      apply List.filter_congr
      intro x _
      by_cases hx : x = h
      · subst hx; simp [hm]
      · simp [hx]
    · rw [if_neg hm]
      simp only [firstRegistrations, List.filter_cons, hm, not_false_eq_true, decide_True,
        if_true, List.append_assoc, List.singleton_append, List.filter_filter]
      congr 2
      apply List.filter_congr
      intro x _
      by_cases hx : x = h
      · subst hx; simp
      · simp [hx, hm]

theorem foldl_registerHandler (hs : List OwnerHandler) (A : OwnerLayerAccess) :
    (hs.foldl OwnerLayerAccess.registerHandler A).handlers =
      hs.foldl (fun acc h => if h ∈ acc then acc else acc ++ [h]) A.handlers ∧
    (hs.foldl OwnerLayerAccess.registerHandler A).link = A.link := by
  induction hs generalizing A with
  | nil => exact ⟨rfl, rfl⟩
  | cons h hs ih =>
    rw [List.foldl_cons, List.foldl_cons]
    obtain ⟨h1, h2⟩ := ih (A.registerHandler h)
    rw [h1, h2]
    constructor
    · congr 1
      unfold OwnerLayerAccess.registerHandler
      split <;> rfl
    · unfold OwnerLayerAccess.registerHandler
      split <;> rfl

theorem foldl_RegisterHandler_ext (hs : List Nat) (E : Extension.Owners) :
    (hs.foldl Extension.Owners.RegisterHandler E).handlers =
      hs.foldl (fun acc h => if h ∈ acc then acc else acc ++ [h]) E.handlers := by
  induction hs generalizing E with
  | nil => rfl
  | cons h hs ih =>
    rw [List.foldl_cons, List.foldl_cons, ih]
    congr 1
    unfold Extension.Owners.RegisterHandler
    split <;> rfl

theorem erase_eq_filter_of_nodup {α : Type} [DecidableEq α] {l : List α} (hnd : l.Nodup)
    (h : α) : l.erase h = l.filter (fun x => decide (x ≠ h)) := by
  rw [List.Nodup.erase_eq_filter hnd]
  apply List.filter_congr
  intro x _
  by_cases hx : x = h <;> simp [hx]

theorem erase_append_singleton {α : Type} [DecidableEq α] {l : List α} {h : α} (hm : h ∉ l) :
    (l ++ [h]).erase h = l := by
  rw [List.erase_append_right _ hm]
  simp

theorem handlers_nodup {P : OwnerLayerCreator → Prop} {st : OwnerStack}
    (h : ReachableWith P st) :
    ∀ (a : Nat) (A : OwnerLayerAccess), st.accesses[a]? = some A → A.handlers.Nodup := by
  induction h with
  | new =>
    intro a A hA
    have ha : a = 0 := by
      have := (List.getElem?_eq_some.mp hA).1
      simp [NewOwners, NewOwnerStack] at this
      exact this
    subst ha
    simp only [NewOwners, NewOwnerStack, List.getElem?_cons_zero, Option.some.injEq] at hA
    subst hA
    exact List.nodup_nil
  | @insert st st' fuel acc c r hr _ hi ih =>
    obtain ⟨ch, hc⟩ := reachableWith_chained hr
    by_cases hmem : acc ∈ ch
    · obtain ⟨_, A, pos, st2, hA, hpos, hup, hsw, rfl⟩ := InserLayer_result hc hi hmem
      have hN : st2.accesses[st.accesses.length]? = some (OwnerLayerAccess.mk [] A.link) := by
        rw [hsw.2.1]
        exact spliced_access_new c hA hup
      intro b B hB
      have key := fun (hs : List OwnerHandler) =>
        setAccess_get (OwnerLayerAccess.mk hs A.link) hN b
      rw [key] at hB
      by_cases hb : b = st.accesses.length
      · rw [if_pos hb] at hB
        simp only [Option.some.injEq] at hB
        subst hB
        cases startHandler st.links.length (c st.links.length (some st.accesses.length)) <;>
          simp
      · rw [if_neg hb, hsw.2.1, spliced_access c hA hup] at hB
        rw [if_neg hb] at hB
        by_cases hba : b = acc
        · rw [if_pos hba] at hB
          simp only [Option.some.injEq] at hB
          subst hB
          exact ih acc A hA
        · rw [if_neg hba] at hB
          exact ih b B hB
    · obtain ⟨rfl, _⟩ := (InserLayer_not_found hc hmem fuel c).1 st' r hi
      exact ih
  | call _ hi ih =>
    intro a A hA
    rw [(apply_frame hi).2.1] at hA
    exact ih a A hA
  | @register st st' acc h _ hi ih =>
    obtain ⟨A, hA, rfl⟩ := RegisterHandler_eq_some hi
    intro b B hB
    rw [setAccess_get _ hA] at hB
    by_cases hb : b = acc
    · rw [if_pos hb] at hB
      simp only [Option.some.injEq] at hB
      subst hB
      exact registerHandler_nodup _ (ih acc A hA)
    · rw [if_neg hb] at hB
      exact ih b B hB
  | @unregister st st' acc h _ hi ih =>
    obtain ⟨A, hA, rfl⟩ := UnRegisterHandler_eq_some hi
    intro b B hB
    rw [setAccess_get _ hA] at hB
    by_cases hb : b = acc
    · rw [if_pos hb] at hB
      simp only [Option.some.injEq] at hB
      subst hB
      exact (ih acc A hA).erase h
    · rw [if_neg hb] at hB
      exact ih b B hB
  | filterChanged _ hi ih =>
    intro a A hA
    rw [(FilterChanged_frame hi).2.1] at hA
    exact ih a A hA

/-- C23 (handler registration is insertion-ordered and duplicate-free): for an
access record `A` and a registry `E` of package `extension`, `RegisterHandler(h)`
appends `h` at the end of the handler list when `h` is not in it and changes
nothing when it is; the link of the access is kept and `RegisterHandler` on the
stack changes the access given only; a duplicate-free list stays duplicate-free,
and the handler list of every access of a reachable stack is duplicate-free;
registering a sequence of handlers on an empty list leaves them in the order of
their first registration, each once. -/
theorem registerHandler_ordered (A : OwnerLayerAccess) (h : OwnerHandler)
    (E : Extension.Owners) (n : Nat) :
    (h ∉ A.handlers → (A.registerHandler h).handlers = A.handlers ++ [h]) ∧
    (h ∈ A.handlers → A.registerHandler h = A) ∧
    (A.registerHandler h).link = A.link ∧
    (A.handlers.Nodup → (A.registerHandler h).handlers.Nodup) ∧
    (∀ hs : List OwnerHandler,
      (hs.foldl OwnerLayerAccess.registerHandler ⟨[], A.link⟩).handlers =
        firstRegistrations hs ∧
      (firstRegistrations hs).Nodup ∧ ∀ x, x ∈ firstRegistrations hs ↔ x ∈ hs) ∧
    (∀ (st : OwnerStack) (a : Nat), st.accesses[a]? = some A →
      OwnerLayerAccess.RegisterHandler st a h =
        some { st with accesses := st.accesses.set a (A.registerHandler h) }) ∧
    (∀ (st : OwnerStack) (a : Nat), ReachableWith (fun _ => True) st →
      st.accesses[a]? = some A → A.handlers.Nodup) ∧
    (n ∉ E.handlers → (E.RegisterHandler n).handlers = E.handlers ++ [n]) ∧
    (n ∈ E.handlers → E.RegisterHandler n = E) ∧
    (E.RegisterHandler n).owners = E.owners ∧ (E.RegisterHandler n).clients = E.clients ∧
    (E.handlers.Nodup → (E.RegisterHandler n).handlers.Nodup) ∧
    (∀ ns : List Nat,
      (ns.foldl Extension.Owners.RegisterHandler Extension.NewOwners).handlers =
        firstRegistrations ns) := by
  refine ⟨registerHandler_of_not_mem, registerHandler_of_mem, registerHandler_link A h,
    registerHandler_nodup h, ?_, ?_, ?_, ?_, ?_, ?_, ?_, ?_, ?_⟩
  · intro hs
    refine ⟨?_, nodup_firstRegistrations hs, mem_firstRegistrations hs⟩
    rw [(foldl_registerHandler hs _).1, foldl_register]
    simp
  · intro st a hA
    unfold OwnerLayerAccess.RegisterHandler
    rw [hA]
  · intro st a hr hA
    exact handlers_nodup hr a A hA
  · intro hm
    unfold Extension.Owners.RegisterHandler
    rw [if_neg hm]
  · intro hm
    unfold Extension.Owners.RegisterHandler
    rw [if_pos hm]
  · unfold Extension.Owners.RegisterHandler
    split <;> rfl
  · unfold Extension.Owners.RegisterHandler
    split <;> rfl
  · intro hnd
    unfold Extension.Owners.RegisterHandler
    split
    · exact hnd
    · rename_i hm
      exact List.Nodup.append hnd (List.nodup_singleton n) (by simpa using hm)
  · intro ns
    rw [foldl_RegisterHandler_ext, foldl_register]
    simp [Extension.NewOwners]

/-- C24 (deregistration is idempotent and keeps the order): on a reachable stack,
`UnRegisterHandler(h)` on an access returns; the handler list of that access is
the old one without `h`, the other handlers in their order, and nothing else of
the stack changes; a second `UnRegisterHandler(h)` changes nothing; when `h` was
not registered the first call changes nothing either, and `RegisterHandler(h)`
followed by `UnRegisterHandler(h)` gives the stack back.  The same holds for
the duplicate-free handler list of a registry of package `extension`, which
`UnRegisterHandler` keeps duplicate-free. -/
theorem unRegisterHandler_idempotent {st : OwnerStack}
    (hr : ReachableWith (fun _ => True) st) {a : Nat} {A : OwnerLayerAccess}
    (hA : st.accesses[a]? = some A) (h : OwnerHandler) (E : Extension.Owners) (n : Nat) :
    (∃ st1, OwnerLayerAccess.UnRegisterHandler st a h = some st1 ∧
      st1 = { st with
        accesses := st.accesses.set a
          { A with handlers := A.handlers.filter (fun x => decide (x ≠ h)) } } ∧
      OwnerLayerAccess.UnRegisterHandler st1 a h = some st1 ∧
      (h ∉ A.handlers → st1 = st) ∧
      (h ∉ A.handlers → ∃ st2, OwnerLayerAccess.RegisterHandler st a h = some st2 ∧
        OwnerLayerAccess.UnRegisterHandler st2 a h = some st)) ∧
    (E.handlers.Nodup →
      (E.UnRegisterHandler n).handlers = E.handlers.filter (fun x => decide (x ≠ n)) ∧
      (E.UnRegisterHandler n).handlers.Nodup ∧
      (E.UnRegisterHandler n).UnRegisterHandler n = E.UnRegisterHandler n ∧
      (n ∉ E.handlers → E.UnRegisterHandler n = E ∧
        (E.RegisterHandler n).UnRegisterHandler n = E)) := by
  have hnd := handlers_nodup hr a A hA
  have hlt : a < st.accesses.length := (List.getElem?_eq_some.mp hA).1
  have hself : ∀ (s : OwnerStack) (B : OwnerLayerAccess), s.accesses[a]? = some B →
      h ∉ B.handlers → OwnerLayerAccess.UnRegisterHandler s a h = some s := by
    intro s B hB hm
    unfold OwnerLayerAccess.UnRegisterHandler
    simp only [hB, List.erase_of_not_mem hm]
    rw [setAccess_self hB]
  constructor
  · refine ⟨_, ?_, rfl, ?_, ?_, ?_⟩
    · unfold OwnerLayerAccess.UnRegisterHandler
      simp only [hA, erase_eq_filter_of_nodup hnd]
    · apply hself _ { A with handlers := A.handlers.filter (fun x => decide (x ≠ h)) }
      · simp [hlt]
      · simp
    · intro hm
      have : A.handlers.filter (fun x => decide (x ≠ h)) = A.handlers := by
        rw [List.filter_eq_self]
        intro x hx
        have : x ≠ h := fun e => hm (e ▸ hx)
        simpa using this
      rw [this]
      exact setAccess_self hA
    · intro hm
      refine ⟨{ st with accesses := st.accesses.set a (A.registerHandler h) }, ?_, ?_⟩
      · unfold OwnerLayerAccess.RegisterHandler
        rw [hA]
      · unfold OwnerLayerAccess.UnRegisterHandler
        simp only [List.getElem?_set, hlt, if_true, List.set_set]
        rw [registerHandler_of_not_mem hm, erase_append_singleton hm]
        have : ({ handlers := A.handlers, link := (A.registerHandler h).link }
            : OwnerLayerAccess) = A := by
          rw [registerHandler_link]
        rw [this]
        exact congrArg some (setAccess_self hA)
  · intro hE
    refine ⟨?_, ?_, ?_, ?_⟩
    · unfold Extension.Owners.UnRegisterHandler
      exact erase_eq_filter_of_nodup hE n
    · unfold Extension.Owners.UnRegisterHandler
      exact hE.erase n
    · unfold Extension.Owners.UnRegisterHandler
      simp only
      rw [List.erase_of_not_mem (hE.not_mem_erase)]
    · intro hm
      constructor
      · unfold Extension.Owners.UnRegisterHandler
        rw [List.erase_of_not_mem hm]
      · unfold Extension.Owners.UnRegisterHandler Extension.Owners.RegisterHandler
        rw [if_neg hm]
        simp only [erase_append_singleton hm]

theorem reachable_register_base (h : Nat) (P : OwnerLayerCreator → Prop) :
    ReachableWith P (baseStack Owners.new [h] []) :=
  ReachableWith.register ReachableWith.new
    (rfl : OwnerLayerAccess.RegisterHandler NewOwners.1 0 (.external h) =
      some (baseStack Owners.new [h] []))

/-- C24 on a stack with one observer at the top access: it is removed, and a
second removal changes nothing. -/
theorem unRegisterHandler_example :
    ∃ st1, OwnerLayerAccess.UnRegisterHandler (baseStack Owners.new [7] []) 0 (.external 7) =
        some st1 ∧
      st1.accesses[0]? = some ⟨[], 0⟩ ∧
      OwnerLayerAccess.UnRegisterHandler st1 0 (.external 7) = some st1 := by
  obtain ⟨⟨st1, h1, h2, h3, _⟩, _⟩ :=
    unRegisterHandler_idempotent (reachable_register_base 7 _)
      (a := 0) (A := ⟨[.external 7], 0⟩) rfl (.external 7) Extension.NewOwners 0
  refine ⟨st1, h1, ?_, h3⟩
  rw [h2]
  decide

/-- C25 (notification fan-out): `OwnerLink.OwnerSetChanged(added, deleted)` on a
link is the sequence of the calls `h.OwnerSetChanged(added, deleted)` for the
handlers `h` registered at the access `link.up`, in registration order, each
once and with the delta as given; when these handlers are outside observers the
call returns and the log of observer calls grows by exactly one entry per
handler, in that order, nothing else of the stack being touched. -/
theorem ownerLink_fanOut (fuel : Nat) (st : OwnerStack) (l : Nat) (L : OwnerLink)
    (A : OwnerLayerAccess) (added deleted : StringSet) (hL : st.links[l]? = some L)
    (hA : st.accesses[L.up]? = some A) :
    OwnerLink.OwnerSetChanged (OwnerLayerAccess.notify (fuel + 1)) st l added deleted =
      A.handlers.foldlM
        (fun s h => h.OwnerSetChanged (OwnerLayerAccess.notify fuel) added deleted s) st ∧
    (∀ hs : List Nat, A.handlers = hs.map OwnerHandler.external →
      OwnerLink.OwnerSetChanged (OwnerLayerAccess.notify (fuel + 1)) st l added deleted =
        some { st with events := st.events ++ hs.map (fun h => ⟨h, added, deleted⟩) }) := by
  have h1 : OwnerLink.OwnerSetChanged (OwnerLayerAccess.notify (fuel + 1)) st l added deleted =
      A.handlers.foldlM
        (fun s h => h.OwnerSetChanged (OwnerLayerAccess.notify fuel) added deleted s) st := by
    unfold OwnerLink.OwnerSetChanged
    simp only [hL]
    unfold OwnerLayerAccess.notify
    simp only [hA]
  refine ⟨h1, ?_⟩
  intro hs hhs
  rw [h1, hhs]
  exact foldlM_external _ added deleted hs st

/-- C25 on a one-layer stack with two observers at the top access: both receive
the delta, in registration order. -/
theorem ownerLink_fanOut_example :
    OwnerLink.OwnerSetChanged (OwnerLayerAccess.notify 1) (baseStack Owners.new [1, 2] []) 0
        {"id1"} ∅ =
      some (baseStack Owners.new [1, 2] [⟨1, {"id1"}, ∅⟩, ⟨2, {"id1"}, ∅⟩]) :=
  (ownerLink_fanOut 0 (baseStack Owners.new [1, 2] []) 0 ⟨0, .owners Owners.new 0, none⟩
    ⟨[.external 1, .external 2], 0⟩ {"id1"} ∅ rfl rfl).2 [1, 2] rfl

/-! ## Undoing an update, and replaying the deltas -/

theorem lookup_of_consistent {s : Owners} (h : s.Consistent) (x : String) :
    s.owners.lookup x = if countAt s.owners x = 0 then none else some (countAt s.owners x) := by
  rw [countAt_of_consistent h, h x]
  by_cases h0 : s.refCount x = 0
  · simp [h0]
  · have : ¬ ((s.refCount x : Int) = 0) := by exact_mod_cast h0
    simp [h0, this]

theorem delete_update_of_consistent {s : Owners} (hs : s.Consistent) {c : String}
    (hc : c ∉ s.clients) (S : StringSet) :
    ((s.UpdateClient c S).state.DeleteClient c).state = s := by
  have hold : setAt s.clients c = ∅ := setAt_of_not_mem hc
  have hlk : ∀ x, ((s.UpdateClient c S).state.DeleteClient c).state.owners.lookup x =
      s.owners.lookup x := by
    intro x
    rw [DeleteClient_lookup, setAt_UpdateClient_self]
    have hU : (s.UpdateClient c S).state.owners.lookup x =
        if x ∈ S then some (countAt s.owners x + 1) else s.owners.lookup x := by
      rw [UpdateClient_lookup, hold]
      simp
    by_cases hx : x ∈ S
    · have hcnt : countAt (s.UpdateClient c S).state.owners x = countAt s.owners x + 1 := by
        unfold countAt
        rw [hU, if_pos hx]
        rfl
      rw [if_pos hx, hcnt, lookup_of_consistent hs x]
      simp
    · rw [if_neg hx, hU, if_neg hx]
  have hcl : ((s.UpdateClient c S).state.DeleteClient c).state.clients = s.clients := by
    rw [DeleteClient_clients, UpdateClient_clients]
    apply Finmap.ext_lookup
    intro x
    rw [lookup_erase_ite, lookup_insert_ite]
    by_cases hx : x = c
    · subst hx
      simp only [if_true]
      exact (Finmap.lookup_eq_none.mpr hc).symm
    · simp [hx]
  have hown := Finmap.ext_lookup hlk
  cases s with
  | mk o cl =>
    cases hd : ((Owners.mk o cl).UpdateClient c S).state.DeleteClient c with
    | mk st ad dl =>
      cases st with
      | mk o' cl' =>
        rw [hd] at hown hcl
        simp only at hown hcl
        simp only [hown, hcl]

/-- C27 (delete undoes update): in a state reached from a fresh registry in which
the client `c` has no entry, `UpdateClient(c, S)` followed by `DeleteClient(c)`
gives back the registry as it was: the reference table, the client table, and
with them `GetIds()`. -/
theorem delete_undoes_update (ops : List Op) (c : String) (S : StringSet)
    (h : c ∉ (Owners.run ops).clients) :
    (((Owners.run ops).UpdateClient c S).state.DeleteClient c).state = Owners.run ops ∧
    (((Owners.run ops).UpdateClient c S).state.DeleteClient c).state.owners =
      (Owners.run ops).owners ∧
    (((Owners.run ops).UpdateClient c S).state.DeleteClient c).state.clients =
      (Owners.run ops).clients ∧
    (((Owners.run ops).UpdateClient c S).state.DeleteClient c).state.GetIds =
      (Owners.run ops).GetIds := by
  have := delete_update_of_consistent (consistent_run ops) h S
  rw [this]
  exact ⟨rfl, rfl, rfl, rfl⟩

/-- C27 on the scenario of the tests: on a fresh registry
`UpdateClient(client1, {id1, id2})` then `DeleteClient(client1)` leaves
`GetIds()` empty. -/
theorem delete_undoes_update_example :
    (((Owners.run []).UpdateClient "client1" {"id1", "id2"}).state.DeleteClient
      "client1").state.GetIds = ∅ := by
  rw [(delete_undoes_update [] "client1" {"id1", "id2"} (by decide)).2.2.2]
  decide

theorem added_disjoint_GetIds {s : Owners} (h : s.Consistent) (op : Op) :
    Disjoint (s.apply op).added s.GetIds := by
  rw [Finset.disjoint_left]
  intro x hx hG
  rw [apply_added] at hx
  have h1 := (mem_owners_iff h x).mp (by simpa [Owners.GetIds] using hG)
  have h2 := countAt_of_consistent h x
  rw [hx.2.2] at h2
  exact h1 (by exact_mod_cast h2.symm)

theorem deleted_subset_GetIds {s : Owners} (h : s.Consistent) (op : Op) :
    (s.apply op).deleted ⊆ s.GetIds := by
  intro x hx
  rw [apply_deleted] at hx
  exact (mem_GetIds_iff h x).mpr ⟨op.client, hx.1⟩

theorem GetIds_apply_eq {s : Owners} (h : s.Consistent) (op : Op) :
    (s.apply op).state.GetIds = (s.GetIds ∪ (s.apply op).added) \ (s.apply op).deleted := by
  ext x
  rw [mem_GetIds_apply h, Finset.mem_sdiff, Finset.mem_union]

theorem replay_deltas {s : Owners} (h : s.Consistent) (ops : List Op) :
    replay s.GetIds (s.deltas ops) = (s.runFrom ops).GetIds := by
  induction ops generalizing s with
  | nil => rfl
  | cons op ops ih =>
    unfold Owners.deltas replay
    rw [List.foldl_cons]
    simp only
    rw [← GetIds_apply_eq h op]
    exact ih (consistent_apply h op)

theorem ext_UpdateClient_eq (E : Extension.Owners) (c : String) (S : StringSet) :
    (E.UpdateClient c S).1.tables = (E.tables.UpdateClient c S).state ∧
    (E.UpdateClient c S).1.handlers = E.handlers ∧
    (E.UpdateClient c S).2 =
      E.handlers.map (fun h =>
        ⟨h, (E.tables.UpdateClient c S).added, (E.tables.UpdateClient c S).deleted⟩) :=
  ⟨rfl, rfl, rfl⟩

theorem ext_DeleteClient_eq (E : Extension.Owners) (c : String) :
    (E.DeleteClient c).1.tables = (E.tables.DeleteClient c).state ∧
    (E.DeleteClient c).1.handlers = E.handlers ∧
    (E.DeleteClient c).2 =
      E.handlers.map (fun h =>
        ⟨h, (E.tables.DeleteClient c).added, (E.tables.DeleteClient c).deleted⟩) :=
  ⟨rfl, rfl, rfl⟩

/-- C29 (deltas replay to the state): in a state reached from a fresh registry,
with `G = GetIds()` before an `UpdateClient` or `DeleteClient` call and `G'`
after it, the added delta is disjoint from `G`, the deleted delta is within `G`,
and `G' = (G ∪ added) \ deleted`; so an observer that starts from `GetIds()` and
applies the deltas of the following calls in order holds `GetIds()` after them.
The registry of package `extension` computes the same tables and hands the same
delta to each of its handlers. -/
theorem deltas_replay (ops : List Op) (op : Op) (more : List Op) (E : Extension.Owners)
    (c : String) (S : StringSet) :
    Disjoint ((Owners.run ops).apply op).added (Owners.run ops).GetIds ∧
    ((Owners.run ops).apply op).deleted ⊆ (Owners.run ops).GetIds ∧
    ((Owners.run ops).apply op).state.GetIds =
      ((Owners.run ops).GetIds ∪ ((Owners.run ops).apply op).added) \
        ((Owners.run ops).apply op).deleted ∧
    replay (Owners.run ops).GetIds ((Owners.run ops).deltas more) =
      ((Owners.run ops).runFrom more).GetIds ∧
    ((E.UpdateClient c S).1.tables = (E.tables.UpdateClient c S).state ∧
      (E.UpdateClient c S).2 =
        E.handlers.map (fun h =>
          ⟨h, (E.tables.UpdateClient c S).added, (E.tables.UpdateClient c S).deleted⟩)) ∧
    ((E.DeleteClient c).1.tables = (E.tables.DeleteClient c).state ∧
      (E.DeleteClient c).2 =
        E.handlers.map (fun h =>
          ⟨h, (E.tables.DeleteClient c).added, (E.tables.DeleteClient c).deleted⟩)) :=
  ⟨added_disjoint_GetIds (consistent_run ops) op, deleted_subset_GetIds (consistent_run ops) op,
    GetIds_apply_eq (consistent_run ops) op, replay_deltas (consistent_run ops) more,
    ⟨rfl, rfl⟩, ⟨rfl, rfl⟩⟩

/-! ## The events above one filter -/

theorem changeSets_of_view (accepted : String → Bool) {o : Owners} (ho : o.Consistent)
    (op : Op) :
    (FilteredLayer.changeSets accepted (o.GetIds.filter (fun id => accepted id = true))
        (o.apply op).added (o.apply op).deleted).2.1 =
      (o.apply op).added.filter (fun id => accepted id = true) ∧
    (FilteredLayer.changeSets accepted (o.GetIds.filter (fun id => accepted id = true))
        (o.apply op).added (o.apply op).deleted).2.2 =
      (o.apply op).deleted.filter (fun id => accepted id = true) := by
  have hsub := deleted_subset_GetIds ho op
  constructor
  · ext x
    rw [(changeSets_spec accepted _ _ _ x).2.1, Finset.mem_filter]
  · ext x
    rw [(changeSets_spec accepted _ _ _ x).2.2, Finset.mem_filter, Finset.mem_filter]
    constructor
    · rintro ⟨hd, hc | ha⟩
      · exact ⟨hd, hc.2⟩
      · exact ⟨hd, ha.2⟩
    · rintro ⟨hd, hacc⟩
      exact ⟨hd, Or.inl ⟨hsub hd, hacc⟩⟩

theorem filterEvents_of_view (accepted : String → Bool) {o : Owners} (ho : o.Consistent)
    (op : Op) (hs : List Nat) :
    filterEvents accepted (o.GetIds.filter (fun id => accepted id = true))
        (o.apply op).added (o.apply op).deleted hs =
      if ((o.apply op).added.filter (fun id => accepted id = true)).Nonempty ∨
          ((o.apply op).deleted.filter (fun id => accepted id = true)).Nonempty then
        hs.map (fun h => ⟨h, (o.apply op).added.filter (fun id => accepted id = true),
          (o.apply op).deleted.filter (fun id => accepted id = true)⟩)
      else [] := by
  obtain ⟨h1, h2⟩ := changeSets_of_view accepted ho op
  unfold filterEvents
  rw [h1, h2]
  simp only [Finset.card_pos]
  by_cases hA : ((o.apply op).added.filter (fun id => accepted id = true)).Nonempty <;>
    by_cases hD : ((o.apply op).deleted.filter (fun id => accepted id = true)).Nonempty <;>
    simp [hA, hD]

/-- C22 (events seen through a filter inserted on a fresh stack): a filter with
the fixed predicate `accepted` is inserted at the top access of the stack of
`NewOwners()` and an observer `h` is registered at the top access; after any
sequence of client calls, a further `UpdateClient` or `DeleteClient` call with
base delta `(A, D)` returns, and the observer receives exactly one call, with
the ids of `A` and the ids of `D` that `accepted` accepts, when one of these two
sets is not empty, and no call when both are empty. -/
theorem filter_events_on_fresh_stack (accepted : String → Bool) (h : Nat) (ops : List Op)
    (op : Op) (n : Nat) :
    ∃ st0 st1 st2 st3,
      OwnerStack.InserLayer (n + 2) NewOwners.1 NewOwners.1.access
        (FilteredLayerCreator accepted) = some (st0, some NewOwners.1.access) ∧
      OwnerLayerAccess.RegisterHandler st0 st0.access (.external h) = some st1 ∧
      OwnerStack.run (n + 2) NewOwners.2 st1 ops = some st2 ∧
      OwnerStack.apply (n + 2) NewOwners.2 st2 op = some st3 ∧
      st3.events = st2.events ++
        (if (((Owners.run ops).apply op).added.filter (fun id => accepted id = true)).Nonempty ∨
            (((Owners.run ops).apply op).deleted.filter
              (fun id => accepted id = true)).Nonempty then
          [⟨h, ((Owners.run ops).apply op).added.filter (fun id => accepted id = true),
            ((Owners.run ops).apply op).deleted.filter (fun id => accepted id = true)⟩]
        else []) := by
  obtain ⟨ev1, hrun⟩ := run_filterStack n accepted ops Owners.new ∅ [h] [] consistent_new
    (by simp [Owners.new, Owners.GetIds])
  refine ⟨_, _, _, _, InserLayer_baseStack (n + 1) accepted Owners.new [] [], rfl, hrun,
    apply_filterStack n accepted _ _ [h] ev1 op, ?_⟩
  show ev1 ++ _ = ev1 ++ _
  have := filterEvents_of_view accepted (consistent_run ops) op [h]
  unfold Owners.run at this ⊢
  rw [this]
  rfl

/-- C22 on the scenario of the tests: filter `{id2, id3}`, `client1` goes from
`{id1, id2}` to `{id3, id2}`; the observer receives added `{id3}` and an empty
deleted set. -/
theorem filter_events_example :
    ∃ st0 st1 st2 st3,
      OwnerStack.InserLayer 2 NewOwners.1 NewOwners.1.access
        (FilteredLayerCreator (Contains {"id2", "id3"})) = some (st0, some NewOwners.1.access) ∧
      OwnerLayerAccess.RegisterHandler st0 st0.access (.external 7) = some st1 ∧
      OwnerStack.run 2 NewOwners.2 st1 [.update "client1" {"id1", "id2"}] = some st2 ∧
      OwnerStack.apply 2 NewOwners.2 st2 (.update "client1" {"id3", "id2"}) = some st3 ∧
      st3.events = st2.events ++ [⟨7, {"id3"}, ∅⟩] := by
  obtain ⟨st0, st1, st2, st3, h0, h1, h2, h3, hev⟩ :=
    filter_events_on_fresh_stack (Contains {"id2", "id3"}) 7
      [.update "client1" {"id1", "id2"}] (.update "client1" {"id3", "id2"}) 0
  refine ⟨st0, st1, st2, st3, h0, h1, h2, h3, ?_⟩
  have hA : (((Owners.run [.update "client1" {"id1", "id2"}]).apply
      (.update "client1" {"id3", "id2"})).added.filter
        (fun id => Contains {"id2", "id3"} id = true)) = {"id3"} := by decide
  have hD : (((Owners.run [.update "client1" {"id1", "id2"}]).apply
      (.update "client1" {"id3", "id2"})).deleted.filter
        (fun id => Contains {"id2", "id3"} id = true)) = ∅ := by decide
  rw [hev, hA, hD]
  simp

/-! ## The stack of pass-through layers -/

theorem OwnerStack.ext' {s t : OwnerStack} (h1 : s.access = t.access)
    (h2 : s.accesses = t.accesses) (h3 : s.links = t.links) (h4 : s.events = t.events) :
    s = t := by
  cases s; cases t; simp_all

theorem dummyTower_access (k : Nat) (o : Owners) (hs : List Nat) (ev : List Event) (i : Nat) :
    (dummyTower k o hs ev).accesses[i]? =
      if i = 0 then some ⟨hs.map OwnerHandler.external, k⟩
      else if i ≤ k then some ⟨[.link i], i - 1⟩ else none := by
  cases i with
  | zero => simp [dummyTower]
  | succ j =>
    simp only [dummyTower, List.getElem?_cons_succ, List.getElem?_map,
      Nat.succ_ne_zero, if_false]
    by_cases hj : j < k
    · rw [List.getElem?_range hj, if_pos (by omega)]
      rfl
    · rw [List.getElem?_eq_none (by simpa using hj), if_neg (by omega)]
      rfl

theorem dummyTower_link (k : Nat) (o : Owners) (hs : List Nat) (ev : List Event) (i : Nat) :
    (dummyTower k o hs ev).links[i]? =
      if i = 0 then some ⟨if k = 0 then 0 else 1, .owners o 0, none⟩
      else if i ≤ k then some ⟨if i = k then 0 else i + 1, .dummy i (some i), some i⟩
      else none := by
  cases i with
  | zero => simp [dummyTower]
  | succ j =>
    simp only [dummyTower, List.getElem?_cons_succ, List.getElem?_map,
      Nat.succ_ne_zero, if_false]
    by_cases hj : j < k
    · rw [List.getElem?_range hj, if_pos (by omega)]
      rfl
    · rw [List.getElem?_eq_none (by simpa using hj), if_neg (by omega)]
      rfl

theorem dummyTower_accesses_length (k : Nat) (o : Owners) (hs : List Nat) (ev : List Event) :
    (dummyTower k o hs ev).accesses.length = k + 1 := by
  simp [dummyTower]

theorem dummyTower_links_length (k : Nat) (o : Owners) (hs : List Nat) (ev : List Event) :
    (dummyTower k o hs ev).links.length = k + 1 := by
  simp [dummyTower]

theorem dummyTower_zero (o : Owners) (hs : List Nat) (ev : List Event) :
    dummyTower 0 o hs ev = baseStack o hs ev := rfl

theorem dummyTower_one : dummyTower 1 Owners.new [] [] = dummyStack := rfl

/-- `GetIds()` at an access below the top: the ids of the base registry. -/
theorem GetIds_dummyTower_succ (k : Nat) (o : Owners) (hs : List Nat) (ev : List Event) :
    ∀ (j fuel : Nat), j + 1 ≤ k → j < fuel →
      OwnerLayerAccess.GetIds (dummyTower k o hs ev) fuel (j + 1) = some o.GetIds := by
  intro j
  induction j with
  | zero =>
    intro fuel hk hf
    obtain ⟨f, rfl⟩ : ∃ f, fuel = f + 1 := ⟨fuel - 1, by omega⟩
    unfold OwnerLayerAccess.GetIds
    rw [dummyTower_access]
    simp only [Nat.succ_ne_zero, if_false, hk, if_true, Nat.add_sub_cancel, zero_add]
    rw [dummyTower_link]
    simp
  | succ j ih =>
    intro fuel hk hf
    obtain ⟨f, rfl⟩ : ∃ f, fuel = f + 1 := ⟨fuel - 1, by omega⟩
    unfold OwnerLayerAccess.GetIds
    rw [dummyTower_access]
    simp only [Nat.succ_ne_zero, if_false, hk, if_true, Nat.add_sub_cancel]
    rw [dummyTower_link]
    have h1 : j + 1 ≤ k := by omega
    simp only [Nat.succ_ne_zero, if_false, h1, if_true]
    exact ih f h1 (by omega)

theorem GetIds_dummyTower (k : Nat) (o : Owners) (hs : List Nat) (ev : List Event)
    (fuel : Nat) (hf : k < fuel) :
    OwnerStack.GetIds fuel (dummyTower k o hs ev) = some o.GetIds := by
  obtain ⟨f, rfl⟩ : ∃ f, fuel = f + 1 := ⟨fuel - 1, by omega⟩
  unfold OwnerStack.GetIds OwnerLayerAccess.GetIds
  show (match (dummyTower k o hs ev).accesses[0]? with
    | none => none
    | some a => _) = _
  rw [dummyTower_access]
  simp only [if_true]
  rw [dummyTower_link]
  cases k with
  | zero => simp
  | succ k =>
    simp only [Nat.succ_ne_zero, if_false, le_refl, if_true]
    exact GetIds_dummyTower_succ (k + 1) o hs ev k f (le_refl _) (by omega)

theorem IsResponsibleFor_dummyTower_succ (k : Nat) (o : Owners) (hs : List Nat)
    (ev : List Event) (id : String) :
    ∀ (j fuel : Nat), j + 1 ≤ k → j < fuel →
      OwnerLayerAccess.IsResponsibleFor (dummyTower k o hs ev) id fuel (j + 1) =
        some (o.IsResponsibleFor id) := by
  intro j
  induction j with
  | zero =>
    intro fuel hk hf
    obtain ⟨f, rfl⟩ : ∃ f, fuel = f + 1 := ⟨fuel - 1, by omega⟩
    unfold OwnerLayerAccess.IsResponsibleFor
    rw [dummyTower_access]
    simp only [Nat.succ_ne_zero, if_false, hk, if_true, Nat.add_sub_cancel, zero_add]
    rw [dummyTower_link]
    simp
  | succ j ih =>
    intro fuel hk hf
    obtain ⟨f, rfl⟩ : ∃ f, fuel = f + 1 := ⟨fuel - 1, by omega⟩
    unfold OwnerLayerAccess.IsResponsibleFor
    rw [dummyTower_access]
    simp only [Nat.succ_ne_zero, if_false, hk, if_true, Nat.add_sub_cancel]
    rw [dummyTower_link]
    have h1 : j + 1 ≤ k := by omega
    simp only [Nat.succ_ne_zero, if_false, h1, if_true]
    exact ih f h1 (by omega)

theorem IsResponsibleFor_dummyTower (k : Nat) (o : Owners) (hs : List Nat) (ev : List Event)
    (id : String) (fuel : Nat) (hf : k < fuel) :
    OwnerStack.IsResponsibleFor fuel (dummyTower k o hs ev) id =
      some (o.IsResponsibleFor id) := by
  obtain ⟨f, rfl⟩ : ∃ f, fuel = f + 1 := ⟨fuel - 1, by omega⟩
  unfold OwnerStack.IsResponsibleFor OwnerLayerAccess.IsResponsibleFor
  show (match (dummyTower k o hs ev).accesses[0]? with
    | none => none
    | some a => _) = _
  rw [dummyTower_access]
  simp only [if_true]
  rw [dummyTower_link]
  cases k with
  | zero => simp
  | succ k =>
    simp only [Nat.succ_ne_zero, if_false, le_refl, if_true]
    exact IsResponsibleFor_dummyTower_succ (k + 1) o hs ev id k f (le_refl _) (by omega)

theorem notify_dummyTower_top (k : Nat) (o : Owners) (hs : List Nat) (ev : List Event)
    (a d : StringSet) (f : Nat) :
    OwnerLayerAccess.notify (f + 1) (dummyTower k o hs ev) 0 a d =
      some (dummyTower k o hs (ev ++ hs.map (fun h => ⟨h, a, d⟩))) := by
  unfold OwnerLayerAccess.notify
  rw [dummyTower_access]
  simp only [if_true]
  rw [foldlM_external]
  rfl

/-- A notification at an access below the top climbs the links up to the top
access, where the observers receive it. -/
theorem notify_dummyTower (k : Nat) (o : Owners) (hs : List Nat) (ev : List Event)
    (a d : StringSet) :
    ∀ (n i fuel : Nat), i + n = k → 1 ≤ i → n + 1 < fuel →
      OwnerLayerAccess.notify fuel (dummyTower k o hs ev) i a d =
        some (dummyTower k o hs (ev ++ hs.map (fun h => ⟨h, a, d⟩))) := by
  intro n
  induction n with
  | zero =>
    intro i fuel hik hi hf
    obtain ⟨f, rfl⟩ : ∃ f, fuel = f + 2 := ⟨fuel - 2, by omega⟩
    have hk : i = k := by omega
    subst hk
    unfold OwnerLayerAccess.notify
    rw [dummyTower_access]
    have h0 : i ≠ 0 := by omega
    simp only [h0, if_false, le_refl, if_true, List.foldlM_cons, List.foldlM_nil,
      OwnerSetChanged_link]
    unfold OwnerLink.OwnerSetChanged
    rw [dummyTower_link]
    simp only [h0, if_false, le_refl, if_true]
    rw [notify_dummyTower_top]
    rfl
  | succ n ih =>
    intro i fuel hik hi hf
    obtain ⟨f, rfl⟩ : ∃ f, fuel = f + 1 := ⟨fuel - 1, by omega⟩
    unfold OwnerLayerAccess.notify
    rw [dummyTower_access]
    have h0 : i ≠ 0 := by omega
    have h1 : i ≤ k := by omega
    have h2 : i ≠ k := by omega
    simp only [h0, if_false, h1, if_true, List.foldlM_cons, List.foldlM_nil,
      OwnerSetChanged_link]
    unfold OwnerLink.OwnerSetChanged
    rw [dummyTower_link]
    simp only [h0, if_false, h1, if_true, h2]
    rw [ih (i + 1) f (by omega) (by omega) (by omega)]
    rfl

theorem Owners_notify_dummyTower (k : Nat) (o : Owners) (hs : List Nat) (ev : List Event)
    (a d : StringSet) (fuel : Nat) (hf : k < fuel) :
    Owners.notify fuel (dummyTower k o hs ev) 0 a d =
      some (dummyTower k o hs (ev ++ hs.map (fun h => ⟨h, a, d⟩))) := by
  unfold Owners.notify
  rw [dummyTower_link]
  simp only [if_true]
  unfold OwnerLink.OwnerSetChanged
  rw [dummyTower_link]
  simp only [if_true]
  cases k with
  | zero =>
    obtain ⟨f, rfl⟩ : ∃ f, fuel = f + 1 := ⟨fuel - 1, by omega⟩
    simp only [if_true]
    exact notify_dummyTower_top 0 o hs ev a d f
  | succ k =>
    simp only [Nat.succ_ne_zero, if_false]
    exact notify_dummyTower (k + 1) o hs ev a d k 1 fuel (by omega) (le_refl _) (by omega)

theorem dummyTower_set_base (k : Nat) (o o' : Owners) (hs : List Nat) (ev : List Event) :
    ({ dummyTower k o hs ev with
      links := (dummyTower k o hs ev).links.set 0
        ⟨if k = 0 then 0 else 1, .owners o' 0, none⟩ } : OwnerStack) =
      dummyTower k o' hs ev := by
  simp [dummyTower]

theorem apply_dummyTower (k : Nat) (o : Owners) (hs : List Nat) (ev : List Event) (op : Op)
    (fuel : Nat) (hf : k < fuel) :
    OwnerStack.apply fuel 0 (dummyTower k o hs ev) op =
      some (dummyTower k (o.apply op).state hs
        (ev ++ hs.map (fun h => ⟨h, (o.apply op).added, (o.apply op).deleted⟩))) := by
  cases op with
  | update c S =>
    unfold OwnerStack.apply OwnerStack.UpdateClient
    rw [dummyTower_link]
    simp only [if_true]
    rw [dummyTower_set_base]
    exact Owners_notify_dummyTower k _ hs ev _ _ fuel hf
  | delete c =>
    unfold OwnerStack.apply OwnerStack.DeleteClient
    rw [dummyTower_link]
    simp only [if_true]
    rw [dummyTower_set_base]
    exact Owners_notify_dummyTower k _ hs ev _ _ fuel hf

theorem run_dummyTower (k : Nat) (hs : List Nat) (fuel : Nat) (hf : k < fuel) (ops : List Op) :
    ∀ (o : Owners) (ev : List Event),
      OwnerStack.run fuel 0 (dummyTower k o hs ev) ops =
        some (dummyTower k (o.runFrom ops) hs
          (ev ++ (o.deltas ops).flatMap (fun d => hs.map (fun h => ⟨h, d.1, d.2⟩)))) := by
  induction ops with
  | nil =>
    intro o ev
    simp [OwnerStack.run, Owners.runFrom, Owners.deltas]
  | cons op ops ih =>
    intro o ev
    unfold OwnerStack.run
    rw [List.foldlM_cons, apply_dummyTower k o hs ev op fuel hf]
    have := ih (o.apply op).state
      (ev ++ hs.map (fun h => ⟨h, (o.apply op).added, (o.apply op).deleted⟩))
    unfold OwnerStack.run at this
    simp only [Option.bind_eq_bind, Option.some_bind]
    rw [this]
    simp [Owners.runFrom, Owners.deltas, List.append_assoc]

theorem RegisterHandler_dummyTower (k : Nat) (o : Owners) (ev : List Event) (h : Nat) :
    OwnerLayerAccess.RegisterHandler (dummyTower k o [] ev) 0 (.external h) =
      some (dummyTower k o [h] ev) := by
  unfold OwnerLayerAccess.RegisterHandler
  rw [dummyTower_access]
  simp [dummyTower, OwnerLayerAccess.registerHandler]

theorem InserLayer_dummyTower (k : Nat) (o : Owners) (hs : List Nat) (ev : List Event)
    (fuel : Nat) (hf : k < fuel) :
    OwnerStack.InserLayer fuel (dummyTower k o hs ev) 0 DummyLayerCreator =
      some (dummyTower (k + 1) o hs ev, some 0) := by
  obtain ⟨f, rfl⟩ : ∃ f, fuel = f + 1 := ⟨fuel - 1, by omega⟩
  have hA : (dummyTower k o hs ev).accesses[0]? =
      some ⟨hs.map OwnerHandler.external, k⟩ := by
    rw [dummyTower_access]; rfl
  have hpos : ∃ pos, (dummyTower k o hs ev).links[k]? = some pos ∧ pos.up = 0 ∧
      (pos.down = none ↔ k = 0) ∧ (k ≠ 0 → pos.down = some k) := by
    rw [dummyTower_link]
    cases k with
    | zero => exact ⟨_, rfl, rfl, by simp, by simp⟩
    | succ k => exact ⟨_, by simp; rfl, by simp, by simp, by simp⟩
  obtain ⟨pos, hpos, hup, hd0, hd1⟩ := hpos
  have hseed : ∃ set, InserLayer.seed (f + 1) (dummyTower k o hs ev) pos = some set := by
    unfold InserLayer.seed
    cases k with
    | zero => rw [hd0.mpr rfl]; exact ⟨_, rfl⟩
    | succ k =>
      rw [hd1 (Nat.succ_ne_zero k)]
      exact ⟨_, GetIds_dummyTower_succ (k + 1) o hs ev k (f + 1) (le_refl _) (by omega)⟩
  obtain ⟨set, hseed⟩ := hseed
  have hsearch : InserLayer.search (dummyTower k o hs ev) 0 (f + 1)
      (some (dummyTower k o hs ev).access) = some true := search_found _ 0 f
  have hlenA := dummyTower_accesses_length k o hs ev
  have hlenL := dummyTower_links_length k o hs ev
  rw [InserLayer_unfold DummyLayerCreator hsearch hA hpos hup hseed]
  have hnew : (spliced (dummyTower k o hs ev) ⟨hs.map OwnerHandler.external, k⟩ pos
      DummyLayerCreator).links[(dummyTower k o hs ev).links.length]? = _ :=
    spliced_link_new DummyLayerCreator hpos
  have hstart : OwnerLayer.Start (f + 1)
      (spliced (dummyTower k o hs ev) ⟨hs.map OwnerHandler.external, k⟩ pos DummyLayerCreator)
      (dummyTower k o hs ev).links.length set =
      some (spliced (dummyTower k o hs ev) ⟨hs.map OwnerHandler.external, k⟩ pos
        DummyLayerCreator, some (.link (k + 1))) := by
    unfold OwnerLayer.Start
    rw [hnew, hlenL]
    rfl
  rw [hstart]
  simp only
  have hN : (spliced (dummyTower k o hs ev) ⟨hs.map OwnerHandler.external, k⟩ pos
      DummyLayerCreator).accesses[(dummyTower k o hs ev).accesses.length]? = _ :=
    spliced_access_new DummyLayerCreator hA hup
  unfold OwnerLayerAccess.RegisterHandler
  rw [hN]
  simp only [Option.some.injEq, Prod.mk.injEq, and_true]
  apply OwnerStack.ext'
  · rfl
  · apply List.ext_getElem?
    intro i
    have key := setAccess_get
      ((OwnerLayerAccess.mk [] k).registerHandler (.link (k + 1))) hN i
    simp only at key
    rw [key, spliced_access DummyLayerCreator hA hup, dummyTower_access (k + 1),
      dummyTower_access k, hlenA, hlenL]
    by_cases h0 : i = 0
    · subst h0
      simp
    · by_cases h1 : i = k + 1
      · subst h1
        simp [OwnerLayerAccess.registerHandler]
      · simp only [h0, h1, if_false]
        by_cases h2 : i ≤ k
        · rw [if_pos h2, if_pos (by omega)]
        · rw [if_neg h2, if_neg (by omega)]
  · apply List.ext_getElem?
    intro i
    show (spliced (dummyTower k o hs ev) ⟨hs.map OwnerHandler.external, k⟩ pos
      DummyLayerCreator).links[i]? = _
    rw [spliced_link DummyLayerCreator hpos, dummyTower_link (k + 1), hlenA, hlenL]
    simp only
    rw [dummyTower_link] at hpos
    by_cases h1 : i = k + 1
    · subst h1
      have : k + 1 ≠ k := by omega
      simp [this, hup, DummyLayerCreator]
    · by_cases hk : i = k
      · subst hk
        rw [if_pos rfl]
        by_cases h0 : i = 0
        · subst h0
          simp only [if_true, Option.some.injEq] at hpos
          subst hpos
          simp
        · simp only [h0, if_false, le_refl, if_true, Option.some.injEq] at hpos
          subst hpos
          simp [h0]
      · rw [if_neg hk, if_neg h1, dummyTower_link k]
        by_cases h0 : i = 0
        · subst h0
          have : k ≠ 0 := fun e => hk e.symm
          simp [this]
        · simp only [h0, if_false]
          by_cases h2 : i ≤ k
          · rw [if_pos h2, if_pos (show i ≤ k + 1 by omega)]
            simp [hk, h1]
          · rw [if_neg h2, if_neg (show ¬ i ≤ k + 1 by omega)]
  · rfl

theorem insertDummies_dummyTower (o : Owners) (hs : List Nat) (ev : List Event) (fuel : Nat) :
    ∀ (k j : Nat), j + k ≤ fuel →
      insertDummies fuel k (dummyTower j o hs ev) = some (dummyTower (j + k) o hs ev) := by
  intro k
  induction k with
  | zero => intro j _; rfl
  | succ k ih =>
    intro j hf
    unfold insertDummies
    have : (dummyTower j o hs ev).access = 0 := rfl
    rw [this, InserLayer_dummyTower j o hs ev fuel (by omega)]
    simp only
    rw [ih (j + 1) (by omega)]
    congr 2
    omega

theorem GetIdsAt_dummyTower (k : Nat) (o : Owners) (hs : List Nat) (ev : List Event) :
    Owners.GetIdsAt (dummyTower k o hs ev) 0 = some o.GetIds := by
  unfold Owners.GetIdsAt
  rw [dummyTower_link]
  rfl

/-- C26 (pass-through layers are transparent): the stack of `NewOwners()` after
`k` insertions of the pass-through layer of the tests at the top access, with an
observer `h` registered at the top access, and the stack of `NewOwners()` with
the same observer and no insertion, both run the same client calls to the end;
the observer has then received the same sequence of calls in both; in the stack
with `k` layers the base registry is in the state the calls lead to, and
`GetIds()` and `IsResponsibleFor(id)` at the top access return what the base
registry returns. -/
theorem dummy_layers_transparent (k h : Nat) (ops : List Op) (id : String) (n : Nat) :
    ∃ sk rk tk r0 t0,
      insertDummies (k + n + 1) k NewOwners.1 = some sk ∧
      OwnerLayerAccess.RegisterHandler sk sk.access (.external h) = some rk ∧
      OwnerStack.run (k + n + 1) NewOwners.2 rk ops = some tk ∧
      OwnerLayerAccess.RegisterHandler NewOwners.1 NewOwners.1.access (.external h) = some r0 ∧
      OwnerStack.run (k + n + 1) NewOwners.2 r0 ops = some t0 ∧
      tk.events = t0.events ∧
      (tk.links[NewOwners.2]?).map (fun L => L.layer) =
        some (.owners (Owners.run ops) NewOwners.2) ∧
      Owners.GetIdsAt tk NewOwners.2 = some (Owners.run ops).GetIds ∧
      OwnerStack.GetIds (k + n + 1) tk = some (Owners.run ops).GetIds ∧
      OwnerStack.IsResponsibleFor (k + n + 1) tk id =
        some ((Owners.run ops).IsResponsibleFor id) := by
  have h1 := insertDummies_dummyTower Owners.new [] [] (k + n + 1) k 0 (by omega)
  rw [Nat.zero_add] at h1
  refine ⟨_, _, _, _, _, h1, RegisterHandler_dummyTower k Owners.new [] h,
    run_dummyTower k [h] (k + n + 1) (by omega) ops Owners.new [],
    RegisterHandler_dummyTower 0 Owners.new [] h,
    run_dummyTower 0 [h] (k + n + 1) (by omega) ops Owners.new [], rfl, ?_,
    GetIdsAt_dummyTower _ _ _ _, GetIds_dummyTower _ _ _ _ _ (by omega),
    IsResponsibleFor_dummyTower _ _ _ _ _ _ (by omega)⟩
  show ((dummyTower k _ _ _).links[0]?).map _ = _
  rw [dummyTower_link]
  rfl

/-- C26 on the scenario of the tests: two pass-through layers, `client1` and
`client2` assert `{id1, id2}` and `{id3, id2}`; the top access shows
`{id1, id2, id3}`. -/
theorem dummy_layers_example :
    ((insertDummies 3 2 NewOwners.1).bind
      (fun st => (OwnerStack.run 3 NewOwners.2 st
        [.update "client1" {"id1", "id2"}, .update "client2" {"id3", "id2"}]).bind
        (OwnerStack.GetIds 3))).getD ∅ = {"id1", "id2", "id3"} := by
  have h1 := insertDummies_dummyTower Owners.new [] [] 3 2 0 (by omega)
  have h2 := run_dummyTower 2 [] 3 (by omega)
    [.update "client1" {"id1", "id2"}, .update "client2" {"id3", "id2"}] Owners.new []
  have h3 : NewOwners.1 = dummyTower 0 Owners.new [] [] := rfl
  rw [h3, h1]
  simp only [Option.bind_eq_bind, Option.some_bind]
  have h4 : NewOwners.2 = 0 := rfl
  rw [h4, h2]
  simp only [Option.some_bind]
  rw [GetIds_dummyTower _ _ _ _ _ (by omega)]
  decide

/-! ## The topology of a stack with any base layer -/

theorem linked_sameWiring {st st' : OwnerStack} (h : SameWiring st st') {ch : List Nat}
    (hc : Linked st ch) : Linked st' ch := by
  refine ⟨?_, hc.nodup, ?_, ?_, ?_, ?_, ?_⟩
  · rw [h.1]; exact hc.top
  · rw [h.2.1]; exact hc.mem_iff
  · rw [sameWiring_links_length h, h.2.1]; exact hc.links_len
  · exact (isChain_congr (NextLayer_sameWiring h) ch).mpr hc.isChain
  · intro a ha
    obtain ⟨A, L, hA, hL, hup⟩ := hc.up_eq a ha
    obtain ⟨L', hL', hup', _, _⟩ := sameWiring_link h hL
    exact ⟨A, L', by rw [h.2.1]; exact hA, hL', by rw [hup', hup]⟩
  · obtain ⟨b, A, hb, hA, hlink⟩ := hc.last
    exact ⟨b, A, hb, by rw [h.2.1]; exact hA, hlink⟩

theorem linked_chain_eq {st : OwnerStack} {ch : List Nat} (hc : Linked st ch) : st.chain = ch := by
  unfold OwnerStack.chain
  cases ch with
  | nil => exact absurd hc.isChain (by simp [IsChain])
  | cons a rest =>
    have htop := hc.top
    simp only [List.head?_cons, Option.some.injEq] at htop
    rw [← htop]
    apply walk_eq hc.isChain
    have hlen : (a :: rest).length ≤ st.accesses.length := by
      have h1 := hc.nodup
      have h2 : ∀ x ∈ a :: rest, x ∈ List.range st.accesses.length := by
        intro x hx
        exact List.mem_range.mpr ((hc.mem_iff x).mp hx)
      have := (List.subperm_of_subset h1 h2).length_le
      simpa using this
    simp only [List.length_cons] at hlen
    omega

theorem linked_length {st : OwnerStack} {ch : List Nat} (hc : Linked st ch) :
    ch.length = st.accesses.length := by
  have h1 : ch.Perm (List.range st.accesses.length) := by
    apply (List.perm_ext_iff_of_nodup hc.nodup (List.nodup_range _)).mpr
    intro a
    rw [hc.mem_iff, List.mem_range]
  simpa using h1.length_eq

theorem linked_spliced {st : OwnerStack} {ch : List Nat} (hc : Linked st ch)
    (c : OwnerLayerCreator) {acc : Nat} {A : OwnerLayerAccess} {pos : OwnerLink}
    (hA : st.accesses[acc]? = some A) (hpos : st.links[A.link]? = some pos) (hup : pos.up = acc)
    {pre post : List Nat} (hch : ch = pre ++ acc :: post) :
    Linked (spliced st A pos c) (pre ++ acc :: st.accesses.length :: post) := by
  subst hch
  have hN : st.accesses.length ∉ pre ++ acc :: post := by
    intro h
    exact absurd ((hc.mem_iff _).mp h) (lt_irrefl _)
  have hnd := hc.nodup
  have hother : ∀ b ∈ pre ++ post, ∃ B L, st.accesses[b]? = some B ∧
      st.links[B.link]? = some L ∧ L.up = b ∧
      (spliced st A pos c).accesses[b]? = some B ∧
      (spliced st A pos c).links[B.link]? = some L := by
    intro b hb
    have hb' : b ∈ pre ++ acc :: post := by
      simp only [List.mem_append, List.mem_cons] at hb ⊢
      tauto
    have hne : b ≠ acc := by
      rintro rfl
      rw [List.nodup_middle, List.nodup_cons] at hnd
      exact hnd.1 hb
    obtain ⟨B, L, hB, hL, hLup⟩ := hc.up_eq b hb'
    obtain ⟨h1, h2⟩ := spliced_other c hA hpos hup hne hB hL hLup
    exact ⟨B, L, hB, hL, hLup, h1, h2⟩
  have hlen : (spliced st A pos c).accesses.length = st.accesses.length + 1 := by
    simp [spliced]
  have haccN : (spliced st A pos c).accesses[st.accesses.length]? =
      some (OwnerLayerAccess.mk [] A.link) := by
    have hlt : acc < st.accesses.length := (List.getElem?_eq_some.mp hA).1
    rw [spliced_access c hA hup]
    have : st.accesses.length ≠ acc := by omega
    simp [this]
  have hlinkA : (spliced st A pos c).links[A.link]? =
      some { pos with up := st.accesses.length } := by
    rw [spliced_link c hpos]; simp
  refine ⟨?_, ?_, ?_, ?_, ?_, ?_, ?_⟩
  · rw [head?_append_cons pre acc _ post]
    exact hc.top
  · rw [show pre ++ acc :: st.accesses.length :: post =
        (pre ++ [acc]) ++ st.accesses.length :: post by simp,
      List.nodup_middle, List.nodup_cons]
    refine ⟨?_, by simpa using hnd⟩
    simpa using hN
  · intro a
    rw [hlen]
    have := hc.mem_iff a
    simp only [List.mem_append, List.mem_cons] at this ⊢
    constructor
    · rintro (h | h | h | h)
      · have := this.mp (Or.inl h); omega
      · have := this.mp (Or.inr (Or.inl h)); omega
      · omega
      · have := this.mp (Or.inr (Or.inr h)); omega
    · intro h
      by_cases h1 : a = st.accesses.length
      · exact Or.inr (Or.inr (Or.inl h1))
      · have := this.mpr (by omega)
        tauto
  · simp [spliced, hc.links_len]
  · refine isChain_splice pre post hc.isChain (spliced_NextLayer_acc c hA hpos hup) ?_ ?_
    · rw [spliced_NextLayer_new c hA hpos hup]
      exact (NextLayer_eq_some.mpr ⟨A, pos, hA, hpos, rfl⟩).symm
    · intro b hb
      obtain ⟨B, L, hB, hL, _, h1, h2⟩ := hother b hb
      rw [NextLayer_eq_some.mpr ⟨B, L, hB, hL, rfl⟩, NextLayer_eq_some.mpr ⟨B, L, h1, h2, rfl⟩]
  · intro a ha
    simp only [List.mem_append, List.mem_cons] at ha
    by_cases h1 : a = acc
    · subst h1
      have hlt : A.link < st.links.length := (List.getElem?_eq_some.mp hpos).1
      refine ⟨{ A with link := st.links.length },
        OwnerLink.mk pos.up (c st.links.length (some st.accesses.length))
          (some st.accesses.length), ?_, ?_, hup⟩
      · rw [spliced_access c hA hup]; simp
      · rw [spliced_link c hpos]
        have : st.links.length ≠ A.link := by omega
        simp [this]
    · by_cases h2 : a = st.accesses.length
      · subst h2
        exact ⟨_, _, haccN, hlinkA, rfl⟩
      · have hb : a ∈ pre ++ post := by
          simp only [List.mem_append]
          tauto
        obtain ⟨B, L, _, _, hLup, h1, h2⟩ := hother a hb
        exact ⟨B, L, h1, h2, hLup⟩
  · obtain ⟨b, B, hlast, hB, hBl⟩ := hc.last
    rw [getLast?_append_cons] at hlast
    cases post with
    | nil =>
      simp only [List.getLast?_singleton, Option.some.injEq] at hlast
      subst hlast
      rw [hA] at hB
      simp only [Option.some.injEq] at hB
      subst hB
      refine ⟨st.accesses.length, _, ?_, haccN, hBl⟩
      rw [getLast?_append_cons]; rfl
    | cons p post =>
      rw [List.getLast?_cons_cons] at hlast
      have hb : b ∈ pre ++ p :: post := by
        simp only [List.mem_append]
        exact Or.inr (List.mem_of_getLast?_eq_some hlast)
      obtain ⟨B', L, hB', hL, _, h1, h2⟩ := hother b hb
      rw [hB] at hB'
      simp only [Option.some.injEq] at hB'
      subst hB'
      refine ⟨b, B, ?_, h1, hBl⟩
      rw [getLast?_append_cons, List.getLast?_cons_cons, List.getLast?_cons_cons]
      exact hlast

theorem linked_setAccess {st : OwnerStack} {a : Nat} {A : OwnerLayerAccess}
    (A' : OwnerLayerAccess) (hA : st.accesses[a]? = some A) (hl : A'.link = A.link)
    {ch : List Nat} (hc : Linked st ch) :
    Linked ({ st with accesses := st.accesses.set a A' } : OwnerStack) ch := by
  refine ⟨hc.top, hc.nodup, ?_, ?_, ?_, ?_, ?_⟩
  · intro b
    simp only [List.length_set]
    exact hc.mem_iff b
  · simp only [List.length_set]
    exact hc.links_len
  · exact (isChain_congr (NextLayer_setAccess A' hA hl) ch).mpr hc.isChain
  · intro b hb
    obtain ⟨B, L, hB, hL, hup⟩ := hc.up_eq b hb
    obtain ⟨B', hB', hlink⟩ := setAccess_of_old A' hA hl hB
    exact ⟨B', L, hB', by rw [hlink]; exact hL, hup⟩
  · obtain ⟨b, B, hb, hB, hlink⟩ := hc.last
    obtain ⟨B', hB', hlink'⟩ := setAccess_of_old A' hA hl hB
    exact ⟨b, B', hb, hB', by rw [hlink', hlink]⟩

theorem linked_cons {st : OwnerStack} {ch : List Nat} (hc : Linked st ch) :
    ∃ rest, ch = st.access :: rest := by
  have h := hc.top
  cases ch with
  | nil => simp at h
  | cons a rest =>
    simp only [List.head?_cons, Option.some.injEq] at h
    subst h
    exact ⟨rest, rfl⟩

theorem InserLayer_not_found_linked {st : OwnerStack} {ch : List Nat} (hc : Linked st ch)
    {acc : Nat} (hmem : acc ∉ ch) (fuel : Nat) (c : OwnerLayerCreator) :
    (∀ st' r, OwnerStack.InserLayer fuel st acc c = some (st', r) → st' = st ∧ r = none) ∧
    (st.accesses.length < fuel → OwnerStack.InserLayer fuel st acc c = some (st, none)) := by
  obtain ⟨rest, rfl⟩ := linked_cons hc
  constructor
  · intro st' r h
    unfold OwnerStack.InserLayer at h
    cases hs : InserLayer.search st acc fuel (some st.access) with
    | none => simp [hs] at h
    | some b =>
      have hb := search_spec acc hc.isChain fuel hs
      rw [decide_eq_false hmem] at hb
      subst hb
      simp only [hs, Option.some.injEq, Prod.mk.injEq] at h
      exact ⟨h.1.symm, h.2.symm⟩
  · intro hf
    have hlen := linked_length hc
    simp only [List.length_cons] at hlen
    have hs := search_total acc hc.isChain fuel (by omega)
    rw [decide_eq_false hmem] at hs
    unfold OwnerStack.InserLayer
    simp only [hs]

theorem InserLayer_result_linked {st : OwnerStack} {ch : List Nat} (hc : Linked st ch)
    {fuel acc : Nat} {c : OwnerLayerCreator} {st' : OwnerStack} {r : Option Nat}
    (h : OwnerStack.InserLayer fuel st acc c = some (st', r)) (hmem : acc ∈ ch) :
    r = some acc ∧ ∃ A pos st2, st.accesses[acc]? = some A ∧ st.links[A.link]? = some pos ∧
      pos.up = acc ∧ SameWiring (spliced st A pos c) st2 ∧
      st' = { st2 with
        accesses := st2.accesses.set st.accesses.length
          (OwnerLayerAccess.mk
            (startHandler st.links.length
              (c st.links.length (some st.accesses.length))).toList A.link) } := by
  obtain ⟨rest, rfl⟩ := linked_cons hc
  obtain ⟨A, pos, hA, hpos, hup⟩ := hc.up_eq acc hmem
  cases hs : InserLayer.search st acc fuel (some st.access) with
  | none =>
    unfold OwnerStack.InserLayer at h
    simp [hs] at h
  | some b =>
    have hb := search_spec acc hc.isChain fuel hs
    rw [decide_eq_true hmem] at hb
    subst hb
    cases hseed : InserLayer.seed fuel st pos with
    | none =>
      unfold OwnerStack.InserLayer at h
      simp [hs, hA, hpos, hseed] at h
    | some set =>
      rw [InserLayer_unfold c hs hA hpos hup hseed] at h
      cases hstart : OwnerLayer.Start fuel (spliced st A pos c) st.links.length set with
      | none => simp [hstart] at h
      | some p =>
        obtain ⟨st2, ho⟩ := p
        obtain ⟨hsw, L, hL, hr⟩ := OwnerLayer_Start_frame hstart
        rw [spliced_link_new c hpos] at hL
        simp only [Option.some.injEq] at hL
        subst hL
        simp only at hr
        have hN : st2.accesses[st.accesses.length]? = some (OwnerLayerAccess.mk [] A.link) := by
          rw [hsw.2.1]
          exact spliced_access_new c hA hup
        rw [hstart] at h
        cases ho with
        | none =>
          simp only [Option.some.injEq, Prod.mk.injEq] at h
          obtain ⟨rfl, rfl⟩ := h
          refine ⟨rfl, A, pos, st2, hA, hpos, hup, hsw, ?_⟩
          rw [← hr]
          exact (setAccess_self hN).symm
        | some hd =>
          simp only at h
          unfold OwnerLayerAccess.RegisterHandler at h
          simp only [hN, Option.some.injEq, Prod.mk.injEq] at h
          obtain ⟨rfl, rfl⟩ := h
          refine ⟨rfl, A, pos, st2, hA, hpos, hup, hsw, ?_⟩
          rw [← hr]
          simp [OwnerLayerAccess.registerHandler]

theorem linked_last {st : OwnerStack} {ch : List Nat} (hc : Linked st ch) {a : Nat}
    (ha : a ∈ ch) (hn : OwnerLayerAccess.NextLayer st a = some none) :
    ch.getLast? = some a := by
  obtain ⟨pre, p2, rfl⟩ := List.append_of_mem ha
  have h1 := isChain_next pre hc.isChain
  rw [hn] at h1
  simp only [Option.some.injEq] at h1
  cases p2 with
  | nil => rw [getLast?_append_cons]; rfl
  | cons b post => simp at h1

theorem linked_split_next {st : OwnerStack} {ch : List Nat} (hc : Linked st ch) {x a : Nat}
    (hx : x ∈ ch) (hn : OwnerLayerAccess.NextLayer st x = some (some a)) :
    ∃ pre post, ch = pre ++ x :: a :: post := by
  obtain ⟨pre, p2, rfl⟩ := List.append_of_mem hx
  have h1 := isChain_next pre hc.isChain
  rw [hn] at h1
  simp only [Option.some.injEq] at h1
  cases p2 with
  | nil => simp at h1
  | cons b post =>
    simp only [List.head?_cons, Option.some.injEq] at h1
    subst h1
    exact ⟨pre, post, rfl⟩

theorem linked_indexOf_next {st : OwnerStack} {ch : List Nat} (hc : Linked st ch) {x a : Nat}
    (hx : x ∈ ch) (hn : OwnerLayerAccess.NextLayer st x = some (some a)) :
    ch.indexOf a = ch.indexOf x + 1 := by
  obtain ⟨pre, post, rfl⟩ := linked_split_next hc hx hn
  have hnd := hc.nodup
  rw [List.nodup_append] at hnd
  obtain ⟨_, h2, h3⟩ := hnd
  have hxp : x ∉ pre := fun h => h3 h (by simp)
  have hap : a ∉ pre := fun h => h3 h (by simp)
  have hax : x ≠ a := by
    intro e
    subst e
    simp at h2
  rw [List.indexOf_append_of_not_mem hxp, List.indexOf_append_of_not_mem hap,
    List.indexOf_cons_self, List.indexOf_cons_ne _ hax, List.indexOf_cons_self]

theorem linked_of_chained {st : OwnerStack} {ch : List Nat} (hc : Chained st ch) :
    Linked st ch := by
  obtain ⟨b, A, _, hb, hA, hl, _⟩ := hc.bottom
  exact ⟨hc.top, hc.nodup, hc.mem_iff, hc.links_len, hc.isChain, hc.up_eq, b, A, hb, hA, hl⟩

theorem linked_NewOwnerStack (c0 : OwnerLayerCreator) : Linked (NewOwnerStack c0) [0] := by
  refine ⟨rfl, by simp, ?_, rfl, rfl, ?_, ?_⟩
  · intro a
    simp [NewOwnerStack]
  · intro a ha
    simp only [List.mem_singleton] at ha
    subst ha
    exact ⟨_, _, rfl, rfl, rfl⟩
  · exact ⟨0, _, rfl, rfl, rfl⟩

/-- A call of `InserLayer` that returns either finds the access in the chain,
returns it and puts one new access right after it, or does not find it, returns
nil and leaves the stack as it is. -/
theorem linked_InserLayer {st : OwnerStack} {ch : List Nat} (hc : Linked st ch)
    {fuel acc : Nat} {c : OwnerLayerCreator} {st' : OwnerStack} {r : Option Nat}
    (h : OwnerStack.InserLayer fuel st acc c = some (st', r)) :
    (acc ∈ ch ∧ r = some acc ∧ st'.access = st.access ∧
      (∀ (k : Nat) (L : OwnerLink), st.links[k]? = some L →
        (st'.links[k]?).map (fun L => L.layer.shape) = some L.layer.shape) ∧
      ∃ pre post, ch = pre ++ acc :: post ∧
        Linked st' (pre ++ acc :: st.accesses.length :: post)) ∨
    (acc ∉ ch ∧ r = none ∧ st' = st) := by
  by_cases hmem : acc ∈ ch
  · left
    obtain ⟨hr, A, pos, st2, hA, hpos, hup, hsw, rfl⟩ := InserLayer_result_linked hc h hmem
    obtain ⟨pre, post, hsplit⟩ := List.append_of_mem hmem
    have hN : st2.accesses[st.accesses.length]? = some (OwnerLayerAccess.mk [] A.link) := by
      rw [hsw.2.1]
      exact spliced_access_new c hA hup
    refine ⟨hmem, hr, hsw.1, ?_, pre, post, hsplit, ?_⟩
    · intro k L hk
      obtain ⟨L', hk', hlay, _⟩ := spliced_link_keeps c hpos hk
      have := layerShape_of_shape (sameWiring_links hsw k)
      show (st2.links[k]?).map _ = _
      rw [this, hk']
      simp [hlay]
    · have key := fun (hs : List OwnerHandler) =>
        linked_setAccess (OwnerLayerAccess.mk hs A.link) hN rfl
          (linked_sameWiring hsw (linked_spliced hc c hA hpos hup hsplit))
      exact key _
  · right
    obtain ⟨h1, h2⟩ := (InserLayer_not_found_linked hc hmem fuel c).1 st' r h
    exact ⟨hmem, h2, h1⟩

theorem inserted_linked {c0 : OwnerLayerCreator} {st : OwnerStack} (h : Inserted c0 st) :
    Linked st st.chain ∧ st.access = (NewOwnerStack c0).access ∧
      (st.links[0]?).map (fun L => L.layer.shape) = some (c0 0 none).shape := by
  induction h with
  | new =>
    have := linked_NewOwnerStack c0
    rw [linked_chain_eq this]
    exact ⟨this, rfl, rfl⟩
  | @insert st0 st1 fuel acc c r _ hi ih =>
    obtain ⟨hc, hacc, hbase⟩ := ih
    rcases linked_InserLayer hc hi with ⟨_, _, ha, hk, pre, post, _, hl⟩ | ⟨_, _, rfl⟩
    · refine ⟨by rw [linked_chain_eq hl]; exact hl, by rw [ha, hacc], ?_⟩
      cases hl0 : st0.links[0]? with
      | none => simp [hl0] at hbase
      | some L0 =>
        rw [hk 0 L0 hl0]
        simpa [hl0] using hbase
    · exact ⟨hc, hacc, hbase⟩

theorem linked_next_none_iff {st : OwnerStack} {ch : List Nat} (hc : Linked st ch) {a : Nat}
    (ha : a ∈ ch) :
    OwnerLayerAccess.NextLayer st a = some none ↔ ch.getLast? = some a := by
  constructor
  · exact linked_last hc ha
  · intro hlast
    obtain ⟨pre, post, rfl⟩ := List.append_of_mem ha
    have h1 := isChain_next pre hc.isChain
    cases post with
    | nil => exact h1
    | cons b post =>
      exfalso
      rw [getLast?_append_cons, List.getLast?_cons_cons] at hlast
      have hb := List.mem_of_getLast?_eq_some hlast
      have hnd := hc.nodup
      rw [List.nodup_append] at hnd
      have := hnd.2.1
      rw [List.nodup_cons] at this
      exact this.1 hb

/-- C30 (pipeline topology invariant): in every stack reached from
`NewOwnerStack(c0)` by `InserLayer` calls that returned, the accesses reached
from the top by down links form a list without repetition that holds every
access of the stack; every access of it is the `up` of its own link; an access
has no down access exactly when it is the last of the chain, and the last access
reads link 0, the link `NewOwnerStack` created, which still holds the layer `c0`
built (up to the state of the layer); the top access is the original access;
and a further `InserLayer` call that returns either returns the access it was
given and makes the chain one longer, or returns nil and changes nothing. -/
theorem topology_invariant {c0 : OwnerLayerCreator} {st : OwnerStack} (hr : Inserted c0 st) :
    st.chain.Nodup ∧ IsChain st st.chain ∧
    (∀ a, a ∈ st.chain ↔ a < st.accesses.length) ∧
    (∀ a ∈ st.chain, ∃ A L, st.accesses[a]? = some A ∧ st.links[A.link]? = some L ∧
      L.up = a) ∧
    (∀ a ∈ st.chain,
      (OwnerLayerAccess.NextLayer st a = some none ↔ st.chain.getLast? = some a)) ∧
    (∃ b, st.chain.getLast? = some b ∧ OwnerLayerAccess.Layer st b = some 0 ∧
      (st.links[0]?).map (fun L => L.layer.shape) = some (c0 0 none).shape) ∧
    st.access = (NewOwnerStack c0).access ∧ st.chain.head? = some st.access ∧
    (∀ (fuel acc : Nat) (c : OwnerLayerCreator) (st' : OwnerStack) (r : Option Nat),
      OwnerStack.InserLayer fuel st acc c = some (st', r) →
        (r = some acc ∧ acc ∈ st.chain ∧ st'.chain.length = st.chain.length + 1) ∨
        (r = none ∧ acc ∉ st.chain ∧ st' = st)) := by
  obtain ⟨hc, hacc, hbase⟩ := inserted_linked hr
  refine ⟨hc.nodup, hc.isChain, hc.mem_iff, hc.up_eq, fun a ha => linked_next_none_iff hc ha,
    ?_, hacc, hc.top, ?_⟩
  · obtain ⟨b, B, hb, hB, hBl⟩ := hc.last
    refine ⟨b, hb, ?_, hbase⟩
    have hbm := List.mem_of_getLast?_eq_some hb
    obtain ⟨B', L, hB', hL, _⟩ := hc.up_eq b hbm
    rw [hB] at hB'
    simp only [Option.some.injEq] at hB'
    subst hB'
    exact Layer_eq_some.mpr ⟨B, L, hB, hL, hBl⟩
  · intro fuel acc c st' r hi
    rcases linked_InserLayer hc hi with ⟨hm, hr', _, _, pre, post, hsplit, hl⟩ | ⟨hm, hr', hst⟩
    · left
      refine ⟨hr', hm, ?_⟩
      rw [linked_chain_eq hl, hsplit]
      simp only [List.length_append, List.length_cons]
      omega
    · right
      exact ⟨hr', hm, hst⟩

/-- C30 on the stack of the test `inserts a layer`: the chain is the top access
followed by the new access, and one more insertion at the top makes it three
long. -/
theorem topology_invariant_example :
    Inserted CreateOwnerBaseLayer dummyStack ∧ dummyStack.chain = [0, 1] ∧
      ∀ (st' : OwnerStack) (r : Option Nat),
        OwnerStack.InserLayer 3 dummyStack 0 DummyLayerCreator = some (st', r) →
          r = some 0 ∧ st'.chain.length = 3 := by
  have hi : Inserted CreateOwnerBaseLayer dummyStack :=
    Inserted.insert Inserted.new InserLayer_NewOwners_dummy
  refine ⟨hi, rfl, ?_⟩
  intro st' r h
  rcases (topology_invariant hi).2.2.2.2.2.2.2.2 3 0 DummyLayerCreator st' r h with
    ⟨h1, _, h3⟩ | ⟨_, h2, _⟩
  · exact ⟨h1, h3⟩
  · exact absurd (by decide : 0 ∈ dummyStack.chain) h2

/-! ## Caches hold accepted ids only -/

theorem reachableWith_mono {P Q : OwnerLayerCreator → Prop} (hPQ : ∀ c, P c → Q c)
    {st : OwnerStack} (h : ReachableWith P st) : ReachableWith Q st := by
  induction h with
  | new => exact ReachableWith.new
  | insert _ hp hi ih => exact ReachableWith.insert ih (hPQ _ hp) hi
  | call _ hi ih => exact ReachableWith.call ih hi
  | register _ hi ih => exact ReachableWith.register ih hi
  | unregister _ hi ih => exact ReachableWith.unregister ih hi
  | filterChanged _ hi ih => exact ReachableWith.filterChanged ih hi

theorem sound_of_isFilterCreator {c : OwnerLayerCreator} (h : IsFilterCreator c) : c.Sound := by
  obtain ⟨accept, rfl⟩ := h
  exact sound_FilteredLayerCreator accept

theorem cacheOK_of_links {st st' : OwnerStack} (h : st'.links = st.links) (hc : CacheOK st) :
    CacheOK st' := by
  intro l L hL
  rw [h] at hL
  exact hc l L hL

theorem cacheOK_set {st : OwnerStack} (hc : CacheOK st) (l : Nat) (L' : OwnerLink)
    (hL' : L'.layer.CacheAccepted) :
    CacheOK { st with links := st.links.set l L' } := by
  intro k L hL
  simp only [List.getElem?_set] at hL
  by_cases hk : l = k
  · rw [if_pos hk] at hL
    split at hL
    · simp only [Option.some.injEq] at hL
      subst hL
      exact hL'
    · cases hL
  · rw [if_neg hk] at hL
    exact hc k L hL

theorem changeSets_accepted {accepted : String → Bool} {cache : StringSet}
    (hc : ∀ id ∈ cache, accepted id = true) (ad dl : StringSet) :
    ∀ id ∈ (FilteredLayer.changeSets accepted cache ad dl).1, accepted id = true := by
  intro id hid
  rcases ((changeSets_spec accepted cache ad dl id).1.mp hid).1 with h | h
  · exact hc id h
  · exact h.2

theorem OwnerLink_OwnerSetChanged_cacheOK
    {notify : OwnerStack → Nat → StringSet → StringSet → Option OwnerStack}
    (hn : KeepsCaches notify) {st st' : OwnerStack} {l : Nat} {ad dl : StringSet}
    (hc : CacheOK st) (h : OwnerLink.OwnerSetChanged notify st l ad dl = some st') :
    CacheOK st' := by
  unfold OwnerLink.OwnerSetChanged at h
  cases hl : st.links[l]? with
  | none => simp [hl] at h
  | some L =>
    simp only [hl] at h
    exact hn _ _ _ _ _ hc h

theorem FilteredLayer_OwnerSetChanged_cacheOK
    {notify : OwnerStack → Nat → StringSet → StringSet → Option OwnerStack}
    (hn : KeepsCaches notify) {st st' : OwnerStack} {l : Nat} {ad dl : StringSet}
    (hc : CacheOK st) (h : FilteredLayer.OwnerSetChanged notify st l ad dl = some st') :
    CacheOK st' := by
  unfold FilteredLayer.OwnerSetChanged at h
  cases hl : st.links[l]? with
  | none => simp [hl] at h
  | some L =>
    obtain ⟨lup, layer, ldown⟩ := L
    cases layer with
    | owners o up => simp [hl] at h
    | dummy up down => simp [hl] at h
    | filtered accepted cache up down =>
      simp only [hl] at h
      have h0 : ∀ id ∈ cache, accepted id = true := hc l _ hl
      have h1 := cacheOK_set hc l
        ⟨lup, .filtered accepted (FilteredLayer.changeSets accepted cache ad dl).1 up down, ldown⟩
        (changeSets_accepted h0 ad dl)
      split_ifs at h
      · exact OwnerLink_OwnerSetChanged_cacheOK hn h1 h
      · cases h
        exact h1

theorem OwnerHandler_OwnerSetChanged_cacheOK
    {notify : OwnerStack → Nat → StringSet → StringSet → Option OwnerStack}
    (hn : KeepsCaches notify) {st st' : OwnerStack} {hd : OwnerHandler} {ad dl : StringSet}
    (hc : CacheOK st) (h : OwnerHandler.OwnerSetChanged notify ad dl st hd = some st') :
    CacheOK st' := by
  cases hd with
  | external e =>
    simp only [OwnerHandler.OwnerSetChanged, Option.some.injEq] at h
    subst h
    exact cacheOK_of_links rfl hc
  | link l => exact OwnerLink_OwnerSetChanged_cacheOK hn hc h
  | filtered l => exact FilteredLayer_OwnerSetChanged_cacheOK hn hc h

theorem foldlM_cacheOK
    {notify : OwnerStack → Nat → StringSet → StringSet → Option OwnerStack}
    (hn : KeepsCaches notify) (ad dl : StringSet) (hs : List OwnerHandler)
    (st st' : OwnerStack) (hc : CacheOK st)
    (h : hs.foldlM (fun st hd => OwnerHandler.OwnerSetChanged notify ad dl st hd) st = some st') :
    CacheOK st' := by
  induction hs generalizing st with
  | nil =>
    simp only [List.foldlM_nil, Option.pure_def, Option.some.injEq] at h
    subst h
    exact hc
  | cons hd hs ih =>
    rw [List.foldlM_cons] at h
    cases h1 : OwnerHandler.OwnerSetChanged notify ad dl st hd with
    | none => simp [h1] at h
    | some st1 =>
      simp only [h1, Option.bind_eq_bind, Option.some_bind] at h
      exact ih st1 (OwnerHandler_OwnerSetChanged_cacheOK hn hc h1) h

theorem notify_cacheOK (fuel : Nat) : KeepsCaches (OwnerLayerAccess.notify fuel) := by
  induction fuel with
  | zero =>
    intro st a ad dl st' _ h
    simp [OwnerLayerAccess.notify] at h
  | succ fuel ih =>
    intro st a ad dl st' hc h
    unfold OwnerLayerAccess.notify at h
    cases ha : st.accesses[a]? with
    | none => simp [ha] at h
    | some A =>
      simp only [ha] at h
      exact foldlM_cacheOK ih ad dl A.handlers st st' hc h

theorem Owners_notify_cacheOK {fuel : Nat} {st st' : OwnerStack} {this : Nat}
    {ad dl : StringSet} (hc : CacheOK st) (h : Owners.notify fuel st this ad dl = some st') :
    CacheOK st' := by
  unfold Owners.notify at h
  split at h
  · exact OwnerLink_OwnerSetChanged_cacheOK (notify_cacheOK fuel) hc h
  · cases h

theorem apply_cacheOK {fuel this : Nat} {st st' : OwnerStack} {op : Op} (hc : CacheOK st)
    (h : OwnerStack.apply fuel this st op = some st') : CacheOK st' := by
  cases op with
  | update c S =>
    simp only [OwnerStack.apply, OwnerStack.UpdateClient] at h
    split at h
    · rename_i lup o up ldown hl
      exact Owners_notify_cacheOK
        (cacheOK_set hc this ⟨lup, .owners (o.UpdateClient c S).state up, ldown⟩ trivial) h
    · cases h
  | delete c =>
    simp only [OwnerStack.apply, OwnerStack.DeleteClient] at h
    split at h
    · rename_i lup o up ldown hl
      exact Owners_notify_cacheOK
        (cacheOK_set hc this ⟨lup, .owners (o.DeleteClient c).state up, ldown⟩ trivial) h
    · cases h

theorem FilterChanged_cacheOK {fuel l : Nat} {st st' : OwnerStack} (hc : CacheOK st)
    (h : FilteredLayer.FilterChanged fuel st l = some st') : CacheOK st' := by
  unfold FilteredLayer.FilterChanged at h
  split at h
  · rename_i lup accepted cur up down ldown hl
    split at h
    · cases h
    · rename_i ids hids
      have h1 := cacheOK_set hc l
        ⟨lup, .filtered accepted (FilteredLayer.filterChangedSets accepted cur ids).1 up
          (some down), ldown⟩
        (by
          intro id hid
          rw [filterChangedSets_eq] at hid
          exact (Finset.mem_filter.mp hid).2)
      simp only at h
      split_ifs at h
      · exact OwnerLink_OwnerSetChanged_cacheOK (notify_cacheOK fuel) h1 h
      · cases h
        exact h1
  · cases h

theorem OwnerLayer_Start_cacheOK {fuel l : Nat} {st st' : OwnerStack} {D : StringSet}
    {r : Option OwnerHandler} (hc : CacheOK st)
    (h : OwnerLayer.Start fuel st l D = some (st', r)) : CacheOK st' := by
  unfold OwnerLayer.Start at h
  split at h
  · cases h
  · simp only [Option.some.injEq, Prod.mk.injEq] at h
    obtain ⟨rfl, _⟩ := h
    exact hc
  · simp only [Option.some.injEq, Prod.mk.injEq] at h
    obtain ⟨rfl, _⟩ := h
    exact hc
  · unfold FilteredLayer.Start at h
    split at h
    · rename_i lup accepted cur up down ldown hl
      have h1 := cacheOK_set hc l
        ⟨lup, .filtered accepted (FilteredLayer.startSets accepted D).1 up down, ldown⟩
        (by
          intro id hid
          exact ((startSets_spec accepted D id).1.mp hid).2)
      simp only at h
      split_ifs at h
      · split at h
        · cases h
        · rename_i st2 h2
          simp only [Option.some.injEq, Prod.mk.injEq] at h
          obtain ⟨rfl, _⟩ := h
          exact OwnerLink_OwnerSetChanged_cacheOK (notify_cacheOK fuel) h1 h2
      · simp only [Option.some.injEq, Prod.mk.injEq] at h
        obtain ⟨rfl, _⟩ := h
        exact h1
    · cases h

/-- The call of `Start` inside an `InserLayer` that returned at an access of the
chain. -/
theorem InserLayer_start {st : OwnerStack} {ch : List Nat} (hc : Chained st ch)
    {fuel acc : Nat} {c : OwnerLayerCreator} {st' : OwnerStack} {r : Option Nat}
    (h : OwnerStack.InserLayer fuel st acc c = some (st', r)) (hmem : acc ∈ ch) :
    ∃ A pos set st2 ho, st.accesses[acc]? = some A ∧ st.links[A.link]? = some pos ∧
      pos.up = acc ∧
      OwnerLayer.Start fuel (spliced st A pos c) st.links.length set = some (st2, ho) ∧
      st'.links = st2.links ∧ st'.events = st2.events := by
  obtain ⟨rest, rfl⟩ := chain_cons hc
  obtain ⟨A, pos, hA, hpos, hup⟩ := hc.up_eq acc hmem
  cases hs : InserLayer.search st acc fuel (some st.access) with
  | none =>
    unfold OwnerStack.InserLayer at h
    simp [hs] at h
  | some b =>
    have hb := search_spec acc hc.isChain fuel hs
    rw [decide_eq_true hmem] at hb
    subst hb
    cases hseed : InserLayer.seed fuel st pos with
    | none =>
      unfold OwnerStack.InserLayer at h
      simp [hs, hA, hpos, hseed] at h
    | some set =>
      rw [InserLayer_unfold c hs hA hpos hup hseed] at h
      cases hstart : OwnerLayer.Start fuel (spliced st A pos c) st.links.length set with
      | none => simp [hstart] at h
      | some p =>
        obtain ⟨st2, ho⟩ := p
        rw [hstart] at h
        refine ⟨A, pos, set, st2, ho, hA, hpos, hup, hstart, ?_⟩
        cases ho with
        | none =>
          simp only [Option.some.injEq, Prod.mk.injEq] at h
          obtain ⟨rfl, _⟩ := h
          exact ⟨rfl, rfl⟩
        | some hd =>
          simp only at h
          cases hreg : OwnerLayerAccess.RegisterHandler st2 st.accesses.length hd with
          | none => simp [hreg] at h
          | some st3 =>
            simp only [hreg, Option.some.injEq, Prod.mk.injEq] at h
            obtain ⟨rfl, _⟩ := h
            obtain ⟨B, _, rfl⟩ := RegisterHandler_eq_some hreg
            exact ⟨rfl, rfl⟩

theorem cacheOK_spliced {st : OwnerStack} (hc : CacheOK st) {A : OwnerLayerAccess}
    {pos : OwnerLink} {c : OwnerLayerCreator} (hpos : st.links[A.link]? = some pos)
    (hnew : (c st.links.length (some st.accesses.length)).CacheAccepted) :
    CacheOK (spliced st A pos c) := by
  intro l L hL
  rw [spliced_link c hpos] at hL
  by_cases h1 : l = A.link
  · rw [if_pos h1] at hL
    simp only [Option.some.injEq] at hL
    subst hL
    exact hc A.link pos hpos
  · rw [if_neg h1] at hL
    by_cases h2 : l = st.links.length
    · rw [if_pos h2] at hL
      simp only [Option.some.injEq] at hL
      subst hL
      exact hnew
    · rw [if_neg h2] at hL
      exact hc l L hL

theorem cacheOK_new_filter {c : OwnerLayerCreator} (h : IsFilterCreator c) (up : Nat)
    (down : Option Nat) : (c up down).CacheAccepted := by
  obtain ⟨accept, rfl⟩ := h
  intro id hid
  simp at hid

theorem cacheOK_reachable {st : OwnerStack} (h : ReachableWith IsFilterCreator st) :
    CacheOK st := by
  induction h with
  | new =>
    intro l L hL
    have hl : l = 0 := by
      have := (List.getElem?_eq_some.mp hL).1
      simp [NewOwners, NewOwnerStack] at this
      exact this
    subst hl
    simp only [NewOwners, NewOwnerStack, List.getElem?_cons_zero, Option.some.injEq] at hL
    subst hL
    trivial
  | @insert st st' fuel acc c r hr hp hi ih =>
    obtain ⟨ch, hc⟩ := reachableWith_chained hr
    by_cases hmem : acc ∈ ch
    · obtain ⟨A, pos, set, st2, ho, hA, hpos, hup, hstart, hlinks, _⟩ :=
        InserLayer_start hc hi hmem
      exact cacheOK_of_links hlinks
        (OwnerLayer_Start_cacheOK (cacheOK_spliced ih hpos (cacheOK_new_filter hp _ _)) hstart)
    · obtain ⟨rfl, _⟩ := (InserLayer_not_found hc hmem fuel c).1 st' r hi
      exact ih
  | call _ hi ih => exact apply_cacheOK ih hi
  | register _ hi ih =>
    obtain ⟨A, _, rfl⟩ := RegisterHandler_eq_some hi
    exact cacheOK_of_links rfl ih
  | unregister _ hi ih =>
    obtain ⟨A, _, rfl⟩ := UnRegisterHandler_eq_some hi
    exact cacheOK_of_links rfl ih
  | filterChanged _ hi ih => exact FilterChanged_cacheOK ih hi

theorem noLinkHandlers_reachable {st : OwnerStack} (h : ReachableWith IsFilterCreator st) :
    NoLinkHandlers st := by
  induction h with
  | new =>
    intro a A l hA
    have ha : a = 0 := by
      have := (List.getElem?_eq_some.mp hA).1
      simp [NewOwners, NewOwnerStack] at this
      exact this
    subst ha
    simp only [NewOwners, NewOwnerStack, List.getElem?_cons_zero, Option.some.injEq] at hA
    subst hA
    simp
  | @insert st st' fuel acc c r hr hp hi ih =>
    obtain ⟨ch, hc⟩ := reachableWith_chained hr
    by_cases hmem : acc ∈ ch
    · obtain ⟨_, A, pos, st2, hA, hpos, hup, hsw, rfl⟩ := InserLayer_result hc hi hmem
      obtain ⟨accept, rfl⟩ := hp
      have hN : st2.accesses[st.accesses.length]? = some (OwnerLayerAccess.mk [] A.link) := by
        rw [hsw.2.1]
        exact spliced_access_new _ hA hup
      intro b B l hB
      have key := fun (hs : List OwnerHandler) =>
        setAccess_get (OwnerLayerAccess.mk hs A.link) hN b
      rw [key] at hB
      by_cases hb : b = st.accesses.length
      · rw [if_pos hb] at hB
        simp only [Option.some.injEq] at hB
        subst hB
        simp [startHandler, FilteredLayerCreator, NewFilteredLayer]
      · rw [if_neg hb, hsw.2.1, spliced_access _ hA hup] at hB
        rw [if_neg hb] at hB
        by_cases hba : b = acc
        · rw [if_pos hba] at hB
          simp only [Option.some.injEq] at hB
          subst hB
          exact ih acc A l hA
        · rw [if_neg hba] at hB
          exact ih b B l hB
    · obtain ⟨rfl, _⟩ := (InserLayer_not_found hc hmem fuel c).1 st' r hi
      exact ih
  | call _ hi ih =>
    intro a A l hA
    rw [(apply_frame hi).2.1] at hA
    exact ih a A l hA
  | @register st st' acc h _ hi ih =>
    obtain ⟨A, hA, rfl⟩ := RegisterHandler_eq_some hi
    intro b B l hB
    rw [setAccess_get _ hA] at hB
    by_cases hb : b = acc
    · rw [if_pos hb] at hB
      simp only [Option.some.injEq] at hB
      subst hB
      intro hm
      rcases mem_registerHandler hm with h1 | h1
      · exact ih acc A l hA h1
      · cases h1
    · rw [if_neg hb] at hB
      exact ih b B l hB
  | @unregister st st' acc h _ hi ih =>
    obtain ⟨A, hA, rfl⟩ := UnRegisterHandler_eq_some hi
    intro b B l hB
    rw [setAccess_get _ hA] at hB
    by_cases hb : b = acc
    · rw [if_pos hb] at hB
      simp only [Option.some.injEq] at hB
      subst hB
      intro hm
      exact ih acc A l hA (List.mem_of_mem_erase hm)
    · rw [if_neg hb] at hB
      exact ih b B l hB
  | filterChanged _ hi ih =>
    intro a A l hA
    rw [(FilterChanged_frame hi).2.1] at hA
    exact ih a A l hA

/-! ## The deltas that reach the observers above a stack of filters -/

theorem noLinkHandlers_sameWiring {st st' : OwnerStack} (h : SameWiring st st')
    (hn : NoLinkHandlers st) : NoLinkHandlers st' := by
  intro a A l hA
  rw [h.2.1] at hA
  exact hn a A l hA

theorem accepted_of_shape {layer layer' : OwnerLayer} (h : layer'.shape = layer.shape)
    {accepted : String → Bool} {cache : StringSet} {up : Nat} {down : Option Nat}
    (hf : layer' = .filtered accepted cache up down) :
    ∃ cache0, layer = .filtered accepted cache0 up down := by
  subst hf
  cases layer <;> simp [OwnerLayer.shape] at h
  obtain ⟨rfl, rfl, rfl⟩ := h
  exact ⟨_, rfl⟩

theorem acceptedBetween_sameWiring {st st' : OwnerStack} (h : SameWiring st st')
    {ch : List Nat} {x a : Nat} {id : String} (ha : AcceptedBetween st ch x a id) :
    AcceptedBetween st' ch x a id := by
  intro y hy hle hlt Y L' accepted cache up down hY hL' hlay
  rw [h.2.1] at hY
  obtain ⟨L, hL, _, _, hshape⟩ := sameWiring_link (sameWiring_symm h) hL'
  obtain ⟨cache0, hlay0⟩ := accepted_of_shape hshape.symm hlay
  exact ha y hy hle hlt Y L accepted cache0 up down hY hL hlay0

theorem acceptedBetween_self (st : OwnerStack) (ch : List Nat) (a : Nat) (id : String) :
    AcceptedBetween st ch a a id := by
  intro y _ hle hlt
  omega

theorem acceptedBetween_step {st : OwnerStack} {ch : List Nat} {x a p : Nat} {id : String}
    (hp : p ∈ ch) (hi : ch.indexOf a = ch.indexOf p + 1)
    {B : OwnerLayerAccess} {L : OwnerLink} {accepted : String → Bool} {cache : StringSet}
    {up : Nat} {down : Option Nat} (hB : st.accesses[p]? = some B)
    (hL : st.links[B.link]? = some L) (hlay : L.layer = .filtered accepted cache up down)
    (hacc : accepted id = true) (habove : AcceptedBetween st ch x p id) :
    AcceptedBetween st ch x a id := by
  intro y hy hle hlt Y L' accepted' cache' up' down' hY hL' hlay'
  by_cases hyp : ch.indexOf y = ch.indexOf p
  · have := (List.indexOf_inj hy hp).mp hyp
    subst this
    rw [hB] at hY
    simp only [Option.some.injEq] at hY
    subst hY
    rw [hL] at hL'
    simp only [Option.some.injEq] at hL'
    subst hL'
    rw [hlay] at hlay'
    simp only [OwnerLayer.filtered.injEq] at hlay'
    rw [← hlay'.1]
    exact hacc
  · exact habove y hy hle (by omega) Y L' accepted' cache' up' down' hY hL' hlay'

/-- The calls the observers receive during a notification at the access `a` of a
stack of filters: each is received by an observer registered at an access `x`
at or above `a`, with added and deleted ids among those notified at `a` that
every filter from `x` down to `a` accepts. -/
theorem notify_events :
    ∀ (fuel : Nat) (st : OwnerStack) (ch : List Nat) (a : Nat) (ad dl : StringSet)
      (st' : OwnerStack),
      Chained st ch → Wired st → NoLinkHandlers st → CacheOK st →
      a ∈ ch → OwnerLayerAccess.notify fuel st a ad dl = some st' →
      ∃ new, st'.events = st.events ++ new ∧
        ∀ e ∈ new, e.added ⊆ ad ∧ e.deleted ⊆ dl ∧
          ∃ x ∈ ch, ch.indexOf x ≤ ch.indexOf a ∧
            (∃ X, st.accesses[x]? = some X ∧ OwnerHandler.external e.handler ∈ X.handlers) ∧
            ∀ id, (id ∈ e.added ∨ id ∈ e.deleted) → AcceptedBetween st ch x a id := by
  intro fuel
  induction fuel with
  | zero =>
    intro st ch a ad dl st' _ _ _ _ _ h
    simp [OwnerLayerAccess.notify] at h
  | succ fuel ih =>
    intro st ch a ad dl st' hc hw hnl hco ha h
    obtain ⟨A, _, hA, _, _⟩ := hc.up_eq a ha
    unfold OwnerLayerAccess.notify at h
    simp only [hA] at h
    have hok : ∀ hd ∈ A.handlers, HandlerOK st a hd ∧ (∀ l, hd ≠ .link l) ∧
        hd ∈ A.handlers := by
      intro hd hm
      refine ⟨hw.handlers a A hA hd hm, ?_, hm⟩
      intro l e
      subst e
      exact hnl a A l hA hm
    have key : ∀ (hs : List OwnerHandler) (st1 : OwnerStack), SameWiring st st1 → CacheOK st1 →
        (∀ hd ∈ hs, HandlerOK st a hd ∧ (∀ l, hd ≠ .link l) ∧ hd ∈ A.handlers) →
        hs.foldlM
          (fun st h => h.OwnerSetChanged (OwnerLayerAccess.notify fuel) ad dl st) st1 =
            some st' →
        ∃ new, st'.events = st1.events ++ new ∧
          ∀ e ∈ new, e.added ⊆ ad ∧ e.deleted ⊆ dl ∧
            ∃ x ∈ ch, ch.indexOf x ≤ ch.indexOf a ∧
              (∃ X, st.accesses[x]? = some X ∧
                OwnerHandler.external e.handler ∈ X.handlers) ∧
              ∀ id, (id ∈ e.added ∨ id ∈ e.deleted) → AcceptedBetween st ch x a id := by
      intro hs
      induction hs with
      | nil =>
        intro st1 _ _ _ hf
        simp only [List.foldlM_nil, Option.pure_def, Option.some.injEq] at hf
        subst hf
        exact ⟨[], by simp, by simp⟩
      | cons hd hs ihs =>
        intro st1 hsw hco1 hall hf
        rw [List.foldlM_cons] at hf
        cases h2 : hd.OwnerSetChanged (OwnerLayerAccess.notify fuel) ad dl st1 with
        | none => simp [h2] at hf
        | some st2 =>
          simp only [h2, Option.bind_eq_bind, Option.some_bind] at hf
          have hsw2 : SameWiring st1 st2 :=
            OwnerHandler_OwnerSetChanged_frame (notify_framed fuel) h2
          have hco2 : CacheOK st2 :=
            OwnerHandler_OwnerSetChanged_cacheOK (notify_cacheOK fuel) hco1 h2
          obtain ⟨newr, hevr, hPr⟩ := ihs st2 (sameWiring_trans hsw hsw2) hco2
            (fun x hx => hall x (List.mem_cons_of_mem _ hx)) hf
          obtain ⟨hk, hnolink, hmemA⟩ := hall hd (by simp)
          have hc1 := chained_sameWiring hsw hc
          have hw1 := wired_sameWiring hsw hw
          have hstep : ∃ new1, st2.events = st1.events ++ new1 ∧
              ∀ e ∈ new1, e.added ⊆ ad ∧ e.deleted ⊆ dl ∧
                ∃ x ∈ ch, ch.indexOf x ≤ ch.indexOf a ∧
                  (∃ X, st.accesses[x]? = some X ∧
                    OwnerHandler.external e.handler ∈ X.handlers) ∧
                  ∀ id, (id ∈ e.added ∨ id ∈ e.deleted) → AcceptedBetween st ch x a id := by
            cases hd with
            | external e =>
              rw [OwnerSetChanged_external] at h2
              simp only [Option.some.injEq] at h2
              subst h2
              refine ⟨[⟨e, ad, dl⟩], rfl, ?_⟩
              intro ev hev
              simp only [List.mem_singleton] at hev
              subst hev
              exact ⟨subset_rfl, subset_rfl, a, ha, le_refl _, ⟨A, hA, hmemA⟩,
                fun id _ => acceptedBetween_self st ch a id⟩
            | link l => exact absurd rfl (hnolink l)
            | filtered l =>
              have hk1 : HandlerOK st1 a (.filtered l) := handlerOK_sameWiring hsw hk
              obtain ⟨L, B, hL, hd', hB, hBl, accepted, cache, up, down, hlay⟩ := hk1
              obtain ⟨hu, hi⟩ := handler_up hc1 hL hd' hB hBl
              have hwl := hw1.layers L.up B L hB (by rw [hBl]; exact hL)
              rw [hlay] at hwl
              simp only [OwnerLayer.WiredTo] at hwl
              obtain ⟨hup, _⟩ := hwl
              rw [hBl] at hup
              subst hup
              obtain ⟨lup, layer, ldown⟩ := L
              simp only at hlay hd' hB hu hi
              subst hlay
              have hcache : ∀ id ∈ cache, accepted id = true := hco1 up _ hL
              have hB0 : st.accesses[lup]? = some B := by rw [← hsw.2.1]; exact hB
              obtain ⟨L0, hL0, _, _, hshape0⟩ := sameWiring_link (sameWiring_symm hsw) hL
              obtain ⟨cache0, hlay0⟩ := accepted_of_shape hshape0.symm rfl
              rw [OwnerSetChanged_filtered] at h2
              unfold FilteredLayer.OwnerSetChanged at h2
              simp only [hL] at h2
              have hsw' := sameWiring_set_layer st1 up lup
                (.filtered accepted cache up down)
                (.filtered accepted
                  (FilteredLayer.changeSets accepted cache ad dl).1 up down) ldown hL rfl
              split_ifs at h2
              · unfold OwnerLink.OwnerSetChanged at h2
                have hlt : up < st1.links.length := (List.getElem?_eq_some.mp hL).1
                simp only [List.getElem?_set, hlt, if_true] at h2
                have hswt := sameWiring_trans hsw hsw'
                obtain ⟨new2, hev2, hP2⟩ := ih _ ch lup _ _ st2
                  (chained_sameWiring hswt hc) (wired_sameWiring hswt hw)
                  (noLinkHandlers_sameWiring hswt hnl)
                  (cacheOK_set hco1 up _ (changeSets_accepted hcache ad dl)) hu h2
                refine ⟨new2, hev2, ?_⟩
                intro ev hev
                obtain ⟨h1, h2', x, hx, hxi, ⟨X, hX, hXm⟩, h3⟩ := hP2 ev hev
                have hadd : ∀ id ∈ ev.added, id ∈ ad ∧ accepted id = true := fun id hid =>
                  (changeSets_spec accepted cache ad dl id).2.1.mp (h1 hid)
                have hdel : ∀ id ∈ ev.deleted, id ∈ dl ∧ accepted id = true := by
                  intro id hid
                  have := (changeSets_spec accepted cache ad dl id).2.2.mp (h2' hid)
                  refine ⟨this.1, ?_⟩
                  rcases this.2 with hcc | hcc
                  · exact hcache id hcc
                  · exact hcc.2
                refine ⟨fun id hid => (hadd id hid).1, fun id hid => (hdel id hid).1,
                  x, hx, by omega, ⟨X, by rw [← hswt.2.1]; exact hX, hXm⟩, ?_⟩
                intro id hid
                have hacc : accepted id = true := by
                  rcases hid with hid | hid
                  · exact (hadd id hid).2
                  · exact (hdel id hid).2
                have hab : AcceptedBetween st ch x lup id :=
                  acceptedBetween_sameWiring (sameWiring_symm hswt) (h3 id hid)
                exact acceptedBetween_step (L := L0) hu hi hB0 (by rw [hBl]; exact hL0) hlay0
                  hacc hab
              · simp only [Option.some.injEq] at h2
                subst h2
                exact ⟨[], by simp, by simp⟩
          obtain ⟨new1, hev1, hP1⟩ := hstep
          refine ⟨new1 ++ newr, by rw [hevr, hev1, List.append_assoc], ?_⟩
          intro e he
          rcases List.mem_append.mp he with he | he
          · exact hP1 e he
          · exact hPr e he
    exact key A.handlers st (sameWiring_refl st) hco hok h

/-- A client call on the base registry of a chained stack is the update of the
tables followed by the notification at the bottom access. -/
theorem apply_eq_notify {st : OwnerStack} {ch : List Nat} (hc : Chained st ch) (fuel : Nat)
    (op : Op) :
    ∃ b o lup ldown, ch.getLast? = some b ∧ st.links[0]? = some ⟨lup, .owners o 0, ldown⟩ ∧
      OwnerStack.apply fuel 0 st op =
        OwnerLayerAccess.notify fuel
          { st with links := st.links.set 0 ⟨lup, .owners (o.apply op).state 0, ldown⟩ } b
          (o.apply op).added (o.apply op).deleted ∧
      SameWiring st
        { st with links := st.links.set 0 ⟨lup, .owners (o.apply op).state 0, ldown⟩ } := by
  obtain ⟨b, B, o, hb, hB, hBl, hbase⟩ := hc.bottom
  obtain ⟨B', L, hB', hL, hLup⟩ := hc.up_eq b (List.mem_of_getLast?_eq_some hb)
  rw [hB] at hB'
  simp only [Option.some.injEq] at hB'
  subst hB'
  rw [hBl] at hL
  rw [hL] at hbase
  simp only [Option.map_some', Option.some.injEq] at hbase
  obtain ⟨lup, layer, ldown⟩ := L
  simp only at hbase hLup
  subst hbase
  subst hLup
  have hlt : 0 < st.links.length := (List.getElem?_eq_some.mp hL).1
  refine ⟨lup, o, lup, ldown, hb, hL, ?_, ?_⟩
  · cases op with
    | update c S =>
      simp only [OwnerStack.apply, OwnerStack.UpdateClient, hL, Owners.notify,
        OwnerLink.OwnerSetChanged, List.getElem?_set, hlt, if_true, Owners.apply]
    | delete c =>
      simp only [OwnerStack.apply, OwnerStack.DeleteClient, hL, Owners.notify,
        OwnerLink.OwnerSetChanged, List.getElem?_set, hlt, if_true, Owners.apply]
  · exact sameWiring_set_layer st 0 lup (.owners o 0) (.owners (o.apply op).state 0) ldown hL rfl

theorem indexOf_lt_last {ch : List Nat} (hnd : ch.Nodup) {b x : Nat}
    (hb : ch.getLast? = some b) (hx : x ∈ ch) (hne : x ≠ b) : ch.indexOf x < ch.indexOf b := by
  obtain ⟨pre, rfl⟩ := List.getLast?_eq_some_iff.mp hb
  rw [List.nodup_append] at hnd
  have hbp : b ∉ pre := fun h => hnd.2.2 h (by simp)
  have hxp : x ∈ pre := by
    simp only [List.mem_append, List.mem_singleton] at hx
    tauto
  rw [List.indexOf_append_of_mem hxp, List.indexOf_append_of_not_mem hbp,
    List.indexOf_cons_self]
  have := List.indexOf_lt_length.mpr hxp
  omega

/-- C21 (filter transparency): on a stack reached from `NewOwners()` by
insertions of filters (at any time, at any access), client calls, registrations,
deregistrations and `FilterChanged`, an `UpdateClient` or `DeleteClient` call
returns once the fuel covers the accesses, and every call `(added, deleted)` an
observer receives during it has its added ids among the added ids the base
registry computed and its deleted ids among the deleted ids the base registry
computed; when the observer is registered at the top access only, each of these
ids is accepted by every filter of the stack. -/
theorem filter_transparency {st : OwnerStack} (hr : ReachableWith IsFilterCreator st)
    (op : Op) (fuel : Nat) (hf : st.accesses.length ≤ fuel) :
    ∃ o st' new,
      (st.links[NewOwners.2]?).map (fun L => L.layer) = some (.owners o NewOwners.2) ∧
      OwnerStack.apply fuel NewOwners.2 st op = some st' ∧
      st'.events = st.events ++ new ∧
      ∀ e ∈ new, e.added ⊆ (o.apply op).added ∧ e.deleted ⊆ (o.apply op).deleted ∧
        (AtTopOnly st e.handler →
          ∀ id, (id ∈ e.added ∨ id ∈ e.deleted) → AllFiltersAccept st id) := by
  have hc := reachable_chained hr
  have hw := reachable_wired (reachableWith_mono (fun c => sound_of_isFilterCreator) hr)
  have hnl := noLinkHandlers_reachable hr
  have hco := cacheOK_reachable hr
  obtain ⟨b, o, lup, ldown, hb, hL, happ, hsw⟩ := apply_eq_notify hc fuel op
  have hbm := List.mem_of_getLast?_eq_some hb
  have hc1 := chained_sameWiring hsw hc
  have hw1 := wired_sameWiring hsw hw
  have hlen := chained_length hc
  obtain ⟨st', hn⟩ := notify_total fuel _ st.chain b (o.apply op).added (o.apply op).deleted
    hc1 hw1 hbm (by
      have := List.indexOf_lt_length.mpr hbm
      omega)
  obtain ⟨new, hev, hP⟩ := notify_events fuel _ st.chain b _ _ st' hc1 hw1
    (noLinkHandlers_sameWiring hsw hnl)
    (cacheOK_set hco 0 ⟨lup, .owners (o.apply op).state 0, ldown⟩ trivial) hbm hn
  have hall : ∀ id, AcceptedBetween st st.chain st.access b id → AllFiltersAccept st id := by
    intro id hab y hy Y L accepted cache up down hY hLy hlay
    by_cases hyb : y = b
    · subst hyb
      obtain ⟨b', B, o', hb', hB, hBl, hbase⟩ := hc.bottom
      rw [hb] at hb'
      simp only [Option.some.injEq] at hb'
      subst hb'
      rw [hY] at hB
      simp only [Option.some.injEq] at hB
      subst hB
      rw [hBl, hL] at hLy
      simp only [Option.some.injEq] at hLy
      subst hLy
      simp at hlay
    · refine hab y hy ?_ (indexOf_lt_last hc.nodup hb hy hyb) Y L accepted cache up down
        hY hLy hlay
      obtain ⟨rest, hrest⟩ := chain_cons hc
      rw [hrest, List.indexOf_cons_self]
      exact Nat.zero_le _
  refine ⟨o, st', new, ?_, ?_, hev, ?_⟩
  · show (st.links[0]?).map _ = _
    rw [hL]
    rfl
  · show OwnerStack.apply fuel 0 st op = some st'
    rw [happ]
    exact hn
  · intro e he
    obtain ⟨h1, h2, x, _, _, ⟨X, hX, hXm⟩, h3⟩ := hP e he
    refine ⟨h1, h2, ?_⟩
    intro htop id hid
    have hx : x = st.access := htop x X hX hXm
    subst hx
    exact hall id (acceptedBetween_sameWiring (sameWiring_symm hsw) (h3 id hid))

theorem reachable_filterStack (accepted : String → Bool) (h : Nat) :
    ReachableWith IsFilterCreator (filterStack accepted Owners.new ∅ [h] []) :=
  ReachableWith.register
    (ReachableWith.insert ReachableWith.new ⟨accepted, rfl⟩
      (InserLayer_baseStack 1 accepted Owners.new [] []))
    (rfl : OwnerLayerAccess.RegisterHandler (filterStack accepted Owners.new ∅ [] []) 0
      (.external h) = some (filterStack accepted Owners.new ∅ [h] []))

theorem atTopOnly_filterStack (accepted : String → Bool) (o : Owners)
    (cache : StringSet) (hs : List Nat) (ev : List Event) (h : Nat) :
    AtTopOnly (filterStack accepted o cache hs ev) h := by
  intro a A hA hm
  cases a with
  | zero => rfl
  | succ a =>
    cases a with
    | zero =>
      simp only [filterStack, List.getElem?_cons_succ, List.getElem?_cons_zero,
        Option.some.injEq] at hA
      subst hA
      simp at hm
    | succ a => simp [filterStack] at hA

/-- C21 on the scenario of the tests: above the filter `{id2, id3}`, the observer
of `UpdateClient(client1, {id1, id2})` is handed added ids among `{id1, id2}`
that the filter accepts. -/
theorem filter_transparency_example :
    ∃ st' new,
      OwnerStack.apply 2 0 (filterStack (Contains {"id2", "id3"}) Owners.new ∅ [7] [])
        (.update "client1" {"id1", "id2"}) = some st' ∧
      st'.events = new ∧
      ∀ e ∈ new, ∀ id ∈ e.added,
        id ∈ ({"id1", "id2"} : StringSet) ∧ Contains {"id2", "id3"} id = true := by
  obtain ⟨o, st', new, ho, happ, hev, hP⟩ :=
    filter_transparency (reachable_filterStack (Contains {"id2", "id3"}) 7)
      (.update "client1" {"id1", "id2"}) 2 (by decide)
  have ho' : o = Owners.new := by
    simp only [filterStack, NewOwners, List.getElem?_cons_zero, Option.map_some',
      Option.some.injEq, OwnerLayer.owners.injEq] at ho
    exact ho.1.symm
  subst ho'
  refine ⟨st', new, happ, by simpa using hev, ?_⟩
  intro e he id hid
  obtain ⟨h1, _, h3⟩ := hP e he
  have hadd : (Owners.new.apply (.update "client1" {"id1", "id2"})).added =
      {"id1", "id2"} := by decide
  rw [hadd] at h1
  refine ⟨h1 hid, ?_⟩
  exact h3 (atTopOnly_filterStack _ _ _ _ _ _) id (Or.inl hid) 0 (by decide)
    ⟨[.external 7], 1⟩
    ⟨0, .filtered (Contains {"id2", "id3"}) ∅ 1 (some 1), some 1⟩ _ _ _ _ rfl rfl rfl

/-! ## The lock-ordering protocol -/

/-- C28, evaluated on the code: `Owners.UpdateClient` and
`FilteredLayer.FilterChanged` take the stack-wide lock, then their local lock,
and release them in reverse order; `Owners.DeleteClient` takes its local lock
only and calls `notify` without the stack-wide lock. -/
theorem deleteClient_skips_stack_lock :
    FollowsLockOrder UpdateClient.steps ∧
    (∀ notifies, FollowsLockOrder (FilterChanged.steps notifies)) ∧
    ¬ FollowsLockOrder DeleteClient.steps ∧
    LockStep.lock Lock.stack ∉ DeleteClient.steps := by
  unfold FollowsLockOrder
  refine ⟨by decide, ?_, by decide, by decide⟩
  intro b
  cases b <;> decide

/-! ## Chain walks return within one step for each layer -/

/-- C31 (chain walks terminate): on a stack built from `NewOwnerStack(c0)` by
`InserLayer` calls, the chain has as many accesses as the stack has layers, and
with one unit of fuel for each layer, one unit being spent on each access
visited, the down-link walk of `BaseLayer()` returns (the bottom layer, link 0)
and the search loop of `InserLayer(acc, _)` returns for every `acc`, with the
answer whether `acc` is in the chain. -/
theorem chain_walks_terminate (c0 : OwnerLayerCreator) (st : OwnerStack) (h : Inserted c0 st)
    (fuel : Nat) (hf : st.links.length ≤ fuel) :
    st.chain.length = st.links.length ∧
      OwnerStack.BaseLayer fuel st = some 0 ∧
      ∀ acc, InserLayer.search st acc fuel (some st.access) = some (decide (acc ∈ st.chain)) := by
  obtain ⟨hl, -, -⟩ := inserted_linked h
  obtain ⟨rest, hch⟩ := linked_cons hl
  have hlen := linked_length hl
  have hlinks := hl.links_len
  have hchain := hl.isChain
  rw [hch] at hchain hlen
  have hrest : rest.length < fuel := by
    simp only [List.length_cons] at hlen
    omega
  refine ⟨by rw [hch, hlen, hlinks], ?_, ?_⟩
  · obtain ⟨b, hb, hwalk, -⟩ := baseWalk_eq hchain fuel hrest
    obtain ⟨b', A, hb', hA, hA0⟩ := hl.last
    rw [hch, hb] at hb'
    cases hb'
    unfold OwnerStack.BaseLayer
    rw [hwalk]
    have hmem : b ∈ st.chain := by
      rw [hch]
      exact List.mem_of_getLast?_eq_some hb
    obtain ⟨A', L, hA', hL, -⟩ := hl.up_eq b hmem
    rw [hA] at hA'
    cases hA'
    rw [hA0] at hL
    simp [OwnerLayerAccess.Layer, hA, hA0, hL]
  · intro acc
    rw [hch]
    exact search_total acc hchain fuel hrest

theorem chain_walks_terminate_example :
    Inserted CreateOwnerBaseLayer dummyStack ∧ dummyStack.links.length ≤ 2 ∧
      (dummyStack.chain.length = dummyStack.links.length ∧
        OwnerStack.BaseLayer 2 dummyStack = some 0 ∧
        ∀ acc, InserLayer.search dummyStack acc 2 (some dummyStack.access) =
          some (decide (acc ∈ dummyStack.chain))) :=
  ⟨Inserted.insert Inserted.new InserLayer_NewOwners_dummy, by decide,
    chain_walks_terminate CreateOwnerBaseLayer dummyStack
      (Inserted.insert Inserted.new InserLayer_NewOwners_dummy) 2 (by decide)⟩

/-! ## The cache of a filter under any sequence of calls -/

theorem cacheStep_accepted (accepted : String → Bool) (cache : StringSet)
    (hc : ∀ id ∈ cache, accepted id = true) (call : FilterCall) :
    ∀ id ∈ FilteredLayer.cacheStep accepted cache call, accepted id = true := by
  intro id hid
  cases call with
  | start down => exact ((startSets_spec accepted down id).1.mp hid).2
  | ownerSetChanged added deleted => exact changeSets_accepted hc added deleted id hid
  | filterChanged ids =>
    simp only [FilteredLayer.cacheStep, filterChangedSets_eq, Finset.mem_filter] at hid
    exact hid.2

theorem foldl_cacheStep_accepted (accepted : String → Bool) (calls : List FilterCall) :
    ∀ cache : StringSet, (∀ id ∈ cache, accepted id = true) →
      ∀ id ∈ calls.foldl (FilteredLayer.cacheStep accepted) cache, accepted id = true := by
  induction calls with
  | nil => intro cache hc; exact hc
  | cons call calls ih =>
    intro cache hc
    rw [List.foldl_cons]
    exact ih _ (cacheStep_accepted accepted cache hc call)

theorem cacheOK_reachableWith {st : OwnerStack}
    (h : ReachableWith OwnerLayerCreator.CacheAccepted st) : CacheOK st := by
  induction h with
  | new =>
    intro l L hL
    have hl : l = 0 := by
      have := (List.getElem?_eq_some.mp hL).1
      simp [NewOwners, NewOwnerStack] at this
      exact this
    subst hl
    simp only [NewOwners, NewOwnerStack, List.getElem?_cons_zero, Option.some.injEq] at hL
    subst hL
    trivial
  | @insert st st' fuel acc c r hr hp hi ih =>
    obtain ⟨ch, hc⟩ := reachableWith_chained hr
    by_cases hmem : acc ∈ ch
    · obtain ⟨A, pos, set, st2, ho, hA, hpos, hup, hstart, hlinks, _⟩ :=
        InserLayer_start hc hi hmem
      exact cacheOK_of_links hlinks
        (OwnerLayer_Start_cacheOK (cacheOK_spliced ih hpos (hp _ _)) hstart)
    · obtain ⟨rfl, _⟩ := (InserLayer_not_found hc hmem fuel c).1 st' r hi
      exact ih
  | call _ hi ih => exact apply_cacheOK ih hi
  | register _ hi ih =>
    obtain ⟨A, _, rfl⟩ := RegisterHandler_eq_some hi
    exact cacheOK_of_links rfl ih
  | unregister _ hi ih =>
    obtain ⟨A, _, rfl⟩ := UnRegisterHandler_eq_some hi
    exact cacheOK_of_links rfl ih
  | filterChanged _ hi ih => exact FilterChanged_cacheOK ih hi

theorem cacheAccepted_FilteredLayerCreator (accept : String → Bool) :
    (FilteredLayerCreator accept).CacheAccepted := by
  intro up down id hid
  simp at hid

/-- C32 (the filter cache only holds accepted ids): for a filter with the fixed
predicate `accepted`, after every finite sequence of `Start`, `OwnerSetChanged`
and `FilterChanged` calls with arbitrary arguments from the empty cache on, every
id of the cache is accepted, so `GetIds()` holds accepted ids only and
`IsResponsibleFor(id)` implies `accepted(id)`; and in every stack reachable with
creators whose filters start with accepted caches, at an access that reads a
filter, `GetIds()` returns its cache, `IsResponsibleFor(id)` says whether `id` is
in it, and every id in it is accepted. -/
theorem filter_cache_accepted (accepted : String → Bool) :
    (∀ calls : List FilterCall,
      (∀ id ∈ FilteredLayer.cacheAfter accepted calls, accepted id = true) ∧
      (∀ id ∈ FilteredLayer.GetIds (FilteredLayer.cacheAfter accepted calls),
        accepted id = true) ∧
      (∀ id, FilteredLayer.IsResponsibleFor (FilteredLayer.cacheAfter accepted calls) id = true →
        accepted id = true)) ∧
    ∀ st : OwnerStack, ReachableWith OwnerLayerCreator.CacheAccepted st →
      ∀ (a : Nat) (A : OwnerLayerAccess) (L : OwnerLink) (cache : StringSet) (up : Nat)
        (down : Option Nat),
        st.accesses[a]? = some A → st.links[A.link]? = some L →
        L.layer = .filtered accepted cache up down →
        ∀ fuel : Nat,
          OwnerLayerAccess.GetIds st (fuel + 1) a = some cache ∧
          (∀ id, OwnerLayerAccess.IsResponsibleFor st id (fuel + 1) a =
            some (decide (id ∈ cache))) ∧
          ∀ id ∈ cache, accepted id = true := by
  constructor
  · intro calls
    have h := foldl_cacheStep_accepted accepted calls ∅ (by simp)
    refine ⟨h, ?_, ?_⟩
    · intro id hid
      apply h
      simpa [FilteredLayer.GetIds] using hid
    · intro id hid
      apply h
      simpa [FilteredLayer.IsResponsibleFor] using hid
  · intro st hr a A L cache up down hA hL hlay fuel
    have hco := cacheOK_reachableWith hr A.link L hL
    rw [hlay] at hco
    refine ⟨?_, ?_, hco⟩
    · unfold OwnerLayerAccess.GetIds
      simp [hA, hL, hlay]
    · intro id
      unfold OwnerLayerAccess.IsResponsibleFor
      simp [hA, hL, hlay]

/-- C32 on a filter that accepts `id2` only: after a `Start`, an
`OwnerSetChanged` and a `FilterChanged` call, every id of the cache is
accepted. -/
theorem filter_cache_accepted_example :
    ∀ id ∈ FilteredLayer.cacheAfter (Contains {"id2"})
        [.start {"id1", "id2"}, .ownerSetChanged {"id3"} {"id2"}, .filterChanged {"id2", "id4"}],
      Contains {"id2"} id = true :=
  ((filter_cache_accepted (Contains {"id2"})).1
    [.start {"id1", "id2"}, .ownerSetChanged {"id3"} {"id2"}, .filterChanged {"id2", "id4"}]).1

/-! ## A notification leaves the layers at and below its access alone -/

theorem set_self_of_getElem? {α : Type} (l : List α) (i : Nat) (x : α) (h : l[i]? = some x) :
    l.set i x = l := by
  apply List.ext_getElem?
  intro j
  rw [List.getElem?_set]
  by_cases hij : i = j
  · subst hij
    have hlt : i < l.length := (List.getElem?_eq_some.mp h).1
    simp [hlt, h]
  · simp [hij]

/-- A notification at the access `a` changes no layer read by `a` or by an access
below it. -/
theorem notify_keeps :
    ∀ (fuel : Nat) (st : OwnerStack) (ch : List Nat) (a : Nat) (ad dl : StringSet)
      (st' : OwnerStack),
      Chained st ch → Wired st → a ∈ ch →
      OwnerLayerAccess.notify fuel st a ad dl = some st' →
      ∀ y ∈ ch, ch.indexOf a ≤ ch.indexOf y → ∀ Y : OwnerLayerAccess,
        st.accesses[y]? = some Y → st'.links[Y.link]? = st.links[Y.link]? := by
  intro fuel
  induction fuel with
  | zero =>
    intro st ch a ad dl st' _ _ _ h
    simp [OwnerLayerAccess.notify] at h
  | succ fuel ih =>
    intro st ch a ad dl st' hc hw ha h
    obtain ⟨A, _, hA, _, _⟩ := hc.up_eq a ha
    unfold OwnerLayerAccess.notify at h
    simp only [hA] at h
    have key : ∀ (hs : List OwnerHandler) (st1 : OwnerStack), SameWiring st st1 →
        (∀ hd ∈ hs, HandlerOK st a hd) →
        hs.foldlM
          (fun st h => h.OwnerSetChanged (OwnerLayerAccess.notify fuel) ad dl st) st1 =
            some st' →
        ∀ y ∈ ch, ch.indexOf a ≤ ch.indexOf y → ∀ Y : OwnerLayerAccess,
          st.accesses[y]? = some Y → st'.links[Y.link]? = st1.links[Y.link]? := by
      intro hs
      induction hs with
      | nil =>
        intro st1 _ _ hf
        simp only [List.foldlM_nil, Option.pure_def, Option.some.injEq] at hf
        subst hf
        intro y _ _ Y _
        rfl
      | cons hd hs ihs =>
        intro st1 hsw hall hf
        rw [List.foldlM_cons] at hf
        cases h2 : hd.OwnerSetChanged (OwnerLayerAccess.notify fuel) ad dl st1 with
        | none => simp [h2] at hf
        | some st2 =>
          simp only [h2, Option.bind_eq_bind, Option.some_bind] at hf
          have hsw2 : SameWiring st1 st2 :=
            OwnerHandler_OwnerSetChanged_frame (notify_framed fuel) h2
          have hrest := ihs st2 (sameWiring_trans hsw hsw2)
            (fun x hx => hall x (List.mem_cons_of_mem _ hx)) hf
          have hk := hall hd (by simp)
          have hc1 := chained_sameWiring hsw hc
          have hw1 := wired_sameWiring hsw hw
          have hstep : ∀ y ∈ ch, ch.indexOf a ≤ ch.indexOf y → ∀ Y : OwnerLayerAccess,
              st.accesses[y]? = some Y → st2.links[Y.link]? = st1.links[Y.link]? := by
            cases hd with
            | external e =>
              rw [OwnerSetChanged_external] at h2
              simp only [Option.some.injEq] at h2
              subst h2
              intro y _ _ Y _
              rfl
            | link l =>
              have hk1 : HandlerOK st1 a (.link l) := handlerOK_sameWiring hsw hk
              obtain ⟨L, B, hL, hd', hB, hBl⟩ := hk1
              obtain ⟨hu, hi⟩ := handler_up hc1 hL hd' hB hBl
              rw [OwnerSetChanged_link] at h2
              unfold OwnerLink.OwnerSetChanged at h2
              simp only [hL] at h2
              intro y hy hle Y hY
              exact ih st1 ch L.up ad dl st2 hc1 hw1 hu h2 y hy (by omega) Y
                (by rw [hsw.2.1]; exact hY)
            | filtered l =>
              have hk1 : HandlerOK st1 a (.filtered l) := handlerOK_sameWiring hsw hk
              obtain ⟨L, B, hL, hd', hB, hBl, accepted, cache, up, down, hlay⟩ := hk1
              obtain ⟨hu, hi⟩ := handler_up hc1 hL hd' hB hBl
              have hwl := hw1.layers L.up B L hB (by rw [hBl]; exact hL)
              rw [hlay] at hwl
              simp only [OwnerLayer.WiredTo] at hwl
              obtain ⟨hup, _⟩ := hwl
              rw [hBl] at hup
              subst hup
              obtain ⟨lup, layer, ldown⟩ := L
              simp only at hlay hd' hB hu hi
              subst hlay
              rw [OwnerSetChanged_filtered] at h2
              unfold FilteredLayer.OwnerSetChanged at h2
              simp only [hL] at h2
              have hsw' := sameWiring_set_layer st1 up lup
                (.filtered accepted cache up down)
                (.filtered accepted
                  (FilteredLayer.changeSets accepted cache ad dl).1 up down) ldown hL rfl
              intro y hy hle Y hY
              have hY1 : st1.accesses[y]? = some Y := by rw [hsw.2.1]; exact hY
              have hne : up ≠ Y.link := by
                intro e
                obtain ⟨Y', L', hY', hL', hup'⟩ := hc1.up_eq y hy
                rw [hY1] at hY'
                simp only [Option.some.injEq] at hY'
                subst hY'
                rw [← e, hL] at hL'
                simp only [Option.some.injEq] at hL'
                subst hL'
                simp only at hup'
                subst hup'
                omega
              split_ifs at h2
              · unfold OwnerLink.OwnerSetChanged at h2
                have hlt : up < st1.links.length := (List.getElem?_eq_some.mp hL).1
                simp only [List.getElem?_set, hlt, if_true] at h2
                have h3 := ih _ ch lup _ _ st2 (chained_sameWiring hsw' hc1)
                  (wired_sameWiring hsw' hw1) hu h2 y hy (by omega) Y hY1
                rw [h3]
                exact List.getElem?_set_ne hne
              · simp only [Option.some.injEq] at h2
                subst h2
                exact List.getElem?_set_ne hne
          intro y hy hle Y hY
          rw [hrest y hy hle Y hY, hstep y hy hle Y hY]
    exact key A.handlers st (sameWiring_refl _) (hw.handlers a A hA) h

/-- What `GetIds()` returns at an access depends on the layers read by that
access and the accesses below it only. -/
theorem GetIds_congr {st st' : OwnerStack} {ch : List Nat} (hc : Chained st ch) (hw : Wired st)
    (hacc : st'.accesses = st.accesses) :
    ∀ (fuel d : Nat), d ∈ ch →
      (∀ y ∈ ch, ch.indexOf d ≤ ch.indexOf y → ∀ Y : OwnerLayerAccess,
        st.accesses[y]? = some Y → st'.links[Y.link]? = st.links[Y.link]?) →
      OwnerLayerAccess.GetIds st' fuel d = OwnerLayerAccess.GetIds st fuel d := by
  intro fuel
  induction fuel with
  | zero =>
    intro d _ _
    simp [OwnerLayerAccess.GetIds]
  | succ fuel ih =>
    intro d hd hk
    obtain ⟨A, L, hA, hL, _⟩ := hc.up_eq d hd
    have hL' : st'.links[A.link]? = some L := by
      rw [hk d hd (le_refl _) A hA]
      exact hL
    have hwl := hw.layers d A L hA hL
    have hA' : st'.accesses[d]? = some A := by rw [hacc]; exact hA
    unfold OwnerLayerAccess.GetIds
    simp only [hA, hA', hL, hL']
    cases hlay : L.layer with
    | owners o up => rfl
    | filtered accepted cache up down => rfl
    | dummy up dn =>
      cases dn with
      | none => rfl
      | some b =>
        rw [hlay] at hwl
        simp only [OwnerLayer.WiredTo] at hwl
        have hn : OwnerLayerAccess.NextLayer st d = some (some b) :=
          NextLayer_eq_some.mpr ⟨A, L, hA, hL, hwl.2.symm⟩
        have hb := isChain_next_mem hc.isChain hd hn
        have hi := indexOf_next hc hd hn
        exact ih b hb (fun y hy hle Y hY => hk y hy (by omega) Y hY)

theorem filterChangedSets_again (accepted : String → Bool) (C D : StringSet) :
    FilteredLayer.filterChangedSets accepted (FilteredLayer.filterChangedSets accepted C D).1 D =
      ((FilteredLayer.filterChangedSets accepted C D).1, ∅, ∅) := by
  rw [filterChangedSets_eq accepted C D]
  simp only
  rw [filterChangedSets_eq]
  simp

/-- `FilterChanged()` on a filter whose cache is what a `FilterChanged()` call
computes from the downstream set `D`, while `down.GetIds()` still returns `D`:
the stack is left as it is. -/
theorem FilterChanged_again {fuel l : Nat} {st1 : OwnerStack} {lup up down : Nat}
    {ldown : Option Nat} {accepted : String → Bool} (C D : StringSet)
    (hl : st1.links[l]? = some ⟨lup,
      .filtered accepted (FilteredLayer.filterChangedSets accepted C D).1 up (some down), ldown⟩)
    (hD : OwnerLayerAccess.GetIds st1 fuel down = some D) :
    FilteredLayer.FilterChanged fuel st1 l = some st1 := by
  unfold FilteredLayer.FilterChanged
  simp only [hl, hD, filterChangedSets_again]
  simp only [Finset.card_empty, lt_self_iff_false, or_self, if_false]
  rw [set_self_of_getElem? _ _ _ hl]

/-- Two `FilterChanged()` calls in a row on the filter read by the access `a` of
a well-formed stack: the first leaves the cache it computed in the filter and
the downstream set as it was, the second leaves the stack as it is. -/
theorem FilterChanged_twice {st : OwnerStack} {ch : List Nat} (hc : Chained st ch)
    (hw : Wired st) {a : Nat} {A : OwnerLayerAccess} {lup up : Nat} {down ldown : Option Nat}
    {accepted : String → Bool} {C : StringSet} (hA : st.accesses[a]? = some A)
    (hL : st.links[A.link]? = some ⟨lup, .filtered accepted C up down, ldown⟩)
    {fuel : Nat} {st1 : OwnerStack} (h : FilteredLayer.FilterChanged fuel st A.link = some st1) :
    ∃ dn D, down = some dn ∧ OwnerLayerAccess.GetIds st fuel dn = some D ∧
      OwnerLayerAccess.GetIds st1 fuel dn = some D ∧
      st1.links[A.link]? = some ⟨lup,
        .filtered accepted (FilteredLayer.filterChangedSets accepted C D).1 up down, ldown⟩ ∧
      FilteredLayer.FilterChanged fuel st1 A.link = some st1 := by
  have ha : a ∈ ch := (hc.mem_iff _).mpr (List.getElem?_eq_some.mp hA).1
  obtain ⟨A', L', hA', hL', hup'⟩ := hc.up_eq a ha
  rw [hA] at hA'
  simp only [Option.some.injEq] at hA'
  subst hA'
  rw [hL] at hL'
  simp only [Option.some.injEq] at hL'
  subst hL'
  simp only at hup'
  subst hup'
  have hwl := hw.layers lup A _ hA hL
  simp only [OwnerLayer.WiredTo] at hwl
  obtain ⟨hup, hdown⟩ := hwl
  subst hup
  subst hdown
  unfold FilteredLayer.FilterChanged at h
  cases down with
  | none => simp [hL] at h
  | some dn =>
    simp only [hL] at h
    cases hD : OwnerLayerAccess.GetIds st fuel dn with
    | none => simp [hD] at h
    | some D =>
      simp only [hD] at h
      have hn : OwnerLayerAccess.NextLayer st lup = some (some dn) :=
        NextLayer_eq_some.mpr ⟨A, _, hA, hL, rfl⟩
      have hdn := isChain_next_mem hc.isChain ha hn
      have hi := indexOf_next hc ha hn
      have hsw0 := sameWiring_set_layer st A.link lup (.filtered accepted C A.link (some dn))
        (.filtered accepted (FilteredLayer.filterChangedSets accepted C D).1 A.link (some dn))
        (some dn) hL rfl
      have hlt : A.link < st.links.length := (List.getElem?_eq_some.mp hL).1
      have hne : ∀ y ∈ ch, ch.indexOf dn ≤ ch.indexOf y → ∀ Y : OwnerLayerAccess,
          st.accesses[y]? = some Y → A.link ≠ Y.link := by
        intro y hy hle Y hY e
        obtain ⟨Y', L', hY', hL', hup'⟩ := hc.up_eq y hy
        rw [hY] at hY'
        simp only [Option.some.injEq] at hY'
        subst hY'
        rw [← e, hL] at hL'
        simp only [Option.some.injEq] at hL'
        subst hL'
        simp only at hup'
        subst hup'
        omega
      have hc0 := chained_sameWiring hsw0 hc
      have hw0 := wired_sameWiring hsw0 hw
      have hkeep : ∀ y ∈ ch, ch.indexOf lup ≤ ch.indexOf y → ∀ Y : OwnerLayerAccess,
          st.accesses[y]? = some Y →
          st1.links[Y.link]? =
            (st.links.set A.link ⟨lup, .filtered accepted
              (FilteredLayer.filterChangedSets accepted C D).1 A.link (some dn),
              some dn⟩)[Y.link]? := by
        split_ifs at h
        · unfold OwnerLink.OwnerSetChanged at h
          simp only [List.getElem?_set, hlt, if_true] at h
          exact notify_keeps fuel _ ch lup _ _ st1 hc0 hw0 ha h
        · simp only [Option.some.injEq] at h
          subst h
          intro y _ _ Y _
          rfl
      have hacc : st1.accesses = st.accesses := by
        split_ifs at h
        · exact (sameWiring_trans hsw0
            (OwnerLink_OwnerSetChanged_frame (notify_framed fuel) h)).2.1
        · simp only [Option.some.injEq] at h
          subst h
          rfl
      have hl1 : st1.links[A.link]? = some ⟨lup,
          .filtered accepted (FilteredLayer.filterChangedSets accepted C D).1 A.link (some dn),
          some dn⟩ := by
        rw [hkeep lup ha (le_refl _) A hA]
        simp [List.getElem?_set, hlt]
      have hD1 : OwnerLayerAccess.GetIds st1 fuel dn = some D := by
        rw [← hD]
        apply GetIds_congr hc hw hacc fuel dn hdn
        intro y hy hle Y hY
        rw [hkeep y hy (by omega) Y hY]
        exact List.getElem?_set_ne (hne y hy hle Y hY)
      exact ⟨dn, D, rfl, hD, hD1, hl1, FilterChanged_again C D hl1 hD1⟩

theorem FilterChanged_total {st : OwnerStack} {ch : List Nat} (hc : Chained st ch)
    (hw : Wired st) {a : Nat} {A : OwnerLayerAccess} {lup up : Nat} {down ldown : Option Nat}
    {accepted : String → Bool} {C : StringSet} (hA : st.accesses[a]? = some A)
    (hL : st.links[A.link]? = some ⟨lup, .filtered accepted C up down, ldown⟩)
    (fuel : Nat) (hf : st.accesses.length ≤ fuel) :
    ∃ st1, FilteredLayer.FilterChanged fuel st A.link = some st1 := by
  have ha : a ∈ ch := (hc.mem_iff _).mpr (List.getElem?_eq_some.mp hA).1
  obtain ⟨A', L', hA', hL', hup'⟩ := hc.up_eq a ha
  rw [hA] at hA'
  simp only [Option.some.injEq] at hA'
  subst hA'
  rw [hL] at hL'
  simp only [Option.some.injEq] at hL'
  subst hL'
  simp only at hup'
  subst hup'
  have hwl := hw.layers lup A _ hA hL
  simp only [OwnerLayer.WiredTo] at hwl
  obtain ⟨hup, hdown⟩ := hwl
  subst hup
  subst hdown
  have hlen := chained_length hc
  have hidx := List.indexOf_lt_length.mpr ha
  cases down with
  | none =>
    obtain ⟨_, o, ho⟩ := chain_bottom_layer hc ha hA hL rfl
    simp at ho
  | some dn =>
    have hn : OwnerLayerAccess.NextLayer st lup = some (some dn) :=
      NextLayer_eq_some.mpr ⟨A, _, hA, hL, rfl⟩
    have hdn := isChain_next_mem hc.isChain ha hn
    obtain ⟨D, hD⟩ := GetIds_total hc hw fuel dn hdn (by omega)
    have hsw0 := sameWiring_set_layer st A.link lup (.filtered accepted C A.link (some dn))
      (.filtered accepted (FilteredLayer.filterChangedSets accepted C D).1 A.link (some dn))
      (some dn) hL rfl
    have hlt : A.link < st.links.length := (List.getElem?_eq_some.mp hL).1
    unfold FilteredLayer.FilterChanged
    simp only [hL, hD]
    split_ifs
    · unfold OwnerLink.OwnerSetChanged
      simp only [List.getElem?_set, hlt, if_true]
      exact notify_total fuel _ ch lup _ _ (chained_sameWiring hsw0 hc)
        (wired_sameWiring hsw0 hw) ha (by omega)
    · exact ⟨_, rfl⟩

/-- C33 (`FilterChanged` is idempotent): for every predicate, cache `C` and
downstream set `D`, the sets a second `FilterChanged()` computes from the cache
the first one left and the same `D` are that cache again, nothing added and
nothing deleted; on any stack, a `FilterChanged()` call on a filter that holds
that cache while `down.GetIds()` returns `D` returns and leaves the whole stack
as it is, the log of observer calls included; and on a stack reachable from
`NewOwners()`, for the filter read by an access, `FilterChanged()` returns once
the fuel covers the accesses, and after a call that returned the filter holds
the cache computed, `down.GetIds()` returns the same set as before, and a second
call returns and leaves the stack as the first call left it. -/
theorem filterChanged_idempotent (accepted : String → Bool) (C : StringSet) :
    (∀ D : StringSet,
      FilteredLayer.filterChangedSets accepted
          (FilteredLayer.filterChangedSets accepted C D).1 D =
        ((FilteredLayer.filterChangedSets accepted C D).1, ∅, ∅)) ∧
    (∀ (D : StringSet) (fuel : Nat) (st1 : OwnerStack) (l lup up down : Nat)
      (ldown : Option Nat),
      st1.links[l]? = some ⟨lup,
        .filtered accepted (FilteredLayer.filterChangedSets accepted C D).1 up (some down),
        ldown⟩ →
      OwnerLayerAccess.GetIds st1 fuel down = some D →
      FilteredLayer.FilterChanged fuel st1 l = some st1) ∧
    ∀ st : OwnerStack, Reachable st →
      ∀ (a : Nat) (A : OwnerLayerAccess) (lup up : Nat) (down ldown : Option Nat),
        st.accesses[a]? = some A →
        st.links[A.link]? = some ⟨lup, .filtered accepted C up down, ldown⟩ →
        (∀ fuel : Nat, st.accesses.length ≤ fuel →
          ∃ st1, FilteredLayer.FilterChanged fuel st A.link = some st1) ∧
        ∀ (fuel : Nat) (st1 : OwnerStack),
          FilteredLayer.FilterChanged fuel st A.link = some st1 →
          ∃ dn D, down = some dn ∧ OwnerLayerAccess.GetIds st fuel dn = some D ∧
            OwnerLayerAccess.GetIds st1 fuel dn = some D ∧
            st1.links[A.link]? = some ⟨lup,
              .filtered accepted (FilteredLayer.filterChangedSets accepted C D).1 up down,
              ldown⟩ ∧
            FilteredLayer.FilterChanged fuel st1 A.link = some st1 := by
  refine ⟨filterChangedSets_again accepted C, ?_, ?_⟩
  · intro D fuel st1 l lup up down ldown hl hD
    exact FilterChanged_again C D hl hD
  · intro st hr a A lup up down ldown hA hL
    have hc := reachable_chained hr
    have hw := reachable_wired hr
    exact ⟨fun fuel hf => FilterChanged_total hc hw hA hL fuel hf,
      fun fuel st1 h => FilterChanged_twice hc hw hA hL h⟩

/-- C33 on a stack whose base holds `{id1, id2}` below a filter that accepts
`id2` and was inserted with an empty cache: the first `FilterChanged()` returns,
and the second leaves the stack as the first left it. -/
theorem filterChanged_idempotent_example :
    Reachable (filterStack (Contains {"id2"})
        (Owners.run [.update "client1" {"id1", "id2"}]) ∅ [7] []) ∧
      ∃ st1, FilteredLayer.FilterChanged 2 (filterStack (Contains {"id2"})
          (Owners.run [.update "client1" {"id1", "id2"}]) ∅ [7] []) 1 = some st1 ∧
        FilteredLayer.FilterChanged 2 st1 1 = some st1 := by
  have hcall : OwnerStack.apply 1 NewOwners.2 NewOwners.1 (.update "client1" {"id1", "id2"}) =
      some (baseStack (Owners.run [.update "client1" {"id1", "id2"}]) [] []) :=
    apply_baseStack 0 Owners.new [] [] (.update "client1" {"id1", "id2"})
  have hreach : Reachable (filterStack (Contains {"id2"})
      (Owners.run [.update "client1" {"id1", "id2"}]) ∅ [7] []) :=
    ReachableWith.register
      (ReachableWith.insert (ReachableWith.call ReachableWith.new hcall)
        (sound_FilteredLayerCreator _)
        (InserLayer_baseStack 1 (Contains {"id2"})
          (Owners.run [.update "client1" {"id1", "id2"}]) [] []))
      (rfl : OwnerLayerAccess.RegisterHandler (filterStack (Contains {"id2"})
          (Owners.run [.update "client1" {"id1", "id2"}]) ∅ [] []) 0 (.external 7) =
        some (filterStack (Contains {"id2"})
          (Owners.run [.update "client1" {"id1", "id2"}]) ∅ [7] []))
  obtain ⟨htot, htwice⟩ := (filterChanged_idempotent (Contains {"id2"}) ∅).2.2 _ hreach 0
    ⟨[.external 7], 1⟩ 0 1 (some 1) (some 1) rfl rfl
  obtain ⟨st1, h1⟩ := htot 2 (by decide)
  obtain ⟨_, _, _, _, _, _, h2⟩ := htwice 2 st1 h1
  exact ⟨hreach, st1, h1, h2⟩

/-! ## The log of observer calls only grows -/

theorem OwnerHandler_OwnerSetChanged_appends
    {notify : OwnerStack → Nat → StringSet → StringSet → Option OwnerStack}
    (hn : ∀ st a ad dl st', notify st a ad dl = some st' → ∃ new, st'.events = st.events ++ new)
    {st st' : OwnerStack} {hd : OwnerHandler} {ad dl : StringSet}
    (h : OwnerHandler.OwnerSetChanged notify ad dl st hd = some st') :
    ∃ new, st'.events = st.events ++ new := by
  cases hd with
  | external e =>
    simp only [OwnerHandler.OwnerSetChanged, Option.some.injEq] at h
    subst h
    exact ⟨_, rfl⟩
  | link l =>
    rw [OwnerSetChanged_link] at h
    unfold OwnerLink.OwnerSetChanged at h
    cases hl : st.links[l]? with
    | none => simp [hl] at h
    | some L =>
      simp only [hl] at h
      exact hn _ _ _ _ _ h
  | filtered l =>
    rw [OwnerSetChanged_filtered] at h
    unfold FilteredLayer.OwnerSetChanged at h
    cases hl : st.links[l]? with
    | none => simp [hl] at h
    | some L =>
      obtain ⟨lup, layer, ldown⟩ := L
      cases layer with
      | owners o up => simp [hl] at h
      | dummy up down => simp [hl] at h
      | filtered accepted cache up down =>
        simp only [hl] at h
        split_ifs at h
        · unfold OwnerLink.OwnerSetChanged at h
          split at h
          · cases h
          · obtain ⟨new, hnew⟩ := hn _ _ _ _ _ h
            exact ⟨new, hnew⟩
        · simp only [Option.some.injEq] at h
          subst h
          exact ⟨[], by simp⟩

theorem foldlM_appends
    {notify : OwnerStack → Nat → StringSet → StringSet → Option OwnerStack}
    (hn : ∀ st a ad dl st', notify st a ad dl = some st' → ∃ new, st'.events = st.events ++ new)
    (ad dl : StringSet) (hs : List OwnerHandler) (st st' : OwnerStack)
    (h : hs.foldlM (fun st hd => OwnerHandler.OwnerSetChanged notify ad dl st hd) st = some st') :
    ∃ new, st'.events = st.events ++ new ∧
      ∀ e, OwnerHandler.external e ∈ hs → (⟨e, ad, dl⟩ : Event) ∈ new := by
  induction hs generalizing st with
  | nil =>
    simp only [List.foldlM_nil, Option.pure_def, Option.some.injEq] at h
    subst h
    exact ⟨[], by simp, by simp⟩
  | cons hd hs ih =>
    rw [List.foldlM_cons] at h
    cases h1 : OwnerHandler.OwnerSetChanged notify ad dl st hd with
    | none => simp [h1] at h
    | some st1 =>
      simp only [h1, Option.bind_eq_bind, Option.some_bind] at h
      obtain ⟨new1, hnew1⟩ := OwnerHandler_OwnerSetChanged_appends hn h1
      obtain ⟨new2, hnew2, hmem2⟩ := ih st1 h
      refine ⟨new1 ++ new2, by rw [hnew2, hnew1, List.append_assoc], ?_⟩
      intro e he
      rcases List.mem_cons.mp he with he | he
      · subst he
        rw [OwnerSetChanged_external] at h1
        simp only [Option.some.injEq] at h1
        subst h1
        simp only at hnew1
        have : new1 = [⟨e, ad, dl⟩] := (List.append_cancel_left hnew1).symm
        subst this
        simp
      · exact List.mem_append_right _ (hmem2 e he)

theorem notify_appends (fuel : Nat) :
    ∀ st a ad dl st', OwnerLayerAccess.notify fuel st a ad dl = some st' →
      ∃ new, st'.events = st.events ++ new := by
  induction fuel with
  | zero =>
    intro st a ad dl st' h
    simp [OwnerLayerAccess.notify] at h
  | succ fuel ih =>
    intro st a ad dl st' h
    unfold OwnerLayerAccess.notify at h
    cases ha : st.accesses[a]? with
    | none => simp [ha] at h
    | some A =>
      simp only [ha] at h
      obtain ⟨new, hnew, _⟩ := foldlM_appends ih ad dl A.handlers st st' h
      exact ⟨new, hnew⟩

/-- A notification at an access calls every outside observer registered there:
the log grows, and the call of the observer, with the sets notified, is among
the new entries. -/
theorem notify_delivers {fuel : Nat} {st st' : OwnerStack} {a : Nat} {A : OwnerLayerAccess}
    {ad dl : StringSet} (hA : st.accesses[a]? = some A)
    (h : OwnerLayerAccess.notify fuel st a ad dl = some st') :
    ∃ new, st'.events = st.events ++ new ∧
      ∀ e, OwnerHandler.external e ∈ A.handlers → (⟨e, ad, dl⟩ : Event) ∈ new := by
  cases fuel with
  | zero => simp [OwnerLayerAccess.notify] at h
  | succ fuel =>
    unfold OwnerLayerAccess.notify at h
    simp only [hA] at h
    exact foldlM_appends (notify_appends fuel) ad dl A.handlers st st' h

/-- The handler lists after an insertion at an access of the chain. -/
theorem InserLayer_handlers {st : OwnerStack} {ch : List Nat} (hc : Chained st ch)
    {fuel acc : Nat} {c : OwnerLayerCreator} {st' : OwnerStack} {r : Option Nat}
    (h : OwnerStack.InserLayer fuel st acc c = some (st', r)) (hmem : acc ∈ ch) :
    st'.access = st.access ∧
    (∀ (b : Nat) (B : OwnerLayerAccess), st.accesses[b]? = some B →
      ∃ B', st'.accesses[b]? = some B' ∧ B'.handlers = B.handlers) ∧
    ∃ A pos set st2 ho, st.accesses[acc]? = some A ∧ st.links[A.link]? = some pos ∧
      OwnerLayer.Start fuel (spliced st A pos c) st.links.length set = some (st2, ho) ∧
      st'.accesses[st.accesses.length]? = some (OwnerLayerAccess.mk ho.toList A.link) := by
  obtain ⟨_, A, pos, st2, hA, hpos, hup, hsw, rfl⟩ := InserLayer_result hc h hmem
  obtain ⟨A', pos', set, st3, ho, hA', hpos', _, hstart, _, _⟩ := InserLayer_start hc h hmem
  rw [hA] at hA'
  simp only [Option.some.injEq] at hA'
  subst hA'
  rw [hpos] at hpos'
  simp only [Option.some.injEq] at hpos'
  subst hpos'
  have hN : st2.accesses[st.accesses.length]? = some (OwnerLayerAccess.mk [] A.link) := by
    rw [hsw.2.1]
    exact spliced_access_new _ hA hup
  have key := fun (hs : List OwnerHandler) =>
    setAccess_get (OwnerLayerAccess.mk hs A.link) hN
  refine ⟨hsw.1, ?_, A, pos, set, st3, ho, hA, hpos, hstart, ?_⟩
  · intro b B hB
    have hb : b ≠ st.accesses.length := by
      have := (List.getElem?_eq_some.mp hB).1
      omega
    rw [key, if_neg hb, hsw.2.1, spliced_access _ hA hup]
    by_cases hba : b = acc
    · subst hba
      rw [if_pos rfl]
      rw [hA] at hB
      simp only [Option.some.injEq] at hB
      subst hB
      exact ⟨_, rfl, rfl⟩
    · rw [if_neg hba, if_neg hb]
      exact ⟨B, hB, rfl⟩
  · obtain ⟨_, L, hL, hho⟩ := OwnerLayer_Start_frame hstart
    rw [spliced_link_new _ hpos] at hL
    simp only [Option.some.injEq] at hL
    subst hL
    subst hho
    rw [key, if_pos rfl]

/-- C34 (insertion keeps the observers attached): on a stack reachable from
`NewOwners()` with any creators, when `InserLayer(acc, c)` at an access of the
chain returns, every access that existed before has the handler list it had,
`acc` included; the only handler of the new downstream access is the one the
`Start` of the new layer returned, none if it returned nil; and an observer
registered at the top access before the insertion is still registered there and
is called, with the sets notified, by every notification at the top access that
returns, which it does on a well-formed stack for a creator that wires its
layer as given. -/
theorem inserLayer_keeps_handlers (st : OwnerStack) (hr : ReachableWith (fun _ => True) st)
    (acc : Nat) (hat : acc ∈ st.chain) (c : OwnerLayerCreator) (fuel : Nat) (st' : OwnerStack)
    (r : Option Nat) (h : OwnerStack.InserLayer fuel st acc c = some (st', r)) :
    (∀ (b : Nat) (B : OwnerLayerAccess), st.accesses[b]? = some B →
      ∃ B', st'.accesses[b]? = some B' ∧ B'.handlers = B.handlers) ∧
    (∃ A pos set st2 ho, st.accesses[acc]? = some A ∧ st.links[A.link]? = some pos ∧
      OwnerLayer.Start fuel (spliced st A pos c) st.links.length set = some (st2, ho) ∧
      st'.accesses[st.accesses.length]? = some (OwnerLayerAccess.mk ho.toList A.link)) ∧
    (∀ (e : Nat) (T : OwnerLayerAccess), st.accesses[st.access]? = some T →
      OwnerHandler.external e ∈ T.handlers →
      (∃ T', st'.accesses[st'.access]? = some T' ∧ OwnerHandler.external e ∈ T'.handlers) ∧
      ∀ (f : Nat) (ad dl : StringSet) (st'' : OwnerStack),
        OwnerLayerAccess.notify f st' st'.access ad dl = some st'' →
        ∃ new, st''.events = st'.events ++ new ∧ (⟨e, ad, dl⟩ : Event) ∈ new) ∧
    (Reachable st → c.Sound → ∀ (f : Nat) (ad dl : StringSet), 0 < f →
      ∃ st'', OwnerLayerAccess.notify f st' st'.access ad dl = some st'') := by
  have hc := reachable_chained hr
  obtain ⟨htop, hold, hnew⟩ := InserLayer_handlers hc h hat
  refine ⟨hold, hnew, ?_, ?_⟩
  · intro e T hT he
    obtain ⟨T', hT', hh⟩ := hold st.access T hT
    rw [← htop] at hT'
    refine ⟨⟨T', hT', by rw [hh]; exact he⟩, ?_⟩
    intro f ad dl st'' hn
    obtain ⟨new, hnew, hmem⟩ := notify_delivers hT' hn
    exact ⟨new, hnew, hmem e (by rw [hh]; exact he)⟩
  · intro hrs hs f ad dl hf
    have hr' : Reachable st' := ReachableWith.insert hrs hs h
    have hc' := reachable_chained hr'
    obtain ⟨rest, hrest⟩ := chain_cons hc'
    have hmem : st'.access ∈ st'.chain := by rw [hrest]; simp
    apply notify_total f st' st'.chain st'.access ad dl hc' (reachable_wired hr') hmem
    rw [hrest]
    simpa using hf

/-- C34 on a base layer with observer 7 at its top access, below which a filter
is inserted: the top access keeps its observer, the new access has the filter
as its only handler, and a notification at the top reaches observer 7. -/
theorem inserLayer_keeps_handlers_example :
    0 ∈ (baseStack Owners.new [7] []).chain ∧
      OwnerStack.InserLayer 2 (baseStack Owners.new [7] []) 0 (FilteredLayerCreator (fun _ => true)) =
        some (filterStack (fun _ => true) Owners.new ∅ [7] [], some 0) ∧
      (filterStack (fun _ => true) Owners.new ∅ [7] []).accesses[0]? =
        some ⟨[.external 7], 1⟩ ∧
      (filterStack (fun _ => true) Owners.new ∅ [7] []).accesses[1]? =
        some ⟨[.filtered 1], 0⟩ ∧
      ∀ (f : Nat) (ad dl : StringSet) (st'' : OwnerStack),
        OwnerLayerAccess.notify f (filterStack (fun _ => true) Owners.new ∅ [7] []) 0 ad dl =
          some st'' →
        ∃ new, st''.events = [] ++ new ∧ (⟨7, ad, dl⟩ : Event) ∈ new := by
  have h := InserLayer_baseStack 1 (fun _ => true) Owners.new [7] []
  have hk := inserLayer_keeps_handlers (baseStack Owners.new [7] [])
    (reachable_register_base 7 _) 0 (by decide) (FilteredLayerCreator (fun _ => true)) 2 _ _ h
  exact ⟨by decide, h, rfl, rfl, (hk.2.2.1 7 ⟨[.external 7], 0⟩ rfl (by simp)).2⟩

/-! ## The single-layer stack and the registry of package `extension` -/

theorem external_injective : Function.Injective OwnerHandler.external := by
  intro a b h
  cases h
  rfl

theorem map_external_erase (hs : List Nat) (h : Nat) :
    (hs.map OwnerHandler.external).erase (.external h) =
      (hs.erase h).map OwnerHandler.external := by
  induction hs with
  | nil => rfl
  | cons x hs ih =>
    by_cases hx : x = h
    · subst hx
      simp
    · have hx' : OwnerHandler.external x ≠ OwnerHandler.external h :=
        fun e => hx (external_injective e)
      rw [List.map_cons, List.erase_cons_tail (by simpa using hx'),
        List.erase_cons_tail (by simpa using hx), ih, List.map_cons]

/-- One call on a single-layer stack that holds the tables and the handlers of an
`extension` registry leaves a stack that holds those of the registry after the
same call, with the same new entries in the log. -/
theorem call_baseStack (n : Nat) (E : Extension.Owners) (ev : List Event) (c : Call) :
    OwnerStack.call (n + 1) (baseStack E.tables E.handlers ev) c =
      some (baseStack (E.call c).1.tables (E.call c).1.handlers (ev ++ (E.call c).2)) := by
  cases c with
  | registerHandler h =>
    simp only [OwnerStack.call, Extension.Owners.call, List.append_nil]
    unfold OwnerLayerAccess.RegisterHandler OwnerLayerAccess.registerHandler
      Extension.Owners.RegisterHandler
    by_cases hm : h ∈ E.handlers
    · have hm' : OwnerHandler.external h ∈ E.handlers.map OwnerHandler.external :=
        List.mem_map_of_mem _ hm
      simp [baseStack, hm, hm', Extension.Owners.tables]
    · have hm' : OwnerHandler.external h ∉ E.handlers.map OwnerHandler.external := by
        intro hx
        obtain ⟨x, hx1, hx2⟩ := List.mem_map.mp hx
        cases hx2
        exact hm hx1
      simp [baseStack, hm, hm', Extension.Owners.tables]
  | unRegisterHandler h =>
    simp only [OwnerStack.call, Extension.Owners.call, List.append_nil]
    unfold OwnerLayerAccess.UnRegisterHandler Extension.Owners.UnRegisterHandler
    simp [baseStack, map_external_erase, Extension.Owners.tables]
  | updateClient client owners =>
    have h := apply_baseStack n E.tables E.handlers ev (.update client owners)
    obtain ⟨h1, h2, h3⟩ := ext_UpdateClient_eq E client owners
    simp only [OwnerStack.call, Extension.Owners.call]
    rw [h1, h2, h3]
    exact h
  | deleteClient client =>
    have h := apply_baseStack n E.tables E.handlers ev (.delete client)
    obtain ⟨h1, h2, h3⟩ := ext_DeleteClient_eq E client
    simp only [OwnerStack.call, Extension.Owners.call]
    rw [h1, h2, h3]
    exact h

theorem calls_baseStack (n : Nat) (cs : List Call) :
    ∀ (E : Extension.Owners) (ev : List Event),
      OwnerStack.calls (n + 1) (baseStack E.tables E.handlers ev) cs =
        some (baseStack (E.calls ev cs).1.tables (E.calls ev cs).1.handlers (E.calls ev cs).2) := by
  induction cs with
  | nil => intro E ev; rfl
  | cons c cs ih =>
    intro E ev
    unfold OwnerStack.calls
    rw [List.foldlM_cons, call_baseStack]
    exact ih (E.call c).1 (ev ++ (E.call c).2)

/-- C35 (the layered base registry refines the flat owner cache): after every
finite sequence of `RegisterHandler`, `UnRegisterHandler`, `UpdateClient` and
`DeleteClient` calls, the single-layer stack of `owners.NewOwners()` (handlers
registered at its top access, client calls on its base registry) has returned
from every call, holds the tables and the handler list of the
`extension.Owners` registry after the same calls, returns the same `GetIds()`
(at the top access and at the base registry) and the same `GetIdsFor(c)`, and
its observers have received the same calls, with the same (added, deleted), in
the same order. -/
theorem base_registry_refines_flat_cache (n : Nat) (cs : List Call) :
    ∃ st, OwnerStack.calls (n + 1) NewOwners.1 cs = some st ∧
      st = baseStack (Extension.NewOwners.calls [] cs).1.tables
        (Extension.NewOwners.calls [] cs).1.handlers (Extension.NewOwners.calls [] cs).2 ∧
      OwnerStack.GetIds (n + 1) st = some (Extension.NewOwners.calls [] cs).1.GetIds ∧
      Owners.GetIdsAt st NewOwners.2 = some (Extension.NewOwners.calls [] cs).1.GetIds ∧
      (∀ c, Owners.GetIdsForAt st NewOwners.2 c =
        some ((Extension.NewOwners.calls [] cs).1.GetIdsFor c)) ∧
      st.accesses[st.access]? =
        some ⟨(Extension.NewOwners.calls [] cs).1.handlers.map OwnerHandler.external, 0⟩ ∧
      st.events = (Extension.NewOwners.calls [] cs).2 := by
  have h := calls_baseStack n cs Extension.NewOwners []
  exact ⟨_, h, rfl, rfl, rfl, fun _ => rfl, rfl, rfl⟩

/-! ## A second identical `UpdateClient` on any stack -/

theorem changeSets_empty (accepted : String → Bool) (cache : StringSet) :
    FilteredLayer.changeSets accepted cache ∅ ∅ = (cache, ∅, ∅) := rfl

theorem OwnerHandler_OwnerSetChanged_empty
    {notify : OwnerStack → Nat → StringSet → StringSet → Option OwnerStack}
    (hn : ∀ st a st', notify st a ∅ ∅ = some st' →
      ∃ new, st' = { st with events := st.events ++ new } ∧
        ∀ e ∈ new, e.added = ∅ ∧ e.deleted = ∅)
    {st st' : OwnerStack} {hd : OwnerHandler}
    (h : OwnerHandler.OwnerSetChanged notify ∅ ∅ st hd = some st') :
    ∃ new, st' = { st with events := st.events ++ new } ∧
      ∀ e ∈ new, e.added = ∅ ∧ e.deleted = ∅ := by
  cases hd with
  | external x =>
    rw [OwnerSetChanged_external] at h
    simp only [Option.some.injEq] at h
    subst h
    refine ⟨[⟨x, ∅, ∅⟩], rfl, ?_⟩
    intro e he
    simp only [List.mem_singleton] at he
    subst he
    exact ⟨rfl, rfl⟩
  | link l =>
    rw [OwnerSetChanged_link] at h
    unfold OwnerLink.OwnerSetChanged at h
    cases hl : st.links[l]? with
    | none => simp [hl] at h
    | some L =>
      simp only [hl] at h
      exact hn _ _ _ h
  | filtered l =>
    rw [OwnerSetChanged_filtered] at h
    unfold FilteredLayer.OwnerSetChanged at h
    cases hl : st.links[l]? with
    | none => simp [hl] at h
    | some L =>
      obtain ⟨lup, layer, ldown⟩ := L
      cases layer with
      | owners o up => simp [hl] at h
      | dummy up down => simp [hl] at h
      | filtered accepted cache up down =>
        simp only [hl, changeSets_empty, Finset.card_empty, lt_self_iff_false, or_self,
          if_false, Option.some.injEq] at h
        rw [set_self_of_getElem? _ _ _ hl] at h
        subst h
        exact ⟨[], by simp, by simp⟩

theorem foldlM_empty
    {notify : OwnerStack → Nat → StringSet → StringSet → Option OwnerStack}
    (hn : ∀ st a st', notify st a ∅ ∅ = some st' →
      ∃ new, st' = { st with events := st.events ++ new } ∧
        ∀ e ∈ new, e.added = ∅ ∧ e.deleted = ∅)
    (hs : List OwnerHandler) (st st' : OwnerStack)
    (h : hs.foldlM (fun st hd => OwnerHandler.OwnerSetChanged notify ∅ ∅ st hd) st = some st') :
    ∃ new, st' = { st with events := st.events ++ new } ∧
      ∀ e ∈ new, e.added = ∅ ∧ e.deleted = ∅ := by
  induction hs generalizing st with
  | nil =>
    simp only [List.foldlM_nil, Option.pure_def, Option.some.injEq] at h
    subst h
    exact ⟨[], by simp, by simp⟩
  | cons hd hs ih =>
    rw [List.foldlM_cons] at h
    cases h1 : OwnerHandler.OwnerSetChanged notify ∅ ∅ st hd with
    | none => simp [h1] at h
    | some st1 =>
      simp only [h1, Option.bind_eq_bind, Option.some_bind] at h
      obtain ⟨new1, rfl, hP1⟩ := OwnerHandler_OwnerSetChanged_empty hn h1
      obtain ⟨new2, rfl, hP2⟩ := ih _ h
      refine ⟨new1 ++ new2, by simp [List.append_assoc], ?_⟩
      intro e he
      rcases List.mem_append.mp he with he | he
      · exact hP1 e he
      · exact hP2 e he

/-- A notification with two empty sets changes nothing but the log, and every
call it adds to the log carries two empty sets. -/
theorem notify_empty (fuel : Nat) :
    ∀ st a st', OwnerLayerAccess.notify fuel st a ∅ ∅ = some st' →
      ∃ new, st' = { st with events := st.events ++ new } ∧
        ∀ e ∈ new, e.added = ∅ ∧ e.deleted = ∅ := by
  induction fuel with
  | zero =>
    intro st a st' h
    simp [OwnerLayerAccess.notify] at h
  | succ fuel ih =>
    intro st a st' h
    unfold OwnerLayerAccess.notify at h
    cases ha : st.accesses[a]? with
    | none => simp [ha] at h
    | some A =>
      simp only [ha] at h
      exact foldlM_empty ih A.handlers st st' h

/-- Where a notification with some delta returns, a notification with two empty
sets returns as well, on any stack with the same wiring. -/
theorem notify_empty_returns :
    ∀ (fuel : Nat) (st : OwnerStack) (a : Nat) (ad dl : StringSet) (st' sx : OwnerStack),
      OwnerLayerAccess.notify fuel st a ad dl = some st' → SameWiring st sx →
      ∃ sx', OwnerLayerAccess.notify fuel sx a ∅ ∅ = some sx' := by
  intro fuel
  induction fuel with
  | zero =>
    intro st a ad dl st' sx h
    simp [OwnerLayerAccess.notify] at h
  | succ fuel ih =>
    intro st a ad dl st' sx h hsw
    unfold OwnerLayerAccess.notify at h ⊢
    rw [hsw.2.1]
    cases ha : st.accesses[a]? with
    | none => simp [ha] at h
    | some A =>
      simp only [ha] at h ⊢
      have key : ∀ (hs : List OwnerHandler) (s x : OwnerStack), SameWiring s x →
          hs.foldlM
            (fun st h => h.OwnerSetChanged (OwnerLayerAccess.notify fuel) ad dl st) s =
              some st' →
          ∃ sx', hs.foldlM
            (fun st h => h.OwnerSetChanged (OwnerLayerAccess.notify fuel) ∅ ∅ st) x =
              some sx' := by
        intro hs
        induction hs with
        | nil => intro s x _ _; exact ⟨x, rfl⟩
        | cons hd hs ihs =>
          intro s x hsx hf
          rw [List.foldlM_cons] at hf ⊢
          cases h2 : hd.OwnerSetChanged (OwnerLayerAccess.notify fuel) ad dl s with
          | none => simp [h2] at hf
          | some s2 =>
            simp only [h2, Option.bind_eq_bind, Option.some_bind] at hf
            have hs2 : SameWiring s s2 :=
              OwnerHandler_OwnerSetChanged_frame (notify_framed fuel) h2
            have hstep : ∃ x2,
                hd.OwnerSetChanged (OwnerLayerAccess.notify fuel) ∅ ∅ x = some x2 := by
              cases hd with
              | external e => exact ⟨_, rfl⟩
              | link l =>
                rw [OwnerSetChanged_link] at h2 ⊢
                unfold OwnerLink.OwnerSetChanged at h2 ⊢
                cases hl : s.links[l]? with
                | none => simp [hl] at h2
                | some L =>
                  simp only [hl] at h2
                  obtain ⟨L', hL', hup, _, _⟩ := sameWiring_link hsx hl
                  simp only [hL', hup]
                  exact ih s L.up ad dl s2 x h2 hsx
              | filtered l =>
                rw [OwnerSetChanged_filtered] at h2 ⊢
                unfold FilteredLayer.OwnerSetChanged at h2 ⊢
                cases hl : s.links[l]? with
                | none => simp [hl] at h2
                | some L =>
                  obtain ⟨lup, layer, ldown⟩ := L
                  cases layer with
                  | owners o up => simp [hl] at h2
                  | dummy up down => simp [hl] at h2
                  | filtered accepted cache up down =>
                    obtain ⟨L', hL', _, _, hshape⟩ := sameWiring_link hsx hl
                    obtain ⟨acc', cache', up', down', hlay⟩ :=
                      filtered_of_shape hshape ⟨accepted, cache, up, down, rfl⟩
                    obtain ⟨lup', layer', ldown'⟩ := L'
                    simp only at hlay
                    subst hlay
                    simp only [hL', changeSets_empty, Finset.card_empty, lt_self_iff_false,
                      or_self, if_false]
                    exact ⟨_, rfl⟩
            obtain ⟨x2, hx2⟩ := hstep
            have hx : SameWiring x x2 :=
              OwnerHandler_OwnerSetChanged_frame (notify_framed fuel) hx2
            simp only [hx2, Option.bind_eq_bind, Option.some_bind]
            exact ihs s2 x2
              (sameWiring_trans (sameWiring_symm hs2) (sameWiring_trans hsx hx)) hf
      exact key A.handlers st sx hsw h

/-! ### A notification leaves the tables of a base registry alone -/

theorem OwnerHandler_OwnerSetChanged_keeps_owners
    {notify : OwnerStack → Nat → StringSet → StringSet → Option OwnerStack}
    (hn : ∀ st a ad dl st', notify st a ad dl = some st' →
      ∀ (l lup : Nat) (o : Owners) (up : Nat) (ldown : Option Nat),
        st.links[l]? = some ⟨lup, .owners o up, ldown⟩ →
        st'.links[l]? = some ⟨lup, .owners o up, ldown⟩)
    {st st' : OwnerStack} {hd : OwnerHandler} {ad dl : StringSet}
    (h : OwnerHandler.OwnerSetChanged notify ad dl st hd = some st')
    (l lup : Nat) (o : Owners) (up : Nat) (ldown : Option Nat)
    (hl : st.links[l]? = some ⟨lup, .owners o up, ldown⟩) :
    st'.links[l]? = some ⟨lup, .owners o up, ldown⟩ := by
  cases hd with
  | external x =>
    rw [OwnerSetChanged_external] at h
    simp only [Option.some.injEq] at h
    subst h
    exact hl
  | link k =>
    rw [OwnerSetChanged_link] at h
    unfold OwnerLink.OwnerSetChanged at h
    cases hk : st.links[k]? with
    | none => simp [hk] at h
    | some L =>
      simp only [hk] at h
      exact hn _ _ _ _ _ h l lup o up ldown hl
  | filtered k =>
    rw [OwnerSetChanged_filtered] at h
    unfold FilteredLayer.OwnerSetChanged at h
    cases hk : st.links[k]? with
    | none => simp [hk] at h
    | some L =>
      obtain ⟨kup, layer, kdown⟩ := L
      cases layer with
      | owners o' up' => simp [hk] at h
      | dummy up' down' => simp [hk] at h
      | filtered accepted cache up' down' =>
        simp only [hk] at h
        have hne : k ≠ l := by
          intro e
          subst e
          rw [hl] at hk
          simp at hk
        have hl0 : (st.links.set k ⟨kup, .filtered accepted
            (FilteredLayer.changeSets accepted cache ad dl).1 up' down', kdown⟩)[l]? =
            some ⟨lup, .owners o up, ldown⟩ := by
          rw [List.getElem?_set_ne hne]
          exact hl
        split_ifs at h
        · unfold OwnerLink.OwnerSetChanged at h
          split at h
          · cases h
          · exact hn _ _ _ _ _ h l lup o up ldown hl0
        · simp only [Option.some.injEq] at h
          subst h
          exact hl0

theorem notify_keeps_owners (fuel : Nat) :
    ∀ st a ad dl st', OwnerLayerAccess.notify fuel st a ad dl = some st' →
      ∀ (l lup : Nat) (o : Owners) (up : Nat) (ldown : Option Nat),
        st.links[l]? = some ⟨lup, .owners o up, ldown⟩ →
        st'.links[l]? = some ⟨lup, .owners o up, ldown⟩ := by
  induction fuel with
  | zero =>
    intro st a ad dl st' h
    simp [OwnerLayerAccess.notify] at h
  | succ fuel ih =>
    intro st a ad dl st' h
    unfold OwnerLayerAccess.notify at h
    cases ha : st.accesses[a]? with
    | none => simp [ha] at h
    | some A =>
      simp only [ha] at h
      have key : ∀ (hs : List OwnerHandler) (s : OwnerStack),
          hs.foldlM
            (fun st h => h.OwnerSetChanged (OwnerLayerAccess.notify fuel) ad dl st) s =
              some st' →
          ∀ (l lup : Nat) (o : Owners) (up : Nat) (ldown : Option Nat),
            s.links[l]? = some ⟨lup, .owners o up, ldown⟩ →
            st'.links[l]? = some ⟨lup, .owners o up, ldown⟩ := by
        intro hs
        induction hs with
        | nil =>
          intro s hf
          simp only [List.foldlM_nil, Option.pure_def, Option.some.injEq] at hf
          subst hf
          intro l lup o up ldown hl
          exact hl
        | cons hd hs ihs =>
          intro s hf
          rw [List.foldlM_cons] at hf
          cases h2 : hd.OwnerSetChanged (OwnerLayerAccess.notify fuel) ad dl s with
          | none => simp [h2] at hf
          | some s2 =>
            simp only [h2, Option.bind_eq_bind, Option.some_bind] at hf
            intro l lup o up ldown hl
            exact ihs s2 hf l lup o up ldown
              (OwnerHandler_OwnerSetChanged_keeps_owners ih h2 l lup o up ldown hl)
      exact key A.handlers st h

/-- `UpdateClient` on the base registry in link `this`: the tables are stored,
then the link the registry points to is told the delta. -/
theorem UpdateClient_eq_notify {st : OwnerStack} {this lup up : Nat} {ldown : Option Nat}
    {o : Owners} (hl : st.links[this]? = some ⟨lup, .owners o up, ldown⟩) (fuel : Nat)
    (c : String) (S : StringSet) :
    OwnerStack.UpdateClient fuel st this c S =
      OwnerLink.OwnerSetChanged (OwnerLayerAccess.notify fuel)
        { st with
          links := st.links.set this ⟨lup, .owners (o.UpdateClient c S).state up, ldown⟩ }
        up (o.UpdateClient c S).added (o.UpdateClient c S).deleted := by
  have hlt : this < st.links.length := (List.getElem?_eq_some.mp hl).1
  unfold OwnerStack.UpdateClient
  simp only [hl]
  unfold Owners.notify
  simp only [List.getElem?_set, hlt, if_true]

/-- C8, amended. On every stack, for the base registry in link `this` with any
tables, any client `c` and set `S`: when `UpdateClient(c, S)` has returned and is
called a second time right after, the base registry holds the tables the first
call stored, and the second call returns; it is the in-order run over the
handlers registered at the access above the base layer (outside observers and
the layer inserted there alike), each called once with an empty added and an
empty deleted set; it changes nothing but the log of observer calls, every call
it adds to the log carries two empty sets, each observer registered at that
access is among them, and when only observers are registered there the log
grows by exactly one call for each, in registration order. -/
theorem second_updateClient_notifies_empty (st : OwnerStack) (this lup up : Nat)
    (ldown : Option Nat) (o : Owners) (c : String) (S : StringSet) (fuel : Nat)
    (st1 : OwnerStack) (hl : st.links[this]? = some ⟨lup, .owners o up, ldown⟩)
    (h1 : OwnerStack.UpdateClient (fuel + 1) st this c S = some st1) :
    st1.links[this]? = some ⟨lup, .owners (o.UpdateClient c S).state up, ldown⟩ ∧
    ∃ L A new, st1.links[up]? = some L ∧ st1.accesses[L.up]? = some A ∧
      OwnerStack.UpdateClient (fuel + 1) st1 this c S =
        A.handlers.foldlM
          (fun s h => h.OwnerSetChanged (OwnerLayerAccess.notify fuel) ∅ ∅ s) st1 ∧
      OwnerStack.UpdateClient (fuel + 1) st1 this c S =
        some { st1 with events := st1.events ++ new } ∧
      (∀ e ∈ new, e.added = ∅ ∧ e.deleted = ∅) ∧
      (∀ h, OwnerHandler.external h ∈ A.handlers → (⟨h, ∅, ∅⟩ : Event) ∈ new) ∧
      ∀ hs : List Nat, A.handlers = hs.map OwnerHandler.external →
        new = hs.map (fun h => ⟨h, ∅, ∅⟩) := by
  have hlt : this < st.links.length := (List.getElem?_eq_some.mp hl).1
  rw [UpdateClient_eq_notify hl] at h1
  unfold OwnerLink.OwnerSetChanged at h1
  split at h1
  · cases h1
  · rename_i L0 hL0
    have hsw := notify_framed _ _ _ _ _ _ h1
    have hl1 := notify_keeps_owners _ _ _ _ _ _ h1 this lup (o.UpdateClient c S).state up ldown
      (by simp [List.getElem?_set, hlt])
    obtain ⟨L, hL, hLup, _, _⟩ := sameWiring_link hsw hL0
    have hA : ∃ A, st1.accesses[L.up]? = some A := by
      rw [hsw.2.1, hLup]
      unfold OwnerLayerAccess.notify at h1
      split at h1
      · cases h1
      · rename_i A hA
        exact ⟨A, hA⟩
    obtain ⟨A, hA⟩ := hA
    have hlook : (o.UpdateClient c S).state.clients.lookup c = some S := by
      rw [UpdateClient_clients, Finmap.lookup_insert]
    have h2 := UpdateClient_eq_notify hl1 (fuel + 1) c S
    rw [UpdateClient_same _ c S hlook] at h2
    simp only at h2
    rw [set_self_of_getElem? _ _ _ hl1] at h2
    have heta : ({ st1 with links := st1.links } : OwnerStack) = st1 := rfl
    rw [heta] at h2
    unfold OwnerLink.OwnerSetChanged at h2
    simp only [hL] at h2
    have hfold : OwnerStack.UpdateClient (fuel + 1) st1 this c S =
        A.handlers.foldlM
          (fun s h => h.OwnerSetChanged (OwnerLayerAccess.notify fuel) ∅ ∅ s) st1 := by
      rw [h2]
      unfold OwnerLayerAccess.notify
      simp only [hA]
    obtain ⟨sx, hret⟩ := notify_empty_returns (fuel + 1) _ _ _ _ st1 st1 h1 hsw
    rw [← hLup] at hret
    obtain ⟨new, hnew, hempty⟩ := notify_empty (fuel + 1) _ _ _ hret
    obtain ⟨new', hnew', hmem⟩ := notify_delivers hA hret
    have hnn : new' = new := by
      rw [hnew] at hnew'
      exact (List.append_cancel_left hnew').symm
    subst hnn
    subst hnew
    refine ⟨hl1, L, A, new', hL, hA, hfold, by rw [h2, hret], hempty, hmem, ?_⟩
    intro hs hhs
    rw [h2, hret] at hfold
    rw [hhs, foldlM_external] at hfold
    simp only [Option.some.injEq] at hfold
    have := congrArg OwnerStack.events hfold
    exact List.append_cancel_left this

/-- C8, amended, with a pass-through layer above the base and observer 7 at the
top access: the first call returns, and the second identical call returns the
same stack with one more call in the log, to observer 7 with two empty sets. -/
theorem second_updateClient_with_layer_above :
    ∃ st1, OwnerStack.UpdateClient 2 (dummyTower 1 Owners.new [7] []) 0 "client1" {"id1"} =
        some st1 ∧
      OwnerStack.UpdateClient 2 st1 0 "client1" {"id1"} =
        some { st1 with events := st1.events ++ [⟨7, ∅, ∅⟩] } := by
  have h1 := apply_dummyTower 1 Owners.new [7] [] (.update "client1" {"id1"}) 2 (by decide)
  have h2 := apply_dummyTower 1 (Owners.new.apply (.update "client1" {"id1"})).state [7]
    ([] ++ [7].map (fun h => ⟨h, (Owners.new.apply (.update "client1" {"id1"})).added,
      (Owners.new.apply (.update "client1" {"id1"})).deleted⟩))
    (.update "client1" {"id1"}) 2 (by decide)
  obtain ⟨_, _, _, new, _, _, _, h, he, _⟩ :=
    second_updateClient_notifies_empty (dummyTower 1 Owners.new [7] []) 0 1 0 none Owners.new
      "client1" {"id1"} 1 _ rfl h1
  refine ⟨_, h1, ?_⟩
  have h3 := h2
  simp only [OwnerStack.apply] at h3
  rw [h] at h3
  simp only [Option.some.injEq] at h3
  have hev := congrArg OwnerStack.events h3
  have hnew := List.append_cancel_left hev
  rw [hnew] at he
  simp only [List.map_cons, List.map_nil, List.mem_singleton, forall_eq] at he
  rw [h, hnew]
  simp only [List.map_cons, List.map_nil, he.1, he.2]

end OwnerLayers
